import Mathlib

/-!
# cryb: integer comparison, digests, digest registry, managed strings and endian codecs

Shallow embedding of `lib/mpi/mpi_cmp.c`, `lib/mpi/cryb_mpi_cmp_i32.c`,
`lib/digest/md2.c`, `lib/digest/sha1.c`, `lib/digest/cryb_sha384.c`,
`lib/digest/digest.c`, `lib/core/_string.c` and `include/cryb/endian.h`.

* Machine words are natural numbers with explicit reduction modulo
  `2 ^ 32` or `2 ^ 64`; bytes and characters are natural numbers.
* A read of `words[i]` outside the buffer has no defined result; the
  comparison functions therefore return `Option Int`, with `none` for a
  run that reads outside the buffer.
* The `msb` field is an integer: the header that declares it is not among
  the sources, and `Int` with C's truncating division `Int.tdiv` covers a
  signed as well as an unsigned declaration.
* The value stored in `msb` for the number zero (the "no set bits"
  sentinel) is written by constructors that are not among the sources; it
  is a parameter `s` of `Canonical`.
* A `while` loop is run by `whileLoop` with a bound on the number of
  iterations; a function built on it returns `none` when the bound is
  reached, and the theorems show that it is not.
* Division and serialisation of MPIs have no code among the sources; they
  are modelled from the specification, each such definition saying so.
* A function that returns `ssize_t` returns an integer, the conversion
  from `size_t` being `toSsize`.
* An allocator call that fails is the outcome `none`; a failing
  `realloc(buf, 0)` has freed the block, any other failing call leaves the
  memory as it was.
* The digests are compared with the definitions `md2_rfc1319`,
  `sha1_fips180` and `sha384_fips180`, which follow RFC 1319 and FIPS 180
  and not the code: they pad the whole message and fold its blocks, and
  share with the code the step for one block only.
-/

namespace Cryb

/-- Modelled from the spec: the `cryb_mpi` record, whose declaration
(`cryb/mpi.h`) is not among the sources. `words` is the word buffer, least
significant word first, its length being the capacity; `msb` is the index
of the most significant set bit; `neg` is the sign. -/
structure cryb_mpi where
  words : List Nat
  msb : Int
  neg : Bool
deriving DecidableEq

/-- Magnitude encoded by a word sequence, least significant word first. -/
def wordsVal : List Nat → Nat
  | [] => 0
  | w :: ws => w + 4294967296 * wordsVal ws

/-- Magnitude `|X|` of an MPI: the number encoded by its whole buffer. -/
def mpi_abs (X : cryb_mpi) : Nat := wordsVal X.words

/-- Signed value `(-1)^neg * |X|`. -/
def mpi_val (X : cryb_mpi) : Int :=
  if X.neg then -(mpi_abs X : Int) else (mpi_abs X : Int)

/-- Three-way comparison of two natural numbers as `1`, `-1` or `0`. -/
def cmpNat (a b : Nat) : Int :=
  if a > b then 1 else if a < b then -1 else 0

/-- Sign of an integer as `1`, `-1` or `0`. -/
def sgn (z : Int) : Int :=
  if z > 0 then 1 else if z < 0 then -1 else 0

/-- Canonical form relative to the zero sentinel `s`: every word fits 32
bits, the buffer holds at least one word, a zero magnitude has `msb = s`
and is not negative, and a non-zero magnitude has `msb` equal to the index
of its highest set bit (`2 ^ msb ≤ |X| < 2 ^ (msb + 1)`). Since `|X|` is
taken over the whole buffer, every word above `msb / 32` is then zero
(`canonical_high_words`). -/
def Canonical (s : Int) (X : cryb_mpi) : Prop :=
  (∀ w ∈ X.words, w < 4294967296) ∧
  X.words ≠ [] ∧
  (mpi_abs X = 0 → X.msb = s ∧ X.neg = false) ∧
  (mpi_abs X ≠ 0 →
    0 ≤ X.msb ∧ 2 ^ X.msb.toNat ≤ mpi_abs X ∧ mpi_abs X < 2 ^ (X.msb.toNat + 1))

instance (s : Int) (X : cryb_mpi) : Decidable (Canonical s X) := by
  unfold Canonical
  infer_instance

/-- The word loop of `mpi_cmp_abs`: `scanWords X Y n` runs the loop body
for `i = n - 1, n - 2, ..., 0`, returning at the first differing word. -/
def scanWords (X Y : cryb_mpi) : Nat → Option Int
  | 0 => some 0
  | n + 1 =>
    match X.words[n]?, Y.words[n]? with
    | some x, some y =>
      if x > y then some 1
      else if x < y then some (-1)
      else scanWords X Y n
    | _, _ => none

/-- Compare absolute values (`mpi_cmp_abs`). -/
def mpi_cmp_abs (X Y : cryb_mpi) : Option Int :=
  if X.msb > Y.msb then some 1
  else if X.msb < Y.msb then some (-1)
  else scanWords X Y (X.msb.tdiv 32 + 1).toNat

/-- Negation of a comparison result (`-r` on the C `int`). -/
def negRes (r : Option Int) : Option Int := r.map (fun v => -v)

/-- Compare signed values (`mpi_cmp`). -/
def mpi_cmp (X Y : cryb_mpi) : Option Int :=
  if X.neg then
    if Y.neg then negRes (mpi_cmp_abs X Y)
    else some (-1)
  else
    if Y.neg then some 1
    else mpi_cmp_abs X Y

/-- Fast comparison of the magnitude with a 32-bit unsigned integer
(`mpi_cmp_abs_u32`). -/
def mpi_cmp_abs_u32 (X : cryb_mpi) (u : Nat) : Option Int :=
  if X.msb ≥ 32 then some 1
  else
    match X.words[0]? with
    | none => none
    | some w =>
      if w ≠ u then (if w > u then some 1 else some (-1))
      else some 0

/-- Comparison with a 32-bit unsigned integer (`mpi_cmp_u32`). -/
def mpi_cmp_u32 (X : cryb_mpi) (u : Nat) : Option Int :=
  if X.neg then some (-1) else mpi_cmp_abs_u32 X u

/-- Conversion of an `int` to `uint32_t`: reduction modulo `2 ^ 32`. -/
def toU32 (z : Int) : Nat := (z % 4294967296).toNat

/-- Comparison with a 32-bit signed integer (`mpi_cmp_i32`); the argument
`-i` is passed as a `uint32_t`, so it wraps around at `i = -2 ^ 31`. -/
def mpi_cmp_i32 (X : cryb_mpi) (i : Int) : Option Int :=
  if X.neg then
    if i < 0 then negRes (mpi_cmp_abs_u32 X (toU32 (-i)))
    else some (-1)
  else
    if i < 0 then some 1
    else mpi_cmp_abs_u32 X (toU32 i)

/-- The canonical non-negative MPI of value `u`, as the specification
describes the MPI built from a native unsigned integer: one word equal to
`u`, `msb` the index of the highest set bit of `u`, the sentinel `s` when
`u = 0`. -/
def mpi_of_u32 (s : Int) (u : Nat) : cryb_mpi :=
  { words := [u], msb := if u = 0 then s else (Nat.log2 u : Int), neg := false }

/-- The canonical MPI of value `i`, as the specification describes the MPI
built from a native signed integer: magnitude `|i|` in one word, sign set
exactly when `i < 0`. -/
def mpi_of_i32 (s : Int) (i : Int) : cryb_mpi :=
  { words := [i.natAbs],
    msb := if i = 0 then s else (Nat.log2 i.natAbs : Int),
    neg := decide (i < 0) }

/-- Two MPIs that differ at most in capacity and in the words above
`msb / 32`: same sign, same `msb`, and the same word at every index from
`0` up to `msb / 32` (index `0` always belongs to that range). -/
def SameUpToCapacity (X X' : cryb_mpi) : Prop :=
  X.neg = X'.neg ∧ X.msb = X'.msb ∧
  ∀ i : Nat, i ≤ (X.msb.tdiv 32).toNat → X.words[i]? = X'.words[i]?

/-! ## Loops -/

/-- A C `while (cond) body` loop over a state, run with a bound on the
number of iterations: `none` when the bound is reached with the condition
still true. -/
def whileLoop {σ : Type} (cond : σ → Bool) (body : σ → σ) : Nat → σ → Option σ
  | 0, s => if cond s then none else some s
  | n + 1, s => if cond s then whileLoop cond body n (body s) else some s

/-- The call `memcpy(dst + off, src, n)` on byte sequences: `n` bytes of
`src` replace the bytes of `dst` at positions `off .. off + n - 1`. -/
def memcpyAt (dst : List Nat) (off : Nat) (src : List Nat) (n : Nat) : List Nat :=
  dst.take off ++ src.take n ++ dst.drop (off + n)

/-- The state `r` is reached from `s` when the loop ends. -/
def LoopEnds {σ : Type} (cond : σ → Bool) (body : σ → σ) (s r : σ) : Prop :=
  ∃ n, whileLoop cond body n s = some r

/-! ## MD2 (`lib/digest/md2.c`) -/

/-- The substitution table `PI_SUBST`. -/
def PI_SUBST : List Nat :=
  [0x29, 0x2E, 0x43, 0xC9, 0xA2, 0xD8, 0x7C, 0x01, 0x3D, 0x36,
   0x54, 0xA1, 0xEC, 0xF0, 0x06, 0x13, 0x62, 0xA7, 0x05, 0xF3,
   0xC0, 0xC7, 0x73, 0x8C, 0x98, 0x93, 0x2B, 0xD9, 0xBC, 0x4C,
   0x82, 0xCA, 0x1E, 0x9B, 0x57, 0x3C, 0xFD, 0xD4, 0xE0, 0x16,
   0x67, 0x42, 0x6F, 0x18, 0x8A, 0x17, 0xE5, 0x12, 0xBE, 0x4E,
   0xC4, 0xD6, 0xDA, 0x9E, 0xDE, 0x49, 0xA0, 0xFB, 0xF5, 0x8E,
   0xBB, 0x2F, 0xEE, 0x7A, 0xA9, 0x68, 0x79, 0x91, 0x15, 0xB2,
   0x07, 0x3F, 0x94, 0xC2, 0x10, 0x89, 0x0B, 0x22, 0x5F, 0x21,
   0x80, 0x7F, 0x5D, 0x9A, 0x5A, 0x90, 0x32, 0x27, 0x35, 0x3E,
   0xCC, 0xE7, 0xBF, 0xF7, 0x97, 0x03, 0xFF, 0x19, 0x30, 0xB3,
   0x48, 0xA5, 0xB5, 0xD1, 0xD7, 0x5E, 0x92, 0x2A, 0xAC, 0x56,
   0xAA, 0xC6, 0x4F, 0xB8, 0x38, 0xD2, 0x96, 0xA4, 0x7D, 0xB6,
   0x76, 0xFC, 0x6B, 0xE2, 0x9C, 0x74, 0x04, 0xF1, 0x45, 0x9D,
   0x70, 0x59, 0x64, 0x71, 0x87, 0x20, 0x86, 0x5B, 0xCF, 0x65,
   0xE6, 0x2D, 0xA8, 0x02, 0x1B, 0x60, 0x25, 0xAD, 0xAE, 0xB0,
   0xB9, 0xF6, 0x1C, 0x46, 0x61, 0x69, 0x34, 0x40, 0x7E, 0x0F,
   0x55, 0x47, 0xA3, 0x23, 0xDD, 0x51, 0xAF, 0x3A, 0xC3, 0x5C,
   0xF9, 0xCE, 0xBA, 0xC5, 0xEA, 0x26, 0x2C, 0x53, 0x0D, 0x6E,
   0x85, 0x28, 0x84, 0x09, 0xD3, 0xDF, 0xCD, 0xF4, 0x41, 0x81,
   0x4D, 0x52, 0x6A, 0xDC, 0x37, 0xC8, 0x6C, 0xC1, 0xAB, 0xFA,
   0x24, 0xE1, 0x7B, 0x08, 0x0C, 0xBD, 0xB1, 0x4A, 0x78, 0x88,
   0x95, 0x8B, 0xE3, 0x63, 0xE8, 0x6D, 0xE9, 0xCB, 0xD5, 0xFE,
   0x3B, 0x00, 0x1D, 0x39, 0xF2, 0xEF, 0xB7, 0x0E, 0x66, 0x58,
   0xD0, 0xE4, 0xA6, 0x77, 0x72, 0xF8, 0xEB, 0x75, 0x4B, 0x0A,
   0x31, 0x44, 0x50, 0xB4, 0x8F, 0xED, 0x1F, 0x1A, 0xDB, 0x99,
   0x8D, 0x33, 0x9F, 0x11, 0x83, 0x14]

/-- Modelled from the spec: the `md2_ctx` record, whose declaration
(`cryb/md2.h`) is not among the sources; the fields and their sizes are the
ones the code uses: `cksum[16]`, `state[48]`, `buffer[16]` and the count
`left` of buffered bytes. -/
structure md2_ctx where
  cksum : List Nat
  state : List Nat
  buffer : List Nat
  left : Nat
deriving DecidableEq

/-- MD2 context setup (`md2_init`): the whole record is zeroed. -/
def md2_init : md2_ctx :=
  { cksum := List.replicate 16 0, state := List.replicate 48 0,
    buffer := List.replicate 16 0, left := 0 }

/-- The first loop of `md2_process`: the block and its xor with the state
are stored in `state[16 .. 47]`. -/
def md2_process_load (buffer state : List Nat) : List Nat :=
  (List.range 16).foldl
    (fun st i =>
      let st1 := st.set (i + 16) (buffer.getD i 0)
      st1.set (i + 32) ((buffer.getD i 0 ^^^ st1.getD i 0) % 256))
    state

/-- The second loop of `md2_process`: 18 passes over the 48 state bytes. -/
def md2_process_mix (state : List Nat) : List Nat :=
  ((List.range 18).foldl
    (fun (p : List Nat × Nat) i =>
      let q := (List.range 48).foldl
        (fun (r : List Nat × Nat) j =>
          let v := (r.1.getD j 0 ^^^ PI_SUBST.getD r.2 0) % 256
          (r.1.set j v, v))
        p
      (q.1, (q.2 + i) % 256))
    (state, 0)).1

/-- The third loop of `md2_process`: the checksum update. -/
def md2_process_cksum (buffer cksum : List Nat) : List Nat :=
  ((List.range 16).foldl
    (fun (r : List Nat × Nat) i =>
      let v := (r.1.getD i 0 ^^^ PI_SUBST.getD (buffer.getD i 0 ^^^ r.2) 0) % 256
      (r.1.set i v, v))
    (cksum, cksum.getD 15 0)).1

/-- The block function `md2_process`. -/
def md2_process (ctx : md2_ctx) : md2_ctx :=
  { ctx with
    state := md2_process_mix (md2_process_load ctx.buffer ctx.state)
    cksum := md2_process_cksum ctx.buffer ctx.cksum }

/-- One iteration of the loop of `md2_update`, on the context and the rest
of the input. -/
def md2_update_body (p : md2_ctx × List Nat) : md2_ctx × List Nat :=
  let ctx := p.1
  let input := p.2
  let fill := if ctx.left + input.length > 16 then 16 - ctx.left else input.length
  let ctx1 := { ctx with
    buffer := memcpyAt ctx.buffer ctx.left input fill
    left := ctx.left + fill }
  if ctx1.left = 16 then (md2_process { ctx1 with left := 0 }, input.drop fill)
  else (ctx1, input.drop fill)

/-- The loop condition `ilen > 0` of `md2_update`. -/
def md2_update_cond (p : md2_ctx × List Nat) : Bool := decide (p.2.length > 0)

/-- MD2 process buffer (`md2_update`): `while (ilen > 0) ...`. -/
def md2_update (ctx : md2_ctx) (input : List Nat) : Option md2_ctx :=
  (whileLoop md2_update_cond md2_update_body (input.length + 1) (ctx, input)).map Prod.fst

/-- The padding loop of `md2_final`: `buffer[i] = 16 - left` for
`i = left, ..., 15`. -/
def md2_final_pad (ctx : md2_ctx) : List Nat :=
  (List.range 16).foldl
    (fun b i => if ctx.left ≤ i then b.set i ((16 - ctx.left) % 256) else b) ctx.buffer

/-- MD2 final digest (`md2_final`): the 16 bytes written to `output`. -/
def md2_final (ctx : md2_ctx) : List Nat :=
  let ctx1 := md2_process { ctx with buffer := md2_final_pad ctx }
  let ctx2 := md2_process { ctx1 with buffer := memcpyAt ctx1.buffer 0 ctx1.cksum 16 }
  ctx2.state.take 16

/-- One-shot digest (`md2_complete`). -/
def md2_complete (input : List Nat) : Option (List Nat) :=
  (md2_update md2_init input).map md2_final

/-! ## SHA-1 (`lib/digest/sha1.c`) -/

/-- Modelled from the spec: `rol` of `cryb/bitwise.h` (not among the
sources), the rotation of a 32-bit word to the left by `n` bits. -/
def rol (x n : Nat) : Nat :=
  ((x <<< n) % 4294967296) ||| (x >>> (32 - n))

/-- Modelled from the spec: `ror` of `cryb/bitwise.h` (not among the
sources), the rotation of a 32-bit word to the right by `n` bits. -/
def ror (x n : Nat) : Nat :=
  (x >>> n) ||| ((x <<< (32 - n)) % 4294967296)

/-- The 32-bit word stored big-endian at byte offset `i` of `b`: what
`be32toh` yields for the word copied from the block. -/
def be32At (b : List Nat) (i : Nat) : Nat :=
  b.getD i 0 * 16777216 + b.getD (i + 1) 0 * 65536 + b.getD (i + 2) 0 * 256 +
    b.getD (i + 3) 0

/-- The four bytes of a 32-bit word, most significant first: what
`htobe32` followed by `memcpy` stores. -/
def be32Bytes (x : Nat) : List Nat :=
  [(x >>> 24) % 256, (x >>> 16) % 256, (x >>> 8) % 256, x % 256]

/-- Modelled from the spec: the `sha1_ctx` record, whose declaration
(`cryb/sha1.h`) is not among the sources; the fields and their sizes are
the ones the code uses: `block[64]`, `blocklen`, `h[5]`, `k[4]` and the
64-bit `bitlen`. -/
structure sha1_ctx where
  block : List Nat
  blocklen : Nat
  h : List Nat
  k : List Nat
  bitlen : Nat
deriving DecidableEq

/-- Initial hash value `sha1_h`. -/
def sha1_h : List Nat :=
  [0x67452301, 0xefcdab89, 0x98badcfe, 0x10325476, 0xc3d2e1f0]

/-- Round constants `sha1_k`. -/
def sha1_k : List Nat :=
  [0x5a827999, 0x6ed9eba1, 0x8f1bbcdc, 0xca62c1d6]

/-- Context setup (`sha1_init`). -/
def sha1_init : sha1_ctx :=
  { block := List.replicate 64 0, blocklen := 0, h := sha1_h, k := sha1_k, bitlen := 0 }

/-- The message schedule of `sha1_compute`: the 16 words of the block read
big-endian, extended to 80 words. -/
def sha1_schedule (block : List Nat) : List Nat :=
  (List.range 64).foldl
    (fun w j =>
      let i := j + 16
      w ++ [rol (w.getD (i - 3) 0 ^^^ w.getD (i - 8) 0 ^^^ w.getD (i - 14) 0 ^^^
        w.getD (i - 16) 0) 1])
    ((List.range 16).map (fun i => be32At block (4 * i)))

/-- One round of the main loop of `sha1_compute` on the registers
`(a, b, c, d, e)`. -/
def sha1_round (k w : List Nat) (r : Nat × Nat × Nat × Nat × Nat) (t : Nat) :
    Nat × Nat × Nat × Nat × Nat :=
  let a := r.1
  let b := r.2.1
  let c := r.2.2.1
  let d := r.2.2.2.1
  let e := r.2.2.2.2
  let f :=
    if t < 20 then (b &&& c) ||| ((4294967295 - b) &&& d)
    else if t < 40 then b ^^^ c ^^^ d
    else if t < 60 then (b &&& c) ||| (b &&& d) ||| (c &&& d)
    else b ^^^ c ^^^ d
  let temp := (rol a 5 + f + e + w.getD t 0 + k.getD (t / 20) 0) % 4294967296
  (temp, a, ror b 2, c, d)

/-- The new hash value computed by `sha1_compute` from the hash value `h`,
the constants `k` and a 64-byte block. -/
def sha1_compute_h (h k block : List Nat) : List Nat :=
  let w := sha1_schedule block
  let r := (List.range 80).foldl (sha1_round k w)
    (h.getD 0 0, h.getD 1 0, h.getD 2 0, h.getD 3 0, h.getD 4 0)
  [(h.getD 0 0 + r.1) % 4294967296, (h.getD 1 0 + r.2.1) % 4294967296,
   (h.getD 2 0 + r.2.2.1) % 4294967296, (h.getD 3 0 + r.2.2.2.1) % 4294967296,
   (h.getD 4 0 + r.2.2.2.2) % 4294967296]

/-- The block function `sha1_compute`: only `h` changes. -/
def sha1_compute (ctx : sha1_ctx) (block : List Nat) : sha1_ctx :=
  { ctx with h := sha1_compute_h ctx.h ctx.k block }

/-- One iteration of the loop of `sha1_update`, on the context and the
rest of the input. -/
def sha1_update_body (p : sha1_ctx × List Nat) : sha1_ctx × List Nat :=
  let ctx := p.1
  let buf := p.2
  let len := buf.length
  if ctx.blocklen > 0 ∨ len < 64 then
    let copylen := if 64 - ctx.blocklen > len then len else 64 - ctx.blocklen
    let ctx1 := { ctx with
      block := memcpyAt ctx.block ctx.blocklen buf copylen
      blocklen := ctx.blocklen + copylen }
    let ctx2 :=
      if ctx1.blocklen = 64 then
        { sha1_compute ctx1 ctx1.block with blocklen := 0, block := List.replicate 64 0 }
      else ctx1
    ({ ctx2 with bitlen := (ctx2.bitlen + copylen * 8) % 18446744073709551616 },
      buf.drop copylen)
  else
    let ctx1 := sha1_compute ctx (buf.take 64)
    ({ ctx1 with bitlen := (ctx1.bitlen + 64 * 8) % 18446744073709551616 },
      buf.drop 64)

/-- The loop condition `len` (non-zero) of `sha1_update`. -/
def sha1_update_cond (p : sha1_ctx × List Nat) : Bool := decide (p.2.length ≠ 0)

/-- Absorb input (`sha1_update`): `while (len) ...`. -/
def sha1_update (ctx : sha1_ctx) (buf : List Nat) : Option sha1_ctx :=
  (whileLoop sha1_update_cond sha1_update_body (buf.length + 1) (ctx, buf)).map Prod.fst

/-- Finalisation (`sha1_final`): the 20 bytes written to `digest`. -/
def sha1_final (ctx : sha1_ctx) : List Nat :=
  let ctx1 := { ctx with
    block := ctx.block.set ctx.blocklen 0x80
    blocklen := ctx.blocklen + 1 }
  let ctx2 :=
    if ctx1.blocklen > 56 then
      { sha1_compute ctx1 ctx1.block with blocklen := 0, block := List.replicate 64 0 }
    else ctx1
  let hi := be32Bytes (ctx2.bitlen >>> 32)
  let lo := be32Bytes (ctx2.bitlen &&& 0xffffffff)
  let block := memcpyAt (memcpyAt ctx2.block 56 hi 4) 60 lo 4
  let ctx3 := sha1_compute { ctx2 with block := block, blocklen := 64 } block
  (ctx3.h.map be32Bytes).flatten

/-- One-shot digest (`sha1_complete`). -/
def sha1_complete (buf : List Nat) : Option (List Nat) :=
  (sha1_update sha1_init buf).map sha1_final

/-- Invariant of the SHA-1 context between calls: a 64-byte block holding
fewer than 64 pending bytes, and all zero when none is pending. -/
def Sha1Inv (c : sha1_ctx) : Prop :=
  c.block.length = 64 ∧ c.blocklen < 64 ∧ (c.blocklen = 0 → c.block = List.replicate 64 0)

/-! ## SHA-384 (`lib/digest/cryb_sha384.c`) -/

/-- The macro `GET_UINT64_BE`: the 64-bit word stored big-endian at byte
offset `i` of `b`. -/
def GET_UINT64_BE (b : List Nat) (i : Nat) : Nat :=
  (b.getD i 0 <<< 56) ||| (b.getD (i + 1) 0 <<< 48) ||| (b.getD (i + 2) 0 <<< 40) |||
    (b.getD (i + 3) 0 <<< 32) ||| (b.getD (i + 4) 0 <<< 24) ||| (b.getD (i + 5) 0 <<< 16) |||
    (b.getD (i + 6) 0 <<< 8) ||| b.getD (i + 7) 0

/-- The macro `PUT_UINT64_BE`: the eight bytes of `n`, most significant
first. -/
def PUT_UINT64_BE (n : Nat) : List Nat :=
  [(n >>> 56) % 256, (n >>> 48) % 256, (n >>> 40) % 256, (n >>> 32) % 256,
   (n >>> 24) % 256, (n >>> 16) % 256, (n >>> 8) % 256, n % 256]

/-- Round constants `K`. -/
def sha384_K : List Nat :=
  [0x428A2F98D728AE22, 0x7137449123EF65CD,
   0xB5C0FBCFEC4D3B2F, 0xE9B5DBA58189DBBC,
   0x3956C25BF348B538, 0x59F111F1B605D019,
   0x923F82A4AF194F9B, 0xAB1C5ED5DA6D8118,
   0xD807AA98A3030242, 0x12835B0145706FBE,
   0x243185BE4EE4B28C, 0x550C7DC3D5FFB4E2,
   0x72BE5D74F27B896F, 0x80DEB1FE3B1696B1,
   0x9BDC06A725C71235, 0xC19BF174CF692694,
   0xE49B69C19EF14AD2, 0xEFBE4786384F25E3,
   0x0FC19DC68B8CD5B5, 0x240CA1CC77AC9C65,
   0x2DE92C6F592B0275, 0x4A7484AA6EA6E483,
   0x5CB0A9DCBD41FBD4, 0x76F988DA831153B5,
   0x983E5152EE66DFAB, 0xA831C66D2DB43210,
   0xB00327C898FB213F, 0xBF597FC7BEEF0EE4,
   0xC6E00BF33DA88FC2, 0xD5A79147930AA725,
   0x06CA6351E003826F, 0x142929670A0E6E70,
   0x27B70A8546D22FFC, 0x2E1B21385C26C926,
   0x4D2C6DFC5AC42AED, 0x53380D139D95B3DF,
   0x650A73548BAF63DE, 0x766A0ABB3C77B2A8,
   0x81C2C92E47EDAEE6, 0x92722C851482353B,
   0xA2BFE8A14CF10364, 0xA81A664BBC423001,
   0xC24B8B70D0F89791, 0xC76C51A30654BE30,
   0xD192E819D6EF5218, 0xD69906245565A910,
   0xF40E35855771202A, 0x106AA07032BBD1B8,
   0x19A4C116B8D2D0C8, 0x1E376C085141AB53,
   0x2748774CDF8EEB99, 0x34B0BCB5E19B48A8,
   0x391C0CB3C5C95A63, 0x4ED8AA4AE3418ACB,
   0x5B9CCA4F7763E373, 0x682E6FF3D6B2B8A3,
   0x748F82EE5DEFB2FC, 0x78A5636F43172F60,
   0x84C87814A1F0AB72, 0x8CC702081A6439EC,
   0x90BEFFFA23631E28, 0xA4506CEBDE82BDE9,
   0xBEF9A3F7B2C67915, 0xC67178F2E372532B,
   0xCA273ECEEA26619C, 0xD186B8C721C0C207,
   0xEADA7DD6CDE0EB1E, 0xF57D4F7FEE6ED178,
   0x06F067AA72176FBA, 0x0A637DC5A2C898A6,
   0x113F9804BEF90DAE, 0x1B710B35131C471B,
   0x28DB77F523047D84, 0x32CAAB7B40C72493,
   0x3C9EBE0A15C9BEBC, 0x431D67C49C100D4C,
   0x4CC5D4BECB3E42B6, 0x597F299CFC657E2A,
   0x5FCB6FAB3AD6FAEC, 0x6C44198C4A475817]

/-- Modelled from the spec: the `sha384_ctx` record, whose declaration
(`cryb/sha384.h`) is not among the sources; the fields and their sizes are
the ones the code uses: the 128-bit byte count `total[2]`, `state[8]` and
`buffer[128]`. -/
structure sha384_ctx where
  total0 : Nat
  total1 : Nat
  state : List Nat
  buffer : List Nat
deriving DecidableEq

/-- Context setup (`sha384_init`): the count and the state are set, the
buffer keeps whatever it held. -/
def sha384_init (ctx : sha384_ctx) : sha384_ctx :=
  { ctx with
    total0 := 0
    total1 := 0
    state := [0xCBBB9D5DC1059ED8, 0x629A292A367CD507, 0x9159015A3070DD17,
      0x152FECD8F70E5939, 0x67332667FFC00B31, 0x8EB44A8768581511,
      0xDB0C2E0D64F98FA7, 0x47B5481DBEFA4FA4] }

/-- The macro `SHR`. -/
def SHR (x n : Nat) : Nat := x >>> n

/-- The macro `ROTR` on 64-bit words. -/
def ROTR (x n : Nat) : Nat := SHR x n ||| ((x <<< (64 - n)) % 18446744073709551616)

/-- The macro `S0`. -/
def S0 (x : Nat) : Nat := ROTR x 1 ^^^ ROTR x 8 ^^^ SHR x 7

/-- The macro `S1`. -/
def S1 (x : Nat) : Nat := ROTR x 19 ^^^ ROTR x 61 ^^^ SHR x 6

/-- The macro `S2`. -/
def S2 (x : Nat) : Nat := ROTR x 28 ^^^ ROTR x 34 ^^^ ROTR x 39

/-- The macro `S3`. -/
def S3 (x : Nat) : Nat := ROTR x 14 ^^^ ROTR x 18 ^^^ ROTR x 41

/-- The macro `F0`. -/
def F0 (x y z : Nat) : Nat := (x &&& y) ||| (z &&& (x ||| y))

/-- The macro `F1`. -/
def F1 (x y z : Nat) : Nat := z ^^^ (x &&& (y ^^^ z))

/-- The macro `P`: it updates its fourth and eighth arguments, returned
here as a pair `(d, h)`. -/
def P (a b c d e f g h x k : Nat) : Nat × Nat :=
  let temp1 := (h + S3 e + F1 e f g + k + x) % 18446744073709551616
  let temp2 := (S2 a + F0 a b c) % 18446744073709551616
  ((d + temp1) % 18446744073709551616, (temp1 + temp2) % 18446744073709551616)

/-- The message schedule `W` of `sha384_process`. -/
def sha384_schedule (data : List Nat) : List Nat :=
  (List.range 64).foldl
    (fun w j =>
      let i := j + 16
      w ++ [(S1 (w.getD (i - 2) 0) + w.getD (i - 7) 0 + S0 (w.getD (i - 15) 0) +
        w.getD (i - 16) 0) % 18446744073709551616])
    ((List.range 16).map (fun i => GET_UINT64_BE data (i <<< 3)))

/-- One pass of the `do ... while (i < 80)` loop of `sha384_process`: eight
applications of `P` with rotated registers, starting at index `i`. -/
def sha384_rounds8 (w : List Nat)
    (r : Nat × Nat × Nat × Nat × Nat × Nat × Nat × Nat) (i : Nat) :
    Nat × Nat × Nat × Nat × Nat × Nat × Nat × Nat :=
  let A := r.1
  let B := r.2.1
  let C := r.2.2.1
  let D := r.2.2.2.1
  let E := r.2.2.2.2.1
  let F := r.2.2.2.2.2.1
  let G := r.2.2.2.2.2.2.1
  let H := r.2.2.2.2.2.2.2
  let p0 := P A B C D E F G H (w.getD i 0) (sha384_K.getD i 0)
  let D := p0.1
  let H := p0.2
  let p1 := P H A B C D E F G (w.getD (i + 1) 0) (sha384_K.getD (i + 1) 0)
  let C := p1.1
  let G := p1.2
  let p2 := P G H A B C D E F (w.getD (i + 2) 0) (sha384_K.getD (i + 2) 0)
  let B := p2.1
  let F := p2.2
  let p3 := P F G H A B C D E (w.getD (i + 3) 0) (sha384_K.getD (i + 3) 0)
  let A := p3.1
  let E := p3.2
  let p4 := P E F G H A B C D (w.getD (i + 4) 0) (sha384_K.getD (i + 4) 0)
  let H := p4.1
  let D := p4.2
  let p5 := P D E F G H A B C (w.getD (i + 5) 0) (sha384_K.getD (i + 5) 0)
  let G := p5.1
  let C := p5.2
  let p6 := P C D E F G H A B (w.getD (i + 6) 0) (sha384_K.getD (i + 6) 0)
  let F := p6.1
  let B := p6.2
  let p7 := P B C D E F G H A (w.getD (i + 7) 0) (sha384_K.getD (i + 7) 0)
  let E := p7.1
  let A := p7.2
  (A, B, C, D, E, F, G, H)

/-- The new state computed by `sha384_process` from the state and a
128-byte block. -/
def sha384_process_state (state data : List Nat) : List Nat :=
  let w := sha384_schedule data
  let r := (List.range 10).foldl (fun r n => sha384_rounds8 w r (8 * n))
    (state.getD 0 0, state.getD 1 0, state.getD 2 0, state.getD 3 0,
     state.getD 4 0, state.getD 5 0, state.getD 6 0, state.getD 7 0)
  [(state.getD 0 0 + r.1) % 18446744073709551616,
   (state.getD 1 0 + r.2.1) % 18446744073709551616,
   (state.getD 2 0 + r.2.2.1) % 18446744073709551616,
   (state.getD 3 0 + r.2.2.2.1) % 18446744073709551616,
   (state.getD 4 0 + r.2.2.2.2.1) % 18446744073709551616,
   (state.getD 5 0 + r.2.2.2.2.2.1) % 18446744073709551616,
   (state.getD 6 0 + r.2.2.2.2.2.2.1) % 18446744073709551616,
   (state.getD 7 0 + r.2.2.2.2.2.2.2) % 18446744073709551616]

/-- The block function `sha384_process`: only `state` changes. -/
def sha384_process (ctx : sha384_ctx) (data : List Nat) : sha384_ctx :=
  { ctx with state := sha384_process_state ctx.state data }

/-- The loop condition `ilen >= 128` of `sha384_update`. -/
def sha384_update_cond (p : sha384_ctx × List Nat) : Bool := decide (p.2.length ≥ 128)

/-- One iteration of `while (ilen >= 128)` in `sha384_update`. -/
def sha384_update_body (p : sha384_ctx × List Nat) : sha384_ctx × List Nat :=
  (sha384_process p.1 (p.2.take 128), p.2.drop 128)

/-- SHA-384 process buffer (`sha384_update`). -/
def sha384_update (ctx : sha384_ctx) (input : List Nat) : Option sha384_ctx :=
  let ilen := input.length
  if ilen ≤ 0 then some ctx
  else
    let left := ctx.total0 &&& 0x7F
    let fill := 128 - left
    let t0 := (ctx.total0 + ilen) % 18446744073709551616
    let ctx1 := { ctx with
      total0 := t0
      total1 := if t0 < ilen then (ctx.total1 + 1) % 18446744073709551616 else ctx.total1 }
    let p2 : (sha384_ctx × List Nat) × Nat :=
      if left ≠ 0 ∧ ilen ≥ fill then
        let ctx2 := { ctx1 with buffer := memcpyAt ctx1.buffer left input fill }
        ((sha384_process ctx2 ctx2.buffer, input.drop fill), 0)
      else ((ctx1, input), left)
    (whileLoop sha384_update_cond sha384_update_body (input.length + 1) p2.1).map
      (fun p3 =>
        if p3.2.length > 0 then
          { p3.1 with buffer := memcpyAt p3.1.buffer p2.2 p3.2 p3.2.length }
        else p3.1)

/-- The padding block `sha384_padding`. -/
def sha384_padding : List Nat := 0x80 :: List.replicate 127 0

/-- SHA-384 final digest (`sha384_final`): the 48 bytes written to
`output`. -/
def sha384_final (ctx : sha384_ctx) : Option (List Nat) :=
  let high := (ctx.total0 >>> 61) ||| ((ctx.total1 <<< 3) % 18446744073709551616)
  let low := (ctx.total0 <<< 3) % 18446744073709551616
  let msglen := PUT_UINT64_BE high ++ PUT_UINT64_BE low
  let last := ctx.total0 &&& 0x7F
  let padn := if last < 112 then 112 - last else 240 - last
  (sha384_update ctx (sha384_padding.take padn)).bind (fun ctx1 =>
    (sha384_update ctx1 msglen).map (fun ctx2 =>
      PUT_UINT64_BE (ctx2.state.getD 0 0) ++ PUT_UINT64_BE (ctx2.state.getD 1 0) ++
      PUT_UINT64_BE (ctx2.state.getD 2 0) ++ PUT_UINT64_BE (ctx2.state.getD 3 0) ++
      PUT_UINT64_BE (ctx2.state.getD 4 0) ++ PUT_UINT64_BE (ctx2.state.getD 5 0)))

/-- One-shot digest (`sha384_complete`), on a local context whose initial
content is `ctx`. -/
def sha384_complete (ctx : sha384_ctx) (input : List Nat) : Option (List Nat) :=
  (sha384_update (sha384_init ctx) input).bind sha384_final

/-- The state after the full 128-byte blocks of `l` have been processed in
order, and the bytes of `l` left over. -/
def sha384_absorb (state : List Nat) (l : List Nat) : List Nat × List Nat :=
  if 128 ≤ l.length then
    sha384_absorb (sha384_process_state state (l.take 128)) (l.drop 128)
  else (state, l)
termination_by l.length
decreasing_by
  simp only [List.length_drop]
  omega

/-- A well-formed SHA-384 context: a 128-byte buffer and counts that fit 64
bits. -/
def Sha384Valid (c : sha384_ctx) : Prop :=
  c.buffer.length = 128 ∧ c.total0 < 18446744073709551616 ∧
    c.total1 < 18446744073709551616

/-- What a SHA-384 context stands for: the state, the byte count, and the
pending bytes (the first `total[0] mod 128` bytes of the buffer). -/
def sha384_view (c : sha384_ctx) : List Nat × Nat × Nat × List Nat :=
  (c.state, c.total0, c.total1, c.buffer.take (c.total0 % 128))

/-- The effect of absorbing `m` on what a context stands for. -/
def sha384_view_update (v : List Nat × Nat × Nat × List Nat) (m : List Nat) :
    List Nat × Nat × Nat × List Nat :=
  if m = [] then v
  else
    ((sha384_absorb v.1 (v.2.2.2 ++ m)).1,
     (v.2.1 + m.length) % 18446744073709551616,
     (if (v.2.1 + m.length) % 18446744073709551616 < m.length then
        (v.2.2.1 + 1) % 18446744073709551616 else v.2.2.1),
     (sha384_absorb v.1 (v.2.2.2 ++ m)).2)

/-! ## Digest registry (`lib/digest/digest.c`) -/

/-- Modelled from the spec: the `digest_algorithm` descriptor, whose
declaration (`cryb/digest.h`) is not among the sources: a name (the bytes
of a C string, without the terminating zero), a context size, a block
length and a digest length; the four function pointers are left out. -/
structure digest_algorithm where
  name : List Nat
  contextlen : Nat
  blocklen : Nat
  digestlen : Nat
deriving DecidableEq

/-- The C library's `tolower` in the C locale, on a byte. -/
def tolower (c : Nat) : Nat :=
  if 65 ≤ c ∧ c ≤ 90 then c + 32 else c

/-- The C library's `strcasecmp` on two C strings given by their bytes
before the terminating zero: the difference of the first two bytes that
differ after `tolower`, the terminator counting as `0`. -/
def strcasecmp : List Nat → List Nat → Int
  | [], [] => 0
  | [], b :: _ => 0 - (tolower b : Int)
  | a :: _, [] => (tolower a : Int) - 0
  | a :: as, b :: bs =>
    if tolower a = tolower b then strcasecmp as bs
    else (tolower a : Int) - (tolower b : Int)

/-- The lookup `get_digest_algorithm`, on the NULL-terminated table
`cryb_digest_algorithms` given as the list of its descriptors: the first
descriptor for which `strcasecmp` returns `0`, `none` for `NULL`. -/
def get_digest_algorithm (algorithms : List digest_algorithm) (name : List Nat) :
    Option digest_algorithm :=
  match algorithms with
  | [] => none
  | alg :: rest =>
    if strcasecmp alg.name name = 0 then some alg
    else get_digest_algorithm rest name

/-- The descriptor `md2_algorithm` of `md2.c`, named `"md2"`; `contextlen`
stands for `sizeof(md2_ctx)`, and the absent macros `MD2_BLOCK_LEN` and
`MD2_DIGEST_LEN` are the 16 bytes the code buffers and outputs. -/
def md2_algorithm (contextlen : Nat) : digest_algorithm :=
  { name := [0x6d, 0x64, 0x32], contextlen := contextlen, blocklen := 16, digestlen := 16 }

/-- Two names are equal ignoring letter case. -/
def CaseEq (a b : List Nat) : Prop := a.map tolower = b.map tolower

/-- A C string: no zero byte before the terminator. -/
def IsCString (s : List Nat) : Prop := ∀ c ∈ s, c ≠ 0

instance (s : List Nat) : Decidable (IsCString s) := by
  unfold IsCString
  infer_instance

/-! ## Managed strings (`lib/core/_string.c`)

`c` stands for `sizeof(char_t)`: `1` for `string`, `sizeof(wchar_t)` for
`wstring` (`wstring.c` includes `_string.c` with `char_t` defined as
`wchar_t`). `size_t` is taken 64 bits wide; sizes are counted in bytes and
buffer contents are sequences of characters. The outcome of a call of
`malloc` or `realloc` is an argument `alloc`: `none` for a `NULL` result,
`some fresh` for a block whose bytes not copied from the old block hold
`fresh`. -/

/-- The macro `STATIC_BUF_SIZE`. -/
def STATIC_BUF_SIZE (c : Nat) : Nat := 16 * c

/-- The macro `LARGE_BUF_SIZE`. -/
def LARGE_BUF_SIZE (c : Nat) : Nat := 4096 * c

/-- The macro `L2S`, in `size_t` arithmetic. -/
def L2S (c len : Nat) : Nat := ((len + 1) * c) % 18446744073709551616

/-- The macro `RUP`, in `size_t` arithmetic. -/
def RUP (n p : Nat) : Nat :=
  (((n + p - 1) % 18446744073709551616) / p * p) % 18446744073709551616

/-- Where `buf` points: at `staticbuf`, at an allocated block with the
given contents, or nowhere (`NULL`). -/
inductive string_buf where
  | static : string_buf
  | heap (mem : List Nat) : string_buf
  | null : string_buf
deriving DecidableEq

/-- The record `struct cryb_string`. -/
structure cryb_string where
  buf : string_buf
  size : Nat
  len : Nat
  staticbuf : List Nat
deriving DecidableEq

/-- The characters of the buffer `buf` points at. -/
def string_chars (str : cryb_string) : List Nat :=
  match str.buf with
  | string_buf.static => str.staticbuf
  | string_buf.heap mem => mem
  | string_buf.null => []

/-- A block of `n` characters obtained from `malloc`, holding `fresh`. -/
def mallocMem (fresh : List Nat) (n : Nat) : List Nat :=
  (fresh ++ List.replicate n 0).take n

/-- A block of `n` characters obtained from `realloc` of `old`: the old
characters that fit, then `fresh`. -/
def reallocMem (old fresh : List Nat) (n : Nat) : List Nat :=
  (old ++ fresh ++ List.replicate n 0).take n

/-- Allocate a new string (`string_new`); `none` when `malloc` fails. -/
def string_new (c : Nat) (alloc : Option (List Nat)) : Option cryb_string :=
  alloc.map (fun fresh =>
    { buf := string_buf.static
      size := STATIC_BUF_SIZE c * c
      len := 0
      staticbuf := (mallocMem fresh (STATIC_BUF_SIZE c)).set 0 0 })

/-- The "compute the new size" step of `string_expand`: doubling below
`LARGE_BUF_SIZE`, rounding up to a multiple of it otherwise; `none` when
the doubling loop does not end. -/
def string_expand_newsize (c size newlen : Nat) : Option Nat :=
  if L2S c newlen < LARGE_BUF_SIZE c then
    whileLoop (fun n : Nat => decide (n < L2S c newlen))
      (fun n : Nat => (n * 2) % 18446744073709551616) 64 size
  else some (RUP (L2S c newlen) (LARGE_BUF_SIZE c))

/-- Expand the storage (`string_expand`): the return value and the string
afterwards; `none` when the call does not return. When the allocator
returns `NULL` the string is left as it is, with one exception: the call
`realloc(str->buf, 0)`, made for an allocated buffer when the new size has
wrapped around to `0`, frees the block before it returns `NULL` (the
behaviour of glibc), so `buf` then points at no character at all. -/
def string_expand (c : Nat) (alloc : Option (List Nat)) (str : cryb_string) (newlen : Nat) :
    Option (Int × cryb_string) :=
  if L2S c newlen ≤ str.size then some (0, str)
  else
    (string_expand_newsize c str.size newlen).map (fun newsize =>
      match alloc with
      | none =>
        match str.buf with
        | string_buf.heap _ =>
          if newsize = 0 then (-1, { str with buf := string_buf.heap [] }) else (-1, str)
        | string_buf.static => (-1, str)
        | string_buf.null => (-1, str)
      | some fresh =>
        match str.buf with
        | string_buf.static =>
          (0, { str with
            buf := string_buf.heap
              (memcpyAt (mallocMem fresh (newsize / c)) 0 str.staticbuf (L2S c str.len / c))
            size := newsize })
        | string_buf.heap old =>
          (0, { str with
            buf := string_buf.heap (reallocMem old fresh (newsize / c))
            size := newsize })
        | string_buf.null =>
          (0, { str with
            buf := string_buf.heap (mallocMem fresh (newsize / c))
            size := newsize }))

/-- Shrink the storage (`string_shrink`); the result of `realloc` is not
checked by the code. -/
def string_shrink (c : Nat) (alloc : Option (List Nat)) (str : cryb_string) : cryb_string :=
  match str.buf with
  | string_buf.static => str
  | _ =>
    if L2S c str.len ≤ STATIC_BUF_SIZE c then
      { str with
        staticbuf := memcpyAt str.staticbuf 0 (string_chars str) (L2S c str.len / c)
        buf := string_buf.static
        size := STATIC_BUF_SIZE c }
    else
      let newsize :=
        if L2S c str.len ≥ LARGE_BUF_SIZE c then RUP (L2S c str.len) (LARGE_BUF_SIZE c)
        else LARGE_BUF_SIZE c
      { str with
        buf := (match alloc with
          | none => string_buf.null
          | some fresh => string_buf.heap (reallocMem (string_chars str) fresh (newsize / c)))
        size := newsize }

/-- The assignment `str->buf[i] = v`. -/
def string_store (str : cryb_string) (i v : Nat) : cryb_string :=
  match str.buf with
  | string_buf.static => { str with staticbuf := str.staticbuf.set i v }
  | string_buf.heap mem => { str with buf := string_buf.heap (mem.set i v) }
  | string_buf.null => str

/-- Conversion of a `size_t` to the `ssize_t` a function returns: values
from `2 ^ 63` on wrap around to negative ones. -/
def toSsize (n : Nat) : Int :=
  if n < 9223372036854775808 then (n : Int) else (n : Int) - 18446744073709551616

/-- Truncate a string (`string_trunc`): the return value and the string
afterwards. -/
def string_trunc (c : Nat) (alloc : Option (List Nat)) (str : cryb_string) (len : Nat) :
    Int × cryb_string :=
  if len < str.len then
    let str1 := string_shrink c alloc { string_store str len 0 with len := len }
    (toSsize str1.len, str1)
  else (toSsize str.len, str)

/-- Append a single character (`string_append_c`): the return value and
the string afterwards; `none` when the call does not return. -/
def string_append_c (c : Nat) (alloc : Option (List Nat)) (str : cryb_string) (ch : Nat) :
    Option (Int × cryb_string) :=
  (string_expand c alloc str ((str.len + 1) % 18446744073709551616)).map (fun r =>
    if r.1 < 0 then r
    else
      let str1 := { string_store r.2 r.2.len ch with
        len := (r.2.len + 1) % 18446744073709551616 }
      let str2 := string_store str1 str1.len 0
      (toSsize str2.len, str2))

/-- A valid string for character size `c`: `buf` is not `NULL`, the
recorded size fits a `size_t` and holds the `len` characters and the
terminator, and the buffer does hold them. -/
def StringValid (c : Nat) (str : cryb_string) : Prop :=
  str.buf ≠ string_buf.null ∧ str.size < 18446744073709551616 ∧
  (str.len + 1) * c ≤ str.size ∧ str.len < (string_chars str).length

instance (c : Nat) (str : cryb_string) : Decidable (StringValid c str) := by
  unfold StringValid
  infer_instance

/-! ## Endian codecs (`cryb/endian.h`)

Memory is a list of bytes; a decoder returns `none` when it reads outside
the list, an encoder returns the memory after its four or eight stores. -/

/-- The function `cryb_be32enc`. -/
def cryb_be32enc (p : List Nat) (u32 : Nat) : List Nat :=
  (((p.set 3 (u32 &&& 0xff)).set 2 ((u32 >>> 8) &&& 0xff)).set 1
    ((u32 >>> 16) &&& 0xff)).set 0 ((u32 >>> 24) &&& 0xff)

/-- The function `cryb_be32dec`, in `uint32_t` arithmetic. -/
def cryb_be32dec (p : List Nat) : Option Nat :=
  p[3]?.bind (fun b3 => p[2]?.bind (fun b2 => p[1]?.bind (fun b1 => p[0]?.bind (fun b0 =>
    some (b3 ||| (b2 <<< 8) % 4294967296 ||| (b1 <<< 16) % 4294967296 |||
      (b0 <<< 24) % 4294967296)))))

/-- The function `cryb_be64enc`. -/
def cryb_be64enc (p : List Nat) (u64 : Nat) : List Nat :=
  (((((((p.set 7 (u64 &&& 0xff)).set 6 ((u64 >>> 8) &&& 0xff)).set 5
    ((u64 >>> 16) &&& 0xff)).set 4 ((u64 >>> 24) &&& 0xff)).set 3
    ((u64 >>> 32) &&& 0xff)).set 2 ((u64 >>> 40) &&& 0xff)).set 1
    ((u64 >>> 48) &&& 0xff)).set 0 ((u64 >>> 56) &&& 0xff)

/-- The function `cryb_be64dec`, in `uint64_t` arithmetic. -/
def cryb_be64dec (p : List Nat) : Option Nat :=
  p[7]?.bind (fun b7 => p[6]?.bind (fun b6 => p[5]?.bind (fun b5 => p[4]?.bind (fun b4 =>
  p[3]?.bind (fun b3 => p[2]?.bind (fun b2 => p[1]?.bind (fun b1 => p[0]?.bind (fun b0 =>
    some (b7 ||| (b6 <<< 8) % 18446744073709551616 ||| (b5 <<< 16) % 18446744073709551616 |||
      (b4 <<< 24) % 18446744073709551616 ||| (b3 <<< 32) % 18446744073709551616 |||
      (b2 <<< 40) % 18446744073709551616 ||| (b1 <<< 48) % 18446744073709551616 |||
      (b0 <<< 56) % 18446744073709551616)))))))))

/-- The function `cryb_le32enc`. -/
def cryb_le32enc (p : List Nat) (u32 : Nat) : List Nat :=
  (((p.set 0 (u32 &&& 0xff)).set 1 ((u32 >>> 8) &&& 0xff)).set 2
    ((u32 >>> 16) &&& 0xff)).set 3 ((u32 >>> 24) &&& 0xff)

/-- The function `cryb_le32dec`, in `uint32_t` arithmetic. -/
def cryb_le32dec (p : List Nat) : Option Nat :=
  p[0]?.bind (fun b0 => p[1]?.bind (fun b1 => p[2]?.bind (fun b2 => p[3]?.bind (fun b3 =>
    some (b0 ||| (b1 <<< 8) % 4294967296 ||| (b2 <<< 16) % 4294967296 |||
      (b3 <<< 24) % 4294967296)))))

/-- The function `cryb_le64enc`. -/
def cryb_le64enc (p : List Nat) (u64 : Nat) : List Nat :=
  (((((((p.set 0 (u64 &&& 0xff)).set 1 ((u64 >>> 8) &&& 0xff)).set 2
    ((u64 >>> 16) &&& 0xff)).set 3 ((u64 >>> 24) &&& 0xff)).set 4
    ((u64 >>> 32) &&& 0xff)).set 5 ((u64 >>> 40) &&& 0xff)).set 6
    ((u64 >>> 48) &&& 0xff)).set 7 ((u64 >>> 56) &&& 0xff)

/-- The function `cryb_le64dec`, in `uint64_t` arithmetic. -/
def cryb_le64dec (p : List Nat) : Option Nat :=
  p[0]?.bind (fun b0 => p[1]?.bind (fun b1 => p[2]?.bind (fun b2 => p[3]?.bind (fun b3 =>
  p[4]?.bind (fun b4 => p[5]?.bind (fun b5 => p[6]?.bind (fun b6 => p[7]?.bind (fun b7 =>
    some (b0 ||| (b1 <<< 8) % 18446744073709551616 ||| (b2 <<< 16) % 18446744073709551616 |||
      (b3 <<< 24) % 18446744073709551616 ||| (b4 <<< 32) % 18446744073709551616 |||
      (b5 <<< 40) % 18446744073709551616 ||| (b6 <<< 48) % 18446744073709551616 |||
      (b7 <<< 56) % 18446744073709551616)))))))))

/-! ## Division and serialisation of MPIs

The sources hold the comparison functions only; the operations below are
modelled from the specification (§3, §4.2, §4.4, §4.5). -/

/-- The `k` least significant digits of `n` in base `B`, least significant
digit first. -/
def le_digits (B k n : Nat) : List Nat :=
  (List.range k).map (fun i => n / B ^ i % B)

/-- Modelled from the spec: the scan of the Canonical Form Maintainer
(§4.2), whose code is missing from the sources. `highest_bit s n i` looks
at the bits `i - 1, i - 2, ..., 0` of the magnitude `n` and returns the
index of the first one that is set, or the sentinel `s` when none is. -/
def highest_bit (s : Int) (n : Nat) : Nat → Int
  | 0 => s
  | i + 1 => if n / 2 ^ i % 2 = 1 then (i : Int) else highest_bit s n i

/-- Modelled from the spec: the canonical BigInt of sign `neg` and
magnitude `n` in a buffer of `k` words (§3, §4.2), whose constructors are
missing from the sources: words least significant first, `highest_bit`
found by the scan, and zero never negative. -/
def mpi_of_mag (s : Int) (neg : Bool) (k n : Nat) : cryb_mpi :=
  { words := le_digits 4294967296 k n
    msb := highest_bit s n (32 * k)
    neg := neg && decide (n ≠ 0) }

/-- Modelled from the spec: the long division of §4.4 on magnitudes, whose
code is missing from the sources. `long_division b n a` brings down the `n`
low bits of `a` one at a time, most significant first, and subtracts the
divisor `b` from the running remainder whenever it fits; it returns the
quotient and the remainder. -/
def long_division (b : Nat) : Nat → Nat → Nat × Nat
  | 0, _ => (0, 0)
  | n + 1, a =>
    let qr := long_division b n (a / 2)
    let r := 2 * qr.2 + a % 2
    if b ≤ r then (2 * qr.1 + 1, r - b) else (2 * qr.1, r)

/-- Modelled from the spec: divide with remainder (§4.4), whose code is
missing from the sources. `none` is the division-by-zero condition;
otherwise the quotient and the remainder in buffers as long as the
dividend, the quotient negative when exactly one operand is, the remainder
with the sign of the dividend, both canonical (a zero result is not
negative). -/
def mpi_div (s : Int) (A B : cryb_mpi) : Option (cryb_mpi × cryb_mpi) :=
  if mpi_abs B = 0 then none
  else
    let qr := long_division (mpi_abs B) (32 * A.words.length) (mpi_abs A)
    some (mpi_of_mag s (xor A.neg B.neg) A.words.length qr.1,
      mpi_of_mag s A.neg A.words.length qr.2)

/-- Modelled from the spec: `to_bytes(value, width)` of §4.5, whose code is
missing from the sources: the magnitude as `width` bytes, most significant
first, left-padded with zero bytes; `none` when the magnitude does not fit.
The sign is not encoded. -/
def mpi_to_bytes (A : cryb_mpi) (width : Nat) : Option (List Nat) :=
  if mpi_abs A < 256 ^ width then some (le_digits 256 width (mpi_abs A)).reverse
  else none

/-- Modelled from the spec: `from_bytes(bytes)` of §4.5, whose code is
missing from the sources: the canonical non-negative BigInt whose magnitude
is the big-endian reading of the bytes, in a buffer of one word for every
four bytes or part of them (at least one word). -/
def mpi_from_bytes (s : Int) (bytes : List Nat) : cryb_mpi :=
  mpi_of_mag s false (bytes.length / 4 + 1) (bytes.foldl (fun acc b => acc * 256 + b) 0)

/-! ## Managed strings: appending and the representation invariant -/

/-- The assignments `str->buf[str->len++] = ch; str->buf[str->len] = 0`
that `string_append_c` and `string_append_cs` share. -/
def string_put (str : cryb_string) (ch : Nat) : cryb_string :=
  let str1 := { string_store str str.len ch with len := (str.len + 1) % 18446744073709551616 }
  string_store str1 str1.len 0

/-- Append a zero-terminated character array (`string_append_cs`): the
return value and the string afterwards. `cs` is the memory from the pointer
on, `alloc k` is what the allocator does in iteration `k` of the loop, and
the first argument is the number of the next iteration; `none` when the
loop reads past the end of `cs` or a call to `string_expand` does not
return. Every iteration moves `cs` forward, so the loop ends. -/
def string_append_cs (c : Nat) (alloc : Nat → Option (List Nat)) :
    Nat → cryb_string → List Nat → Nat → Option (Int × cryb_string)
  | _, _, [], _ => none
  | k, str, ch :: cs, len =>
    if ch ≠ 0 ∧ len ≠ 0 then
      match string_expand c (alloc k) str ((str.len + 1) % 18446744073709551616) with
      | none => none
      | some r =>
        if r.1 < 0 then some r
        else string_append_cs c alloc (k + 1) (string_put r.2 ch) cs (len - 1)
    else some (toSsize str.len, str)

/-- The call `memcpy(str->buf + off, src, n)` on characters. -/
def string_memcpy (str : cryb_string) (off : Nat) (src : List Nat) (n : Nat) : cryb_string :=
  match str.buf with
  | string_buf.static => { str with staticbuf := memcpyAt str.staticbuf off src n }
  | string_buf.heap mem => { str with buf := string_buf.heap (memcpyAt mem off src n) }
  | string_buf.null => str

/-- Append one string to another (`string_append_string`), for `other` a
string different from `str`: the return value and `str` afterwards; `other`
is only read. `none` when the call does not return. -/
def string_append_string (c : Nat) (alloc : Option (List Nat)) (str other : cryb_string)
    (len : Nat) : Option (Int × cryb_string) :=
  let len1 := if len > other.len then other.len else len
  (string_expand c alloc str ((str.len + len1) % 18446744073709551616)).map (fun r =>
    if r.1 < 0 then r
    else
      let str1 := string_memcpy r.2 r.2.len (string_chars other)
        ((len1 * c) % 18446744073709551616 / c)
      let str2 := { str1 with len := (str1.len + len1) % 18446744073709551616 }
      let str3 := string_store str2 str2.len 0
      (toSsize str3.len, str3))

/-- The call `string_append_string(str, str, len)`, where `other` is `str`
itself: `other->len` is read before `string_expand`, `other->buf` after
it. -/
def string_append_self (c : Nat) (alloc : Option (List Nat)) (str : cryb_string)
    (len : Nat) : Option (Int × cryb_string) :=
  let len1 := if len > str.len then str.len else len
  (string_expand c alloc str ((str.len + len1) % 18446744073709551616)).map (fun r =>
    if r.1 < 0 then r
    else
      let str1 := string_memcpy r.2 r.2.len (string_chars r.2)
        ((len1 * c) % 18446744073709551616 / c)
      let str2 := { str1 with len := (str1.len + len1) % 18446744073709551616 }
      let str3 := string_store str2 str2.len 0
      (toSsize str3.len, str3))

/-- The statements of `string_append_string` after its call of
`string_expand`, for the characters `src` that `other->buf` points at: the
`memcpy`, the new length, the terminator and the return value. -/
def string_append_tail (c : Nat) (str : cryb_string) (src : List Nat) (len1 : Nat) :
    Int × cryb_string :=
  let str1 := string_memcpy str str.len src ((len1 * c) % 18446744073709551616 / c)
  let str2 := { str1 with len := (str1.len + len1) % 18446744073709551616 }
  let str3 := string_store str2 str2.len 0
  (toSsize str3.len, str3)

/-- The characters of a string: the first `len` characters of its
buffer. -/
def string_text (str : cryb_string) : List Nat := (string_chars str).take str.len

/-- Length of the zero-terminated character array that starts a memory:
the number of characters before the first zero. -/
def strlen (cs : List Nat) : Nat := (cs.takeWhile (fun ch => ch ≠ 0)).length

/-- A length `n` in characters whose buffer sizes stay below `2 ^ 63`
bytes, so that neither the `size_t` computations of `string_expand` and
`string_shrink` nor the `ssize_t` return values wrap around. -/
def SizeOK (c n : Nat) : Prop := (n + 1) * c + LARGE_BUF_SIZE c ≤ 9223372036854775808

instance (c n : Nat) : Decidable (SizeOK c n) := by
  unfold SizeOK
  infer_instance

/-- Representation invariant of a string for character size `c`: the
string is valid, the recorded size is a whole number of characters that the
buffer really holds, `staticbuf` has its `STATIC_BUF_SIZE` elements, the
character at `len` is the terminating zero, and the length is of a size
that does not wrap around. -/
def StringInv (c : Nat) (str : cryb_string) : Prop :=
  StringValid c str ∧ c ∣ str.size ∧ str.size ≤ (string_chars str).length * c ∧
  str.staticbuf.length = STATIC_BUF_SIZE c ∧ (string_chars str)[str.len]? = some 0 ∧
  SizeOK c str.len

instance (c : Nat) (str : cryb_string) : Decidable (StringInv c str) := by
  unfold StringInv
  infer_instance

/-- Strings reached from `string_new` by successful calls whose requested
lengths are of a size that does not wrap around (`SizeOK`). A call of
`string_expand` is successful when it returns `0`, an append when it returns
a non-negative value, and `string_shrink` and `string_trunc` when the
reallocation they may attempt succeeds. -/
inductive Reachable (c : Nat) : cryb_string → Prop where
  | new (fresh : List Nat) (str : cryb_string) :
      string_new c (some fresh) = some str → Reachable c str
  | expand (alloc : Option (List Nat)) (str str' : cryb_string) (newlen : Nat) :
      Reachable c str → SizeOK c newlen →
      string_expand c alloc str newlen = some (0, str') → Reachable c str'
  | shrink (fresh : List Nat) (str : cryb_string) :
      Reachable c str → Reachable c (string_shrink c (some fresh) str)
  | trunc (fresh : List Nat) (str : cryb_string) (len : Nat) :
      Reachable c str → Reachable c (string_trunc c (some fresh) str len).2
  | append_c (alloc : Option (List Nat)) (str str' : cryb_string) (ch : Nat) (r : Int) :
      Reachable c str → SizeOK c (str.len + 1) →
      string_append_c c alloc str ch = some (r, str') → 0 ≤ r → Reachable c str'
  | append_cs (alloc : Nat → Option (List Nat)) (str str' : cryb_string) (cs : List Nat)
      (len : Nat) (r : Int) :
      Reachable c str → 0 ∈ cs → SizeOK c (str.len + min len (strlen cs)) →
      string_append_cs c alloc 0 str cs len = some (r, str') → 0 ≤ r → Reachable c str'
  | append_string (alloc : Option (List Nat)) (str other str' : cryb_string) (len : Nat)
      (r : Int) :
      Reachable c str → Reachable c other → SizeOK c (str.len + min len other.len) →
      string_append_string c alloc str other len = some (r, str') → 0 ≤ r → Reachable c str'
  | append_self (alloc : Option (List Nat)) (str str' : cryb_string) (len : Nat) (r : Int) :
      Reachable c str → SizeOK c (str.len + min len str.len) →
      string_append_self c alloc str len = some (r, str') → 0 ≤ r → Reachable c str'

/-! ## Reads of `mpi_cmp_abs` and sequences of digest updates -/

/-- The word indices the loop of `mpi_cmp_abs` reads, in the order of the
reads: `scanReads X Y n` lists the values of `i` for which the loop body
reads `X->words[i]` and `Y->words[i]`, for `i = n - 1, n - 2, ...` down to
the index at which the loop returns. -/
def scanReads (X Y : cryb_mpi) : Nat → List Nat
  | 0 => []
  | n + 1 =>
    match X.words[n]?, Y.words[n]? with
    | some x, some y =>
      if x > y then [n]
      else if x < y then [n]
      else n :: scanReads X Y n
    | _, _ => [n]

/-- The word indices `mpi_cmp_abs` reads: none when the widths differ. -/
def mpi_cmp_abs_reads (X Y : cryb_mpi) : List Nat :=
  if X.msb > Y.msb then []
  else if X.msb < Y.msb then []
  else scanReads X Y (X.msb.tdiv 32 + 1).toNat

/-- A sequence of `md2_update` calls, one for each chunk, on a context. -/
def md2_updates (ctx : md2_ctx) (chunks : List (List Nat)) : Option md2_ctx :=
  chunks.foldl (fun o l => o.bind (fun c => md2_update c l)) (some ctx)

/-- A sequence of `sha1_update` calls, one for each chunk, on a context. -/
def sha1_updates (ctx : sha1_ctx) (chunks : List (List Nat)) : Option sha1_ctx :=
  chunks.foldl (fun o l => o.bind (fun c => sha1_update c l)) (some ctx)

/-- The SHA-1 context invariant of the padding: a 64-byte block holding
fewer than 64 pending bytes, zero from index `blocklen` on, and a 64-bit
`bitlen`. -/
def Sha1Pad (c : sha1_ctx) : Prop :=
  c.block.length = 64 ∧ c.blocklen < 64 ∧
  (∀ i, i < 64 → c.blocklen ≤ i → c.block[i]? = some 0) ∧
  c.bitlen < 18446744073709551616

instance (c : sha1_ctx) : Decidable (Sha1Pad c) := by
  unfold Sha1Pad
  infer_instance

/-! ## Reference definitions of the digests (RFC 1319, FIPS 180)

These definitions follow the standards, not the code: the whole message is
padded, cut into blocks, and folded block after block. -/

/-- The message `l` cut into blocks of `n` bytes, which the block function
`f` folds into `s` one after the other, first to last: the result after the
last whole block, and the bytes left over. -/
def absorb_blocks {σ : Type} (n : Nat) (f : σ → List Nat → σ) (s : σ) (l : List Nat) :
    σ × List Nat :=
  if 0 < n ∧ n ≤ l.length then absorb_blocks n f (f s (l.take n)) (l.drop n) else (s, l)
termination_by l.length
decreasing_by
  simp only [List.length_drop]
  omega

/-- The MD2 digest as RFC 1319 describes it. The message is padded with `i`
bytes of value `i`, `1 ≤ i ≤ 16`, to a multiple of 16 bytes (step 1); the
16-byte checksum of the padded message, computed block after block from
zero, is appended (step 2); the 48-byte buffer `X`, zero at first, is
updated with each 16-byte block of the result (steps 3 and 4); the digest
is `X[0 .. 15]` (step 5). The checksum step and the buffer step of one block
are the ones of `md2_process`. -/
def md2_rfc1319 (m : List Nat) : List Nat :=
  let padded := m ++ List.replicate (16 - m.length % 16) (16 - m.length % 16)
  let cksum := (absorb_blocks 16 (fun c block => md2_process_cksum block c)
    (List.replicate 16 0) padded).1
  let x := (absorb_blocks 16 (fun x block => md2_process_mix (md2_process_load block x))
    (List.replicate 48 0) (padded ++ cksum)).1
  x.take 16

/-- The SHA-1 digest as FIPS 180 describes it, for a message of fewer than
`2 ^ 64` bits. The message is padded with the byte `0x80`, then with the
least number of zero bytes that makes the length 56 modulo 64, then with
the length of the message in bits as a 64-bit number, most significant byte
first; the hash value, `sha1_h` at first, is updated with each 64-byte block
of the result; the digest is the five words of the hash value, each most
significant byte first. The update with one block is the one of
`sha1_compute`. -/
def sha1_fips180 (m : List Nat) : List Nat :=
  let padded := m ++ [0x80] ++ List.replicate ((119 - m.length % 64) % 64) 0 ++
    PUT_UINT64_BE (8 * m.length)
  let h := (absorb_blocks 64 (fun h block => sha1_compute_h h sha1_k block) sha1_h padded).1
  (h.map be32Bytes).flatten

/-- The initial hash value of SHA-384 (FIPS 180-2, section 5.3.3). -/
def sha384_fips180_iv : List Nat :=
  [0xcbbb9d5dc1059ed8, 0x629a292a367cd507, 0x9159015a3070dd17, 0x152fecd8f70e5939,
   0x67332667ffc00b31, 0x8eb44a8768581511, 0xdb0c2e0d64f98fa7, 0x47b5481dbefa4fa4]

/-- The SHA-384 digest as FIPS 180-2 describes it, for a message of fewer
than `2 ^ 128` bits. The message is padded with the byte `0x80`, then with
the least number of zero bytes that makes the length 112 modulo 128, then
with the length of the message in bits as a 128-bit number, most
significant byte first; the hash value, `sha384_fips180_iv` at first, is
updated with each 128-byte block of the result; the digest is the first six
of the eight words of the hash value, each most significant byte first. The
update with one block is the one of `sha384_process`. -/
def sha384_fips180 (m : List Nat) : List Nat :=
  let padded := m ++ [0x80] ++ List.replicate ((239 - m.length % 128) % 128) 0 ++
    PUT_UINT64_BE ((8 * m.length) / 18446744073709551616) ++ PUT_UINT64_BE (8 * m.length)
  let h := (absorb_blocks 128 sha384_process_state sha384_fips180_iv padded).1
  PUT_UINT64_BE (h.getD 0 0) ++ PUT_UINT64_BE (h.getD 1 0) ++ PUT_UINT64_BE (h.getD 2 0) ++
    PUT_UINT64_BE (h.getD 3 0) ++ PUT_UINT64_BE (h.getD 4 0) ++ PUT_UINT64_BE (h.getD 5 0)

/-! ## Arithmetic of word sequences -/

theorem tdiv32_eq (a : Int) :
    a.tdiv 32 = if 0 ≤ a then a / 32 else -((-a) / 32) := by
  split
  · next h => exact Int.tdiv_eq_ediv h (by decide)
  · next h =>
    have h1 : a = -(-a) := by omega
    have h2 : (-(-a)).tdiv 32 = -((-a).tdiv 32) := Int.neg_tdiv (-a) 32
    have h3 : (-a).tdiv 32 = (-a) / 32 := Int.tdiv_eq_ediv (by omega) (by decide)
    rw [h1, h2, h3]
    simp

theorem wordsVal_split (l : List Nat) (n : Nat) :
    wordsVal l = wordsVal (l.take n) + 2 ^ (32 * n) * wordsVal (l.drop n) := by
  induction l generalizing n with
  | nil => simp [wordsVal]
  | cons w ws ih =>
    cases n with
    | zero => simp [wordsVal]
    | succ n =>
      simp only [List.take_succ_cons, List.drop_succ_cons, wordsVal]
      rw [ih n]
      have : (2 : Nat) ^ (32 * (n + 1)) = 4294967296 * 2 ^ (32 * n) := by
        rw [Nat.mul_add, Nat.pow_add]; norm_num; ring
      rw [this]; ring

theorem wordsVal_take_succ (l : List Nat) (n x : Nat) (h : l[n]? = some x) :
    wordsVal (l.take (n + 1)) = wordsVal (l.take n) + x * 2 ^ (32 * n) := by
  induction l generalizing n with
  | nil => simp at h
  | cons w ws ih =>
    cases n with
    | zero =>
      simp at h
      simp [wordsVal, h]
    | succ n =>
      simp only [List.getElem?_cons_succ] at h
      simp only [List.take_succ_cons, wordsVal]
      rw [ih n h]
      have : (2 : Nat) ^ (32 * (n + 1)) = 4294967296 * 2 ^ (32 * n) := by
        rw [Nat.mul_add, Nat.pow_add]; norm_num; ring
      rw [this]; ring

theorem wordsVal_lt (l : List Nat) (h : ∀ w ∈ l, w < 4294967296) :
    wordsVal l < 2 ^ (32 * l.length) := by
  induction l with
  | nil => simp [wordsVal]
  | cons w ws ih =>
    have hw : w < 4294967296 := h w (by simp)
    have hws := ih (fun v hv => h v (by simp [hv]))
    have : (2 : Nat) ^ (32 * (ws.length + 1)) = 4294967296 * 2 ^ (32 * ws.length) := by
      rw [Nat.mul_add, Nat.pow_add]; norm_num; ring
    simp only [wordsVal, List.length_cons]
    rw [this]
    nlinarith

theorem wordsVal_take_lt (l : List Nat) (n : Nat) (h : ∀ w ∈ l, w < 4294967296) :
    wordsVal (l.take n) < 2 ^ (32 * n) := by
  have h1 := wordsVal_lt (l.take n) (fun w hw => h w (List.mem_of_mem_take hw))
  have h2 : (2 : Nat) ^ (32 * (l.take n).length) ≤ 2 ^ (32 * n) :=
    Nat.pow_le_pow_right (by decide) (Nat.mul_le_mul_left 32 (List.length_take_le n l))
  omega

theorem wordsVal_take_of_lt (l : List Nat) (n : Nat) (h : wordsVal l < 2 ^ (32 * n)) :
    wordsVal (l.take n) = wordsVal l := by
  have hs := wordsVal_split l n
  have hp : 0 < (2 : Nat) ^ (32 * n) := Nat.two_pow_pos _
  rcases Nat.eq_zero_or_pos (wordsVal (l.drop n)) with h0 | h0
  · rw [h0] at hs; omega
  · have : 2 ^ (32 * n) * 1 ≤ 2 ^ (32 * n) * wordsVal (l.drop n) :=
      Nat.mul_le_mul_left _ h0
    omega

/-- The word loop over the `n` low words compares the numbers those words
encode. -/
theorem scanWords_eq (X Y : cryb_mpi) (n : Nat)
    (hX : ∀ w ∈ X.words, w < 4294967296) (hY : ∀ w ∈ Y.words, w < 4294967296)
    (hnX : n ≤ X.words.length) (hnY : n ≤ Y.words.length) :
    scanWords X Y n =
      some (cmpNat (wordsVal (X.words.take n)) (wordsVal (Y.words.take n))) := by
  induction n with
  | zero => simp [scanWords, cmpNat, wordsVal]
  | succ n ih =>
    have hx : X.words[n]? = some (X.words[n]) := List.getElem?_eq_getElem (by omega)
    have hy : Y.words[n]? = some (Y.words[n]) := List.getElem?_eq_getElem (by omega)
    have vx := wordsVal_take_succ X.words n _ hx
    have vy := wordsVal_take_succ Y.words n _ hy
    have bx := wordsVal_take_lt X.words n hX
    have byy := wordsVal_take_lt Y.words n hY
    have ih1 := ih (by omega) (by omega)
    simp only [scanWords, hx, hy]
    generalize X.words[n] = x at *
    generalize Y.words[n] = y at *
    generalize (2 : Nat) ^ (32 * n) = B at *
    rw [vx, vy]
    by_cases h1 : x > y
    · have h3 : (y + 1) * B ≤ x * B := Nat.mul_le_mul_right B h1
      have e : (y + 1) * B = y * B + B := by ring
      rw [e] at h3
      simp only [h1, if_true, cmpNat]
      rw [if_pos (by omega)]
    · by_cases h2 : x < y
      · have h3 : (x + 1) * B ≤ y * B := Nat.mul_le_mul_right B h2
        have e : (x + 1) * B = x * B + B := by ring
        rw [e] at h3
        simp only [h1, h2, if_true, if_false, cmpNat]
        rw [if_neg (by omega), if_pos (by omega)]
      · have e : x = y := by omega
        subst e
        simp only [h1, if_false, ih1, cmpNat]
        congr 1
        split_ifs <;> first | rfl | (exfalso; omega)

/-! ## Canonical operands -/

theorem canonical_scan_bound (s : Int) (hs : s ≤ 0) (X : cryb_mpi)
    (hX : Canonical s X) :
    (X.msb.tdiv 32 + 1).toNat ≤ X.words.length ∧
      mpi_abs X < 2 ^ (32 * (X.msb.tdiv 32 + 1).toNat) := by
  obtain ⟨hw, hne, hz, hnz⟩ := hX
  have hlen : 0 < X.words.length := List.length_pos.mpr hne
  have ht := tdiv32_eq X.msb
  by_cases h0 : mpi_abs X = 0
  · obtain ⟨hm, _⟩ := hz h0
    constructor
    · split at ht <;> omega
    · rw [h0]; exact Nat.two_pow_pos _
  · obtain ⟨hm, hlo, hhi⟩ := hnz h0
    rw [if_pos hm] at ht
    have hb := wordsVal_lt X.words hw
    have hlt : 2 ^ X.msb.toNat < 2 ^ (32 * X.words.length) :=
      Nat.lt_of_le_of_lt hlo hb
    have hml : X.msb.toNat < 32 * X.words.length :=
      (Nat.pow_lt_pow_iff_right (by decide)).mp hlt
    constructor
    · omega
    · have : (2 : Nat) ^ (X.msb.toNat + 1) ≤ 2 ^ (32 * (X.msb.tdiv 32 + 1).toNat) :=
        Nat.pow_le_pow_right (by decide) (by omega)
      omega

theorem canonical_msb_lt (s : Int) (hs : s ≤ 0) (X Y : cryb_mpi)
    (hX : Canonical s X) (hY : Canonical s Y) (h : X.msb < Y.msb) :
    mpi_abs X < mpi_abs Y := by
  obtain ⟨_, _, hzX, hnzX⟩ := hX
  obtain ⟨_, _, hzY, hnzY⟩ := hY
  by_cases hy0 : mpi_abs Y = 0
  · obtain ⟨hmy, _⟩ := hzY hy0
    by_cases hx0 : mpi_abs X = 0
    · obtain ⟨hmx, _⟩ := hzX hx0
      omega
    · obtain ⟨hmx, _, _⟩ := hnzX hx0
      omega
  · obtain ⟨hmy, hloY, _⟩ := hnzY hy0
    by_cases hx0 : mpi_abs X = 0
    · omega
    · obtain ⟨hmx, _, hhiX⟩ := hnzX hx0
      have : (2 : Nat) ^ (X.msb.toNat + 1) ≤ 2 ^ Y.msb.toNat :=
        Nat.pow_le_pow_right (by decide) (by omega)
      omega

theorem wordsVal_eq_zero (l : List Nat) (h : wordsVal l = 0) : ∀ w ∈ l, w = 0 := by
  induction l with
  | nil => simp
  | cons v vs ih =>
    simp only [wordsVal] at h
    intro w hw
    rcases List.mem_cons.mp hw with e | e
    · omega
    · exact ih (by omega) w e

/-- In a canonical MPI every word above index `msb / 32` is zero. -/
theorem canonical_high_words (s : Int) (hs : s ≤ 0) (X : cryb_mpi)
    (hX : Canonical s X) (i : Nat) (hi : X.msb.tdiv 32 < (i : Int)) :
    X.words.getD i 0 = 0 := by
  obtain ⟨_, hb⟩ := canonical_scan_bound s hs X hX
  have hn : (X.msb.tdiv 32 + 1).toNat ≤ i := by omega
  have hs0 := wordsVal_split X.words (X.msb.tdiv 32 + 1).toNat
  have hp : 0 < (2 : Nat) ^ (32 * (X.msb.tdiv 32 + 1).toNat) := Nat.two_pow_pos _
  have hd : wordsVal (X.words.drop (X.msb.tdiv 32 + 1).toNat) = 0 := by
    rcases Nat.eq_zero_or_pos
      (wordsVal (X.words.drop (X.msb.tdiv 32 + 1).toNat)) with h0 | h0
    · exact h0
    · have : 2 ^ (32 * (X.msb.tdiv 32 + 1).toNat) * 1 ≤
          2 ^ (32 * (X.msb.tdiv 32 + 1).toNat) *
            wordsVal (X.words.drop (X.msb.tdiv 32 + 1).toNat) :=
        Nat.mul_le_mul_left _ h0
      unfold mpi_abs at hb
      omega
  have hz := wordsVal_eq_zero _ hd
  by_cases hl : i < X.words.length
  · rw [List.getD_eq_getElem _ _ hl]
    apply hz
    rw [List.mem_iff_getElem]
    refine ⟨i - (X.msb.tdiv 32 + 1).toNat, ?_, ?_⟩
    · rw [List.length_drop]; omega
    · rw [List.getElem_drop]
      congr 1
      omega
  · exact List.getD_eq_default _ _ (by omega)

/-- On canonical operands `mpi_cmp_abs` returns the three-way comparison
of the magnitudes. -/
theorem mpi_cmp_abs_cmpNat (s : Int) (hs : s ≤ 0) (X Y : cryb_mpi)
    (hX : Canonical s X) (hY : Canonical s Y) :
    mpi_cmp_abs X Y = some (cmpNat (mpi_abs X) (mpi_abs Y)) := by
  unfold mpi_cmp_abs
  by_cases h1 : X.msb > Y.msb
  · have := canonical_msb_lt s hs Y X hY hX h1
    rw [if_pos h1, cmpNat, if_pos this]
  · rw [if_neg h1]
    by_cases h2 : X.msb < Y.msb
    · have := canonical_msb_lt s hs X Y hX hY h2
      rw [if_pos h2, cmpNat, if_neg (by omega), if_pos this]
    · rw [if_neg h2]
      have e : Y.msb = X.msb := by omega
      obtain ⟨lX, bX⟩ := canonical_scan_bound s hs X hX
      obtain ⟨lY, bY⟩ := canonical_scan_bound s hs Y hY
      rw [e] at lY bY
      rw [scanWords_eq X Y _ hX.1 hY.1 lX lY,
        wordsVal_take_of_lt X.words _ bX, wordsVal_take_of_lt Y.words _ bY]
      rfl

theorem cmpNat_gt {a b : Nat} (h : a > b) : cmpNat a b = 1 := by
  simp [cmpNat, h]

theorem cmpNat_lt {a b : Nat} (h : a < b) : cmpNat a b = -1 := by
  have : ¬ a > b := by omega
  simp [cmpNat, h, this]

theorem cmpNat_eq {a b : Nat} (h : a = b) : cmpNat a b = 0 := by
  simp [cmpNat, h]

theorem canonical_neg_pos (s : Int) (X : cryb_mpi) (hX : Canonical s X)
    (hn : X.neg = true) : 0 < mpi_abs X := by
  rcases Nat.eq_zero_or_pos (mpi_abs X) with h0 | h0
  · have := (hX.2.2.1 h0).2
    rw [hn] at this
    cases this
  · exact h0

theorem sgn_sub_cast (a b : Nat) : sgn ((a : Int) - (b : Int)) = cmpNat a b := by
  unfold sgn cmpNat
  split_ifs <;> first | rfl | (exfalso; omega)

theorem sgn_neg_sub_neg (a b : Nat) :
    sgn (-(a : Int) - -(b : Int)) = -cmpNat a b := by
  unfold sgn cmpNat
  split_ifs <;> first | rfl | (exfalso; omega)

/-- On canonical operands `mpi_cmp` returns the sign of the difference of
the signed values. -/
theorem mpi_cmp_sgn (s : Int) (hs : s ≤ 0) (X Y : cryb_mpi)
    (hX : Canonical s X) (hY : Canonical s Y) :
    mpi_cmp X Y = some (sgn (mpi_val X - mpi_val Y)) := by
  have h := mpi_cmp_abs_cmpNat s hs X Y hX hY
  unfold mpi_cmp mpi_val
  by_cases hx : X.neg = true
  · have px := canonical_neg_pos s X hX hx
    by_cases hy : Y.neg = true
    · rw [if_pos hx, if_pos hy, if_pos hx, if_pos hy, h, sgn_neg_sub_neg]
      rfl
    · rw [if_pos hx, if_neg hy, if_pos hx, if_neg hy]
      congr 1
      unfold sgn
      rw [if_neg (by omega), if_pos (by omega)]
  · by_cases hy : Y.neg = true
    · have py := canonical_neg_pos s Y hY hy
      rw [if_neg hx, if_pos hy, if_neg hx, if_pos hy]
      congr 1
      unfold sgn
      rw [if_pos (by omega)]
    · rw [if_neg hx, if_neg hy, if_neg hx, if_neg hy, h, sgn_sub_cast]

theorem negRes_negRes (r : Option Int) : negRes (negRes r) = r := by
  cases r <;> simp [negRes]

theorem scanWords_swap (A B : cryb_mpi) (n : Nat) :
    scanWords A B n = negRes (scanWords B A n) := by
  induction n with
  | zero => simp [scanWords, negRes]
  | succ n ih =>
    simp only [scanWords]
    cases ha : A.words[n]? with
    | none => cases hb : B.words[n]? <;> simp [negRes]
    | some a =>
      cases hb : B.words[n]? with
      | none => simp [negRes]
      | some b =>
        simp only []
        by_cases h1 : a > b
        · have h2 : ¬ b > a := by omega
          have h3 : b < a := h1
          simp [h1, h2, h3, negRes]
        · by_cases h2 : a < b
          · have h3 : b > a := h2
            simp [h1, h2, h3, negRes]
          · have h3 : ¬ b > a := h2
            have h4 : ¬ b < a := h1
            simp [h1, h2, h3, h4, ih]

theorem mpi_cmp_abs_swap (A B : cryb_mpi) :
    mpi_cmp_abs A B = negRes (mpi_cmp_abs B A) := by
  unfold mpi_cmp_abs
  by_cases h1 : A.msb > B.msb
  · have h2 : ¬ B.msb > A.msb := by omega
    have h3 : B.msb < A.msb := h1
    simp [h1, h2, h3, negRes]
  · by_cases h2 : A.msb < B.msb
    · have h3 : B.msb > A.msb := h2
      simp [h1, h2, h3, negRes]
    · have h3 : ¬ B.msb > A.msb := h2
      have h4 : ¬ B.msb < A.msb := h1
      have e : B.msb = A.msb := by omega
      rw [if_neg h1, if_neg h2, if_neg h3, if_neg h4, e]
      exact scanWords_swap A B _

theorem scanWords_self (A : cryb_mpi) (n : Nat) (h : n ≤ A.words.length) :
    scanWords A A n = some 0 := by
  induction n with
  | zero => rfl
  | succ n ih =>
    have hx : A.words[n]? = some (A.words[n]) := List.getElem?_eq_getElem (by omega)
    simp only [scanWords, hx]
    simp [ih (by omega)]

theorem mpi_abs_mpi_of_u32 (s : Int) (u : Nat) : mpi_abs (mpi_of_u32 s u) = u := by
  simp [mpi_abs, mpi_of_u32, wordsVal]

theorem canonical_one_word (s : Int) (v : Nat) (b : Bool) (hv : v < 4294967296)
    (hb : v = 0 → b = false) :
    Canonical s ⟨[v], if v = 0 then s else (Nat.log2 v : Int), b⟩ := by
  have ha : mpi_abs ⟨[v], if v = 0 then s else (Nat.log2 v : Int), b⟩ = v := by
    simp [mpi_abs, wordsVal]
  refine ⟨?_, ?_, ?_, ?_⟩
  · intro w hw
    simp only [List.mem_singleton] at hw
    omega
  · simp
  · intro h0
    rw [ha] at h0
    simp [h0, hb h0]
  · intro h0
    rw [ha] at h0 ⊢
    simp only [if_neg h0, Int.toNat_ofNat]
    exact ⟨Int.ofNat_nonneg _, Nat.log2_self_le h0, Nat.lt_log2_self⟩

theorem canonical_mpi_of_u32 (s : Int) (u : Nat) (hu : u < 4294967296) :
    Canonical s (mpi_of_u32 s u) :=
  canonical_one_word s u false hu (fun _ => rfl)

theorem mpi_abs_mpi_of_i32 (s : Int) (i : Int) :
    mpi_abs (mpi_of_i32 s i) = i.natAbs := by
  simp [mpi_abs, mpi_of_i32, wordsVal]

theorem canonical_mpi_of_i32 (s : Int) (i : Int)
    (hlo : -2147483648 ≤ i) (hhi : i < 2147483648) :
    Canonical s (mpi_of_i32 s i) := by
  have h := canonical_one_word s i.natAbs (decide (i < 0)) (by omega)
    (fun h0 => by simp; omega)
  have e : (if i.natAbs = 0 then s else (Nat.log2 i.natAbs : Int)) =
      (if i = 0 then s else (Nat.log2 i.natAbs : Int)) := by
    by_cases hi : i = 0
    · simp [hi]
    · have : i.natAbs ≠ 0 := by omega
      simp [hi, this]
  rw [e] at h
  exact h

/-- The MPI built from a native signed integer has that integer as value. -/
theorem mpi_val_mpi_of_i32 (s : Int) (i : Int) : mpi_val (mpi_of_i32 s i) = i := by
  unfold mpi_val
  rw [mpi_abs_mpi_of_i32]
  have hn : (mpi_of_i32 s i).neg = decide (i < 0) := rfl
  rw [hn]
  by_cases hi : i < 0
  · rw [decide_eq_true hi, if_pos rfl]; omega
  · rw [decide_eq_false hi, if_neg (by decide)]; omega

theorem toU32_neg (i : Int) (hlo : -2147483648 ≤ i) (hneg : i < 0) :
    toU32 (-i) = i.natAbs := by
  unfold toU32
  omega

theorem toU32_nonneg (i : Int) (h0 : 0 ≤ i) (hhi : i < 2147483648) :
    toU32 i = i.natAbs := by
  unfold toU32
  omega

/-- The body of `mpi_cmp_abs_u32` after the width test is the three-way
comparison of the low-order word with `u`. -/
theorem mpi_cmp_abs_u32_low (X : cryb_mpi) (u : Nat) (h : X.msb < 32) :
    mpi_cmp_abs_u32 X u = (X.words[0]?).map (fun w => cmpNat w u) := by
  unfold mpi_cmp_abs_u32
  rw [if_neg (by omega)]
  cases X.words[0]? with
  | none => rfl
  | some w =>
    simp only [Option.map, cmpNat]
    by_cases h1 : w > u
    · have h2 : w ≠ u := by omega
      simp [h1, h2]
    · by_cases h2 : w < u
      · have h3 : w ≠ u := by omega
        simp [h1, h2, h3]
      · have h3 : w = u := by omega
        simp [h3]

/-- On a canonical operand `mpi_cmp_abs_u32` returns the three-way
comparison of the magnitude with `u`. -/
theorem mpi_cmp_abs_u32_cmpNat (s : Int) (hs : s ≤ 0) (X : cryb_mpi) (u : Nat)
    (hX : Canonical s X) (hu : u < 4294967296) :
    mpi_cmp_abs_u32 X u = some (cmpNat (mpi_abs X) u) := by
  obtain ⟨hw, hne, hz, hnz⟩ := hX
  by_cases hm : X.msb ≥ 32
  · have h0 : mpi_abs X ≠ 0 := by
      intro h0
      have := (hz h0).1
      omega
    obtain ⟨_, hlo, _⟩ := hnz h0
    have : (2 : Nat) ^ 32 ≤ 2 ^ X.msb.toNat :=
      Nat.pow_le_pow_right (by decide) (by omega)
    have e : (2 : Nat) ^ 32 = 4294967296 := by norm_num
    unfold mpi_cmp_abs_u32
    rw [if_pos hm, cmpNat_gt (by omega)]
  · have hlt : mpi_abs X < 4294967296 := by
      by_cases h0 : mpi_abs X = 0
      · omega
      · obtain ⟨hp, _, hhi⟩ := hnz h0
        have : (2 : Nat) ^ (X.msb.toNat + 1) ≤ 2 ^ 32 :=
          Nat.pow_le_pow_right (by decide) (by omega)
        have e : (2 : Nat) ^ 32 = 4294967296 := by norm_num
        omega
    rw [mpi_cmp_abs_u32_low X u (by omega)]
    unfold mpi_abs at hlt ⊢
    cases hwords : X.words with
    | nil => exact absurd hwords hne
    | cons w ws =>
      rw [hwords] at hlt
      simp only [wordsVal] at hlt ⊢
      have : wordsVal ws = 0 := by omega
      simp [this]

theorem scanWords_congr (X X' Y Y' : cryb_mpi) (n : Nat)
    (hX : ∀ k, k < n → X.words[k]? = X'.words[k]?)
    (hY : ∀ k, k < n → Y.words[k]? = Y'.words[k]?) :
    scanWords X Y n = scanWords X' Y' n := by
  induction n with
  | zero => rfl
  | succ n ih =>
    simp only [scanWords]
    rw [hX n (by omega), hY n (by omega),
      ih (fun k hk => hX k (by omega)) (fun k hk => hY k (by omega))]

theorem mpi_cmp_abs_congr (X X' Y Y' : cryb_mpi)
    (hX : SameUpToCapacity X X') (hY : SameUpToCapacity Y Y') :
    mpi_cmp_abs X Y = mpi_cmp_abs X' Y' := by
  obtain ⟨_, hmX, hwX⟩ := hX
  obtain ⟨_, hmY, hwY⟩ := hY
  unfold mpi_cmp_abs
  rw [← hmX, ← hmY]
  by_cases h1 : X.msb > Y.msb
  · rw [if_pos h1, if_pos h1]
  · rw [if_neg h1, if_neg h1]
    by_cases h2 : X.msb < Y.msb
    · rw [if_pos h2, if_pos h2]
    · rw [if_neg h2, if_neg h2]
      have e : Y.msb = X.msb := by omega
      apply scanWords_congr
      · intro k hk
        exact hwX k (by omega)
      · intro k hk
        exact hwY k (by rw [e]; omega)

theorem mpi_cmp_abs_u32_congr (X X' : cryb_mpi) (u : Nat)
    (hX : SameUpToCapacity X X') :
    mpi_cmp_abs_u32 X u = mpi_cmp_abs_u32 X' u := by
  obtain ⟨_, hm, hw⟩ := hX
  unfold mpi_cmp_abs_u32
  rw [← hm, ← hw 0 (Nat.zero_le _)]

/-- Dependence on the sentinel: were the value stored in `msb` for zero a
positive number, `mpi_cmp_abs` would rank zero above one. -/
theorem mpi_cmp_abs_zero_one_pos_sentinel (s : Int) (hs : 0 < s) :
    Canonical s ⟨[0], s, false⟩ ∧ Canonical s ⟨[1], 0, false⟩ ∧
    mpi_cmp_abs ⟨[0], s, false⟩ ⟨[1], 0, false⟩ = some 1 := by
  refine ⟨?_, ?_, ?_⟩
  · refine ⟨?_, ?_, fun _ => ⟨rfl, rfl⟩, fun h => absurd rfl h⟩
    · intro w hw
      simp only [List.mem_singleton] at hw
      omega
    · simp
  · refine ⟨by decide, by decide, fun h => ?_, fun _ => by decide⟩
    exact absurd h (by decide)
  · simp [mpi_cmp_abs, hs]

/-- Dependence on the sentinel: were the value stored in `msb` for zero at
least `32`, `mpi_cmp_abs_u32` would rank zero above every native integer. -/
theorem mpi_cmp_abs_u32_zero_wide_sentinel (s : Int) (hs : 32 ≤ s) (u : Nat) :
    mpi_cmp_abs_u32 ⟨[0], s, false⟩ u = some 1 := by
  simp [mpi_cmp_abs_u32, hs]

/-! ## Claims -/

/-- C1: for all canonical MPIs `X` and `Y` (zero sentinel `s ≤ 0`),
`mpi_cmp_abs X Y` returns `1` if `|X| > |Y|`, `-1` if `|X| < |Y|` and `0` if
`|X| = |Y|`, where `|.|` is the number encoded by the words, least
significant word first. -/
theorem mpi_cmp_abs_correct (s : Int) (hs : s ≤ 0) (X Y : cryb_mpi)
    (hX : Canonical s X) (hY : Canonical s Y) :
    (mpi_abs X > mpi_abs Y → mpi_cmp_abs X Y = some 1) ∧
    (mpi_abs X < mpi_abs Y → mpi_cmp_abs X Y = some (-1)) ∧
    (mpi_abs X = mpi_abs Y → mpi_cmp_abs X Y = some 0) := by
  have h := mpi_cmp_abs_cmpNat s hs X Y hX hY
  refine ⟨fun c => ?_, fun c => ?_, fun c => ?_⟩
  · rw [h, cmpNat_gt c]
  · rw [h, cmpNat_lt c]
  · rw [h, cmpNat_eq c]

theorem mpi_cmp_abs_correct_witness :
    Canonical (-1) ⟨[7, 1], 32, false⟩ ∧ Canonical (-1) ⟨[9, 1], 32, true⟩ ∧
    (mpi_abs ⟨[7, 1], 32, false⟩ > mpi_abs ⟨[9, 1], 32, true⟩ →
      mpi_cmp_abs ⟨[7, 1], 32, false⟩ ⟨[9, 1], 32, true⟩ = some 1) ∧
    (mpi_abs ⟨[7, 1], 32, false⟩ < mpi_abs ⟨[9, 1], 32, true⟩ →
      mpi_cmp_abs ⟨[7, 1], 32, false⟩ ⟨[9, 1], 32, true⟩ = some (-1)) ∧
    (mpi_abs ⟨[7, 1], 32, false⟩ = mpi_abs ⟨[9, 1], 32, true⟩ →
      mpi_cmp_abs ⟨[7, 1], 32, false⟩ ⟨[9, 1], 32, true⟩ = some 0) :=
  ⟨by decide, by decide,
    mpi_cmp_abs_correct (-1) (by decide) ⟨[7, 1], 32, false⟩ ⟨[9, 1], 32, true⟩
      (by decide) (by decide)⟩

/-- C2: for all canonical MPIs `X` and `Y` (zero sentinel `s ≤ 0`),
`mpi_cmp X Y` returns the sign of `value X - value Y`; opposite signs decide
immediately, and equal signs give `mpi_cmp_abs X Y`, negated when both are
negative. -/
theorem mpi_cmp_correct (s : Int) (hs : s ≤ 0) (X Y : cryb_mpi)
    (hX : Canonical s X) (hY : Canonical s Y) :
    mpi_cmp X Y = some (sgn (mpi_val X - mpi_val Y)) ∧
    (X.neg = true → Y.neg = false → mpi_cmp X Y = some (-1)) ∧
    (X.neg = false → Y.neg = true → mpi_cmp X Y = some 1) ∧
    (X.neg = false → Y.neg = false → mpi_cmp X Y = mpi_cmp_abs X Y) ∧
    (X.neg = true → Y.neg = true → mpi_cmp X Y = negRes (mpi_cmp_abs X Y)) := by
  refine ⟨mpi_cmp_sgn s hs X Y hX hY, ?_, ?_, ?_, ?_⟩ <;>
    · intro hx hy
      simp [mpi_cmp, hx, hy]

theorem mpi_cmp_correct_witness :
    Canonical (-1) ⟨[7, 1], 32, true⟩ ∧ Canonical (-1) ⟨[9, 1], 32, true⟩ ∧
    mpi_cmp ⟨[7, 1], 32, true⟩ ⟨[9, 1], 32, true⟩ =
      some (sgn (mpi_val ⟨[7, 1], 32, true⟩ - mpi_val ⟨[9, 1], 32, true⟩)) :=
  ⟨by decide, by decide,
    (mpi_cmp_correct (-1) (by decide) ⟨[7, 1], 32, true⟩ ⟨[9, 1], 32, true⟩
      (by decide) (by decide)).1⟩

/-- C3: for all MPIs `A` and `B`, `mpi_cmp A B` is the negation of
`mpi_cmp B A`, and likewise `mpi_cmp_abs A B` is the negation of
`mpi_cmp_abs B A`. -/
theorem mpi_cmp_antisymm (A B : cryb_mpi) :
    mpi_cmp A B = negRes (mpi_cmp B A) ∧
    mpi_cmp_abs A B = negRes (mpi_cmp_abs B A) := by
  refine ⟨?_, mpi_cmp_abs_swap A B⟩
  unfold mpi_cmp
  cases A.neg <;> cases B.neg
  · simpa using mpi_cmp_abs_swap A B
  · simp [negRes]
  · simp [negRes]
  · simp only [if_true]
    rw [mpi_cmp_abs_swap B A, negRes_negRes]

/-- C4: for every MPI `A` whose buffer holds the `msb / 32 + 1` words that
`msb` implies, `mpi_cmp A A` returns `0`, whatever the sign of `A`. -/
theorem mpi_cmp_self (A : cryb_mpi)
    (h : A.msb.tdiv 32 < (A.words.length : Int)) :
    mpi_cmp A A = some 0 := by
  have h1 : scanWords A A (A.msb.tdiv 32 + 1).toNat = some 0 :=
    scanWords_self A _ (by omega)
  have h2 : mpi_cmp_abs A A = some 0 := by
    simp [mpi_cmp_abs, h1]
  unfold mpi_cmp
  cases A.neg <;> simp [h2, negRes]

theorem mpi_cmp_self_witness :
    Int.tdiv 32 32 < ((2 : Nat) : Int) ∧
    mpi_cmp ⟨[7, 1], 32, true⟩ ⟨[7, 1], 32, true⟩ = some 0 :=
  ⟨by decide, mpi_cmp_self ⟨[7, 1], 32, true⟩ (by decide)⟩

/-- C5: for every canonical MPI `X` (zero sentinel `s ≤ 0`) and every 32-bit
unsigned `u`, `mpi_cmp_u32 X u` equals `mpi_cmp X U`, where `U` is the
canonical non-negative MPI whose value is `u`. -/
theorem mpi_cmp_u32_eq_mpi_cmp (s : Int) (hs : s ≤ 0) (X : cryb_mpi) (u : Nat)
    (hX : Canonical s X) (hu : u < 4294967296) :
    Canonical s (mpi_of_u32 s u) ∧ mpi_val (mpi_of_u32 s u) = (u : Int) ∧
    mpi_cmp_u32 X u = mpi_cmp X (mpi_of_u32 s u) := by
  have hU := canonical_mpi_of_u32 s u hu
  refine ⟨hU, ?_, ?_⟩
  · have hn : (mpi_of_u32 s u).neg = false := rfl
    unfold mpi_val
    rw [hn, mpi_abs_mpi_of_u32]
    rfl
  · have h1 := mpi_cmp_abs_u32_cmpNat s hs X u hX hu
    have h2 := mpi_cmp_abs_cmpNat s hs X (mpi_of_u32 s u) hX hU
    rw [mpi_abs_mpi_of_u32] at h2
    have hn : (mpi_of_u32 s u).neg = false := rfl
    unfold mpi_cmp_u32 mpi_cmp
    rw [hn, h1, h2]
    cases X.neg <;> simp

theorem mpi_cmp_u32_eq_mpi_cmp_witness :
    Canonical (-1) ⟨[7, 1], 32, false⟩ ∧
    mpi_cmp_u32 ⟨[7, 1], 32, false⟩ 4294967295 =
      mpi_cmp ⟨[7, 1], 32, false⟩ (mpi_of_u32 (-1) 4294967295) :=
  ⟨by decide,
    (mpi_cmp_u32_eq_mpi_cmp (-1) (by decide) ⟨[7, 1], 32, false⟩ 4294967295
      (by decide) (by decide)).2.2⟩

/-- C6: for every canonical MPI `X` (zero sentinel `s ≤ 0`) and every 32-bit
signed `i`, including `i = -2 ^ 31`, `mpi_cmp_i32 X i` equals `mpi_cmp X I`,
where `I` is the canonical MPI whose value is `i`; in particular for every
non-negative `X` and every negative `i` the result is `1`. -/
theorem mpi_cmp_i32_eq_mpi_cmp (s : Int) (hs : s ≤ 0) (X : cryb_mpi) (i : Int)
    (hX : Canonical s X) (hlo : -2147483648 ≤ i) (hhi : i < 2147483648) :
    Canonical s (mpi_of_i32 s i) ∧ mpi_val (mpi_of_i32 s i) = i ∧
    mpi_cmp_i32 X i = mpi_cmp X (mpi_of_i32 s i) ∧
    (X.neg = false → i < 0 → mpi_cmp_i32 X i = some 1) := by
  have hI := canonical_mpi_of_i32 s i hlo hhi
  refine ⟨hI, mpi_val_mpi_of_i32 s i, ?_, ?_⟩
  · have h1 := mpi_cmp_abs_u32_cmpNat s hs X i.natAbs hX (by omega)
    have h2 := mpi_cmp_abs_cmpNat s hs X (mpi_of_i32 s i) hX hI
    rw [mpi_abs_mpi_of_i32] at h2
    have hn : (mpi_of_i32 s i).neg = decide (i < 0) := rfl
    unfold mpi_cmp_i32 mpi_cmp
    rw [hn, h2]
    by_cases hi : i < 0
    · rw [toU32_neg i hlo hi, h1, decide_eq_true hi]
      cases X.neg <;> simp [hi]
    · rw [toU32_nonneg i (by omega) hhi, h1, decide_eq_false hi]
      cases X.neg <;> simp [hi]
  · intro hx hi
    simp [mpi_cmp_i32, hx, hi]

theorem mpi_cmp_i32_eq_mpi_cmp_witness :
    Canonical (-1) ⟨[2147483648], 31, true⟩ ∧
    mpi_cmp_i32 ⟨[2147483648], 31, true⟩ (-2147483648) =
      mpi_cmp ⟨[2147483648], 31, true⟩ (mpi_of_i32 (-1) (-2147483648)) :=
  ⟨by decide,
    (mpi_cmp_i32_eq_mpi_cmp (-1) (by decide) ⟨[2147483648], 31, true⟩ (-2147483648)
      (by decide) (by decide) (by decide)).2.2.1⟩

/-- C7: for every canonical MPI `X` (zero sentinel `s ≤ 0`) and every 32-bit
unsigned `u`, `mpi_cmp_abs_u32 X u` returns `1` if `|X| > u`, `-1` if
`|X| < u` and `0` if `|X| = u`; when `msb ≥ 32` the result is `1`, otherwise
it is the comparison of the low-order word `words[0]` with `u`. -/
theorem mpi_cmp_abs_u32_correct (s : Int) (hs : s ≤ 0) (X : cryb_mpi) (u : Nat)
    (hX : Canonical s X) (hu : u < 4294967296) :
    (mpi_abs X > u → mpi_cmp_abs_u32 X u = some 1) ∧
    (mpi_abs X < u → mpi_cmp_abs_u32 X u = some (-1)) ∧
    (mpi_abs X = u → mpi_cmp_abs_u32 X u = some 0) ∧
    (32 ≤ X.msb → mpi_cmp_abs_u32 X u = some 1) ∧
    (X.msb < 32 →
      ∃ w, X.words[0]? = some w ∧ mpi_cmp_abs_u32 X u = some (cmpNat w u)) := by
  have h := mpi_cmp_abs_u32_cmpNat s hs X u hX hu
  refine ⟨fun c => ?_, fun c => ?_, fun c => ?_, fun c => ?_, fun c => ?_⟩
  · rw [h, cmpNat_gt c]
  · rw [h, cmpNat_lt c]
  · rw [h, cmpNat_eq c]
  · simp [mpi_cmp_abs_u32, c]
  · rw [mpi_cmp_abs_u32_low X u c]
    cases hwords : X.words with
    | nil => exact absurd hwords hX.2.1
    | cons w ws => exact ⟨w, by simp, by simp⟩

theorem mpi_cmp_abs_u32_correct_witness :
    Canonical (-1) ⟨[7, 0], 2, true⟩ ∧
    (mpi_abs ⟨[7, 0], 2, true⟩ < 9 → mpi_cmp_abs_u32 ⟨[7, 0], 2, true⟩ 9 = some (-1)) :=
  ⟨by decide,
    (mpi_cmp_abs_u32_correct (-1) (by decide) ⟨[7, 0], 2, true⟩ 9
      (by decide) (by decide)).2.1⟩

/-- C8 (counterexample): the canonical MPI of value `-2 ^ 32` has `msb = 32`,
yet `mpi_cmp_u32` against `0` returns `-1`, not `1`. -/
theorem mpi_cmp_u32_wide_negative :
    Canonical (-1) ⟨[0, 1], 32, true⟩ ∧
    (32 : Int) ≤ (⟨[0, 1], 32, true⟩ : cryb_mpi).msb ∧
    mpi_cmp_u32 ⟨[0, 1], 32, true⟩ 0 = some (-1) ∧
    mpi_cmp_u32 ⟨[0, 1], 32, true⟩ 0 ≠ some 1 := by
  decide

/-- C8 (amended): for every non-negative MPI `X` with `msb ≥ 32` and every
32-bit unsigned `u`, `mpi_cmp_u32 X u` returns `1`. -/
theorem mpi_cmp_u32_wide (X : cryb_mpi) (u : Nat)
    (hn : X.neg = false) (hm : 32 ≤ X.msb) :
    mpi_cmp_u32 X u = some 1 := by
  simp [mpi_cmp_u32, mpi_cmp_abs_u32, hn, hm]

theorem mpi_cmp_u32_wide_witness :
    mpi_cmp_u32 ⟨[0, 1], 32, false⟩ 4294967295 = some 1 :=
  mpi_cmp_u32_wide ⟨[0, 1], 32, false⟩ 4294967295 rfl (by decide)

/-- C9: for the canonical zero MPI `Z` (sign false, all words zero, `msb`
equal to the sentinel `s`, where `s < 32`), `mpi_cmp_u32 Z 0` returns `0`
and `mpi_cmp_u32 Z u` returns `-1` for every `u > 0`; the width test
`msb ≥ 32` is not taken. -/
theorem mpi_cmp_u32_zero (s : Int) (hs : s < 32) (Z : cryb_mpi)
    (hneg : Z.neg = false) (hw : ∀ w ∈ Z.words, w = 0) (hne : Z.words ≠ [])
    (hm : Z.msb = s) :
    mpi_cmp_u32 Z 0 = some 0 ∧
    (∀ u : Nat, 0 < u → mpi_cmp_u32 Z u = some (-1)) ∧
    ¬ (Z.msb ≥ 32) := by
  have hlt : Z.msb < 32 := by omega
  have h0 : Z.words[0]? = some 0 := by
    cases hwords : Z.words with
    | nil => exact absurd hwords hne
    | cons w ws =>
      have : w = 0 := hw w (by simp [hwords])
      simp [this]
  refine ⟨?_, ?_, by omega⟩
  · unfold mpi_cmp_u32
    rw [hneg, mpi_cmp_abs_u32_low Z 0 hlt, h0]
    rfl
  · intro u hu
    unfold mpi_cmp_u32
    rw [hneg, mpi_cmp_abs_u32_low Z u hlt, h0]
    simp [cmpNat_lt hu]

theorem mpi_cmp_u32_zero_witness :
    Canonical (-1) ⟨[0, 0], -1, false⟩ ∧
    mpi_cmp_u32 ⟨[0, 0], -1, false⟩ 0 = some 0 ∧
    mpi_cmp_u32 ⟨[0, 0], -1, false⟩ 5 = some (-1) :=
  have h := mpi_cmp_u32_zero (-1) (by decide) ⟨[0, 0], -1, false⟩ rfl
    (by decide) (by decide) rfl
  ⟨by decide, h.1, h.2.1 5 (by decide)⟩

/-- C10: capacity is not observable through comparison. If `X` and `X'`
have the same sign, the same `msb` and the same words at indices
`0 .. msb / 32`, and likewise `Y` and `Y'`, then `mpi_cmp` and `mpi_cmp_abs`
give the same result on `(X, Y)` and `(X', Y')`, and `mpi_cmp_u32` and
`mpi_cmp_i32` give the same result on `X` and `X'` for every native
argument. -/
theorem capacity_not_observable (X X' Y Y' : cryb_mpi)
    (hX : SameUpToCapacity X X') (hY : SameUpToCapacity Y Y') :
    mpi_cmp X Y = mpi_cmp X' Y' ∧
    mpi_cmp_abs X Y = mpi_cmp_abs X' Y' ∧
    (∀ u : Nat, mpi_cmp_u32 X u = mpi_cmp_u32 X' u) ∧
    (∀ i : Int, mpi_cmp_i32 X i = mpi_cmp_i32 X' i) := by
  have ha := mpi_cmp_abs_congr X X' Y Y' hX hY
  refine ⟨?_, ha, ?_, ?_⟩
  · unfold mpi_cmp
    rw [← hX.1, ← hY.1, ha]
  · intro u
    unfold mpi_cmp_u32
    rw [← hX.1, mpi_cmp_abs_u32_congr X X' u hX]
  · intro i
    unfold mpi_cmp_i32
    rw [← hX.1, mpi_cmp_abs_u32_congr X X' _ hX, mpi_cmp_abs_u32_congr X X' _ hX]

theorem sameUpToCapacity_example_wide :
    SameUpToCapacity ⟨[7, 1], 32, false⟩ ⟨[7, 1, 0, 0], 32, false⟩ := by
  refine ⟨rfl, rfl, ?_⟩
  intro i hi
  have h1 : (Int.tdiv 32 32).toNat = 1 := by decide
  simp only [h1] at hi
  interval_cases i <;> rfl

theorem sameUpToCapacity_example_small :
    SameUpToCapacity ⟨[9], 3, true⟩ ⟨[9, 0], 3, true⟩ := by
  refine ⟨rfl, rfl, ?_⟩
  intro i hi
  have h1 : (Int.tdiv 3 32).toNat = 0 := by decide
  simp only [h1] at hi
  interval_cases i
  rfl

theorem capacity_not_observable_witness :
    mpi_cmp ⟨[7, 1], 32, false⟩ ⟨[9], 3, true⟩ =
        mpi_cmp ⟨[7, 1, 0, 0], 32, false⟩ ⟨[9, 0], 3, true⟩ ∧
    mpi_cmp_abs ⟨[7, 1], 32, false⟩ ⟨[9], 3, true⟩ =
        mpi_cmp_abs ⟨[7, 1, 0, 0], 32, false⟩ ⟨[9, 0], 3, true⟩ :=
  have h := capacity_not_observable ⟨[7, 1], 32, false⟩ ⟨[7, 1, 0, 0], 32, false⟩
    ⟨[9], 3, true⟩ ⟨[9, 0], 3, true⟩
    sameUpToCapacity_example_wide sameUpToCapacity_example_small
  ⟨h.1, h.2.1⟩

/-! ## Loops -/

theorem whileLoop_done {σ : Type} (cond : σ → Bool) (body : σ → σ) (n : Nat) (s : σ)
    (h : cond s = false) : whileLoop cond body n s = some s := by
  cases n <;> simp [whileLoop, h]

theorem whileLoop_step {σ : Type} (cond : σ → Bool) (body : σ → σ) (n : Nat) (s : σ)
    (h : cond s = true) :
    whileLoop cond body (n + 1) s = whileLoop cond body n (body s) := by
  simp [whileLoop, h]

/-- A loop that ends within `n` iterations ends with the same state within
any larger bound. -/
theorem whileLoop_mono {σ : Type} (cond : σ → Bool) (body : σ → σ) (n m : Nat) (s r : σ)
    (h : whileLoop cond body n s = some r) (hnm : n ≤ m) :
    whileLoop cond body m s = some r := by
  induction n generalizing s m with
  | zero =>
    cases hc : cond s with
    | true => simp [whileLoop, hc] at h
    | false =>
      rw [whileLoop_done cond body 0 s hc] at h
      rw [whileLoop_done cond body m s hc]
      exact h
  | succ n ih =>
    cases hc : cond s with
    | false =>
      rw [whileLoop_done cond body _ s hc] at h
      rw [whileLoop_done cond body m s hc]
      exact h
    | true =>
      obtain ⟨m', rfl⟩ : ∃ m', m = m' + 1 := ⟨m - 1, by omega⟩
      rw [whileLoop_step cond body _ s hc] at h ⊢
      exact ih m' (body s) h (by omega)

theorem loopEnds_done {σ : Type} {cond : σ → Bool} {body : σ → σ} {s : σ}
    (h : cond s = false) : LoopEnds cond body s s :=
  ⟨0, whileLoop_done cond body 0 s h⟩

theorem loopEnds_step {σ : Type} {cond : σ → Bool} {body : σ → σ} {s r : σ}
    (h : cond s = true) (hr : LoopEnds cond body (body s) r) : LoopEnds cond body s r := by
  obtain ⟨n, hn⟩ := hr
  exact ⟨n + 1, by rw [whileLoop_step cond body n s h]; exact hn⟩

theorem loopEnds_of_step {σ : Type} {cond : σ → Bool} {body : σ → σ} {s r : σ}
    (h : cond s = true) (hr : LoopEnds cond body s r) : LoopEnds cond body (body s) r := by
  obtain ⟨n, hn⟩ := hr
  cases n with
  | zero => simp [whileLoop, h] at hn
  | succ n => exact ⟨n, by rw [whileLoop_step cond body n s h] at hn; exact hn⟩

theorem loopEnds_of_done {σ : Type} {cond : σ → Bool} {body : σ → σ} {s r : σ}
    (h : cond s = false) (hr : LoopEnds cond body s r) : r = s := by
  obtain ⟨n, hn⟩ := hr
  rw [whileLoop_done cond body n s h] at hn
  exact (Option.some.inj hn).symm

theorem loopEnds_unique {σ : Type} {cond : σ → Bool} {body : σ → σ} {s r r' : σ}
    (h : LoopEnds cond body s r) (h' : LoopEnds cond body s r') : r = r' := by
  obtain ⟨n, hn⟩ := h
  obtain ⟨m, hm⟩ := h'
  have h1 := whileLoop_mono cond body n (max n m) s r hn (Nat.le_max_left _ _)
  have h2 := whileLoop_mono cond body m (max n m) s r' hm (Nat.le_max_right _ _)
  rw [h1] at h2
  exact Option.some.inj h2

/-- A loop whose body decreases a measure, while an invariant holds, ends
within as many iterations as the measure allows. -/
theorem whileLoop_terminates {σ : Type} (cond : σ → Bool) (body : σ → σ)
    (Inv : σ → Prop) (μ : σ → Nat)
    (hstep : ∀ s, Inv s → cond s = true → Inv (body s) ∧ μ (body s) < μ s)
    (n : Nat) (s : σ) (hI : Inv s) (hn : μ s ≤ n) :
    ∃ r, whileLoop cond body n s = some r ∧ Inv r ∧ cond r = false := by
  induction n generalizing s with
  | zero =>
    cases hc : cond s with
    | true =>
      have := (hstep s hI hc).2
      omega
    | false => exact ⟨s, whileLoop_done cond body 0 s hc, hI, hc⟩
  | succ n ih =>
    cases hc : cond s with
    | false => exact ⟨s, whileLoop_done cond body _ s hc, hI, hc⟩
    | true =>
      obtain ⟨hI', hμ⟩ := hstep s hI hc
      obtain ⟨r, hr, hIr, hcr⟩ := ih (body s) hI' (by omega)
      exact ⟨r, by rw [whileLoop_step cond body n s hc]; exact hr, hIr, hcr⟩

theorem whileLoop_of_ends {σ : Type} {cond : σ → Bool} {body : σ → σ} {s r : σ}
    (h : LoopEnds cond body s r) (n : Nat) (r' : σ)
    (hn : whileLoop cond body n s = some r') : r' = r :=
  loopEnds_unique ⟨n, hn⟩ h

theorem length_memcpyAt (dst : List Nat) (off : Nat) (src : List Nat) (n : Nat)
    (h1 : off + n ≤ dst.length) (h2 : n ≤ src.length) :
    (memcpyAt dst off src n).length = dst.length := by
  simp [memcpyAt, List.length_take, List.length_drop]
  omega

theorem memcpyAt_memcpyAt (dst : List Nat) (off : Nat) (a b : List Nat) (n : Nat)
    (h1 : off + a.length + n ≤ dst.length) :
    memcpyAt (memcpyAt dst off a a.length) (off + a.length) b n =
      memcpyAt dst off (a ++ b) (a.length + n) := by
  unfold memcpyAt
  have e1 : List.take (off + a.length)
      (List.take off dst ++ List.take a.length a ++ List.drop (off + a.length) dst) =
      List.take off dst ++ a := by
    rw [List.take_append_eq_append_take]
    simp [List.length_take]
    have : min off dst.length = off := by omega
    rw [this]
    simp
  have e2 : List.drop (off + a.length + n)
      (List.take off dst ++ List.take a.length a ++ List.drop (off + a.length) dst) =
      List.drop (off + (a.length + n)) dst := by
    rw [List.drop_append_eq_append_drop]
    simp [List.length_take]
    have : min off dst.length = off := by omega
    rw [this]
    have e3 : off + a.length + n - (off + a.length) = n := by omega
    have e4 : List.drop (off + a.length + n) (List.take off dst ++ a) = [] := by
      apply List.drop_eq_nil_of_le
      simp [List.length_take]
      omega
    rw [e4, e3]
    simp [List.drop_drop]
    congr 1
    omega
  rw [e1, e2]
  have e5 : List.take (a.length + n) (a ++ b) = a ++ List.take n b := by
    rw [List.take_append_eq_append_take]
    simp
  rw [e5]
  simp [List.append_assoc]

/-! ## Loops that consume an input in pieces -/

/-- A loop over a context and the rest of an input, running while input
remains, ends after at most as many iterations as there are input bytes
when each iteration consumes at least one byte. -/
theorem consume_ends {C : Type} (cond : C × List Nat → Bool) (body : C × List Nat → C × List Nat)
    (Inv : C → Prop)
    (hcond : ∀ c l, cond (c, l) = true ↔ l ≠ [])
    (hstep : ∀ c l, Inv c → l ≠ [] → Inv (body (c, l)).1 ∧ (body (c, l)).2.length < l.length)
    (ctx : C) (input : List Nat) (hI : Inv ctx) :
    ∃ r, whileLoop cond body (input.length + 1) (ctx, input) = some (r, []) ∧ Inv r ∧
      LoopEnds cond body (ctx, input) (r, []) := by
  obtain ⟨r, hr, hIr, hc⟩ := whileLoop_terminates cond body (fun p => Inv p.1)
    (fun p => p.2.length)
    (fun s hI hc => by
      have hne : s.2 ≠ [] := (hcond s.1 s.2).mp hc
      exact hstep s.1 s.2 hI hne)
    (input.length + 1) (ctx, input) hI (Nat.le_succ _)
  have h2 : r.2 = [] := by
    by_contra hne
    have := (hcond r.1 r.2).mpr hne
    rw [show (r.1, r.2) = r from rfl, hc] at this
    cases this
  have e : r = (r.1, []) := Prod.ext rfl h2
  rw [e] at hr
  exact ⟨r.1, hr, hIr, ⟨_, hr⟩⟩

/-- Absorbing `a ++ b` ends in the state reached by absorbing `a` and then
`b`, provided one iteration on `a ++ b` either is the iteration on `a` (the
piece taken lies inside `a`) or, when `a` is used up in one iteration, is
the iteration on `b` from the state after `a`. -/
theorem consume_append {C : Type} (cond : C × List Nat → Bool)
    (body : C × List Nat → C × List Nat) (Inv : C → Prop)
    (hcond : ∀ c l, cond (c, l) = true ↔ l ≠ [])
    (hstep : ∀ c l, Inv c → l ≠ [] → Inv (body (c, l)).1 ∧ (body (c, l)).2.length < l.length)
    (hsplit : ∀ c a b, Inv c → a ≠ [] →
      body (c, a ++ b) = ((body (c, a)).1, (body (c, a)).2 ++ b) ∨
      ((body (c, a)).2 = [] ∧ (b ≠ [] → body (c, a ++ b) = body ((body (c, a)).1, b))))
    (n : Nat) :
    ∀ (a : List Nat) (ctx : C) (b : List Nat) (r1 : C) (r2 : C × List Nat),
      a.length ≤ n → Inv ctx →
      LoopEnds cond body (ctx, a) (r1, []) → LoopEnds cond body (r1, b) r2 →
      LoopEnds cond body (ctx, a ++ b) r2 := by
  have hnil : ∀ c, cond (c, []) = false := by
    intro c
    cases h : cond (c, []) with
    | false => rfl
    | true => exact absurd rfl ((hcond c []).mp h)
  induction n with
  | zero =>
    intro a ctx b r1 r2 hn hI h1 h2
    have ha : a = [] := List.length_eq_zero.mp (by omega)
    subst ha
    have e := loopEnds_of_done (hnil ctx) h1
    have e1 : r1 = ctx := congrArg Prod.fst e
    subst e1
    simpa using h2
  | succ n ih =>
    intro a ctx b r1 r2 hn hI h1 h2
    by_cases ha : a = []
    · subst ha
      have e := loopEnds_of_done (hnil ctx) h1
      have e1 : r1 = ctx := congrArg Prod.fst e
      subst e1
      simpa using h2
    · have hca := (hcond ctx a).mpr ha
      have hcab := (hcond ctx (a ++ b)).mpr (by simp [ha])
      have h1' := loopEnds_of_step hca h1
      obtain ⟨i1, i2⟩ := hstep ctx a hI ha
      rcases hsplit ctx a b hI ha with hlong | ⟨hend, hmerge⟩
      · apply loopEnds_step hcab
        rw [hlong]
        exact ih _ _ b r1 r2 (by omega) i1 h1' h2
      · have hdone := loopEnds_of_done
          (show cond (body (ctx, a)) = false by
            rw [show body (ctx, a) = ((body (ctx, a)).1, (body (ctx, a)).2) from rfl, hend]
            exact hnil _) h1'
        have er : r1 = (body (ctx, a)).1 := congrArg Prod.fst hdone
        by_cases hbn : b = []
        · subst hbn
          have e2 := loopEnds_of_done (hnil r1) h2
          rw [e2]
          simpa using h1
        · have hcb := (hcond r1 b).mpr hbn
          have h2' := loopEnds_of_step hcb h2
          apply loopEnds_step hcab
          rw [hmerge hbn, ← er]
          exact h2'

/-! ## MD2: streaming -/

theorem md2_body_long (ctx : md2_ctx) (a b : List Nat) (hl : ctx.left < 16)
    (h : 16 - ctx.left ≤ a.length) :
    md2_update_body (ctx, a ++ b) =
      ((md2_update_body (ctx, a)).1, (md2_update_body (ctx, a)).2 ++ b) := by
  have hf1 : (if ctx.left + (a ++ b).length > 16 then 16 - ctx.left else (a ++ b).length) =
      16 - ctx.left := by
    rw [List.length_append]
    split <;> omega
  have hf2 : (if ctx.left + a.length > 16 then 16 - ctx.left else a.length) =
      16 - ctx.left := by
    split <;> omega
  have ht : List.take (16 - ctx.left) (a ++ b) = List.take (16 - ctx.left) a :=
    List.take_append_of_le_length h
  have hd : List.drop (16 - ctx.left) (a ++ b) = List.drop (16 - ctx.left) a ++ b :=
    List.drop_append_of_le_length h
  simp only [md2_update_body, hf1, hf2, memcpyAt, ht, hd]
  split <;> rfl

theorem md2_body_short (ctx : md2_ctx) (a : List Nat) (h : ctx.left + a.length < 16) :
    md2_update_body (ctx, a) =
      ({ ctx with
          buffer := memcpyAt ctx.buffer ctx.left a a.length
          left := ctx.left + a.length }, []) := by
  have hf : (if ctx.left + a.length > 16 then 16 - ctx.left else a.length) = a.length := by
    split <;> omega
  simp only [md2_update_body, hf]
  rw [if_neg (show ¬ (ctx.left + a.length = 16) by omega)]
  simp

theorem md2_body_merge (ctx : md2_ctx) (a b : List Nat) (hb : ctx.buffer.length = 16)
    (h : ctx.left + a.length < 16) (hne : b ≠ []) :
    md2_update_body (ctx, a ++ b) =
      md2_update_body ((md2_update_body (ctx, a)).1, b) := by
  rw [md2_body_short ctx a h]
  have hbl : 0 < b.length := List.length_pos.mpr hne
  by_cases hc : ctx.left + a.length + b.length > 16
  · have hf1 : (if ctx.left + (a ++ b).length > 16 then 16 - ctx.left else (a ++ b).length) =
        a.length + (16 - (ctx.left + a.length)) := by
      rw [List.length_append]
      split <;> omega
    have hm := memcpyAt_memcpyAt ctx.buffer ctx.left a b (16 - (ctx.left + a.length))
      (by omega)
    have hd : List.drop (a.length + (16 - (ctx.left + a.length))) (a ++ b) =
        List.drop (16 - (ctx.left + a.length)) b := by
      rw [List.drop_append_eq_append_drop]
      have : List.drop (a.length + (16 - (ctx.left + a.length))) a = [] :=
        List.drop_eq_nil_of_le (by omega)
      rw [this]
      simp
    simp only [md2_update_body, hf1, if_pos hc, hm, hd]
    have e : ctx.left + (a.length + (16 - (ctx.left + a.length))) =
        ctx.left + a.length + (16 - (ctx.left + a.length)) := by omega
    rw [e]
  · have hf1 : (if ctx.left + (a ++ b).length > 16 then 16 - ctx.left else (a ++ b).length) =
        a.length + b.length := by
      rw [List.length_append]
      split <;> omega
    have hm := memcpyAt_memcpyAt ctx.buffer ctx.left a b b.length (by omega)
    have hd : List.drop (a.length + b.length) (a ++ b) = List.drop b.length b := by
      rw [List.drop_append_eq_append_drop]
      have : List.drop (a.length + b.length) a = [] :=
        List.drop_eq_nil_of_le (by omega)
      rw [this]
      simp
    simp only [md2_update_body, hf1, if_neg hc, hm, hd]
    have e : ctx.left + (a.length + b.length) = ctx.left + a.length + b.length := by omega
    rw [e]

/-- Invariant of the MD2 context: a 16-byte buffer holding fewer than 16
pending bytes. -/
theorem md2_body_inv (ctx : md2_ctx) (input : List Nat)
    (hb : ctx.buffer.length = 16) (hl : ctx.left < 16) (hne : input ≠ []) :
    (md2_update_body (ctx, input)).1.buffer.length = 16 ∧
    (md2_update_body (ctx, input)).1.left < 16 ∧
    (md2_update_body (ctx, input)).2.length < input.length := by
  have hil : 0 < input.length := List.length_pos.mpr hne
  by_cases hc : ctx.left + input.length > 16
  · have hlen := length_memcpyAt ctx.buffer ctx.left input (16 - ctx.left)
      (by omega) (by omega)
    simp only [md2_update_body, if_pos hc]
    have e : ctx.left + (16 - ctx.left) = 16 := by omega
    rw [if_pos e]
    refine ⟨?_, ?_, ?_⟩
    · simp [md2_process, hlen, hb]
    · simp [md2_process]
    · simp [List.length_drop]; omega
  · have hlen := length_memcpyAt ctx.buffer ctx.left input input.length
      (by omega) (by omega)
    simp only [md2_update_body, if_neg hc]
    split
    · refine ⟨?_, ?_, ?_⟩
      · simp [md2_process, hlen, hb]
      · simp [md2_process]
      · simp [List.length_drop]; omega
    · next hne16 =>
      refine ⟨?_, ?_, ?_⟩
      · simp [hlen, hb]
      · show ctx.left + input.length < 16
        have : ¬ (ctx.left + input.length = 16) := hne16
        omega
      · simp [List.length_drop]; omega

theorem md2_update_cond_iff (ctx : md2_ctx) (l : List Nat) :
    md2_update_cond (ctx, l) = true ↔ l ≠ [] := by
  simp [md2_update_cond, List.length_pos]

theorem md2_body_split (c : md2_ctx) (a b : List Nat)
    (hI : c.buffer.length = 16 ∧ c.left < 16) (_ha : a ≠ []) :
    md2_update_body (c, a ++ b) =
        ((md2_update_body (c, a)).1, (md2_update_body (c, a)).2 ++ b) ∨
    ((md2_update_body (c, a)).2 = [] ∧
      (b ≠ [] → md2_update_body (c, a ++ b) = md2_update_body ((md2_update_body (c, a)).1, b))) := by
  by_cases hlong : 16 - c.left ≤ a.length
  · exact Or.inl (md2_body_long c a b hI.2 hlong)
  · have hshort : c.left + a.length < 16 := by omega
    refine Or.inr ⟨?_, fun hb => md2_body_merge c a b hI.1 hshort hb⟩
    rw [md2_body_short c a hshort]

theorem md2_update_eq (ctx : md2_ctx) (input : List Nat)
    (hb : ctx.buffer.length = 16) (hl : ctx.left < 16) :
    ∃ r, md2_update ctx input = some r ∧ r.buffer.length = 16 ∧ r.left < 16 ∧
      LoopEnds md2_update_cond md2_update_body (ctx, input) (r, []) := by
  obtain ⟨r, hr, hI, hL⟩ := consume_ends md2_update_cond md2_update_body
    (fun c => c.buffer.length = 16 ∧ c.left < 16) md2_update_cond_iff
    (fun c l hI hne => by
      obtain ⟨h1, h2, h3⟩ := md2_body_inv c l hI.1 hI.2 hne
      exact ⟨⟨h1, h2⟩, h3⟩)
    ctx input ⟨hb, hl⟩
  exact ⟨r, by simp [md2_update, hr], hI.1, hI.2, hL⟩

/-- Absorbing `a` and then `b` leaves the MD2 context that absorbing
`a ++ b` leaves. -/
theorem md2_update_append (ctx : md2_ctx) (a b : List Nat)
    (hb : ctx.buffer.length = 16) (hl : ctx.left < 16) :
    md2_update ctx (a ++ b) = (md2_update ctx a).bind (fun c => md2_update c b) := by
  obtain ⟨r1, e1, b1, l1, L1⟩ := md2_update_eq ctx a hb hl
  obtain ⟨r2, e2, _, _, L2⟩ := md2_update_eq r1 b b1 l1
  obtain ⟨r3, e3, _, _, L3⟩ := md2_update_eq ctx (a ++ b) hb hl
  have L := consume_append md2_update_cond md2_update_body
    (fun c => c.buffer.length = 16 ∧ c.left < 16) md2_update_cond_iff
    (fun c l hI hne => by
      obtain ⟨h1, h2, h3⟩ := md2_body_inv c l hI.1 hI.2 hne
      exact ⟨⟨h1, h2⟩, h3⟩)
    md2_body_split a.length a ctx b r1 (r2, []) (Nat.le_refl _) ⟨hb, hl⟩ L1 L2
  have e := loopEnds_unique L3 L
  have e' : r3 = r2 := congrArg Prod.fst e
  simp [e1, e2, e3, e']

/-! ## SHA-1: streaming -/

theorem sha1_update_cond_iff (ctx : sha1_ctx) (l : List Nat) :
    sha1_update_cond (ctx, l) = true ↔ l ≠ [] := by
  simp [sha1_update_cond]

theorem sha1_body_buffered (ctx : sha1_ctx) (l : List Nat)
    (h : ctx.blocklen > 0 ∨ l.length < 64) (n : Nat)
    (hn : (if 64 - ctx.blocklen > l.length then l.length else 64 - ctx.blocklen) = n) :
    sha1_update_body (ctx, l) =
      (if ctx.blocklen + n = 64 then
        { block := List.replicate 64 0, blocklen := 0,
          h := sha1_compute_h ctx.h ctx.k (memcpyAt ctx.block ctx.blocklen l n),
          k := ctx.k, bitlen := (ctx.bitlen + n * 8) % 18446744073709551616 }
       else
        { block := memcpyAt ctx.block ctx.blocklen l n, blocklen := ctx.blocklen + n,
          h := ctx.h, k := ctx.k, bitlen := (ctx.bitlen + n * 8) % 18446744073709551616 },
       l.drop n) := by
  unfold sha1_update_body
  simp only [if_pos h, hn, sha1_compute]
  split <;> rfl

theorem sha1_body_fast (ctx : sha1_ctx) (l : List Nat)
    (h0 : ctx.blocklen = 0) (h : 64 ≤ l.length) :
    sha1_update_body (ctx, l) =
      ({ block := ctx.block, blocklen := ctx.blocklen,
         h := sha1_compute_h ctx.h ctx.k (l.take 64),
         k := ctx.k, bitlen := (ctx.bitlen + 64 * 8) % 18446744073709551616 },
       l.drop 64) := by
  unfold sha1_update_body
  rw [if_neg (show ¬ (ctx.blocklen > 0 ∨ l.length < 64) by omega)]
  rfl

theorem sha1_body_inv (c : sha1_ctx) (l : List Nat) (hI : Sha1Inv c) (hne : l ≠ []) :
    Sha1Inv (sha1_update_body (c, l)).1 ∧ (sha1_update_body (c, l)).2.length < l.length := by
  obtain ⟨hb, hl, hz⟩ := hI
  have hpos : 0 < l.length := List.length_pos.mpr hne
  by_cases h : c.blocklen > 0 ∨ l.length < 64
  · rw [sha1_body_buffered c l h _ rfl]
    by_cases hlong : 64 - c.blocklen > l.length
    · simp only [if_pos hlong]
      rw [if_neg (by omega)]
      refine ⟨⟨?_, ?_, ?_⟩, ?_⟩
      · simp only []
        rw [length_memcpyAt _ _ _ _ (by omega) (by omega)]
        exact hb
      · simp only []; omega
      · intro h0
        simp only [] at h0
        omega
      · simp [List.length_drop]; omega
    · simp only [if_neg hlong]
      rw [if_pos (by omega)]
      refine ⟨⟨by simp, by simp, fun _ => rfl⟩, ?_⟩
      simp [List.length_drop]; omega
  · have h0 : c.blocklen = 0 := by omega
    rw [sha1_body_fast c l h0 (by omega)]
    refine ⟨⟨hb, hl, hz⟩, ?_⟩
    simp [List.length_drop]; omega

theorem memcpyAt_take_of_le (dst : List Nat) (off : Nat) (a b : List Nat) (n : Nat)
    (h : n ≤ a.length) : memcpyAt dst off (a ++ b) n = memcpyAt dst off a n := by
  unfold memcpyAt
  rw [List.take_append_of_le_length h]

theorem memcpyAt_full (dst src : List Nat) :
    memcpyAt dst 0 src 64 = src.take 64 ++ dst.drop 64 := by
  simp [memcpyAt]

theorem sha1_body_split (c : sha1_ctx) (a b : List Nat) (hI : Sha1Inv c) (ha : a ≠ []) :
    sha1_update_body (c, a ++ b) =
        ((sha1_update_body (c, a)).1, (sha1_update_body (c, a)).2 ++ b) ∨
    ((sha1_update_body (c, a)).2 = [] ∧
      (b ≠ [] →
        sha1_update_body (c, a ++ b) = sha1_update_body ((sha1_update_body (c, a)).1, b))) := by
  obtain ⟨hb, hl, hz⟩ := hI
  have hpos : 0 < a.length := List.length_pos.mpr ha
  by_cases hlong : 64 - c.blocklen ≤ a.length
  · left
    by_cases h0 : c.blocklen = 0
    · rw [sha1_body_fast c a h0 (by omega),
        sha1_body_fast c (a ++ b) h0 (by rw [List.length_append]; omega)]
      rw [List.take_append_of_le_length (by omega), List.drop_append_of_le_length (by omega)]
    · rw [sha1_body_buffered c a (Or.inl (by omega)) (64 - c.blocklen)
          (by split <;> omega),
        sha1_body_buffered c (a ++ b) (Or.inl (by omega)) (64 - c.blocklen)
          (by rw [List.length_append]; split <;> omega)]
      rw [memcpyAt_take_of_le _ _ _ _ _ hlong, List.drop_append_of_le_length hlong]
  · right
    have hshort : c.blocklen + a.length < 64 := by omega
    have ea := sha1_body_buffered c a (Or.inr (by omega)) a.length (by split <;> omega)
    rw [if_neg (by omega)] at ea
    refine ⟨by rw [ea]; simp, fun hbn => ?_⟩
    have hbpos : 0 < b.length := List.length_pos.mpr hbn
    rw [ea]
    simp only []
    by_cases hfast : c.blocklen = 0 ∧ 64 ≤ (a ++ b).length
    · obtain ⟨h0, h64⟩ := hfast
      rw [List.length_append] at h64
      rw [sha1_body_fast c (a ++ b) h0 (by rw [List.length_append]; omega)]
      rw [sha1_body_buffered _ b (Or.inl (by simp only []; omega)) (64 - a.length)
        (by simp only []; split <;> omega)]
      simp only [h0, Nat.zero_add]
      rw [if_pos (by omega)]
      have hm := memcpyAt_memcpyAt c.block 0 a b (64 - a.length) (by omega)
      simp only [Nat.zero_add] at hm
      have e64 : a.length + (64 - a.length) = 64 := by omega
      rw [hm, e64, memcpyAt_full _ _, hz h0]
      have hd : List.drop 64 (a ++ b) = List.drop (64 - a.length) b := by
        rw [List.drop_append_eq_append_drop, List.drop_eq_nil_of_le (by omega)]
        simp
      have hbit : ((c.bitlen + a.length * 8) % 18446744073709551616 + (64 - a.length) * 8) %
          18446744073709551616 = (c.bitlen + 64 * 8) % 18446744073709551616 := by
        omega
      have hdz : List.drop 64 (List.replicate 64 0) = ([] : List Nat) := by simp
      rw [hd, hbit, hdz, List.append_nil]
    · have hbuf : c.blocklen > 0 ∨ (a ++ b).length < 64 := by
        by_cases h0 : c.blocklen = 0
        · right
          by_contra hc
          exact hfast ⟨h0, by omega⟩
        · left; omega
      rw [List.length_append] at hbuf
      by_cases hc : 64 - c.blocklen > a.length + b.length
      · rw [sha1_body_buffered c (a ++ b) (by rw [List.length_append]; exact hbuf)
            (a.length + b.length) (by rw [List.length_append]; split <;> omega),
          sha1_body_buffered _ b (Or.inl (by simp only []; omega)) b.length
            (by simp only []; split <;> omega)]
        simp only []
        rw [if_neg (by omega), if_neg (by omega)]
        have hm := memcpyAt_memcpyAt c.block c.blocklen a b b.length (by omega)
        have hd : List.drop (a.length + b.length) (a ++ b) = List.drop b.length b := by
          rw [List.drop_append_eq_append_drop, List.drop_eq_nil_of_le (by omega)]
          simp
        have hbit : ((c.bitlen + a.length * 8) % 18446744073709551616 + b.length * 8) %
            18446744073709551616 =
            (c.bitlen + (a.length + b.length) * 8) % 18446744073709551616 := by
          omega
        rw [hm, hd, hbit, Nat.add_assoc]
      · rw [sha1_body_buffered c (a ++ b) (by rw [List.length_append]; exact hbuf)
            (a.length + (64 - (c.blocklen + a.length)))
            (by rw [List.length_append]; split <;> omega),
          sha1_body_buffered _ b (Or.inl (by simp only []; omega))
            (64 - (c.blocklen + a.length)) (by simp only []; split <;> omega)]
        simp only []
        rw [if_pos (by omega), if_pos (by omega)]
        have hm := memcpyAt_memcpyAt c.block c.blocklen a b (64 - (c.blocklen + a.length))
          (by omega)
        have hd : List.drop (a.length + (64 - (c.blocklen + a.length))) (a ++ b) =
            List.drop (64 - (c.blocklen + a.length)) b := by
          rw [List.drop_append_eq_append_drop, List.drop_eq_nil_of_le (by omega)]
          simp
        have hbit : ((c.bitlen + a.length * 8) % 18446744073709551616 +
            (64 - (c.blocklen + a.length)) * 8) % 18446744073709551616 =
            (c.bitlen + (a.length + (64 - (c.blocklen + a.length))) * 8) %
              18446744073709551616 := by
          omega
        rw [hm, hd, hbit]

theorem sha1_update_eq (ctx : sha1_ctx) (input : List Nat) (hI : Sha1Inv ctx) :
    ∃ r, sha1_update ctx input = some r ∧ Sha1Inv r ∧
      LoopEnds sha1_update_cond sha1_update_body (ctx, input) (r, []) := by
  obtain ⟨r, hr, hIr, hL⟩ := consume_ends sha1_update_cond sha1_update_body Sha1Inv
    sha1_update_cond_iff sha1_body_inv ctx input hI
  exact ⟨r, by simp [sha1_update, hr], hIr, hL⟩

/-- Absorbing `a` and then `b` leaves the SHA-1 context that absorbing
`a ++ b` leaves. -/
theorem sha1_update_append (ctx : sha1_ctx) (a b : List Nat) (hI : Sha1Inv ctx) :
    sha1_update ctx (a ++ b) = (sha1_update ctx a).bind (fun c => sha1_update c b) := by
  obtain ⟨r1, e1, I1, L1⟩ := sha1_update_eq ctx a hI
  obtain ⟨r2, e2, _, L2⟩ := sha1_update_eq r1 b I1
  obtain ⟨r3, e3, _, L3⟩ := sha1_update_eq ctx (a ++ b) hI
  have L := consume_append sha1_update_cond sha1_update_body Sha1Inv
    sha1_update_cond_iff sha1_body_inv sha1_body_split a.length a ctx b r1 (r2, [])
    (Nat.le_refl _) hI L1 L2
  have e := loopEnds_unique L3 L
  have e' : r3 = r2 := congrArg Prod.fst e
  simp [e1, e2, e3, e']

theorem sha1_init_inv : Sha1Inv sha1_init := by
  refine ⟨by simp [sha1_init], by simp [sha1_init], fun _ => rfl⟩

/-! ## SHA-384: streaming -/

theorem sha384_absorb_short (s l : List Nat) (h : l.length < 128) :
    sha384_absorb s l = (s, l) := by
  rw [sha384_absorb, if_neg (by omega)]

theorem sha384_absorb_long (s l : List Nat) (h : 128 ≤ l.length) :
    sha384_absorb s l = sha384_absorb (sha384_process_state s (l.take 128)) (l.drop 128) := by
  rw [sha384_absorb, if_pos h]

theorem sha384_absorb_length (n : Nat) :
    ∀ (s l : List Nat), l.length ≤ n →
      (sha384_absorb s l).2.length = l.length % 128 := by
  induction n with
  | zero =>
    intro s l h
    rw [sha384_absorb_short s l (by omega)]
    simp only []
    omega
  | succ n ih =>
    intro s l h
    by_cases hl : 128 ≤ l.length
    · rw [sha384_absorb_long s l hl, ih _ _ (by simp only [List.length_drop]; omega)]
      simp only [List.length_drop]
      omega
    · rw [sha384_absorb_short s l (by omega)]
      simp only []
      omega

theorem sha384_absorb_append (n : Nat) :
    ∀ (s l1 l2 : List Nat), l1.length ≤ n →
      sha384_absorb s (l1 ++ l2) =
        sha384_absorb (sha384_absorb s l1).1 ((sha384_absorb s l1).2 ++ l2) := by
  induction n with
  | zero =>
    intro s l1 l2 h
    rw [sha384_absorb_short s l1 (by omega)]
  | succ n ih =>
    intro s l1 l2 h
    by_cases hl : 128 ≤ l1.length
    · rw [sha384_absorb_long s l1 hl,
        sha384_absorb_long s (l1 ++ l2) (by rw [List.length_append]; omega),
        List.take_append_of_le_length hl, List.drop_append_of_le_length hl]
      exact ih _ _ _ (by simp only [List.length_drop]; omega)
    · rw [sha384_absorb_short s l1 (by omega)]

theorem sha384_update_cond_true (c : sha384_ctx) (l : List Nat) (h : 128 ≤ l.length) :
    sha384_update_cond (c, l) = true := by
  simp [sha384_update_cond, h]

theorem sha384_update_cond_false (c : sha384_ctx) (l : List Nat) (h : l.length < 128) :
    sha384_update_cond (c, l) = false := by
  simp [sha384_update_cond, h]

/-- The block loop of `sha384_update` computes `sha384_absorb`. -/
theorem sha384_loop_eq (n : Nat) :
    ∀ (c : sha384_ctx) (l : List Nat), l.length ≤ n →
      whileLoop sha384_update_cond sha384_update_body n (c, l) =
        some ({ c with state := (sha384_absorb c.state l).1 }, (sha384_absorb c.state l).2) := by
  induction n with
  | zero =>
    intro c l h
    rw [whileLoop_done _ _ _ _ (sha384_update_cond_false c l (by omega)),
      sha384_absorb_short _ _ (by omega)]
  | succ n ih =>
    intro c l h
    by_cases hl : 128 ≤ l.length
    · rw [whileLoop_step _ _ _ _ (sha384_update_cond_true c l hl)]
      have e : sha384_update_body (c, l) = (sha384_process c (l.take 128), l.drop 128) := rfl
      rw [e, ih _ _ (by simp only [List.length_drop]; omega), sha384_absorb_long c.state l hl]
      rfl
    · rw [whileLoop_done _ _ _ _ (sha384_update_cond_false c l (by omega)),
        sha384_absorb_short _ _ (by omega)]

theorem and_0x7F (x : Nat) : x &&& 0x7F = x % 128 :=
  Nat.and_pow_two_sub_one_eq_mod x 7

theorem take_memcpyAt_zero (dst r : List Nat) :
    (memcpyAt dst 0 r r.length).take r.length = r := by
  simp [memcpyAt]

theorem sha384_finish (c1 : sha384_ctx) (off : Nat) (r : List Nat)
    (hb : c1.buffer.length = 128) (ho : off + r.length ≤ 128) :
    (if r.length > 0 then { c1 with buffer := memcpyAt c1.buffer off r r.length }
      else c1).state = c1.state ∧
    (if r.length > 0 then { c1 with buffer := memcpyAt c1.buffer off r r.length }
      else c1).total0 = c1.total0 ∧
    (if r.length > 0 then { c1 with buffer := memcpyAt c1.buffer off r r.length }
      else c1).total1 = c1.total1 ∧
    (if r.length > 0 then { c1 with buffer := memcpyAt c1.buffer off r r.length }
      else c1).buffer.length = 128 ∧
    (if r.length > 0 then { c1 with buffer := memcpyAt c1.buffer off r r.length }
      else c1).buffer.take (off + r.length) = c1.buffer.take off ++ r := by
  by_cases h : r.length > 0
  · simp only [if_pos h]
    refine ⟨trivial, trivial, trivial, ?_, ?_⟩
    · rw [length_memcpyAt _ _ _ _ (by omega) (Nat.le_refl _)]
      exact hb
    · unfold memcpyAt
      have hl : (List.take off c1.buffer ++ List.take r.length r).length = off + r.length := by
        rw [List.length_append, List.length_take, List.length_take]
        omega
      rw [List.take_append_of_le_length (by omega), List.take_of_length_le (by omega),
        List.take_of_length_le (Nat.le_refl _)]
  · simp only [if_neg h]
    have : r = [] := List.length_eq_zero.mp (by omega)
    subst this
    exact ⟨trivial, trivial, trivial, hb, by simp⟩

/-- What `sha384_update` does to the state, the count and the pending
bytes of a well-formed context. -/
theorem sha384_update_view (c : sha384_ctx) (m : List Nat) (hv : Sha384Valid c) :
    ∃ c', sha384_update c m = some c' ∧ Sha384Valid c' ∧
      sha384_view c' = sha384_view_update (sha384_view c) m := by
  obtain ⟨hb, ht0, ht1⟩ := hv
  by_cases hm : m = []
  · subst hm
    exact ⟨c, by simp [sha384_update], ⟨hb, ht0, ht1⟩, by simp [sha384_view_update]⟩
  have hmpos : 0 < m.length := List.length_pos.mpr hm
  have hleft : c.total0 % 128 < 128 := Nat.mod_lt _ (by decide)
  generalize hp : c.buffer.take (c.total0 % 128) = p
  have hplen : p.length = c.total0 % 128 := by
    rw [← hp, List.length_take]; omega
  have hmod : ((c.total0 + m.length) % 18446744073709551616) % 128 =
      (c.total0 % 128 + m.length) % 128 := by omega
  have ht0' : (c.total0 + m.length) % 18446744073709551616 < 18446744073709551616 :=
    Nat.mod_lt _ (by decide)
  have ht1' : (if (c.total0 + m.length) % 18446744073709551616 < m.length then
      (c.total1 + 1) % 18446744073709551616 else c.total1) < 18446744073709551616 := by
    split
    · exact Nat.mod_lt _ (by decide)
    · exact ht1
  have hrl := sha384_absorb_length (p ++ m).length c.state (p ++ m) (Nat.le_refl _)
  rw [List.length_append, hplen] at hrl
  have hr128 : (sha384_absorb c.state (p ++ m)).2.length < 128 := by
    rw [hrl]; exact Nat.mod_lt _ (by decide)
  have hview : sha384_view_update (sha384_view c) m =
      ((sha384_absorb c.state (p ++ m)).1,
       (c.total0 + m.length) % 18446744073709551616,
       (if (c.total0 + m.length) % 18446744073709551616 < m.length then
          (c.total1 + 1) % 18446744073709551616 else c.total1),
       (sha384_absorb c.state (p ++ m)).2) := by
    simp only [sha384_view, sha384_view_update, if_neg hm, hp]
  rw [hview]
  unfold sha384_update
  simp only [and_0x7F]
  rw [if_neg (by omega)]
  by_cases hA : c.total0 % 128 ≠ 0 ∧ m.length ≥ 128 - c.total0 % 128
  · -- the pending bytes are completed to a block
    rw [if_pos hA]
    simp only []
    have hB : memcpyAt c.buffer (c.total0 % 128) m (128 - c.total0 % 128) =
        (p ++ m).take 128 := by
      unfold memcpyAt
      have e1 : List.drop (c.total0 % 128 + (128 - c.total0 % 128)) c.buffer = [] :=
        List.drop_eq_nil_of_le (by omega)
      have e2 : List.take 128 (p ++ m) = p ++ List.take (128 - c.total0 % 128) m := by
        have e3 : List.take 128 p = p := List.take_of_length_le (by omega)
        rw [List.take_append_eq_append_take, hplen, e3]
      rw [hp, e1, e2, List.append_nil]
    have hD : m.drop (128 - c.total0 % 128) = (p ++ m).drop 128 := by
      have e3 : List.drop 128 p = [] := List.drop_eq_nil_of_le (by omega)
      rw [List.drop_append_eq_append_drop, hplen, e3, List.nil_append]
    rw [sha384_loop_eq _ _ _ (by simp only [List.length_drop]; omega)]
    have hlong : 128 ≤ (p ++ m).length := by
      rw [List.length_append, hplen]; omega
    have hab := sha384_absorb_long c.state (p ++ m) hlong
    simp only [Option.map_some', sha384_process, hB, hD, ← hab]
    have hBl : ((p ++ m).take 128).length = 128 := by
      rw [List.length_take]; omega
    obtain ⟨f1, f2, f3, f4, f5⟩ := sha384_finish
      { total0 := (c.total0 + m.length) % 18446744073709551616,
        total1 := (if (c.total0 + m.length) % 18446744073709551616 < m.length then
          (c.total1 + 1) % 18446744073709551616 else c.total1),
        state := (sha384_absorb c.state (p ++ m)).1,
        buffer := (p ++ m).take 128 }
      0 (sha384_absorb c.state (p ++ m)).2 hBl (by omega)
    refine ⟨_, rfl, ⟨f4, by rw [f2]; exact ht0', by rw [f3]; exact ht1'⟩, ?_⟩
    unfold sha384_view
    rw [f1, f2, f3]
    refine Prod.ext rfl (Prod.ext rfl (Prod.ext rfl ?_))
    simp only []
    rw [hmod, ← hrl]
    rw [Nat.zero_add] at f5
    rw [f5]
    simp
  · rw [if_neg hA]
    simp only []
    rw [sha384_loop_eq _ _ _ (Nat.le_succ _)]
    simp only [Option.map_some']
    by_cases h0 : c.total0 % 128 = 0
    · -- nothing is pending
      have hpn : p = [] := List.length_eq_zero.mp (by omega)
      subst hpn
      rw [List.nil_append] at hrl hr128 ⊢
      obtain ⟨f1, f2, f3, f4, f5⟩ := sha384_finish
        { total0 := (c.total0 + m.length) % 18446744073709551616,
          total1 := (if (c.total0 + m.length) % 18446744073709551616 < m.length then
            (c.total1 + 1) % 18446744073709551616 else c.total1),
          state := (sha384_absorb c.state m).1,
          buffer := c.buffer }
        (c.total0 % 128) (sha384_absorb c.state m).2 hb (by omega)
      refine ⟨_, rfl, ⟨f4, by rw [f2]; exact ht0', by rw [f3]; exact ht1'⟩, ?_⟩
      unfold sha384_view
      rw [f1, f2, f3]
      refine Prod.ext rfl (Prod.ext rfl (Prod.ext rfl ?_))
      simp only []
      rw [hmod, ← hrl]
      rw [h0, Nat.zero_add] at f5
      rw [h0, f5]
      simp
    · -- the input does not complete the pending bytes to a block
      have hshort : m.length < 128 - c.total0 % 128 := by
        by_contra hc
        exact hA ⟨h0, by omega⟩
      rw [sha384_absorb_short c.state m (by omega)]
      rw [sha384_absorb_short c.state (p ++ m) (by rw [List.length_append, hplen]; omega)]
      simp only []
      obtain ⟨f1, f2, f3, f4, f5⟩ := sha384_finish
        { total0 := (c.total0 + m.length) % 18446744073709551616,
          total1 := (if (c.total0 + m.length) % 18446744073709551616 < m.length then
            (c.total1 + 1) % 18446744073709551616 else c.total1),
          state := c.state,
          buffer := c.buffer }
        (c.total0 % 128) m hb (by omega)
      refine ⟨_, rfl, ⟨f4, by rw [f2]; exact ht0', by rw [f3]; exact ht1'⟩, ?_⟩
      unfold sha384_view
      rw [f1, f2, f3]
      refine Prod.ext rfl (Prod.ext rfl (Prod.ext rfl ?_))
      simp only []
      rw [hmod, Nat.mod_eq_of_lt (by omega), f5, hp]

theorem sha384_view_update_append (s : List Nat) (t0 t1 : Nat) (p a b : List Nat)
    (hab : a.length + b.length < 18446744073709551616) :
    sha384_view_update (sha384_view_update (s, t0, t1, p) a) b =
      sha384_view_update (s, t0, t1, p) (a ++ b) := by
  by_cases ha : a = []
  · subst ha
    simp [sha384_view_update]
  by_cases hb : b = []
  · subst hb
    simp [sha384_view_update]
  have hne : a ++ b ≠ [] := by simp [ha]
  have hst := sha384_absorb_append (p ++ a).length s (p ++ a) b (Nat.le_refl _)
  rw [List.append_assoc] at hst
  simp only [sha384_view_update, if_neg ha, if_neg hb, if_neg hne, ← hst, List.length_append]
  refine Prod.ext rfl (Prod.ext ?_ (Prod.ext ?_ rfl))
  · simp only []
    omega
  · simp only []
    split_ifs <;> omega

theorem sha384_view_total0 (c c' : sha384_ctx) (h : sha384_view c = sha384_view c') :
    c.total0 = c'.total0 :=
  congrArg (fun v : List Nat × Nat × Nat × List Nat => v.2.1) h

theorem sha384_view_total1 (c c' : sha384_ctx) (h : sha384_view c = sha384_view c') :
    c.total1 = c'.total1 :=
  congrArg (fun v : List Nat × Nat × Nat × List Nat => v.2.2.1) h

theorem sha384_view_state (c c' : sha384_ctx) (h : sha384_view c = sha384_view c') :
    c.state = c'.state :=
  congrArg (fun v : List Nat × Nat × Nat × List Nat => v.1) h

/-- The digest written by `sha384_final` exists, has 48 bytes, and depends
only on the state, the count and the pending bytes. -/
theorem sha384_final_view (c c' : sha384_ctx) (hv : Sha384Valid c) (hv' : Sha384Valid c')
    (h : sha384_view c = sha384_view c') :
    sha384_final c = sha384_final c' ∧ ∃ d, sha384_final c = some d ∧ d.length = 48 := by
  have e0 := sha384_view_total0 c c' h
  have e1 := sha384_view_total1 c c' h
  unfold sha384_final
  rw [← e0, ← e1]
  simp only []
  generalize (sha384_padding.take
    (if c.total0 &&& 0x7F < 112 then 112 - (c.total0 &&& 0x7F)
      else 240 - (c.total0 &&& 0x7F))) = pad
  generalize (PUT_UINT64_BE ((c.total0 >>> 61) ||| ((c.total1 <<< 3) % 18446744073709551616)) ++
    PUT_UINT64_BE ((c.total0 <<< 3) % 18446744073709551616)) = msglen
  obtain ⟨x, hx, vx, wx⟩ := sha384_update_view c pad hv
  obtain ⟨x', hx', vx', wx'⟩ := sha384_update_view c' pad hv'
  have hxx : sha384_view x = sha384_view x' := by rw [wx, wx', h]
  obtain ⟨y, hy, _, wy⟩ := sha384_update_view x msglen vx
  obtain ⟨y', hy', _, wy'⟩ := sha384_update_view x' msglen vx'
  have hyy : sha384_view y = sha384_view y' := by rw [wy, wy', hxx]
  have hs := sha384_view_state y y' hyy
  rw [hx, hx']
  simp only [Option.some_bind, hy, hy', Option.map_some', hs]
  exact ⟨trivial, _, rfl, by simp [PUT_UINT64_BE]⟩

/-! ## Claims: digests -/

theorem foldl_preserves {α β : Type} (Q : α → Prop) (f : α → β → α)
    (hf : ∀ a b, Q a → Q (f a b)) (l : List β) (a : α) (ha : Q a) : Q (l.foldl f a) := by
  induction l generalizing a with
  | nil => exact ha
  | cons x xs ih => exact ih _ (hf a x ha)

theorem md2_process_load_length (buffer state : List Nat) (h : state.length = 48) :
    (md2_process_load buffer state).length = 48 := by
  unfold md2_process_load
  apply foldl_preserves (fun st : List Nat => st.length = 48)
  · intro a b ha
    simp only [List.length_set]
    exact ha
  · exact h

theorem md2_process_mix_length (state : List Nat) (h : state.length = 48) :
    (md2_process_mix state).length = 48 := by
  unfold md2_process_mix
  apply foldl_preserves (fun p : List Nat × Nat => p.1.length = 48)
  · intro a b ha
    apply foldl_preserves (fun p : List Nat × Nat => p.1.length = 48)
    · intro a' b' ha'
      simp only [List.length_set]
      exact ha'
    · exact ha
  · exact h

theorem md2_process_state (ctx : md2_ctx) :
    (md2_process ctx).state = md2_process_mix (md2_process_load ctx.buffer ctx.state) := by
  simp only [md2_process]

theorem md2_process_state_length (ctx : md2_ctx) (h : ctx.state.length = 48) :
    (md2_process ctx).state.length = 48 := by
  rw [md2_process_state]
  exact md2_process_mix_length _ (md2_process_load_length _ _ h)

theorem md2_final_length (ctx : md2_ctx) (h : ctx.state.length = 48) :
    (md2_final ctx).length = 16 := by
  unfold md2_final
  simp only [List.length_take]
  have h1 := md2_process_state_length { ctx with buffer := md2_final_pad ctx } h
  generalize md2_process { ctx with buffer := md2_final_pad ctx } = c1 at h1 ⊢
  have h2 := md2_process_state_length { c1 with buffer := memcpyAt c1.buffer 0 c1.cksum 16 } h1
  rw [h2]
  rfl

theorem md2_body_state_length (c : md2_ctx) (l : List Nat) (hs : c.state.length = 48) :
    (md2_update_body (c, l)).1.state.length = 48 := by
  have key : ∀ (c1 : md2_ctx) (rest : List Nat), c1.state.length = 48 →
      ((if c1.left = 16 then (md2_process { c1 with left := 0 }, rest)
        else (c1, rest)) : md2_ctx × List Nat).1.state.length = 48 := by
    intro c1 rest h
    split
    · exact md2_process_state_length _ h
    · exact h
  exact key _ _ hs

theorem md2_update_state_length (ctx : md2_ctx) (input : List Nat)
    (hb : ctx.buffer.length = 16) (hl : ctx.left < 16) (hs : ctx.state.length = 48) :
    ∃ r, md2_update ctx input = some r ∧ r.state.length = 48 := by
  obtain ⟨r, hr, hI, _⟩ := consume_ends md2_update_cond md2_update_body
    (fun c => (c.buffer.length = 16 ∧ c.left < 16) ∧ c.state.length = 48) md2_update_cond_iff
    (fun c l hI hne => by
      obtain ⟨h1, h2, h3⟩ := md2_body_inv c l hI.1.1 hI.1.2 hne
      exact ⟨⟨⟨h1, h2⟩, md2_body_state_length c l hI.2⟩, h3⟩)
    ctx input ⟨⟨hb, hl⟩, hs⟩
  exact ⟨r, by simp [md2_update, hr], hI.2⟩

/-- C11: MD2 streaming equals one-shot. For all byte strings `a` and `b`
whose combined length fits an `int`, `md2_final` after `md2_init`,
`md2_update a`, `md2_update b` produces the 16-byte digest that
`md2_complete (a ++ b)` produces. -/
theorem md2_streaming (a b : List Nat) (_hab : a.length + b.length < 2147483648) :
    ((md2_update md2_init a).bind (fun c => md2_update c b)).map md2_final =
      md2_complete (a ++ b) ∧
    ∃ d, md2_complete (a ++ b) = some d ∧ d.length = 16 := by
  have hb : md2_init.buffer.length = 16 := by simp [md2_init]
  have hl : md2_init.left < 16 := by simp [md2_init]
  have hs : md2_init.state.length = 48 := by simp [md2_init]
  refine ⟨?_, ?_⟩
  · unfold md2_complete
    rw [md2_update_append md2_init a b hb hl]
  · obtain ⟨r, hr, hrs⟩ := md2_update_state_length md2_init (a ++ b) hb hl hs
    exact ⟨md2_final r, by simp [md2_complete, hr], md2_final_length r hrs⟩

theorem md2_streaming_witness :
    ((md2_update md2_init [0x61, 0x62]).bind (fun c => md2_update c [0x63])).map md2_final =
      md2_complete ([0x61, 0x62] ++ [0x63]) :=
  (md2_streaming [0x61, 0x62] [0x63] (by decide)).1

/-- C12: SHA-1 streaming equals one-shot. For all byte strings `a` and `b`,
`sha1_final` after `sha1_init`, `sha1_update a`, `sha1_update b` produces the
20-byte digest that `sha1_complete (a ++ b)` produces; the context after the
two updates is the context after the single update, whichever of the direct
and the buffered path the loop takes. -/
theorem sha1_streaming (a b : List Nat) :
    ((sha1_update sha1_init a).bind (fun c => sha1_update c b)).map sha1_final =
      sha1_complete (a ++ b) ∧
    (sha1_update sha1_init a).bind (fun c => sha1_update c b) =
      sha1_update sha1_init (a ++ b) ∧
    ∃ d, sha1_complete (a ++ b) = some d ∧ d.length = 20 := by
  have e := sha1_update_append sha1_init a b sha1_init_inv
  refine ⟨?_, e.symm, ?_⟩
  · unfold sha1_complete
    rw [e]
  · obtain ⟨r, hr, _, _⟩ := sha1_update_eq sha1_init (a ++ b) sha1_init_inv
    refine ⟨sha1_final r, by simp [sha1_complete, hr], ?_⟩
    simp [sha1_final, sha1_compute, sha1_compute_h, be32Bytes]

/-- Streaming and one-shot SHA-384 agree, whatever the two contexts held
before `sha384_init`. -/
theorem sha384_stream_eq (c1 c2 : sha384_ctx) (a b : List Nat)
    (h1 : c1.buffer.length = 128) (h2 : c2.buffer.length = 128)
    (hab : a.length + b.length < 2147483648) :
    ((sha384_update (sha384_init c1) a).bind (fun c => sha384_update c b)).bind sha384_final =
      sha384_complete c2 (a ++ b) ∧
    ∃ d, sha384_complete c2 (a ++ b) = some d ∧ d.length = 48 := by
  have v1 : Sha384Valid (sha384_init c1) := ⟨h1, by simp [sha384_init], by simp [sha384_init]⟩
  have v2 : Sha384Valid (sha384_init c2) := ⟨h2, by simp [sha384_init], by simp [sha384_init]⟩
  have hv : sha384_view (sha384_init c1) = sha384_view (sha384_init c2) := by
    simp [sha384_view, sha384_init]
  obtain ⟨x, hx, vx, wx⟩ := sha384_update_view (sha384_init c1) a v1
  obtain ⟨y, hy, vy, wy⟩ := sha384_update_view x b vx
  obtain ⟨z, hz, vz, wz⟩ := sha384_update_view (sha384_init c2) (a ++ b) v2
  have hyz : sha384_view y = sha384_view z := by
    rw [wy, wx, wz, ← hv]
    exact sha384_view_update_append _ _ _ _ a b (by omega)
  obtain ⟨hf, d, hd, hl⟩ := sha384_final_view y z vy vz hyz
  unfold sha384_complete
  rw [hx, hz]
  simp only [Option.some_bind, hy]
  rw [← hf]
  exact ⟨rfl, d, hd, hl⟩

/-- C13: SHA-384 streaming equals one-shot. For all byte strings `a` and
`b` whose combined length fits an `int`, and whatever the two contexts held
before `sha384_init` (`c1` for the streaming run, `c2` for the local
context of `sha384_complete`, so the stale bytes of the buffers may
differ), `sha384_final` after `sha384_init`, `sha384_update a`,
`sha384_update b` produces the 48-byte digest that
`sha384_complete (a ++ b)` produces. -/
theorem sha384_streaming (c1 c2 : sha384_ctx) (a b : List Nat)
    (h1 : c1.buffer.length = 128) (h2 : c2.buffer.length = 128)
    (hab : a.length + b.length < 2147483648) :
    ((sha384_update (sha384_init c1) a).bind (fun c => sha384_update c b)).bind sha384_final =
      sha384_complete c2 (a ++ b) ∧
    ∃ d, sha384_complete c2 (a ++ b) = some d ∧ d.length = 48 :=
  sha384_stream_eq c1 c2 a b h1 h2 hab

theorem sha384_streaming_witness :
    ((sha384_update (sha384_init ⟨7, 9, [], List.replicate 128 0xAA⟩) [0x61, 0x62]).bind
        (fun c => sha384_update c [0x63])).bind sha384_final =
      sha384_complete ⟨0, 0, [], List.replicate 128 0⟩ ([0x61, 0x62] ++ [0x63]) :=
  (sha384_streaming ⟨7, 9, [], List.replicate 128 0xAA⟩ ⟨0, 0, [], List.replicate 128 0⟩
    [0x61, 0x62] [0x63] (by simp) (by simp) (by decide)).1

/-! ## Digest registry -/

theorem tolower_ne_zero (c : Nat) (h : c ≠ 0) : tolower c ≠ 0 := by
  unfold tolower
  split <;> omega

theorem strcasecmp_eq_zero (a b : List Nat) (ha : IsCString a) (hb : IsCString b) :
    strcasecmp a b = 0 ↔ CaseEq a b := by
  induction a generalizing b with
  | nil =>
    cases b with
    | nil => simp [strcasecmp, CaseEq]
    | cons y ys =>
      have hy : tolower y ≠ 0 := tolower_ne_zero y (hb y (by simp))
      simp only [strcasecmp, CaseEq, List.map_nil, List.map_cons]
      constructor
      · intro h; omega
      · intro h; cases h
  | cons x xs ih =>
    cases b with
    | nil =>
      have hx : tolower x ≠ 0 := tolower_ne_zero x (ha x (by simp))
      simp only [strcasecmp, CaseEq, List.map_nil, List.map_cons]
      constructor
      · intro h; omega
      · intro h; cases h
    | cons y ys =>
      have ih' := ih ys (fun c hc => ha c (by simp [hc])) (fun c hc => hb c (by simp [hc]))
      simp only [strcasecmp, CaseEq, List.map_cons]
      by_cases e : tolower x = tolower y
      · rw [if_pos e, ih']
        simp [CaseEq, e]
      · rw [if_neg e]
        constructor
        · intro h; omega
        · intro h
          exact absurd (List.head_eq_of_cons_eq h) e

theorem get_digest_algorithm_some (algorithms : List digest_algorithm) (name : List Nat)
    (d : digest_algorithm)
    (hn : IsCString name) (ht : ∀ e ∈ algorithms, IsCString e.name) :
    get_digest_algorithm algorithms name = some d ↔
      ∃ pre post, algorithms = pre ++ d :: post ∧ CaseEq d.name name ∧
        ∀ e ∈ pre, ¬ CaseEq e.name name := by
  induction algorithms with
  | nil => simp [get_digest_algorithm]
  | cons alg rest ih =>
    have ih' := ih (fun e he => ht e (by simp [he]))
    have hz := strcasecmp_eq_zero alg.name name (ht alg (by simp)) hn
    unfold get_digest_algorithm
    by_cases hc : strcasecmp alg.name name = 0
    · rw [if_pos hc]
      constructor
      · intro h
        have e : alg = d := Option.some.inj h
        subst e
        exact ⟨[], rest, rfl, hz.mp hc, by simp⟩
      · rintro ⟨pre, post, hsplit, hd, hpre⟩
        cases pre with
        | nil =>
          simp only [List.nil_append, List.cons.injEq] at hsplit
          rw [hsplit.1]
        | cons p ps =>
          simp only [List.cons_append, List.cons.injEq] at hsplit
          exact absurd (hz.mp hc) (by rw [hsplit.1]; exact hpre p (by simp))
    · rw [if_neg hc, ih']
      constructor
      · rintro ⟨pre, post, hsplit, hd, hpre⟩
        refine ⟨alg :: pre, post, by rw [hsplit]; rfl, hd, ?_⟩
        intro e he
        rcases List.mem_cons.mp he with h | h
        · rw [h]; exact fun hce => hc (hz.mpr hce)
        · exact hpre e h
      · rintro ⟨pre, post, hsplit, hd, hpre⟩
        cases pre with
        | nil =>
          simp only [List.nil_append, List.cons.injEq] at hsplit
          exact absurd (hz.mpr (by rw [hsplit.1]; exact hd)) hc
        | cons p ps =>
          simp only [List.cons_append, List.cons.injEq] at hsplit
          exact ⟨ps, post, hsplit.2, hd, fun e he => hpre e (by simp [he])⟩

theorem get_digest_algorithm_none (algorithms : List digest_algorithm) (name : List Nat)
    (hn : IsCString name) (ht : ∀ e ∈ algorithms, IsCString e.name) :
    get_digest_algorithm algorithms name = none ↔
      ∀ e ∈ algorithms, ¬ CaseEq e.name name := by
  induction algorithms with
  | nil => simp [get_digest_algorithm]
  | cons alg rest ih =>
    have ih' := ih (fun e he => ht e (by simp [he]))
    have hz := strcasecmp_eq_zero alg.name name (ht alg (by simp)) hn
    unfold get_digest_algorithm
    by_cases hc : strcasecmp alg.name name = 0
    · rw [if_pos hc]
      constructor
      · intro h; cases h
      · intro h
        exact absurd (hz.mp hc) (h alg (by simp))
    · rw [if_neg hc, ih']
      constructor
      · intro h e he
        rcases List.mem_cons.mp he with h1 | h1
        · rw [h1]; exact fun hce => hc (hz.mpr hce)
        · exact h e h1
      · intro h e he
        exact h e (by simp [he])

theorem get_digest_algorithm_caseEq (algorithms : List digest_algorithm) (n1 n2 : List Nat)
    (h1 : IsCString n1) (h2 : IsCString n2) (ht : ∀ e ∈ algorithms, IsCString e.name)
    (h : CaseEq n1 n2) :
    get_digest_algorithm algorithms n1 = get_digest_algorithm algorithms n2 := by
  induction algorithms with
  | nil => rfl
  | cons alg rest ih =>
    have ih' := ih (fun e he => ht e (by simp [he]))
    have hz1 := strcasecmp_eq_zero alg.name n1 (ht alg (by simp)) h1
    have hz2 := strcasecmp_eq_zero alg.name n2 (ht alg (by simp)) h2
    have hiff : strcasecmp alg.name n1 = 0 ↔ strcasecmp alg.name n2 = 0 := by
      rw [hz1, hz2]
      unfold CaseEq at *
      rw [h]
    unfold get_digest_algorithm
    by_cases hc : strcasecmp alg.name n1 = 0
    · rw [if_pos hc, if_pos (hiff.mp hc)]
    · rw [if_neg hc, if_neg (fun h' => hc (hiff.mpr h')), ih']

/-- C17: `get_digest_algorithm` resolves by case-insensitive name. On a
table of descriptors named by C strings and a C string `name`, it returns
the first descriptor whose name equals `name` ignoring letter case, it
returns `NULL` exactly when no descriptor's name matches, and two names that
differ only in case resolve alike; `"md2"` and `"MD2"` both resolve to
`md2_algorithm` when it heads the table. -/
theorem get_digest_algorithm_correct (algorithms : List digest_algorithm) (name : List Nat)
    (hn : IsCString name) (ht : ∀ e ∈ algorithms, IsCString e.name) :
    (∀ d, get_digest_algorithm algorithms name = some d ↔
      ∃ pre post, algorithms = pre ++ d :: post ∧ CaseEq d.name name ∧
        ∀ e ∈ pre, ¬ CaseEq e.name name) ∧
    (get_digest_algorithm algorithms name = none ↔
      ∀ e ∈ algorithms, ¬ CaseEq e.name name) ∧
    (∀ name', IsCString name' → CaseEq name name' →
      get_digest_algorithm algorithms name = get_digest_algorithm algorithms name') ∧
    (∀ n rest, get_digest_algorithm (md2_algorithm n :: rest) [0x6d, 0x64, 0x32] =
        some (md2_algorithm n) ∧
      get_digest_algorithm (md2_algorithm n :: rest) [0x4d, 0x44, 0x32] =
        some (md2_algorithm n)) := by
  refine ⟨fun d => get_digest_algorithm_some algorithms name d hn ht,
    get_digest_algorithm_none algorithms name hn ht,
    fun name' h' hce => get_digest_algorithm_caseEq algorithms name name' hn h' ht hce,
    fun n rest => ⟨?_, ?_⟩⟩
  · have : strcasecmp (md2_algorithm n).name [0x6d, 0x64, 0x32] = 0 := by
      show strcasecmp [0x6d, 0x64, 0x32] [0x6d, 0x64, 0x32] = 0
      decide
    simp [get_digest_algorithm, this]
  · have : strcasecmp (md2_algorithm n).name [0x4d, 0x44, 0x32] = 0 := by
      show strcasecmp [0x6d, 0x64, 0x32] [0x4d, 0x44, 0x32] = 0
      decide
    simp [get_digest_algorithm, this]

theorem get_digest_algorithm_correct_witness :
    get_digest_algorithm [md2_algorithm 88, ⟨[0x73, 0x68, 0x61, 0x31], 104, 64, 20⟩]
        [0x53, 0x48, 0x41, 0x31] = none ↔
      ∀ e ∈ [md2_algorithm 88, ⟨[0x73, 0x68, 0x61, 0x31], 104, 64, 20⟩],
        ¬ CaseEq e.name [0x53, 0x48, 0x41, 0x31] :=
  (get_digest_algorithm_correct [md2_algorithm 88, ⟨[0x73, 0x68, 0x61, 0x31], 104, 64, 20⟩]
    [0x53, 0x48, 0x41, 0x31] (by decide) (by decide)).2.1

/-! ## Managed strings -/

/-- The doubling loop of `string_expand` started at `n > 0` with a target
`L` at most `2 ^ 63` ends with the least `n * 2 ^ k` that is at least
`L`. -/
theorem doubling_ends (L : Nat) (hL : L ≤ 9223372036854775808) (fuel : Nat) :
    ∀ n : Nat, 0 < n → L ≤ n * 2 ^ fuel →
      ∃ k, whileLoop (fun n : Nat => decide (n < L))
          (fun n : Nat => (n * 2) % 18446744073709551616) fuel n = some (n * 2 ^ k) ∧
        L ≤ n * 2 ^ k ∧ ∀ j, j < k → n * 2 ^ j < L := by
  induction fuel with
  | zero =>
    intro n hn h
    refine ⟨0, ?_, by simpa using h, fun j hj => absurd hj (Nat.not_lt_zero j)⟩
    rw [whileLoop_done]
    · simp
    · simp at h
      simp [h]
  | succ fuel ih =>
    intro n hn h
    by_cases hc : n < L
    · have hstep : (n * 2) % 18446744073709551616 = n * 2 := Nat.mod_eq_of_lt (by omega)
      obtain ⟨k, hk, hge, hlt⟩ := ih (n * 2) (by omega)
        (by rw [Nat.pow_succ] at h; rw [Nat.mul_assoc, Nat.mul_comm 2]; exact h)
      refine ⟨k + 1, ?_, ?_, ?_⟩
      · rw [whileLoop_step _ _ _ _ (by simp [hc])]
        simp only [hstep]
        rw [hk, Nat.pow_succ, Nat.mul_assoc, Nat.mul_comm 2]
      · rw [Nat.pow_succ, ← Nat.mul_assoc, Nat.mul_right_comm]
        exact hge
      · intro j hj
        cases j with
        | zero => simpa using hc
        | succ j =>
          have := hlt j (by omega)
          rw [Nat.pow_succ, ← Nat.mul_assoc, Nat.mul_right_comm]
          exact this
    · refine ⟨0, ?_, by simp; omega, fun j hj => absurd hj (Nat.not_lt_zero j)⟩
      rw [whileLoop_done]
      · simp
      · simp [hc]

/-- Without wrap-around `RUP n p` is the least multiple of `p` that is at
least `n`. -/
theorem RUP_least (n p : Nat) (hp : 0 < p) (h : n + p - 1 < 18446744073709551616) :
    ∃ q, RUP n p = q * p ∧ n ≤ q * p ∧ ∀ q', n ≤ q' * p → q ≤ q' := by
  have h1 : (n + p - 1) % 18446744073709551616 = n + p - 1 := Nat.mod_eq_of_lt h
  have h2 : (n + p - 1) / p * p ≤ n + p - 1 := Nat.div_mul_le_self _ _
  have h3 : ((n + p - 1) / p * p) % 18446744073709551616 = (n + p - 1) / p * p :=
    Nat.mod_eq_of_lt (by omega)
  refine ⟨(n + p - 1) / p, by unfold RUP; rw [h1, h3], ?_, ?_⟩
  · have h4 : n + p - 1 < ((n + p - 1) / p + 1) * p := by
      rw [Nat.mul_comm]
      exact Nat.lt_mul_div_succ _ hp
    rw [Nat.add_mul, Nat.one_mul] at h4
    omega
  · intro q' hq'
    have h5 : n + p - 1 < (q' + 1) * p := by
      rw [Nat.add_mul, Nat.one_mul]
      omega
    have h6 : (n + p - 1) / p < q' + 1 := by
      rw [Nat.div_lt_iff_lt_mul hp]
      exact h5
    omega

theorem L2S_le_fuel (c size newlen : Nat) (hs : 0 < size) :
    L2S c newlen ≤ size * 2 ^ 64 := by
  have h1 : L2S c newlen < 18446744073709551616 := Nat.mod_lt _ (by decide)
  have h2 : 1 * 2 ^ 64 ≤ size * 2 ^ 64 := Nat.mul_le_mul_right _ hs
  have e : (1 : Nat) * 2 ^ 64 = 18446744073709551616 := by norm_num
  rw [e] at h2
  exact Nat.le_trans (Nat.le_of_lt h1) h2

theorem string_expand_newsize_ok (c size newlen : Nat) (hc : 0 < c) (hs : 0 < size)
    (hs2 : size < 18446744073709551616) (hlt : size < L2S c newlen)
    (hno : L2S c newlen + LARGE_BUF_SIZE c - 1 < 18446744073709551616) :
    ∃ n, string_expand_newsize c size newlen = some n ∧ L2S c newlen ≤ n ∧
      n < 18446744073709551616 := by
  unfold string_expand_newsize
  by_cases hl : L2S c newlen < LARGE_BUF_SIZE c
  · rw [if_pos hl]
    obtain ⟨k, hk, hge, hmin⟩ := doubling_ends (L2S c newlen) (by omega) 64 size hs
      (L2S_le_fuel c size newlen hs)
    refine ⟨_, hk, hge, ?_⟩
    cases k with
    | zero => simpa using hs2
    | succ k =>
      have := hmin k (Nat.lt_succ_self k)
      rw [Nat.pow_succ, ← Nat.mul_assoc]
      omega
  · rw [if_neg hl]
    have hp : 0 < LARGE_BUF_SIZE c := by unfold LARGE_BUF_SIZE; omega
    obtain ⟨q, hq, hge, _⟩ := RUP_least (L2S c newlen) (LARGE_BUF_SIZE c) hp hno
    refine ⟨_, rfl, by rw [hq]; exact hge, ?_⟩
    unfold RUP
    exact Nat.mod_lt _ (by decide)

theorem L2S_of_valid (c : Nat) (hc : 0 < c) (str : cryb_string) (hv : StringValid c str) :
    L2S c str.len / c = str.len + 1 := by
  obtain ⟨_, h2, h3, _⟩ := hv
  unfold L2S
  rw [Nat.mod_eq_of_lt (by omega)]
  exact Nat.mul_div_cancel _ hc

theorem getElem?_memcpyAt_zero (dst src : List Nat) (n i : Nat) (hi : i < n)
    (hn : n ≤ src.length) : (memcpyAt dst 0 src n)[i]? = src[i]? := by
  unfold memcpyAt
  simp only [List.take_zero, List.nil_append]
  rw [List.getElem?_append_left (by rw [List.length_take]; omega),
    List.getElem?_take_of_lt hi]

theorem length_memcpyAt_zero (dst src : List Nat) (n : Nat)
    (h1 : n ≤ dst.length) (h2 : n ≤ src.length) :
    (memcpyAt dst 0 src n).length = dst.length := by
  rw [length_memcpyAt dst 0 src n (by omega) h2]

theorem length_mallocMem (fresh : List Nat) (n : Nat) : (mallocMem fresh n).length = n := by
  simp [mallocMem]

theorem length_reallocMem (old fresh : List Nat) (n : Nat) :
    (reallocMem old fresh n).length = n := by
  simp only [reallocMem, List.length_take, List.length_append, List.length_replicate]
  omega

theorem getElem?_reallocMem (old fresh : List Nat) (n i : Nat) (hi : i < n)
    (ho : i < old.length) : (reallocMem old fresh n)[i]? = old[i]? := by
  unfold reallocMem
  rw [List.getElem?_take_of_lt hi, List.append_assoc, List.getElem?_append_left ho]

/-- What a successful `string_expand` leaves, for a request whose size
computation does not wrap around. -/
theorem string_expand_grown (c : Nat) (hc : 0 < c) (alloc : Option (List Nat))
    (str : cryb_string) (newlen : Nat) (hv : StringValid c str)
    (hno : L2S c newlen + LARGE_BUF_SIZE c - 1 < 18446744073709551616)
    (hlt : str.size < L2S c newlen) :
    ∃ n, string_expand_newsize c str.size newlen = some n ∧ L2S c newlen ≤ n ∧
      ((alloc = none ∧ string_expand c alloc str newlen = some (-1, str)) ∨
       (∃ str', string_expand c alloc str newlen = some (0, str') ∧
          str'.size = n ∧ str'.len = str.len ∧ str'.staticbuf = str.staticbuf ∧
          (∀ i, i ≤ str.len → (string_chars str')[i]? = (string_chars str)[i]?) ∧
          StringValid c str')) := by
  have hv' := hv
  obtain ⟨hnull, hsz, hfit, hchars⟩ := hv
  have hpos : 0 < str.size := by
    have : 1 * c ≤ (str.len + 1) * c := Nat.mul_le_mul_right c (by omega)
    omega
  obtain ⟨n, hn, hge, hnlt⟩ := string_expand_newsize_ok c str.size newlen hc hpos hsz hlt hno
  have hl2s := L2S_of_valid c hc str hv'
  have hcap : str.len + 1 ≤ n / c := by
    rw [Nat.le_div_iff_mul_le hc]
    omega
  refine ⟨n, hn, hge, ?_⟩
  unfold string_expand
  rw [if_neg (by omega), hn]
  simp only [Option.map_some']
  cases alloc with
  | none =>
    have hn0 : n ≠ 0 := by omega
    refine Or.inl ⟨rfl, ?_⟩
    cases str.buf <;> simp [hn0]
  | some fresh =>
    right
    cases hbuf : str.buf with
    | null => exact absurd hbuf hnull
    | static =>
      have hch : string_chars str = str.staticbuf := by simp [string_chars, hbuf]
      rw [hch] at hchars
      refine ⟨_, rfl, rfl, rfl, rfl, ?_, ?_⟩
      · intro i hi
        rw [hch, hl2s]
        simp only [string_chars]
        exact getElem?_memcpyAt_zero _ _ _ _ (by omega) (by omega)
      · refine ⟨by simp, hnlt, by simp only []; omega, ?_⟩
        simp only [string_chars]
        rw [hl2s, length_memcpyAt_zero _ _ _ (by rw [length_mallocMem]; omega) (by omega),
          length_mallocMem]
        omega
    | heap old =>
      have hch : string_chars str = old := by simp [string_chars, hbuf]
      rw [hch] at hchars
      refine ⟨_, rfl, rfl, rfl, rfl, ?_, ?_⟩
      · intro i hi
        rw [hch]
        simp only [string_chars]
        exact getElem?_reallocMem _ _ _ _ (by omega) (by omega)
      · refine ⟨by simp, hnlt, by simp only []; omega, ?_⟩
        simp only [string_chars]
        rw [length_reallocMem]
        omega

/-- C18 (counterexample): on a valid string of size 32 the request
`newlen = 2 ^ 64 - 2` makes `RUP` wrap around to `0`; when the allocator
returns a block, `string_expand` returns `0` and leaves `size = 0`, below
both `L2S(newlen)` and the old size. -/
theorem string_expand_wraps :
    StringValid 1 ⟨string_buf.heap (List.replicate 32 0), 32, 16, List.replicate 16 0⟩ ∧
    string_expand 1 (some [])
        ⟨string_buf.heap (List.replicate 32 0), 32, 16, List.replicate 16 0⟩
        18446744073709551614 =
      some (0, ⟨string_buf.heap [], 0, 16, List.replicate 16 0⟩) ∧
    L2S 1 18446744073709551614 = 18446744073709551615 := by
  decide

/-- Postcondition of `string_expand` in terms of `L2S`. -/
theorem string_expand_L2S_post (c : Nat) (hc : 0 < c) (alloc : Option (List Nat))
    (str : cryb_string) (newlen : Nat) (hv : StringValid c str)
    (hno : L2S c newlen + LARGE_BUF_SIZE c - 1 < 18446744073709551616) :
    (∃ r, string_expand c alloc str newlen = some r) ∧
    (∀ str', string_expand c alloc str newlen = some (0, str') →
      L2S c newlen ≤ str'.size ∧ str.size ≤ str'.size ∧ str'.len = str.len ∧
      (∀ i, i ≤ str.len → (string_chars str')[i]? = (string_chars str)[i]?) ∧
      StringValid c str') ∧
    (L2S c newlen ≤ str.size → string_expand c alloc str newlen = some (0, str)) := by
  have hfits : L2S c newlen ≤ str.size → string_expand c alloc str newlen = some (0, str) := by
    intro h
    unfold string_expand
    rw [if_pos h]
  by_cases h : L2S c newlen ≤ str.size
  · refine ⟨⟨_, hfits h⟩, ?_, hfits⟩
    intro str' hs
    rw [hfits h] at hs
    have e : str = str' := congrArg Prod.snd (Option.some.inj hs)
    subst e
    exact ⟨h, Nat.le_refl _, rfl, fun _ _ => rfl, hv⟩
  · obtain ⟨n, _, hge, hcase⟩ := string_expand_grown c hc alloc str newlen hv hno (by omega)
    rcases hcase with ⟨_, hfail⟩ | ⟨s1, hs1, hsz, hlen, _, hch, hval⟩
    · refine ⟨⟨_, hfail⟩, ?_, hfits⟩
      intro str' hs
      rw [hfail] at hs
      have e : (-1 : Int) = 0 := congrArg Prod.fst (Option.some.inj hs)
      exact absurd e (by decide)
    · refine ⟨⟨_, hs1⟩, ?_, hfits⟩
      intro str' hs
      rw [hs1] at hs
      have e : s1 = str' := congrArg Prod.snd (Option.some.inj hs)
      subst e
      exact ⟨by omega, by omega, hlen, hch, hval⟩

theorem L2S_exact (c newlen : Nat) (hc : 0 < c)
    (hno : (newlen + 1) * c + LARGE_BUF_SIZE c - 1 < 18446744073709551616) :
    L2S c newlen = (newlen + 1) * c := by
  unfold LARGE_BUF_SIZE at hno
  unfold L2S
  exact Nat.mod_eq_of_lt (by omega)

/-- C18 (amended): for every valid string and every `newlen` for which
`(newlen + 1) * sizeof(char_t) + LARGE_BUF_SIZE - 1` fits a `size_t` (no
wrap-around in `L2S` and `RUP`), `string_expand` returns, and if it returns
`0` then afterwards `size ≥ (newlen + 1) * sizeof(char_t)` and `size` is at
least the size before the call, while `len` and the stored characters
including the terminator are unchanged (and the string is still valid);
when `(newlen + 1) * sizeof(char_t) ≤ size` already, the string is left
entirely unchanged. -/
theorem string_expand_post (c : Nat) (hc : 0 < c) (alloc : Option (List Nat))
    (str : cryb_string) (newlen : Nat) (hv : StringValid c str)
    (hno : (newlen + 1) * c + LARGE_BUF_SIZE c - 1 < 18446744073709551616) :
    (∃ r, string_expand c alloc str newlen = some r) ∧
    (∀ str', string_expand c alloc str newlen = some (0, str') →
      (newlen + 1) * c ≤ str'.size ∧ str.size ≤ str'.size ∧ str'.len = str.len ∧
      (∀ i, i ≤ str.len → (string_chars str')[i]? = (string_chars str)[i]?) ∧
      StringValid c str') ∧
    ((newlen + 1) * c ≤ str.size → string_expand c alloc str newlen = some (0, str)) := by
  have e := L2S_exact c newlen hc hno
  have h := string_expand_L2S_post c hc alloc str newlen hv (by rw [e]; exact hno)
  rw [e] at h
  exact h

theorem string_expand_post_witness :
    StringValid 1 ⟨string_buf.static, 16, 2, [0x68, 0x69, 0, 0, 0, 0, 0, 0, 0, 0, 0, 0, 0, 0, 0, 0]⟩ ∧
    ∃ r, string_expand 1 (some [])
      ⟨string_buf.static, 16, 2, [0x68, 0x69, 0, 0, 0, 0, 0, 0, 0, 0, 0, 0, 0, 0, 0, 0]⟩ 40 =
        some r :=
  ⟨by decide,
    (string_expand_post 1 (by decide) (some [])
      ⟨string_buf.static, 16, 2, [0x68, 0x69, 0, 0, 0, 0, 0, 0, 0, 0, 0, 0, 0, 0, 0, 0]⟩ 40
      (by decide) (by decide)).1⟩

/-- C19 (counterexample): for `newlen = 2 ^ 64 - 2` the needed size is
`L = 2 ^ 64 - 1`, not below `LARGE_BUF_SIZE`, and the new size computed is
`0`, which is not a multiple of `LARGE_BUF_SIZE` that is at least `L`. -/
theorem string_expand_newsize_wraps :
    L2S 1 18446744073709551614 = 18446744073709551615 ∧
    LARGE_BUF_SIZE 1 ≤ L2S 1 18446744073709551614 ∧
    string_expand_newsize 1 16 18446744073709551614 = some 0 ∧
    ¬ (L2S 1 18446744073709551614 ≤ 0) := by
  decide

/-- Growth policy of `string_expand` in terms of `L2S`. -/
theorem string_expand_L2S_policy (c size newlen : Nat) (hc : 0 < c) (hs : 0 < size)
    (hs2 : size < 18446744073709551616) (hlt : size < L2S c newlen)
    (hno : L2S c newlen + LARGE_BUF_SIZE c - 1 < 18446744073709551616) :
    (L2S c newlen < LARGE_BUF_SIZE c →
      ∃ k, string_expand_newsize c size newlen = some (size * 2 ^ k) ∧
        L2S c newlen ≤ size * 2 ^ k ∧ ∀ j, j < k → size * 2 ^ j < L2S c newlen) ∧
    (LARGE_BUF_SIZE c ≤ L2S c newlen →
      ∃ q, string_expand_newsize c size newlen = some (q * LARGE_BUF_SIZE c) ∧
        L2S c newlen ≤ q * LARGE_BUF_SIZE c ∧
        ∀ q', L2S c newlen ≤ q' * LARGE_BUF_SIZE c → q ≤ q') ∧
    (∀ alloc str str', str.size = size →
      string_expand c alloc str newlen = some (0, str') →
      string_expand_newsize c size newlen = some str'.size) := by
  refine ⟨?_, ?_, ?_⟩
  · intro hl
    unfold string_expand_newsize
    rw [if_pos hl]
    exact doubling_ends (L2S c newlen) (by omega) 64 size hs
      (L2S_le_fuel c size newlen hs)
  · intro hl
    unfold string_expand_newsize
    rw [if_neg (by omega)]
    have hp : 0 < LARGE_BUF_SIZE c := by unfold LARGE_BUF_SIZE; omega
    obtain ⟨q, hq, hge, hmin⟩ := RUP_least (L2S c newlen) (LARGE_BUF_SIZE c) hp hno
    exact ⟨q, by rw [hq], hge, hmin⟩
  · intro alloc str str' hsz hexp
    obtain ⟨n, hn, _, _⟩ := string_expand_newsize_ok c size newlen hc hs hs2 hlt hno
    unfold string_expand at hexp
    rw [if_neg (by omega), hsz, hn] at hexp
    rw [hn]
    cases alloc with
    | none =>
      exfalso
      cases hbuf : str.buf with
      | static => simp [hbuf] at hexp
      | null => simp [hbuf] at hexp
      | heap old =>
        simp only [Option.map_some', hbuf, Option.some.injEq] at hexp
        split at hexp <;> simp at hexp
    | some fresh =>
      cases hbuf : str.buf with
      | static =>
        simp only [Option.map_some', hbuf, Option.some.injEq, Prod.mk.injEq] at hexp
        rw [← hexp.2]
      | heap old =>
        simp only [Option.map_some', hbuf, Option.some.injEq, Prod.mk.injEq] at hexp
        rw [← hexp.2]
      | null =>
        simp only [Option.map_some', hbuf, Option.some.injEq, Prod.mk.injEq] at hexp
        rw [← hexp.2]

/-- C19 (amended): two-regime growth policy of `string_expand`. When the
needed size `L = (newlen + 1) * sizeof(char_t)` exceeds the current size
`size > 0` and `L + LARGE_BUF_SIZE - 1` fits a `size_t`, the new size is
`size * 2 ^ k` for the least `k` with `size * 2 ^ k ≥ L` if
`L < LARGE_BUF_SIZE`, and otherwise the least multiple of `LARGE_BUF_SIZE`
that is at least `L`; it is the size a successful `string_expand` records. -/
theorem string_expand_policy (c size newlen : Nat) (hc : 0 < c) (hs : 0 < size)
    (hs2 : size < 18446744073709551616) (hlt : size < (newlen + 1) * c)
    (hno : (newlen + 1) * c + LARGE_BUF_SIZE c - 1 < 18446744073709551616) :
    ((newlen + 1) * c < LARGE_BUF_SIZE c →
      ∃ k, string_expand_newsize c size newlen = some (size * 2 ^ k) ∧
        (newlen + 1) * c ≤ size * 2 ^ k ∧ ∀ j, j < k → size * 2 ^ j < (newlen + 1) * c) ∧
    (LARGE_BUF_SIZE c ≤ (newlen + 1) * c →
      ∃ q, string_expand_newsize c size newlen = some (q * LARGE_BUF_SIZE c) ∧
        (newlen + 1) * c ≤ q * LARGE_BUF_SIZE c ∧
        ∀ q', (newlen + 1) * c ≤ q' * LARGE_BUF_SIZE c → q ≤ q') ∧
    (∀ alloc str str', str.size = size →
      string_expand c alloc str newlen = some (0, str') →
      string_expand_newsize c size newlen = some str'.size) := by
  have e := L2S_exact c newlen hc hno
  have h := string_expand_L2S_policy c size newlen hc hs hs2 (by rw [e]; exact hlt)
    (by rw [e]; exact hno)
  rw [e] at h
  exact h

theorem string_expand_policy_witness :
    ∃ k, string_expand_newsize 1 16 100 = some (16 * 2 ^ k) ∧
      (100 + 1) * 1 ≤ 16 * 2 ^ k ∧ ∀ j, j < k → 16 * 2 ^ j < (100 + 1) * 1 :=
  (string_expand_policy 1 16 100 (by decide) (by decide) (by decide) (by decide)
    (by decide)).1 (by decide)

/-- The string obtained from `string_new` by appending sixteen times the
character `a`, with every allocation succeeding. -/
theorem string_sixteen :
    ((List.range 16).foldl
      (fun s _ => s.bind (fun s => (string_append_c 1 (some []) s 0x61).map Prod.snd))
      (string_new 1 (some []))) =
    some ⟨string_buf.heap (List.replicate 16 0x61 ++ List.replicate 16 0), 32, 16,
      List.replicate 15 0x61 ++ [0]⟩ := by
  decide

/-- C20 (failing input): the 16-character string reached from `string_new`
by sixteen `string_append_c` (`string_sixteen`) is valid and has a buffer of
32 bytes; `string_shrink` leaves it with a buffer of
`LARGE_BUF_SIZE = 4096` bytes, larger than before. -/
theorem string_shrink_grows :
    StringValid 1 ⟨string_buf.heap (List.replicate 16 0x61 ++ List.replicate 16 0), 32, 16,
      List.replicate 15 0x61 ++ [0]⟩ ∧
    (string_shrink 1 (some [])
      ⟨string_buf.heap (List.replicate 16 0x61 ++ List.replicate 16 0), 32, 16,
        List.replicate 15 0x61 ++ [0]⟩).size = 4096 ∧
    ¬ ((string_shrink 1 (some [])
      ⟨string_buf.heap (List.replicate 16 0x61 ++ List.replicate 16 0), 32, 16,
        List.replicate 15 0x61 ++ [0]⟩).size ≤ 32) := by
  decide

/-! ## Endian codecs -/

/-- Joining a byte below a shifted value with bitwise or is addition. -/
theorem or_shift_eq_add (lo hi k : Nat) (h : lo < 2 ^ k) :
    lo ||| hi <<< k = hi * 2 ^ k + lo := by
  rw [Nat.shiftLeft_eq, Nat.or_comm, Nat.mul_comm hi, ← Nat.mul_add_lt_is_or h]

theorem or4_value (m a b c d : Nat) (hm : 4294967296 ≤ m) (ha : a < 256) (hb : b < 256)
    (hc : c < 256) (hd : d < 256) :
    a ||| (b <<< 8) % m ||| (c <<< 16) % m ||| (d <<< 24) % m =
      a + b * 2 ^ 8 + c * 2 ^ 16 + d * 2 ^ 24 := by
  have e1 : (b <<< 8) % m = b <<< 8 := by
    rw [Nat.shiftLeft_eq]; exact Nat.mod_eq_of_lt (by omega)
  have e2 : (c <<< 16) % m = c <<< 16 := by
    rw [Nat.shiftLeft_eq]; exact Nat.mod_eq_of_lt (by omega)
  have e3 : (d <<< 24) % m = d <<< 24 := by
    rw [Nat.shiftLeft_eq]; exact Nat.mod_eq_of_lt (by omega)
  rw [e1, e2, e3, or_shift_eq_add a b 8 (by omega), or_shift_eq_add _ c 16 (by omega),
    or_shift_eq_add _ d 24 (by omega)]
  omega

theorem or8_value (a b c d e f g h : Nat) (ha : a < 256) (hb : b < 256)
    (hc : c < 256) (hd : d < 256) (he : e < 256) (hf : f < 256) (hg : g < 256) (hh : h < 256) :
    a ||| (b <<< 8) % 18446744073709551616 ||| (c <<< 16) % 18446744073709551616 |||
      (d <<< 24) % 18446744073709551616 ||| (e <<< 32) % 18446744073709551616 |||
      (f <<< 40) % 18446744073709551616 ||| (g <<< 48) % 18446744073709551616 |||
      (h <<< 56) % 18446744073709551616 =
      a + b * 2 ^ 8 + c * 2 ^ 16 + d * 2 ^ 24 + e * 2 ^ 32 + f * 2 ^ 40 + g * 2 ^ 48 +
        h * 2 ^ 56 := by
  rw [or4_value 18446744073709551616 a b c d (by omega) ha hb hc hd]
  have e4 : (e <<< 32) % 18446744073709551616 = e <<< 32 := by
    rw [Nat.shiftLeft_eq]; exact Nat.mod_eq_of_lt (by omega)
  have e5 : (f <<< 40) % 18446744073709551616 = f <<< 40 := by
    rw [Nat.shiftLeft_eq]; exact Nat.mod_eq_of_lt (by omega)
  have e6 : (g <<< 48) % 18446744073709551616 = g <<< 48 := by
    rw [Nat.shiftLeft_eq]; exact Nat.mod_eq_of_lt (by omega)
  have e7 : (h <<< 56) % 18446744073709551616 = h <<< 56 := by
    rw [Nat.shiftLeft_eq]; exact Nat.mod_eq_of_lt (by omega)
  rw [e4, e5, e6, e7, or_shift_eq_add _ e 32 (by omega), or_shift_eq_add _ f 40 (by omega),
    or_shift_eq_add _ g 48 (by omega), or_shift_eq_add _ h 56 (by omega)]
  omega

/-- The byte `(x >> k) & 0xff`. -/
theorem byte_of (x k : Nat) : (x >>> k) &&& 0xff = x / 2 ^ k % 256 := by
  rw [Nat.shiftRight_eq_div_pow]
  exact Nat.and_pow_two_sub_one_eq_mod _ 8

theorem byte_of_zero (x : Nat) : x &&& 0xff = x % 256 :=
  Nat.and_pow_two_sub_one_eq_mod _ 8

theorem cryb_be32dec_value (b0 b1 b2 b3 : Nat) (rest : List Nat) (h0 : b0 < 256)
    (h1 : b1 < 256) (h2 : b2 < 256) (h3 : b3 < 256) :
    cryb_be32dec (b0 :: b1 :: b2 :: b3 :: rest) =
      some (b0 * 2 ^ 24 + b1 * 2 ^ 16 + b2 * 2 ^ 8 + b3) := by
  simp only [cryb_be32dec, List.getElem?_cons_succ, List.getElem?_cons_zero, Option.some_bind,
    Option.some.injEq]
  rw [or4_value 4294967296 b3 b2 b1 b0 (by omega) h3 h2 h1 h0]
  omega

theorem cryb_le32dec_value (b0 b1 b2 b3 : Nat) (rest : List Nat) (h0 : b0 < 256)
    (h1 : b1 < 256) (h2 : b2 < 256) (h3 : b3 < 256) :
    cryb_le32dec (b0 :: b1 :: b2 :: b3 :: rest) =
      some (b0 + b1 * 2 ^ 8 + b2 * 2 ^ 16 + b3 * 2 ^ 24) := by
  simp only [cryb_le32dec, List.getElem?_cons_succ, List.getElem?_cons_zero, Option.some_bind,
    Option.some.injEq]
  exact or4_value 4294967296 b0 b1 b2 b3 (by omega) h0 h1 h2 h3

theorem cryb_be64dec_value (b0 b1 b2 b3 b4 b5 b6 b7 : Nat) (rest : List Nat) (h0 : b0 < 256)
    (h1 : b1 < 256) (h2 : b2 < 256) (h3 : b3 < 256) (h4 : b4 < 256) (h5 : b5 < 256)
    (h6 : b6 < 256) (h7 : b7 < 256) :
    cryb_be64dec (b0 :: b1 :: b2 :: b3 :: b4 :: b5 :: b6 :: b7 :: rest) =
      some (b0 * 2 ^ 56 + b1 * 2 ^ 48 + b2 * 2 ^ 40 + b3 * 2 ^ 32 + b4 * 2 ^ 24 + b5 * 2 ^ 16 +
        b6 * 2 ^ 8 + b7) := by
  simp only [cryb_be64dec, List.getElem?_cons_succ, List.getElem?_cons_zero, Option.some_bind,
    Option.some.injEq]
  rw [or8_value b7 b6 b5 b4 b3 b2 b1 b0 h7 h6 h5 h4 h3 h2 h1 h0]
  omega

theorem cryb_le64dec_value (b0 b1 b2 b3 b4 b5 b6 b7 : Nat) (rest : List Nat) (h0 : b0 < 256)
    (h1 : b1 < 256) (h2 : b2 < 256) (h3 : b3 < 256) (h4 : b4 < 256) (h5 : b5 < 256)
    (h6 : b6 < 256) (h7 : b7 < 256) :
    cryb_le64dec (b0 :: b1 :: b2 :: b3 :: b4 :: b5 :: b6 :: b7 :: rest) =
      some (b0 + b1 * 2 ^ 8 + b2 * 2 ^ 16 + b3 * 2 ^ 24 + b4 * 2 ^ 32 + b5 * 2 ^ 40 +
        b6 * 2 ^ 48 + b7 * 2 ^ 56) := by
  simp only [cryb_le64dec, List.getElem?_cons_succ, List.getElem?_cons_zero, Option.some_bind,
    Option.some.injEq]
  exact or8_value b0 b1 b2 b3 b4 b5 b6 b7 h0 h1 h2 h3 h4 h5 h6 h7

/-- A memory of at least four bytes, spelled out. -/
theorem four_bytes (p : List Nat) (h : 4 ≤ p.length) :
    ∃ a b c d rest, p = a :: b :: c :: d :: rest := by
  match p, h with
  | a :: b :: c :: d :: rest, _ => exact ⟨a, b, c, d, rest, rfl⟩

theorem eight_bytes (p : List Nat) (h : 8 ≤ p.length) :
    ∃ a b c d e f g k rest, p = a :: b :: c :: d :: e :: f :: g :: k :: rest := by
  match p, h with
  | a :: b :: c :: d :: e :: f :: g :: k :: rest, _ => exact ⟨a, b, c, d, e, f, g, k, rest, rfl⟩

theorem cryb_be32_roundtrip (p : List Nat) (x : Nat) (hp : 4 ≤ p.length)
    (hx : x < 4294967296) : cryb_be32dec (cryb_be32enc p x) = some x := by
  obtain ⟨a, b, c, d, rest, rfl⟩ := four_bytes p hp
  simp only [cryb_be32enc, List.set_cons_succ, List.set_cons_zero]
  rw [cryb_be32dec_value _ _ _ _ _ (by rw [byte_of]; omega) (by rw [byte_of]; omega)
    (by rw [byte_of]; omega) (by rw [byte_of_zero]; omega)]
  rw [byte_of, byte_of, byte_of, byte_of_zero]
  congr 1
  omega

theorem cryb_le32_roundtrip (p : List Nat) (x : Nat) (hp : 4 ≤ p.length)
    (hx : x < 4294967296) : cryb_le32dec (cryb_le32enc p x) = some x := by
  obtain ⟨a, b, c, d, rest, rfl⟩ := four_bytes p hp
  simp only [cryb_le32enc, List.set_cons_succ, List.set_cons_zero]
  rw [cryb_le32dec_value _ _ _ _ _ (by rw [byte_of_zero]; omega) (by rw [byte_of]; omega)
    (by rw [byte_of]; omega) (by rw [byte_of]; omega)]
  rw [byte_of, byte_of, byte_of, byte_of_zero]
  congr 1
  omega

theorem cryb_be64_roundtrip (p : List Nat) (x : Nat) (hp : 8 ≤ p.length)
    (hx : x < 18446744073709551616) : cryb_be64dec (cryb_be64enc p x) = some x := by
  obtain ⟨a, b, c, d, e, f, g, k, rest, rfl⟩ := eight_bytes p hp
  simp only [cryb_be64enc, List.set_cons_succ, List.set_cons_zero]
  rw [cryb_be64dec_value _ _ _ _ _ _ _ _ _ (by rw [byte_of]; omega) (by rw [byte_of]; omega)
    (by rw [byte_of]; omega) (by rw [byte_of]; omega) (by rw [byte_of]; omega)
    (by rw [byte_of]; omega) (by rw [byte_of]; omega) (by rw [byte_of_zero]; omega)]
  rw [byte_of, byte_of, byte_of, byte_of, byte_of, byte_of, byte_of, byte_of_zero]
  congr 1
  omega

theorem cryb_le64_roundtrip (p : List Nat) (x : Nat) (hp : 8 ≤ p.length)
    (hx : x < 18446744073709551616) : cryb_le64dec (cryb_le64enc p x) = some x := by
  obtain ⟨a, b, c, d, e, f, g, k, rest, rfl⟩ := eight_bytes p hp
  simp only [cryb_le64enc, List.set_cons_succ, List.set_cons_zero]
  rw [cryb_le64dec_value _ _ _ _ _ _ _ _ _ (by rw [byte_of_zero]; omega) (by rw [byte_of]; omega)
    (by rw [byte_of]; omega) (by rw [byte_of]; omega) (by rw [byte_of]; omega)
    (by rw [byte_of]; omega) (by rw [byte_of]; omega) (by rw [byte_of]; omega)]
  rw [byte_of, byte_of, byte_of, byte_of, byte_of, byte_of, byte_of, byte_of_zero]
  congr 1
  omega

/-- C25: the endian decoders compute the positional value of the bytes
they read. For bytes `b0 .. b7` (each below 256) at the start of a memory,
`cryb_be32dec` returns `b0*2^24 + b1*2^16 + b2*2^8 + b3`, `cryb_le32dec`
returns `b0 + b1*2^8 + b2*2^16 + b3*2^24`, and `cryb_be64dec` and
`cryb_le64dec` return the like sums over eight bytes, most significant byte
first for `be` and least significant byte first for `le`. -/
theorem endian_dec_positional (b0 b1 b2 b3 b4 b5 b6 b7 : Nat) (rest : List Nat)
    (h0 : b0 < 256) (h1 : b1 < 256) (h2 : b2 < 256) (h3 : b3 < 256) (h4 : b4 < 256)
    (h5 : b5 < 256) (h6 : b6 < 256) (h7 : b7 < 256) :
    cryb_be32dec (b0 :: b1 :: b2 :: b3 :: rest) =
      some (b0 * 2 ^ 24 + b1 * 2 ^ 16 + b2 * 2 ^ 8 + b3) ∧
    cryb_le32dec (b0 :: b1 :: b2 :: b3 :: rest) =
      some (b0 + b1 * 2 ^ 8 + b2 * 2 ^ 16 + b3 * 2 ^ 24) ∧
    cryb_be64dec (b0 :: b1 :: b2 :: b3 :: b4 :: b5 :: b6 :: b7 :: rest) =
      some (b0 * 2 ^ 56 + b1 * 2 ^ 48 + b2 * 2 ^ 40 + b3 * 2 ^ 32 + b4 * 2 ^ 24 + b5 * 2 ^ 16 +
        b6 * 2 ^ 8 + b7) ∧
    cryb_le64dec (b0 :: b1 :: b2 :: b3 :: b4 :: b5 :: b6 :: b7 :: rest) =
      some (b0 + b1 * 2 ^ 8 + b2 * 2 ^ 16 + b3 * 2 ^ 24 + b4 * 2 ^ 32 + b5 * 2 ^ 40 +
        b6 * 2 ^ 48 + b7 * 2 ^ 56) :=
  ⟨cryb_be32dec_value b0 b1 b2 b3 rest h0 h1 h2 h3,
   cryb_le32dec_value b0 b1 b2 b3 rest h0 h1 h2 h3,
   cryb_be64dec_value b0 b1 b2 b3 b4 b5 b6 b7 rest h0 h1 h2 h3 h4 h5 h6 h7,
   cryb_le64dec_value b0 b1 b2 b3 b4 b5 b6 b7 rest h0 h1 h2 h3 h4 h5 h6 h7⟩

/-- C25 (witness): the bytes `01 23 45 67 89 ab cd ef`. -/
theorem endian_dec_positional_witness :
    cryb_be32dec [0x01, 0x23, 0x45, 0x67] = some 0x01234567 ∧
    cryb_le32dec [0x01, 0x23, 0x45, 0x67] = some 0x67452301 ∧
    cryb_be64dec [0x01, 0x23, 0x45, 0x67, 0x89, 0xab, 0xcd, 0xef] = some 0x0123456789abcdef ∧
    cryb_le64dec [0x01, 0x23, 0x45, 0x67, 0x89, 0xab, 0xcd, 0xef] = some 0xefcdab8967452301 :=
  endian_dec_positional 0x01 0x23 0x45 0x67 0x89 0xab 0xcd 0xef [] (by decide) (by decide)
    (by decide) (by decide) (by decide) (by decide) (by decide) (by decide)

/-- C28: the endian codecs round-trip. For every 32-bit `x` and every
memory `p` of at least four bytes, decoding what `cryb_be32enc` (or
`cryb_le32enc`) stored gives `x` back; for every 64-bit `y` and every
memory `q` of at least eight bytes, decoding what `cryb_be64enc` (or
`cryb_le64enc`) stored gives `y` back. -/
theorem endian_roundtrip (p q : List Nat) (x y : Nat) (hp : 4 ≤ p.length) (hq : 8 ≤ q.length)
    (hx : x < 4294967296) (hy : y < 18446744073709551616) :
    cryb_be32dec (cryb_be32enc p x) = some x ∧
    cryb_le32dec (cryb_le32enc p x) = some x ∧
    cryb_be64dec (cryb_be64enc q y) = some y ∧
    cryb_le64dec (cryb_le64enc q y) = some y :=
  ⟨cryb_be32_roundtrip p x hp hx, cryb_le32_roundtrip p x hp hx,
   cryb_be64_roundtrip q y hq hy, cryb_le64_roundtrip q y hq hy⟩

/-- C28 (witness): `0xdeadbeef` and `0x0123456789abcdef` stored into
zeroed memories. -/
theorem endian_roundtrip_witness :
    cryb_be32dec (cryb_be32enc [0, 0, 0, 0] 0xdeadbeef) = some 0xdeadbeef ∧
    cryb_le32dec (cryb_le32enc [0, 0, 0, 0] 0xdeadbeef) = some 0xdeadbeef ∧
    cryb_be64dec (cryb_be64enc [0, 0, 0, 0, 0, 0, 0, 0] 0x0123456789abcdef) =
      some 0x0123456789abcdef ∧
    cryb_le64dec (cryb_le64enc [0, 0, 0, 0, 0, 0, 0, 0] 0x0123456789abcdef) =
      some 0x0123456789abcdef :=
  endian_roundtrip [0, 0, 0, 0] [0, 0, 0, 0, 0, 0, 0, 0] 0xdeadbeef 0x0123456789abcdef
    (by decide) (by decide) (by decide) (by decide)

/-! ## Division and serialisation of MPIs -/

theorem le_digits_succ (B k n : Nat) :
    le_digits B (k + 1) n = n % B :: le_digits B k (n / B) := by
  unfold le_digits
  rw [List.range_succ_eq_map, List.map_cons, List.map_map]
  congr 1
  · simp
  · apply List.map_congr_left
    intro i _
    simp only [Function.comp_apply, Nat.succ_eq_add_one]
    rw [Nat.pow_succ', Nat.div_div_eq_div_mul]

theorem length_le_digits (B k n : Nat) : (le_digits B k n).length = k := by
  simp [le_digits]

theorem le_digits_lt (B k n : Nat) (hB : 0 < B) : ∀ d ∈ le_digits B k n, d < B := by
  intro d hd
  simp only [le_digits, List.mem_map] at hd
  obtain ⟨i, _, rfl⟩ := hd
  exact Nat.mod_lt _ hB

/-- The digits of `le_digits` read back give `n` modulo `B ^ k`. -/
theorem foldr_le_digits (B : Nat) : ∀ k n : Nat,
    (le_digits B k n).foldr (fun d acc => d + B * acc) 0 = n % B ^ k := by
  intro k
  induction k with
  | zero => intro n; simp [le_digits, Nat.mod_one]
  | succ k ih =>
    intro n
    rw [le_digits_succ, List.foldr_cons, ih, Nat.pow_succ', Nat.mod_mul]

theorem wordsVal_eq_foldr (l : List Nat) :
    wordsVal l = l.foldr (fun d acc => d + 4294967296 * acc) 0 := by
  induction l with
  | nil => rfl
  | cons w ws ih => simp only [wordsVal, List.foldr_cons, ih]

theorem wordsVal_le_digits (k n : Nat) (hn : n < 2 ^ (32 * k)) :
    wordsVal (le_digits 4294967296 k n) = n := by
  rw [wordsVal_eq_foldr, foldr_le_digits]
  have e : (4294967296 : Nat) ^ k = 2 ^ (32 * k) := by
    rw [Nat.pow_mul]
  rw [e]
  exact Nat.mod_eq_of_lt hn

/-- The scan `highest_bit` finds the index of the highest set bit of a
magnitude below `2 ^ i`, and the sentinel for zero. -/
theorem highest_bit_spec (s : Int) (n : Nat) : ∀ i : Nat, n < 2 ^ i →
    (n = 0 → highest_bit s n i = s) ∧
    (n ≠ 0 → ∃ m : Nat, highest_bit s n i = (m : Int) ∧ 2 ^ m ≤ n ∧ n < 2 ^ (m + 1)) := by
  intro i
  induction i with
  | zero =>
    intro h
    have : n = 0 := by simpa using h
    exact ⟨fun _ => rfl, fun h0 => absurd this h0⟩
  | succ i ih =>
    intro h
    have hq : n / 2 ^ i < 2 := by
      rw [Nat.div_lt_iff_lt_mul (Nat.two_pow_pos i), Nat.mul_comm, ← Nat.pow_succ]
      exact h
    by_cases hb : n / 2 ^ i % 2 = 1
    · have h1 : n / 2 ^ i = 1 := by
        generalize n / 2 ^ i = x at hq hb
        omega
      have h2 : 2 ^ i ≤ n := by
        by_contra hlt
        rw [Nat.div_eq_of_lt (by omega)] at h1
        omega
      refine ⟨fun h0 => ?_, fun _ => ⟨i, ?_, h2, h⟩⟩
      · subst h0
        simp at hb
      · simp only [highest_bit, if_pos hb]
    · have h1 : n / 2 ^ i = 0 := by
        generalize n / 2 ^ i = x at hq hb
        omega
      have h2 : n < 2 ^ i := (Nat.div_eq_zero_iff (Nat.two_pow_pos i)).mp h1
      obtain ⟨ih1, ih2⟩ := ih h2
      refine ⟨fun h0 => ?_, fun h0 => ?_⟩
      · simp only [highest_bit, if_neg hb]
        exact ih1 h0
      · simp only [highest_bit, if_neg hb]
        exact ih2 h0

theorem mpi_abs_mpi_of_mag (s : Int) (neg : Bool) (k n : Nat) (hn : n < 2 ^ (32 * k)) :
    mpi_abs (mpi_of_mag s neg k n) = n := by
  unfold mpi_abs mpi_of_mag
  exact wordsVal_le_digits k n hn

/-- The BigInt built by `mpi_of_mag` is canonical. -/
theorem canonical_mpi_of_mag (s : Int) (neg : Bool) (k n : Nat) (hk : 0 < k)
    (hn : n < 2 ^ (32 * k)) : Canonical s (mpi_of_mag s neg k n) := by
  have ha := mpi_abs_mpi_of_mag s neg k n hn
  obtain ⟨hb0, hb1⟩ := highest_bit_spec s n (32 * k) hn
  refine ⟨?_, ?_, ?_, ?_⟩
  · exact le_digits_lt 4294967296 k n (by decide)
  · intro h
    have := length_le_digits 4294967296 k n
    unfold mpi_of_mag at h
    simp only at h
    rw [h] at this
    simp at this
    omega
  · intro h0
    rw [ha] at h0
    exact ⟨hb0 h0, by simp [mpi_of_mag, h0]⟩
  · intro h0
    rw [ha] at h0 ⊢
    obtain ⟨m, hm, h1, h2⟩ := hb1 h0
    have e : (mpi_of_mag s neg k n).msb = (m : Int) := hm
    rw [e, Int.toNat_ofNat]
    exact ⟨Int.ofNat_nonneg _, h1, h2⟩

theorem mpi_val_mpi_of_mag (s : Int) (neg : Bool) (k n : Nat) (hn : n < 2 ^ (32 * k)) :
    mpi_val (mpi_of_mag s neg k n) = if neg then -(n : Int) else (n : Int) := by
  unfold mpi_val
  rw [mpi_abs_mpi_of_mag s neg k n hn]
  by_cases h0 : n = 0
  · subst h0
    cases neg <;> simp [mpi_of_mag]
  · cases neg <;> simp [mpi_of_mag, h0]

/-- The long division returns the quotient and the remainder of a dividend
of at most `n` bits. -/
theorem long_division_spec (b : Nat) (hb : 0 < b) : ∀ n a : Nat, a < 2 ^ n →
    a = (long_division b n a).1 * b + (long_division b n a).2 ∧
      (long_division b n a).2 < b := by
  intro n
  induction n with
  | zero =>
    intro a h
    have : a = 0 := by simpa using h
    subst this
    simp [long_division, hb]
  | succ n ih =>
    intro a h
    have h2 : a / 2 < 2 ^ n := by
      rw [Nat.div_lt_iff_lt_mul (by decide), ← Nat.pow_succ]
      exact h
    obtain ⟨e, hr⟩ := ih (a / 2) h2
    simp only [long_division]
    generalize (long_division b n (a / 2)).1 = q at e hr ⊢
    generalize (long_division b n (a / 2)).2 = r at e hr ⊢
    have ea : a = 2 * (q * b + r) + a % 2 := by omega
    by_cases hc : b ≤ 2 * r + a % 2
    · rw [if_pos hc]
      refine ⟨?_, by simp only; omega⟩
      simp only
      have : (2 * q + 1) * b = 2 * (q * b) + b := by ring
      rw [this]
      omega
    · rw [if_neg hc]
      refine ⟨?_, by simp only; omega⟩
      simp only
      have : 2 * q * b = 2 * (q * b) := by ring
      rw [this]
      omega

/-- Reading bytes most significant first is reading the reversed list
least significant first. -/
theorem foldl_be_bytes (l : List Nat) :
    l.reverse.foldl (fun acc b => acc * 256 + b) 0 =
      l.foldr (fun d acc => d + 256 * acc) 0 := by
  rw [List.foldl_reverse]
  congr 1
  funext d acc
  omega

theorem long_division_bounds (b : Nat) (hb : 0 < b) (n a : Nat) (h : a < 2 ^ n) :
    (long_division b n a).1 < 2 ^ n ∧ (long_division b n a).2 < 2 ^ n := by
  obtain ⟨e, _⟩ := long_division_spec b hb n a h
  generalize (long_division b n a).1 = q at e ⊢
  generalize (long_division b n a).2 = r at e ⊢
  have h1 : q * 1 ≤ q * b := Nat.mul_le_mul_left q hb
  omega

/-- The law of division with remainder on the modelled `mpi_div`. -/
theorem mpi_div_spec (s : Int) (A B : cryb_mpi) (hA : Canonical s A) (hb : mpi_abs B ≠ 0) :
    ∃ Q R, mpi_div s A B = some (Q, R) ∧
      mpi_val A = mpi_val Q * mpi_val B + mpi_val R ∧
      mpi_abs R < mpi_abs B ∧
      (mpi_val R = 0 ∨ sgn (mpi_val R) = sgn (mpi_val A)) ∧
      Canonical s Q ∧ Canonical s R := by
  obtain ⟨hw, hne, _, _⟩ := hA
  have hk : 0 < A.words.length := List.length_pos.mpr hne
  have ha : mpi_abs A < 2 ^ (32 * A.words.length) := wordsVal_lt A.words hw
  have hbp : 0 < mpi_abs B := Nat.pos_of_ne_zero hb
  obtain ⟨e, hr⟩ := long_division_spec (mpi_abs B) hbp _ _ ha
  obtain ⟨hq2, hr2⟩ := long_division_bounds (mpi_abs B) hbp _ _ ha
  refine ⟨_, _, by unfold mpi_div; rw [if_neg hb], ?_, ?_, ?_,
    canonical_mpi_of_mag s _ _ _ hk hq2, canonical_mpi_of_mag s _ _ _ hk hr2⟩
  · rw [mpi_val_mpi_of_mag s _ _ _ hq2, mpi_val_mpi_of_mag s _ _ _ hr2]
    generalize (long_division (mpi_abs B) (32 * A.words.length) (mpi_abs A)).1 = q at e
    generalize (long_division (mpi_abs B) (32 * A.words.length) (mpi_abs A)).2 = r at e
    have e2 : ((mpi_abs A : Nat) : Int) = (q : Int) * (mpi_abs B : Int) + (r : Int) := by
      exact_mod_cast e
    unfold mpi_val
    cases A.neg <;> cases B.neg <;> simp <;> linarith
  · rw [mpi_abs_mpi_of_mag s _ _ _ hr2]
    exact hr
  · rw [mpi_val_mpi_of_mag s _ _ _ hr2]
    generalize (long_division (mpi_abs B) (32 * A.words.length) (mpi_abs A)).1 = q at e
    generalize (long_division (mpi_abs B) (32 * A.words.length) (mpi_abs A)).2 = r at e
    by_cases h0 : r = 0
    · left
      subst h0
      cases A.neg <;> simp
    · right
      have hpos : 0 < mpi_abs A := by omega
      unfold mpi_val sgn
      cases A.neg
      · simp only [Bool.false_eq_true, if_false]
        rw [if_pos (by omega), if_pos (by omega)]
      · simp only [if_true]
        rw [if_neg (by omega), if_pos (by omega), if_neg (by omega), if_pos (by omega)]

/-- C26: truncating division law, on the division modelled from the
specification. For every canonical BigInt `A` and every BigInt `B`: when
the magnitude of `B` is zero, `mpi_div` fails (the division-by-zero
condition); otherwise it returns a quotient `Q` and a remainder `R`, both
canonical, with `A = Q * B + R`, `|R| < |B|`, and `R` zero or of the sign
of `A`. -/
theorem mpi_div_law (s : Int) (A B : cryb_mpi) (hA : Canonical s A) :
    (mpi_abs B = 0 → mpi_div s A B = none) ∧
    (mpi_abs B ≠ 0 → ∃ Q R, mpi_div s A B = some (Q, R) ∧
      mpi_val A = mpi_val Q * mpi_val B + mpi_val R ∧
      mpi_abs R < mpi_abs B ∧
      (mpi_val R = 0 ∨ sgn (mpi_val R) = sgn (mpi_val A)) ∧
      Canonical s Q ∧ Canonical s R) :=
  ⟨fun h => by unfold mpi_div; rw [if_pos h], mpi_div_spec s A B hA⟩

/-- Dividing `-7` by `2` gives the quotient `-3` and the remainder `-1`. -/
theorem mpi_div_seven_two :
    mpi_div (-1) ⟨[7], 2, true⟩ ⟨[2], 1, false⟩ =
      some (⟨[3], 1, true⟩, ⟨[1], 0, true⟩) := by
  decide!

/-- C26 (witness): `-7` divided by `2`. -/
theorem mpi_div_law_witness :
    Canonical (-1) ⟨[7], 2, true⟩ ∧ mpi_abs ⟨[2], 1, false⟩ ≠ 0 ∧
    ∃ Q R, mpi_div (-1) ⟨[7], 2, true⟩ ⟨[2], 1, false⟩ = some (Q, R) ∧
      mpi_val ⟨[7], 2, true⟩ = mpi_val Q * mpi_val ⟨[2], 1, false⟩ + mpi_val R ∧
      mpi_abs R < mpi_abs ⟨[2], 1, false⟩ ∧
      (mpi_val R = 0 ∨ sgn (mpi_val R) = sgn (mpi_val ⟨[7], 2, true⟩)) ∧
      Canonical (-1) Q ∧ Canonical (-1) R :=
  ⟨by decide, by decide,
    (mpi_div_law (-1) ⟨[7], 2, true⟩ ⟨[2], 1, false⟩ (by decide)).2 (by decide)⟩

theorem getElem?_be_bytes (w n i : Nat) (hi : i < w) :
    (le_digits 256 w n).reverse[i]? = some (n / 256 ^ (w - 1 - i) % 256) := by
  have hl := length_le_digits 256 w n
  rw [List.getElem?_reverse (by omega), hl]
  simp only [le_digits]
  rw [List.getElem?_map, List.getElem?_range (by omega)]
  rfl

/-- Round trip of the modelled serialisation. -/
theorem mpi_bytes_spec (s : Int) (hs : s ≤ 0) (v : cryb_mpi) (w : Nat)
    (hv : Canonical s v) (hneg : v.neg = false) (hfit : mpi_abs v < 256 ^ w) :
    mpi_to_bytes v w = some (le_digits 256 w (mpi_abs v)).reverse ∧
    Canonical s (mpi_from_bytes s (le_digits 256 w (mpi_abs v)).reverse) ∧
    mpi_val (mpi_from_bytes s (le_digits 256 w (mpi_abs v)).reverse) = mpi_val v ∧
    mpi_cmp (mpi_from_bytes s (le_digits 256 w (mpi_abs v)).reverse) v = some 0 := by
  have hval : (le_digits 256 w (mpi_abs v)).reverse.foldl (fun acc b => acc * 256 + b) 0 =
      mpi_abs v := by
    rw [foldl_be_bytes, foldr_le_digits, Nat.mod_eq_of_lt hfit]
  have hlen : (le_digits 256 w (mpi_abs v)).reverse.length = w := by
    rw [List.length_reverse, length_le_digits]
  have hbig : mpi_abs v < 2 ^ (32 * (w / 4 + 1)) := by
    have h1 : (256 : Nat) ^ w = 2 ^ (8 * w) := by rw [Nat.pow_mul]
    have h2 : (2 : Nat) ^ (8 * w) ≤ 2 ^ (32 * (w / 4 + 1)) :=
      Nat.pow_le_pow_right (by decide) (by omega)
    omega
  have hc : Canonical s (mpi_from_bytes s (le_digits 256 w (mpi_abs v)).reverse) := by
    unfold mpi_from_bytes
    rw [hval, hlen]
    exact canonical_mpi_of_mag s false _ _ (by omega) hbig
  have hvl : mpi_val (mpi_from_bytes s (le_digits 256 w (mpi_abs v)).reverse) = mpi_val v := by
    unfold mpi_from_bytes
    rw [hval, hlen, mpi_val_mpi_of_mag s false _ _ hbig]
    simp [mpi_val, hneg]
  refine ⟨by unfold mpi_to_bytes; rw [if_pos hfit], hc, hvl, ?_⟩
  rw [mpi_cmp_sgn s hs _ _ hc hv, hvl]
  simp [sgn]

/-- C27: serialisation round trip, on the serialiser modelled from the
specification. For every canonical non-negative BigInt `v` whose magnitude
fits in `w` bytes, `mpi_to_bytes v w` succeeds with `w` bytes, byte `i`
being the digit of weight `256 ^ (w - 1 - i)` of the magnitude (big-endian,
left-padded with zero bytes), and `mpi_from_bytes` of those bytes is a
canonical BigInt with the value of `v`, which `mpi_cmp` finds equal to
`v`. -/
theorem mpi_bytes_roundtrip (s : Int) (hs : s ≤ 0) (v : cryb_mpi) (w : Nat)
    (hv : Canonical s v) (hneg : v.neg = false) (hfit : mpi_abs v < 256 ^ w) :
    ∃ bytes, mpi_to_bytes v w = some bytes ∧ bytes.length = w ∧
      (∀ i, i < w → bytes[i]? = some (mpi_abs v / 256 ^ (w - 1 - i) % 256)) ∧
      Canonical s (mpi_from_bytes s bytes) ∧
      mpi_val (mpi_from_bytes s bytes) = mpi_val v ∧
      mpi_cmp (mpi_from_bytes s bytes) v = some 0 := by
  obtain ⟨h1, h2, h3, h4⟩ := mpi_bytes_spec s hs v w hv hneg hfit
  exact ⟨_, h1, by rw [List.length_reverse, length_le_digits],
    fun i hi => getElem?_be_bytes w (mpi_abs v) i hi, h2, h3, h4⟩

/-- C27 (witness): the BigInt for 255 in two bytes is `[0x00, 0xFF]`, read
back as the BigInt for 255. -/
theorem mpi_bytes_roundtrip_witness :
    mpi_to_bytes ⟨[255], 7, false⟩ 2 = some [0x00, 0xFF] ∧
    mpi_from_bytes (-1) [0x00, 0xFF] = ⟨[255], 7, false⟩ ∧
    ∃ bytes, mpi_to_bytes ⟨[255], 7, false⟩ 2 = some bytes ∧ bytes.length = 2 ∧
      (∀ i, i < 2 → bytes[i]? =
        some (mpi_abs ⟨[255], 7, false⟩ / 256 ^ (2 - 1 - i) % 256)) ∧
      Canonical (-1) (mpi_from_bytes (-1) bytes) ∧
      mpi_val (mpi_from_bytes (-1) bytes) = mpi_val ⟨[255], 7, false⟩ ∧
      mpi_cmp (mpi_from_bytes (-1) bytes) ⟨[255], 7, false⟩ = some 0 :=
  ⟨by decide, by decide,
    mpi_bytes_roundtrip (-1) (by decide) ⟨[255], 7, false⟩ 2 (by decide) rfl (by decide)⟩

/-! ## Managed strings: truncation and appending -/

theorem toSsize_of_lt (n : Nat) (h : n < 9223372036854775808) : toSsize n = (n : Int) := by
  unfold toSsize
  rw [if_pos h]

theorem SizeOK_mono (c m n : Nat) (h : m ≤ n) (hok : SizeOK c n) : SizeOK c m := by
  unfold SizeOK at hok ⊢
  have : (m + 1) * c ≤ (n + 1) * c := Nat.mul_le_mul_right c (by omega)
  omega

theorem SizeOK_L2S (c n : Nat) (hok : SizeOK c n) :
    L2S c n = (n + 1) * c ∧ L2S c n + LARGE_BUF_SIZE c - 1 < 18446744073709551616 := by
  unfold SizeOK at hok
  have e : L2S c n = (n + 1) * c := by
    unfold L2S
    exact Nat.mod_eq_of_lt (by omega)
  rw [e]
  exact ⟨rfl, by omega⟩

theorem SizeOK_lt (c n : Nat) (hc : 0 < c) (hok : SizeOK c n) :
    n + 1 < 9223372036854775808 := by
  unfold SizeOK LARGE_BUF_SIZE at hok
  have : (n + 1) * 1 ≤ (n + 1) * c := Nat.mul_le_mul_left _ hc
  omega

/-- The new size `string_expand` computes is a whole number of
characters. -/
theorem string_expand_newsize_dvd (c size newlen n : Nat) (hc : 0 < c) (hs : 0 < size)
    (hs2 : size < 18446744073709551616) (hlt : size < L2S c newlen)
    (hno : L2S c newlen + LARGE_BUF_SIZE c - 1 < 18446744073709551616) (hd : c ∣ size)
    (hn : string_expand_newsize c size newlen = some n) : c ∣ n := by
  obtain ⟨h1, h2, _⟩ := string_expand_L2S_policy c size newlen hc hs hs2 hlt hno
  by_cases hl : L2S c newlen < LARGE_BUF_SIZE c
  · obtain ⟨k, hk, _, _⟩ := h1 hl
    rw [hk] at hn
    cases hn
    exact Dvd.dvd.mul_right hd _
  · obtain ⟨q, hq, _, _⟩ := h2 (by omega)
    rw [hq] at hn
    cases hn
    unfold LARGE_BUF_SIZE
    exact ⟨q * 4096, by ring⟩

/-- What `string_expand` does to a string that satisfies the
representation invariant, for a request of a size that does not wrap
around: it returns, either with `-1` and the string untouched (the
allocation was needed and failed), or with `0`, the invariant, the length
and the characters up to the terminator kept, and room for `newlen`
characters. -/
theorem string_expand_inv (c : Nat) (hc : 0 < c) (alloc : Option (List Nat))
    (str : cryb_string) (newlen : Nat) (hinv : StringInv c str) (hok : SizeOK c newlen) :
    ∃ r str', string_expand c alloc str newlen = some (r, str') ∧
      ((r = -1 ∧ str' = str ∧ alloc = none ∧ str.size < L2S c newlen) ∨
       (r = 0 ∧ StringInv c str' ∧ str'.len = str.len ∧ (newlen + 1) * c ≤ str'.size ∧
         (alloc = none → str' = str) ∧
         ∀ i, i ≤ str.len → (string_chars str')[i]? = (string_chars str)[i]?)) := by
  obtain ⟨hv, hdvd, hcap, hstat, hterm, hlen⟩ := hinv
  obtain ⟨hL, hno⟩ := SizeOK_L2S c newlen hok
  by_cases hfit : L2S c newlen ≤ str.size
  · refine ⟨0, str, by unfold string_expand; rw [if_pos hfit], Or.inr ⟨rfl, ?_, rfl, ?_, ?_, ?_⟩⟩
    · exact ⟨hv, hdvd, hcap, hstat, hterm, hlen⟩
    · omega
    · intro _; rfl
    · intro i _; rfl
  · have hlt : str.size < L2S c newlen := by omega
    have hv' := hv
    obtain ⟨hnull, hsz, hfit2, hchars⟩ := hv
    have hpos : 0 < str.size := by
      have : 1 * c ≤ (str.len + 1) * c := Nat.mul_le_mul_right c (by omega)
      omega
    obtain ⟨n, hn, hge, hnlt⟩ := string_expand_newsize_ok c str.size newlen hc hpos hsz hlt hno
    have hnd := string_expand_newsize_dvd c str.size newlen n hc hpos hsz hlt hno hdvd hn
    have hl2s := L2S_of_valid c hc str hv'
    have hcap2 : str.len + 1 ≤ n / c := by
      rw [Nat.le_div_iff_mul_le hc]
      omega
    have hncap : n ≤ n / c * c := by rw [Nat.div_mul_cancel hnd]
    unfold string_expand
    rw [if_neg hfit, hn]
    simp only [Option.map_some']
    cases alloc with
    | none =>
      have hn0 : n ≠ 0 := by omega
      refine ⟨-1, str, ?_, Or.inl ⟨rfl, rfl, rfl, hlt⟩⟩
      cases str.buf <;> simp [hn0]
    | some fresh =>
      cases hbuf : str.buf with
      | null => exact absurd hbuf hnull
      | static =>
        have hch : string_chars str = str.staticbuf := by simp [string_chars, hbuf]
        rw [hch] at hchars hterm hcap
        have hlen2 : (memcpyAt (mallocMem fresh (n / c)) 0 str.staticbuf
            (str.len + 1)).length = n / c := by
          rw [length_memcpyAt_zero _ _ _ (by rw [length_mallocMem]; omega) (by omega),
            length_mallocMem]
        have hget : ∀ i, i ≤ str.len → (memcpyAt (mallocMem fresh (n / c)) 0 str.staticbuf
            (str.len + 1))[i]? = str.staticbuf[i]? := fun i hi =>
          getElem?_memcpyAt_zero _ _ _ _ (by omega) (by omega)
        refine ⟨0, _, rfl, Or.inr ⟨rfl, ⟨⟨by simp, hnlt, ?_, ?_⟩, hnd, ?_,
          hstat, ?_, hlen⟩, rfl, ?_, ?_, ?_⟩⟩
        · simp only []
          omega
        · simp only [string_chars]
          rw [hl2s, hlen2]
          omega
        · simp only [string_chars]
          rw [hl2s, hlen2]
          exact hncap
        · simp only [string_chars]
          rw [hl2s, hget _ (Nat.le_refl _)]
          exact hterm
        · simp only []
          omega
        · intro h
          cases h
        · intro i hi
          rw [hch]
          simp only [string_chars]
          rw [hl2s]
          exact hget i hi
      | heap old =>
        have hch : string_chars str = old := by simp [string_chars, hbuf]
        rw [hch] at hchars hterm hcap
        have hget : ∀ i, i ≤ str.len → (reallocMem old fresh (n / c))[i]? = old[i]? :=
          fun i hi => getElem?_reallocMem _ _ _ _ (by omega) (by omega)
        refine ⟨0, _, rfl, Or.inr ⟨rfl, ⟨⟨by simp, hnlt, ?_, ?_⟩, hnd, ?_,
          hstat, ?_, hlen⟩, rfl, ?_, ?_, ?_⟩⟩
        · simp only []
          omega
        · simp only [string_chars]
          rw [length_reallocMem]
          omega
        · simp only [string_chars]
          rw [length_reallocMem]
          exact hncap
        · simp only [string_chars]
          rw [hget _ (Nat.le_refl _)]
          exact hterm
        · simp only []
          omega
        · intro h
          cases h
        · intro i hi
          rw [hch]
          simp only [string_chars]
          exact hget i hi

/-- A list that agrees with `l` below `n` and with `a` from `n` on starts
with the first `n` elements of `l` followed by `a`. -/
theorem take_eq_append_of_getElem? (l' l a : List Nat) (n : Nat) (hl : n ≤ l.length)
    (hpre : ∀ i, i < n → l'[i]? = l[i]?) (hsuf : ∀ j, j < a.length → l'[n + j]? = a[j]?) :
    l'.take (n + a.length) = l.take n ++ a := by
  apply List.ext_getElem?
  intro i
  rw [List.getElem?_take, List.getElem?_append, List.length_take, Nat.min_eq_left hl]
  by_cases h1 : i < n
  · rw [if_pos (by omega), if_pos h1, List.getElem?_take, if_pos h1]
    exact hpre i h1
  · rw [if_neg h1]
    by_cases h2 : i < n + a.length
    · rw [if_pos h2]
      have := hsuf (i - n) (by omega)
      rw [← this]
      congr 1
      omega
    · rw [if_neg h2]
      exact (List.getElem?_eq_none (by omega)).symm

theorem string_chars_store (str : cryb_string) (i v : Nat) (h : str.buf ≠ string_buf.null) :
    string_chars (string_store str i v) = (string_chars str).set i v := by
  unfold string_store string_chars
  cases hb : str.buf with
  | null => exact absurd hb h
  | static => simp
  | heap mem => simp

theorem string_store_fields (str : cryb_string) (i v : Nat) :
    (string_store str i v).size = str.size ∧ (string_store str i v).len = str.len ∧
    (string_store str i v).staticbuf.length = str.staticbuf.length ∧
    (str.buf ≠ string_buf.null → (string_store str i v).buf ≠ string_buf.null) := by
  unfold string_store
  cases hb : str.buf with
  | null => simp [hb]
  | static => simp [hb]
  | heap mem => simp

theorem string_chars_with_len (str : cryb_string) (n : Nat) :
    string_chars { str with len := n } = string_chars str := rfl

/-- What the two assignments of `string_put` leave. -/
theorem string_put_fields (str : cryb_string) (ch : Nat) (h : str.buf ≠ string_buf.null)
    (hl : str.len + 1 < 18446744073709551616) :
    string_chars (string_put str ch) = ((string_chars str).set str.len ch).set (str.len + 1) 0 ∧
    (string_put str ch).len = str.len + 1 ∧ (string_put str ch).size = str.size ∧
    (string_put str ch).staticbuf.length = str.staticbuf.length ∧
    (string_put str ch).buf ≠ string_buf.null := by
  have hm : (str.len + 1) % 18446744073709551616 = str.len + 1 := Nat.mod_eq_of_lt hl
  obtain ⟨a1, a2, a3, a4⟩ := string_store_fields str str.len ch
  have hb1 : ({ string_store str str.len ch with
      len := (str.len + 1) % 18446744073709551616 } : cryb_string).buf ≠ string_buf.null := a4 h
  obtain ⟨b1, b2, b3, b4⟩ := string_store_fields
    { string_store str str.len ch with len := (str.len + 1) % 18446744073709551616 }
    ((str.len + 1) % 18446744073709551616) 0
  unfold string_put
  simp only []
  refine ⟨?_, ?_, ?_, ?_, ?_⟩
  · rw [string_chars_store _ _ _ hb1, string_chars_with_len, string_chars_store _ _ _ h, hm]
  · rw [b2]
    exact hm
  · rw [b1]
    exact a1
  · rw [b3]
    exact a3
  · exact b4 hb1

/-- Appending a character in place keeps the representation invariant
when the buffer has room for it. -/
theorem string_put_inv (c : Nat) (hc : 0 < c) (str : cryb_string) (ch : Nat)
    (hinv : StringInv c str) (hroom : (str.len + 2) * c ≤ str.size)
    (hok : SizeOK c (str.len + 1)) :
    StringInv c (string_put str ch) ∧ (string_put str ch).len = str.len + 1 ∧
    string_text (string_put str ch) = string_text str ++ [ch] := by
  obtain ⟨⟨hnull, hsz, hfit, hchars⟩, hdvd, hcap, hstat, hterm, hlen⟩ := hinv
  have hl := SizeOK_lt c (str.len + 1) hc hok
  obtain ⟨p1, p2, p3, p4, p5⟩ := string_put_fields str ch hnull (by omega)
  have hroom2 : str.len + 2 ≤ (string_chars str).length := by
    have h1 : (str.len + 2) * c ≤ (string_chars str).length * c := Nat.le_trans hroom hcap
    exact Nat.le_of_mul_le_mul_right h1 hc
  refine ⟨⟨⟨p5, by rw [p3]; exact hsz, by rw [p2, p3]; exact hroom, ?_⟩, by rw [p3]; exact hdvd,
    ?_, by rw [p4]; exact hstat, ?_, by rw [p2]; exact hok⟩, p2, ?_⟩
  · rw [p1, p2]
    simp only [List.length_set]
    omega
  · rw [p1, p3]
    simp only [List.length_set]
    exact hcap
  · rw [p1, p2, List.getElem?_set, if_pos rfl, if_pos (by simp only [List.length_set]; omega)]
  · unfold string_text
    rw [p1, p2]
    have := take_eq_append_of_getElem? (((string_chars str).set str.len ch).set (str.len + 1) 0)
      (string_chars str) [ch] str.len (by omega)
      (fun i hi => by
        rw [List.getElem?_set, if_neg (by omega), List.getElem?_set, if_neg (by omega)])
      (fun j hj => by
        have hj0 : j = 0 := by simpa using hj
        subst hj0
        rw [List.getElem?_set, if_neg (by omega), List.getElem?_set, if_pos (by omega),
          if_pos (by omega)]
        rfl)
    simpa using this

theorem string_text_congr (str' str : cryb_string) (hlen : str'.len = str.len)
    (h : ∀ i, i ≤ str.len → (string_chars str')[i]? = (string_chars str)[i]?) :
    string_text str' = string_text str := by
  unfold string_text
  rw [hlen]
  apply List.ext_getElem?
  intro i
  rw [List.getElem?_take, List.getElem?_take]
  by_cases hi : i < str.len
  · rw [if_pos hi, if_pos hi]
    exact h i (by omega)
  · rw [if_neg hi, if_neg hi]

theorem string_append_c_eq (c : Nat) (alloc : Option (List Nat)) (str : cryb_string)
    (ch : Nat) :
    string_append_c c alloc str ch =
      (string_expand c alloc str ((str.len + 1) % 18446744073709551616)).map (fun r =>
        if r.1 < 0 then r else (toSsize (string_put r.2 ch).len, string_put r.2 ch)) := rfl

/-- What `string_append_c` does to a string that satisfies the
representation invariant: it returns, either with `-1` and the string
untouched (the allocation was needed and failed), or with the new length,
the invariant kept and the character appended. -/
theorem string_append_c_spec (c : Nat) (hc : 0 < c) (alloc : Option (List Nat))
    (str : cryb_string) (ch : Nat) (hinv : StringInv c str) (hok : SizeOK c (str.len + 1)) :
    ∃ r str', string_append_c c alloc str ch = some (r, str') ∧
      ((r = -1 ∧ str' = str ∧ alloc = none ∧ str.size < (str.len + 2) * c) ∨
       (r = ((str.len + 1 : Nat) : Int) ∧ StringInv c str' ∧ str'.len = str.len + 1 ∧
         string_text str' = string_text str ++ [ch])) := by
  have hl := SizeOK_lt c (str.len + 1) hc hok
  have hm : (str.len + 1) % 18446744073709551616 = str.len + 1 := Nat.mod_eq_of_lt (by omega)
  obtain ⟨r, str1, he, hcase⟩ := string_expand_inv c hc alloc str (str.len + 1) hinv hok
  rw [string_append_c_eq, hm, he]
  simp only [Option.map_some']
  rcases hcase with ⟨hr, hs, ha, hlt⟩ | ⟨hr, hinv1, hlen1, hroom, _, hsame⟩
  · subst hr
    subst hs
    refine ⟨-1, str1, by simp, Or.inl ⟨rfl, rfl, ha, ?_⟩⟩
    rw [(SizeOK_L2S c (str1.len + 1) hok).1] at hlt
    exact hlt
  · subst hr
    have hroom1 : (str1.len + 2) * c ≤ str1.size := by rw [hlen1]; exact hroom
    obtain ⟨q1, q2, q3⟩ := string_put_inv c hc str1 ch hinv1 hroom1 (by rw [hlen1]; exact hok)
    refine ⟨toSsize (string_put str1 ch).len, string_put str1 ch, by simp,
      Or.inr ⟨?_, q1, by rw [q2, hlen1], ?_⟩⟩
    · rw [q2, hlen1]
      exact toSsize_of_lt _ (by omega)
    · rw [q3, string_text_congr str1 str hlen1 hsame]

/-- The size computation of `string_expand` ends for every request. -/
theorem string_expand_newsize_some (c size newlen : Nat) (hs : 0 < size)
    (hc2 : LARGE_BUF_SIZE c ≤ 9223372036854775808) :
    ∃ n, string_expand_newsize c size newlen = some n := by
  unfold string_expand_newsize
  by_cases hl : L2S c newlen < LARGE_BUF_SIZE c
  · rw [if_pos hl]
    obtain ⟨k, hk, _, _⟩ := doubling_ends (L2S c newlen) (by omega) 64 size hs
      (L2S_le_fuel c size newlen hs)
    exact ⟨_, hk⟩
  · rw [if_neg hl]
    exact ⟨_, rfl⟩

/-- A failed allocation makes `string_expand` return `-1` and leave the
string as it was, unless the failed call is the `realloc` of an allocated
buffer to the new size `0`. -/
theorem string_expand_fails (c : Nat) (str : cryb_string) (newlen : Nat) (hs : 0 < str.size)
    (hc2 : LARGE_BUF_SIZE c ≤ 9223372036854775808) (hlt : str.size < L2S c newlen)
    (h0 : (∃ old, str.buf = string_buf.heap old) →
      string_expand_newsize c str.size newlen ≠ some 0) :
    string_expand c none str newlen = some (-1, str) := by
  obtain ⟨n, hn⟩ := string_expand_newsize_some c str.size newlen hs hc2
  unfold string_expand
  rw [if_neg (by omega), hn]
  simp only [Option.map_some', Option.some.injEq]
  cases hbuf : str.buf with
  | static => rfl
  | null => rfl
  | heap old =>
    have hn0 : n ≠ 0 := by
      intro h
      exact h0 ⟨old, hbuf⟩ (by rw [hn, h])
    simp [hn0]

/-- When its reallocation succeeds `string_shrink` keeps the representation
invariant, the length and the characters up to the terminator. -/
theorem string_shrink_inv (c : Nat) (hc : 0 < c) (fresh : List Nat) (str : cryb_string)
    (hinv : StringInv c str) :
    StringInv c (string_shrink c (some fresh) str) ∧
    (string_shrink c (some fresh) str).len = str.len ∧
    ∀ i, i ≤ str.len →
      (string_chars (string_shrink c (some fresh) str))[i]? = (string_chars str)[i]? := by
  have hinv' := hinv
  obtain ⟨hv, hdvd, hcap, hstat, hterm, hlen⟩ := hinv
  have hv' := hv
  obtain ⟨hnull, hsz, hfit, hchars⟩ := hv
  obtain ⟨hL, hno⟩ := SizeOK_L2S c str.len hlen
  have hl2s := L2S_of_valid c hc str hv'
  cases hbuf : str.buf with
  | null => exact absurd hbuf hnull
  | static =>
    have e : string_shrink c (some fresh) str = str := by
      unfold string_shrink
      rw [hbuf]
    rw [e]
    exact ⟨hinv', rfl, fun i _ => rfl⟩
  | heap mem =>
    have hch : string_chars str = mem := by simp [string_chars, hbuf]
    rw [hch] at hchars hterm hcap
    by_cases hsmall : L2S c str.len ≤ STATIC_BUF_SIZE c
    · have e : string_shrink c (some fresh) str =
          { str with
            staticbuf := memcpyAt str.staticbuf 0 mem (str.len + 1)
            buf := string_buf.static
            size := STATIC_BUF_SIZE c } := by
        unfold string_shrink
        rw [hbuf]
        simp only [if_pos hsmall, hl2s, hch]
      rw [e, hch]
      have h16 : str.len + 1 ≤ 16 := by
        rw [hL] at hsmall
        unfold STATIC_BUF_SIZE at hsmall
        have : (str.len + 1) * c ≤ 16 * c := hsmall
        exact Nat.le_of_mul_le_mul_right this hc
      have hsl : str.len + 1 ≤ str.staticbuf.length := by
        rw [hstat]
        unfold STATIC_BUF_SIZE
        have : 16 * 1 ≤ 16 * c := Nat.mul_le_mul_left 16 hc
        omega
      have hlen2 : (memcpyAt str.staticbuf 0 mem (str.len + 1)).length =
          str.staticbuf.length := length_memcpyAt_zero _ _ _ hsl (by omega)
      have hget : ∀ i, i ≤ str.len →
          (memcpyAt str.staticbuf 0 mem (str.len + 1))[i]? = mem[i]? := fun i hi =>
        getElem?_memcpyAt_zero _ _ _ _ (by omega) (by omega)
      refine ⟨⟨⟨by simp, ?_, ?_, ?_⟩, ?_, ?_, ?_, ?_, hlen⟩, rfl, ?_⟩
      · simp only []
        unfold SizeOK LARGE_BUF_SIZE at hlen
        unfold STATIC_BUF_SIZE
        omega
      · simp only []
        rw [← hL]
        exact hsmall
      · simp only [string_chars]
        rw [hlen2]
        omega
      · simp only []
        unfold STATIC_BUF_SIZE
        exact ⟨16, by ring⟩
      · simp only [string_chars]
        rw [hlen2, hstat]
        exact Nat.le_mul_of_pos_right _ hc
      · simp only []
        rw [hlen2]
        exact hstat
      · simp only [string_chars]
        rw [hget _ (Nat.le_refl _)]
        exact hterm
      · intro i hi
        simp only [string_chars]
        exact hget i hi
    · have hp : 0 < LARGE_BUF_SIZE c := by unfold LARGE_BUF_SIZE; omega
      have hnew : ∃ n, (if L2S c str.len ≥ LARGE_BUF_SIZE c then
            RUP (L2S c str.len) (LARGE_BUF_SIZE c) else LARGE_BUF_SIZE c) = n ∧
          L2S c str.len ≤ n ∧ n < 18446744073709551616 ∧ c ∣ n := by
        by_cases hbig : L2S c str.len ≥ LARGE_BUF_SIZE c
        · rw [if_pos hbig]
          obtain ⟨q, hq, hge, _⟩ := RUP_least (L2S c str.len) (LARGE_BUF_SIZE c) hp hno
          refine ⟨_, rfl, by rw [hq]; exact hge, ?_, ?_⟩
          · unfold RUP
            exact Nat.mod_lt _ (by decide)
          · rw [hq]
            unfold LARGE_BUF_SIZE
            exact ⟨q * 4096, by ring⟩
        · rw [if_neg hbig]
          refine ⟨_, rfl, by omega, ?_, ?_⟩
          · unfold SizeOK at hlen
            omega
          · unfold LARGE_BUF_SIZE
            exact ⟨4096, by ring⟩
      obtain ⟨n, hn, hge, hnlt, hnd⟩ := hnew
      have e : string_shrink c (some fresh) str =
          { str with
            buf := string_buf.heap (reallocMem mem fresh (n / c))
            size := n } := by
        unfold string_shrink
        rw [hbuf]
        simp only [if_neg hsmall, hch]
        rw [hn]
      rw [e, hch]
      have hcap2 : str.len + 1 ≤ n / c := by
        rw [Nat.le_div_iff_mul_le hc]
        omega
      have hget : ∀ i, i ≤ str.len → (reallocMem mem fresh (n / c))[i]? = mem[i]? :=
        fun i hi => getElem?_reallocMem _ _ _ _ (by omega) (by omega)
      refine ⟨⟨⟨by simp, hnlt, ?_, ?_⟩, hnd, ?_, hstat, ?_, hlen⟩, rfl, ?_⟩
      · simp only []
        omega
      · simp only [string_chars]
        rw [length_reallocMem]
        omega
      · simp only [string_chars]
        rw [length_reallocMem, Nat.div_mul_cancel hnd]
      · simp only [string_chars]
        rw [hget _ (Nat.le_refl _)]
        exact hterm
      · intro i hi
        simp only [string_chars]
        exact hget i hi

/-- When the reallocation of `string_shrink` succeeds, `string_trunc`
returns the smaller of `n` and the old length, which is the new length, and
leaves the first so many characters followed by the terminating zero; it
leaves the string as it was when `n` is not below the old length. -/
theorem string_trunc_spec (c : Nat) (hc : 0 < c) (fresh : List Nat) (str : cryb_string)
    (n : Nat) (hinv : StringInv c str) :
    (string_trunc c (some fresh) str n).1 = ((min n str.len : Nat) : Int) ∧
    (string_trunc c (some fresh) str n).2.len = min n str.len ∧
    StringInv c (string_trunc c (some fresh) str n).2 ∧
    string_text (string_trunc c (some fresh) str n).2 = (string_text str).take n ∧
    (str.len ≤ n → (string_trunc c (some fresh) str n).2 = str) := by
  have hinv' := hinv
  obtain ⟨⟨hnull, hsz, hfit, hchars⟩, hdvd, hcap, hstat, hterm, hlen⟩ := hinv
  have hl := SizeOK_lt c str.len hc hlen
  by_cases hn : n < str.len
  · obtain ⟨a1, a2, a3, a4⟩ := string_store_fields str n 0
    have hch1 := string_chars_store str n 0 hnull
    have hinv1 : StringInv c { string_store str n 0 with len := n } := by
      refine ⟨⟨a4 hnull, ?_, ?_, ?_⟩, ?_, ?_, ?_, ?_, SizeOK_mono c n str.len (by omega) hlen⟩
      · simp only []
        rw [a1]
        exact hsz
      · simp only []
        rw [a1]
        have : (n + 1) * c ≤ (str.len + 1) * c := Nat.mul_le_mul_right c (by omega)
        omega
      · simp only []
        rw [string_chars_with_len, hch1, List.length_set]
        omega
      · simp only []
        rw [a1]
        exact hdvd
      · simp only []
        rw [string_chars_with_len, hch1, List.length_set, a1]
        exact hcap
      · simp only []
        rw [a3]
        exact hstat
      · simp only []
        rw [string_chars_with_len, hch1, List.getElem?_set, if_pos rfl, if_pos (by omega)]
    obtain ⟨s1, s2, s3⟩ := string_shrink_inv c hc fresh _ hinv1
    have e : string_trunc c (some fresh) str n =
        (toSsize (string_shrink c (some fresh) { string_store str n 0 with len := n }).len,
          string_shrink c (some fresh) { string_store str n 0 with len := n }) := by
      unfold string_trunc
      rw [if_pos hn]
    have s2' : (string_shrink c (some fresh) { string_store str n 0 with len := n }).len = n :=
      s2
    rw [e]
    simp only []
    rw [s2', Nat.min_eq_left (by omega)]
    refine ⟨toSsize_of_lt _ (by omega), rfl, s1, ?_, fun h => by omega⟩
    unfold string_text
    rw [s2', List.take_take, Nat.min_eq_left (by omega)]
    apply List.ext_getElem?
    intro i
    rw [List.getElem?_take, List.getElem?_take]
    by_cases hi : i < n
    · rw [if_pos hi, if_pos hi, s3 i (by simp only []; omega), string_chars_with_len, hch1,
        List.getElem?_set, if_neg (by omega)]
    · rw [if_neg hi, if_neg hi]
  · have e : string_trunc c (some fresh) str n = (toSsize str.len, str) := by
      unfold string_trunc
      rw [if_neg hn]
    rw [e]
    simp only []
    rw [Nat.min_eq_right (by omega)]
    refine ⟨toSsize_of_lt _ (by omega), rfl, hinv', ?_, fun _ => trivial⟩
    unfold string_text
    rw [List.take_take, Nat.min_eq_right (by omega)]

/-- Reading the result of `memcpy(dst + off, src, n)`. -/
theorem getElem?_memcpyAt (dst : List Nat) (off : Nat) (src : List Nat) (n i : Nat)
    (h1 : off ≤ dst.length) (h2 : n ≤ src.length) :
    (memcpyAt dst off src n)[i]? =
      if i < off then dst[i]? else if i < off + n then src[i - off]? else dst[i]? := by
  unfold memcpyAt
  have hl1 : (dst.take off).length = off := by rw [List.length_take]; omega
  have hl2 : (src.take n).length = n := by rw [List.length_take]; omega
  rw [List.append_assoc, List.getElem?_append, hl1]
  by_cases ha : i < off
  · rw [if_pos ha, if_pos ha, List.getElem?_take, if_pos ha]
  · rw [if_neg ha, if_neg ha, List.getElem?_append, hl2]
    by_cases hb : i < off + n
    · rw [if_pos (by omega), if_pos hb, List.getElem?_take, if_pos (by omega)]
    · rw [if_neg (by omega), if_neg hb, List.getElem?_drop]
      congr 1
      omega

theorem string_chars_memcpy (str : cryb_string) (off : Nat) (src : List Nat) (n : Nat)
    (h : str.buf ≠ string_buf.null) :
    string_chars (string_memcpy str off src n) = memcpyAt (string_chars str) off src n := by
  unfold string_memcpy string_chars
  cases hb : str.buf with
  | null => exact absurd hb h
  | static => simp
  | heap mem => simp

theorem string_memcpy_fields (str : cryb_string) (off : Nat) (src : List Nat) (n : Nat)
    (h1 : off + n ≤ (string_chars str).length) (h2 : n ≤ src.length) :
    (string_memcpy str off src n).size = str.size ∧
    (string_memcpy str off src n).len = str.len ∧
    (string_memcpy str off src n).staticbuf.length = str.staticbuf.length ∧
    (str.buf ≠ string_buf.null → (string_memcpy str off src n).buf ≠ string_buf.null) := by
  unfold string_memcpy
  cases hb : str.buf with
  | null => simp [hb]
  | static =>
    have : string_chars str = str.staticbuf := by simp [string_chars, hb]
    rw [this] at h1
    simp [length_memcpyAt _ _ _ _ h1 h2]
  | heap mem => simp

theorem string_append_string_eq (c : Nat) (alloc : Option (List Nat))
    (str other : cryb_string) (len : Nat) :
    string_append_string c alloc str other len =
      (string_expand c alloc str
        ((str.len + (if len > other.len then other.len else len)) %
          18446744073709551616)).map (fun r =>
        if r.1 < 0 then r
        else string_append_tail c r.2 (string_chars other)
          (if len > other.len then other.len else len)) := rfl

theorem string_append_self_eq (c : Nat) (alloc : Option (List Nat)) (str : cryb_string)
    (len : Nat) :
    string_append_self c alloc str len =
      (string_expand c alloc str
        ((str.len + (if len > str.len then str.len else len)) %
          18446744073709551616)).map (fun r =>
        if r.1 < 0 then r
        else string_append_tail c r.2 (string_chars r.2)
          (if len > str.len then str.len else len)) := rfl

/-- What `string_append_string` does after a successful `string_expand`:
on a string that satisfies the representation invariant and has room for
`n` more characters it returns the new length, keeps the invariant and
appends the first `n` characters of `src`. -/
theorem string_append_tail_spec (c : Nat) (hc : 0 < c) (str1 : cryb_string) (src : List Nat)
    (n : Nat) (hinv1 : StringInv c str1) (hroom : (str1.len + n + 1) * c ≤ str1.size)
    (hon : n ≤ src.length) (hok : SizeOK c (str1.len + n)) :
    (string_append_tail c str1 src n).1 = ((str1.len + n : Nat) : Int) ∧
    StringInv c (string_append_tail c str1 src n).2 ∧
    (string_append_tail c str1 src n).2.len = str1.len + n ∧
    string_text (string_append_tail c str1 src n).2 = string_text str1 ++ src.take n := by
  have hl := SizeOK_lt c (str1.len + n) hc hok
  have hm : (str1.len + n) % 18446744073709551616 = str1.len + n :=
    Nat.mod_eq_of_lt (by omega)
  have hnc : (n * c) % 18446744073709551616 / c = n := by
    have h1 : n * c ≤ (str1.len + n + 1) * c := Nat.mul_le_mul_right c (by omega)
    have h2 := hok
    unfold SizeOK at h2
    rw [Nat.mod_eq_of_lt (by omega)]
    exact Nat.mul_div_cancel _ hc
  obtain ⟨⟨hnull, hsz, hfit, hchars⟩, hdvd, hcap, hstat, hterm, hlen⟩ := hinv1
  have hroom2 : str1.len + n + 1 ≤ (string_chars str1).length := by
    have h1 : (str1.len + n + 1) * c ≤ (string_chars str1).length * c :=
      Nat.le_trans hroom hcap
    exact Nat.le_of_mul_le_mul_right h1 hc
  obtain ⟨m1, m2, m3, m4⟩ := string_memcpy_fields str1 str1.len src n (by omega) hon
  have mch := string_chars_memcpy str1 str1.len src n hnull
  have hm2 : ((string_memcpy str1 str1.len src n).len + n) % 18446744073709551616 =
      str1.len + n := by
    rw [m2]
    exact hm
  have hb3 : ({ string_memcpy str1 str1.len src n with
      len := str1.len + n } : cryb_string).buf ≠ string_buf.null := m4 hnull
  obtain ⟨b1, b2, b3, b4⟩ := string_store_fields
    { string_memcpy str1 str1.len src n with len := str1.len + n } (str1.len + n) 0
  have bch : string_chars (string_store
      { string_memcpy str1 str1.len src n with len := str1.len + n } (str1.len + n) 0) =
      (memcpyAt (string_chars str1) str1.len src n).set (str1.len + n) 0 := by
    rw [string_chars_store _ _ _ hb3]
    show (string_chars (string_memcpy str1 str1.len src n)).set _ _ = _
    rw [mch]
  have hlm : (memcpyAt (string_chars str1) str1.len src n).length =
      (string_chars str1).length := length_memcpyAt _ _ _ _ (by omega) hon
  have b2' : (string_store
      { string_memcpy str1 str1.len src n with len := str1.len + n }
      (str1.len + n) 0).len = str1.len + n := b2
  have b1' : (string_store
      { string_memcpy str1 str1.len src n with len := str1.len + n }
      (str1.len + n) 0).size = str1.size := by rw [b1]; exact m1
  have b3' : (string_store
      { string_memcpy str1 str1.len src n with len := str1.len + n }
      (str1.len + n) 0).staticbuf.length = str1.staticbuf.length := by rw [b3]; exact m3
  unfold string_append_tail
  simp only [hnc, hm2]
  refine ⟨?_, ⟨⟨b4 hb3, ?_, ?_, ?_⟩, ?_, ?_, ?_, ?_, ?_⟩, b2', ?_⟩
  · rw [b2']
    exact toSsize_of_lt _ (by omega)
  · rw [b1']
    exact hsz
  · rw [b1', b2']
    exact hroom
  · rw [b2', bch, List.length_set, hlm]
    omega
  · rw [b1']
    exact hdvd
  · rw [b1', bch, List.length_set, hlm]
    exact hcap
  · rw [b3']
    exact hstat
  · rw [b2', bch, List.getElem?_set, if_pos rfl, if_pos (by rw [hlm]; omega)]
  · rw [b2']
    exact hok
  · unfold string_text
    rw [b2', bch]
    have := take_eq_append_of_getElem?
      ((memcpyAt (string_chars str1) str1.len src n).set (str1.len + n) 0)
      (string_chars str1) (src.take n) str1.len (by omega)
      (fun i hi => by
        rw [List.getElem?_set, if_neg (by omega),
          getElem?_memcpyAt _ _ _ _ _ (by omega) hon, if_pos hi])
      (fun j hj => by
        rw [List.length_take, Nat.min_eq_left hon] at hj
        rw [List.getElem?_set, if_neg (by omega),
          getElem?_memcpyAt _ _ _ _ _ (by omega) hon, if_neg (by omega), if_pos (by omega),
          List.getElem?_take, if_pos hj]
        congr 1
        omega)
    rw [List.length_take, Nat.min_eq_left hon] at this
    exact this

/-- What `string_append_string` does to a string that satisfies the
representation invariant, `other` being another such string: it returns,
either with `-1` and the string untouched (the allocation was needed and
failed), or with the new length, the invariant kept and the first
`min len other.len` characters of `other` appended. -/
theorem string_append_string_spec (c : Nat) (hc : 0 < c) (alloc : Option (List Nat))
    (str other : cryb_string) (len : Nat) (hinv : StringInv c str)
    (hother : StringInv c other) (hok : SizeOK c (str.len + min len other.len)) :
    ∃ r str', string_append_string c alloc str other len = some (r, str') ∧
      ((r = -1 ∧ str' = str ∧ alloc = none ∧
          str.size < (str.len + min len other.len + 1) * c) ∨
       (r = ((str.len + min len other.len : Nat) : Int) ∧ StringInv c str' ∧
         str'.len = str.len + min len other.len ∧
         string_text str' = string_text str ++ (string_text other).take len)) := by
  generalize hn : min len other.len = n at hok ⊢
  have hlen1 : (if len > other.len then other.len else len) = n := by
    split_ifs <;> omega
  have hl := SizeOK_lt c (str.len + n) hc hok
  have hm : (str.len + n) % 18446744073709551616 = str.len + n := Nat.mod_eq_of_lt (by omega)
  have hotext : (string_text other).take len = (string_chars other).take n := by
    unfold string_text
    rw [List.take_take, hn]
  have hon : n ≤ (string_chars other).length := by
    have := hother.1.2.2.2
    omega
  obtain ⟨r, str1, he, hcase⟩ := string_expand_inv c hc alloc str (str.len + n) hinv hok
  rw [string_append_string_eq, hlen1, hm, he]
  simp only [Option.map_some']
  rcases hcase with ⟨hr, hs, ha, hlt⟩ | ⟨hr, hinv1, hl1, hroom, _, hsame⟩
  · subst hr
    subst hs
    refine ⟨-1, str1, by simp, Or.inl ⟨rfl, rfl, ha, ?_⟩⟩
    rw [(SizeOK_L2S c (str1.len + n) hok).1] at hlt
    exact hlt
  · subst hr
    obtain ⟨t1, t2, t3, t4⟩ := string_append_tail_spec c hc str1 (string_chars other) n hinv1
      (by rw [hl1]; exact hroom) hon (by rw [hl1]; exact hok)
    refine ⟨(string_append_tail c str1 (string_chars other) n).1,
      (string_append_tail c str1 (string_chars other) n).2, by simp, Or.inr ⟨?_, t2, ?_, ?_⟩⟩
    · rw [t1, hl1]
    · rw [t3, hl1]
    · rw [t4, hotext, string_text_congr str1 str hl1 hsame]

/-- What `string_append_string(str, str, len)` does to a string that
satisfies the representation invariant: it returns, either with `-1` and
the string untouched, or with the new length, the invariant kept and the
first `min len str.len` characters of the string appended to it. -/
theorem string_append_self_spec (c : Nat) (hc : 0 < c) (alloc : Option (List Nat))
    (str : cryb_string) (len : Nat) (hinv : StringInv c str)
    (hok : SizeOK c (str.len + min len str.len)) :
    ∃ r str', string_append_self c alloc str len = some (r, str') ∧
      ((r = -1 ∧ str' = str ∧ alloc = none ∧
          str.size < (str.len + min len str.len + 1) * c) ∨
       (r = ((str.len + min len str.len : Nat) : Int) ∧ StringInv c str' ∧
         str'.len = str.len + min len str.len ∧
         string_text str' = string_text str ++ (string_text str).take len)) := by
  generalize hn : min len str.len = n at hok ⊢
  have hlen1 : (if len > str.len then str.len else len) = n := by
    split_ifs <;> omega
  have hl := SizeOK_lt c (str.len + n) hc hok
  have hm : (str.len + n) % 18446744073709551616 = str.len + n := Nat.mod_eq_of_lt (by omega)
  have hotext : (string_text str).take len = (string_chars str).take n := by
    unfold string_text
    rw [List.take_take, hn]
  obtain ⟨r, str1, he, hcase⟩ := string_expand_inv c hc alloc str (str.len + n) hinv hok
  rw [string_append_self_eq, hlen1, hm, he]
  simp only [Option.map_some']
  rcases hcase with ⟨hr, hs, ha, hlt⟩ | ⟨hr, hinv1, hl1, hroom, _, hsame⟩
  · subst hr
    subst hs
    refine ⟨-1, str1, by simp, Or.inl ⟨rfl, rfl, ha, ?_⟩⟩
    rw [(SizeOK_L2S c (str1.len + n) hok).1] at hlt
    exact hlt
  · subst hr
    have hon : n ≤ (string_chars str1).length := by
      have := hinv1.1.2.2.2
      omega
    obtain ⟨t1, t2, t3, t4⟩ := string_append_tail_spec c hc str1 (string_chars str1) n hinv1
      (by rw [hl1]; exact hroom) hon (by rw [hl1]; exact hok)
    refine ⟨(string_append_tail c str1 (string_chars str1) n).1,
      (string_append_tail c str1 (string_chars str1) n).2, by simp, Or.inr ⟨?_, t2, ?_, ?_⟩⟩
    · rw [t1, hl1]
    · rw [t3, hl1]
    · rw [t4, hotext, string_text_congr str1 str hl1 hsame]
      congr 1
      apply List.ext_getElem?
      intro i
      rw [List.getElem?_take, List.getElem?_take]
      by_cases hi : i < n
      · rw [if_pos hi, if_pos hi]
        exact hsame i (by omega)
      · rw [if_neg hi, if_neg hi]

theorem string_append_cs_stop (c : Nat) (alloc : Nat → Option (List Nat)) (k : Nat)
    (str : cryb_string) (ch : Nat) (cs : List Nat) (len : Nat) (h : ch = 0 ∨ len = 0) :
    string_append_cs c alloc k str (ch :: cs) len = some (toSsize str.len, str) := by
  rw [string_append_cs, if_neg (by omega)]

theorem string_append_cs_step (c : Nat) (alloc : Nat → Option (List Nat)) (k : Nat)
    (str str1 : cryb_string) (ch : Nat) (cs : List Nat) (len : Nat) (r : Int)
    (h1 : ch ≠ 0) (h2 : len ≠ 0)
    (he : string_expand c (alloc k) str ((str.len + 1) % 18446744073709551616) =
      some (r, str1)) :
    string_append_cs c alloc k str (ch :: cs) len =
      if r < 0 then some (r, str1)
      else string_append_cs c alloc (k + 1) (string_put str1 ch) cs (len - 1) := by
  rw [string_append_cs, if_pos ⟨h1, h2⟩, he]

/-- What `string_append_cs` does to a string that satisfies the
representation invariant, for a character array `body` without zeros
followed by a zero: it returns with the invariant kept, either with `-1`
(an allocation failed), or with the new length and the first
`min len body.length` characters of `body` appended. -/
theorem string_append_cs_spec (c : Nat) (hc : 0 < c) (alloc : Nat → Option (List Nat))
    (rest : List Nat) : ∀ (body : List Nat) (k : Nat) (str : cryb_string) (len : Nat),
    (∀ ch ∈ body, ch ≠ 0) → StringInv c str → SizeOK c (str.len + min len body.length) →
    ∃ r str', string_append_cs c alloc k str (body ++ 0 :: rest) len = some (r, str') ∧
      StringInv c str' ∧
      ((r = -1 ∧ ∃ j, alloc j = none) ∨
       (r = ((str.len + min len body.length : Nat) : Int) ∧
         str'.len = str.len + min len body.length ∧
         string_text str' = string_text str ++ body.take len)) := by
  intro body
  induction body with
  | nil =>
    intro k str len _ hinv hok
    have hl := SizeOK_lt c str.len hc hinv.2.2.2.2.2
    refine ⟨toSsize str.len, str, string_append_cs_stop c alloc k str 0 rest len (Or.inl rfl),
      hinv, Or.inr ⟨?_, ?_, ?_⟩⟩
    · rw [toSsize_of_lt _ (by omega)]
      simp
    · simp
    · simp
  | cons b body ih =>
    intro k str len hbody hinv hok
    have hb : b ≠ 0 := hbody b (by simp)
    have hbody2 : ∀ ch ∈ body, ch ≠ 0 := fun ch hch => hbody ch (by simp [hch])
    have hl := SizeOK_lt c str.len hc hinv.2.2.2.2.2
    by_cases hl0 : len = 0
    · subst hl0
      refine ⟨toSsize str.len, str,
        string_append_cs_stop c alloc k str b (body ++ 0 :: rest) 0 (Or.inr rfl),
        hinv, Or.inr ⟨?_, ?_, ?_⟩⟩
      · rw [toSsize_of_lt _ (by omega)]
        simp
      · simp
      · simp
    · have hmin : min len (b :: body).length = 1 + min (len - 1) body.length := by
        simp only [List.length_cons]
        omega
      rw [hmin] at hok ⊢
      have hok1 : SizeOK c (str.len + 1) := SizeOK_mono c _ _ (by omega) hok
      have hm : (str.len + 1) % 18446744073709551616 = str.len + 1 :=
        Nat.mod_eq_of_lt (by omega)
      obtain ⟨r, str1, he, hcase⟩ := string_expand_inv c hc (alloc k) str (str.len + 1) hinv hok1
      have hstep := string_append_cs_step c alloc k str str1 b (body ++ 0 :: rest) len r hb hl0
        (by rw [hm]; exact he)
      rw [List.cons_append, hstep]
      rcases hcase with ⟨hr, hs, ha, _⟩ | ⟨hr, hinv1, hl1, hroom, _, hsame⟩
      · subst hr
        subst hs
        exact ⟨-1, str1, by simp, hinv, Or.inl ⟨rfl, k, ha⟩⟩
      · subst hr
        have hroom1 : (str1.len + 2) * c ≤ str1.size := by rw [hl1]; exact hroom
        obtain ⟨q1, q2, q3⟩ := string_put_inv c hc str1 b hinv1 hroom1 (by rw [hl1]; exact hok1)
        have hok2 : SizeOK c ((string_put str1 b).len + min (len - 1) body.length) := by
          rw [q2, hl1]
          have e : str.len + 1 + min (len - 1) body.length =
              str.len + (1 + min (len - 1) body.length) := by omega
          rw [e]
          exact hok
        obtain ⟨r2, str2, he2, hinv2, hcase2⟩ := ih (k + 1) (string_put str1 b) (len - 1) hbody2
          q1 hok2
        rw [if_neg (by decide), he2]
        refine ⟨r2, str2, rfl, hinv2, ?_⟩
        rcases hcase2 with hfail | ⟨hr2, hlen2, htext2⟩
        · exact Or.inl hfail
        · refine Or.inr ⟨?_, ?_, ?_⟩
          · rw [hr2, q2, hl1]
            congr 1
            omega
          · rw [hlen2, q2, hl1]
            omega
          · rw [htext2, q3, string_text_congr str1 str hl1 hsame, List.append_assoc]
            congr 1
            cases len with
            | zero => exact absurd rfl hl0
            | succ l => simp

/-- A memory that holds a zero starts with its characters before the first
zero, followed by that zero. -/
theorem cs_split (cs : List Nat) (h : 0 ∈ cs) :
    ∃ rest, cs = cs.takeWhile (fun ch => ch ≠ 0) ++ 0 :: rest := by
  induction cs with
  | nil => simp at h
  | cons a cs ih =>
    by_cases ha : a = 0
    · subst ha
      exact ⟨cs, by simp⟩
    · have h2 : 0 ∈ cs := by
        rcases List.mem_cons.mp h with h3 | h3
        · exact absurd h3.symm ha
        · exact h3
      obtain ⟨rest, hrest⟩ := ih h2
      refine ⟨rest, ?_⟩
      rw [List.takeWhile_cons_of_pos (by simpa using ha), List.cons_append, ← hrest]

theorem cs_body_nonzero (cs : List Nat) :
    ∀ ch ∈ cs.takeWhile (fun ch => ch ≠ 0), ch ≠ 0 := by
  intro ch hch
  have := List.mem_takeWhile_imp hch
  simpa using this

/-- A new string satisfies the representation invariant. -/
theorem string_new_inv (c : Nat) (hc : 0 < c) (hcs : c ≤ 65536) (fresh : List Nat)
    (str : cryb_string) (h : string_new c (some fresh) = some str) : StringInv c str := by
  unfold string_new at h
  simp only [Option.map_some', Option.some.injEq] at h
  subst h
  have hlen : ((mallocMem fresh (STATIC_BUF_SIZE c)).set 0 0).length = STATIC_BUF_SIZE c := by
    rw [List.length_set, length_mallocMem]
  have hsq : c * c ≤ 65536 * 65536 := Nat.mul_le_mul hcs hcs
  refine ⟨⟨by simp, ?_, ?_, ?_⟩, ?_, ?_, hlen, ?_, ?_⟩
  · simp only [STATIC_BUF_SIZE]
    rw [Nat.mul_assoc]
    omega
  · simp only [STATIC_BUF_SIZE]
    have : 1 * c ≤ 16 * c * c := by
      rw [Nat.mul_assoc]
      exact Nat.mul_le_mul (by omega) (Nat.le_mul_of_pos_left c hc)
    omega
  · simp only [string_chars]
    rw [hlen]
    unfold STATIC_BUF_SIZE
    omega
  · exact ⟨STATIC_BUF_SIZE c, Nat.mul_comm _ _⟩
  · simp only [string_chars]
    rw [hlen]
  · simp only [string_chars]
    have h0 : 0 < (mallocMem fresh (STATIC_BUF_SIZE c)).length := by
      rw [length_mallocMem]
      unfold STATIC_BUF_SIZE
      omega
    rw [List.getElem?_set, if_pos rfl, if_pos h0]
  · simp only [SizeOK, LARGE_BUF_SIZE]
    omega

/-- Every reachable string satisfies the representation invariant. -/
theorem reachable_inv (c : Nat) (hc : 0 < c) (hcs : c ≤ 65536) (str : cryb_string)
    (h : Reachable c str) : StringInv c str := by
  induction h with
  | new fresh str h => exact string_new_inv c hc hcs fresh str h
  | expand alloc str str' newlen _ hok he ih =>
    obtain ⟨r, str1, he1, hcase⟩ := string_expand_inv c hc alloc str newlen ih hok
    rw [he] at he1
    simp only [Option.some.injEq, Prod.mk.injEq] at he1
    obtain ⟨hr, hs⟩ := he1
    subst hr
    subst hs
    rcases hcase with ⟨hr, _⟩ | ⟨_, hinv, _⟩
    · exact absurd hr (by decide)
    · exact hinv
  | shrink fresh str _ ih => exact (string_shrink_inv c hc fresh str ih).1
  | trunc fresh str len _ ih => exact (string_trunc_spec c hc fresh str len ih).2.2.1
  | append_c alloc str str' ch r _ hok he hr ih =>
    obtain ⟨r1, str1, he1, hcase⟩ := string_append_c_spec c hc alloc str ch ih hok
    rw [he] at he1
    simp only [Option.some.injEq, Prod.mk.injEq] at he1
    obtain ⟨h1, h2⟩ := he1
    subst h1
    subst h2
    rcases hcase with ⟨hneg, _⟩ | ⟨_, hinv, _⟩
    · omega
    · exact hinv
  | append_cs alloc str str' cs len r _ hz hok he hr ih =>
    obtain ⟨rest, hrest⟩ := cs_split cs hz
    obtain ⟨r1, str1, he1, hinv, _⟩ := string_append_cs_spec c hc alloc rest
      (cs.takeWhile (fun ch => ch ≠ 0)) 0 str len (cs_body_nonzero cs) ih hok
    rw [← hrest, he] at he1
    simp only [Option.some.injEq, Prod.mk.injEq] at he1
    obtain ⟨_, h2⟩ := he1
    subst h2
    exact hinv
  | append_string alloc str other str' len r _ _ hok he hr ih iho =>
    obtain ⟨r1, str1, he1, hcase⟩ := string_append_string_spec c hc alloc str other len ih iho hok
    rw [he] at he1
    simp only [Option.some.injEq, Prod.mk.injEq] at he1
    obtain ⟨h1, h2⟩ := he1
    subst h1
    subst h2
    rcases hcase with ⟨hneg, _⟩ | ⟨_, hinv, _⟩
    · omega
    · exact hinv
  | append_self alloc str str' len r _ hok he hr ih =>
    obtain ⟨r1, str1, he1, hcase⟩ := string_append_self_spec c hc alloc str len ih hok
    rw [he] at he1
    simp only [Option.some.injEq, Prod.mk.injEq] at he1
    obtain ⟨h1, h2⟩ := he1
    subst h1
    subst h2
    rcases hcase with ⟨hneg, _⟩ | ⟨_, hinv, _⟩
    · omega
    · exact hinv

theorem take_takeWhile_eq (cs rest body : List Nat) (len : Nat) (h : cs = body ++ 0 :: rest) :
    cs.take (min len body.length) = body.take len := by
  rw [h, List.take_append_of_le_length (Nat.min_le_right _ _)]
  apply List.ext_getElem?
  intro i
  rw [List.getElem?_take, List.getElem?_take]
  by_cases h1 : i < len
  · by_cases h2 : i < body.length
    · rw [if_pos (by omega), if_pos h1]
    · rw [if_neg (by omega), if_pos h1]
      exact (List.getElem?_eq_none (by omega)).symm
  · rw [if_neg (by omega), if_neg h1]

/-- Twenty `string_append_c` on a new string (`sizeof(char_t) = 1`) give a
20-character string in an allocated buffer of 32 bytes. -/
theorem string_twenty :
    ((List.range 20).foldl
      (fun s _ => s.bind (fun s => (string_append_c 1 (some []) s 0x61).map Prod.snd))
      (string_new 1 (some []))) =
    some ⟨string_buf.heap (List.replicate 20 0x61 ++ List.replicate 12 0), 32, 20,
      List.replicate 15 0x61 ++ [0]⟩ := by
  decide

/-- C21 (failing input): `string_trunc(str, 17)` on the 20-character string
of `string_twenty`, in an allocated buffer of 32 bytes, when the `realloc`
inside `string_shrink` fails. The string satisfies the representation invariant;
the call returns 17 with `buf` set to `NULL` and `size` to 4096, so the 17
characters and the terminating zero are no longer the contents. -/
theorem string_trunc_realloc_fails :
    StringInv 1 ⟨string_buf.heap (List.replicate 20 0x61 ++ List.replicate 12 0), 32, 20,
      List.replicate 15 0x61 ++ [0]⟩ ∧
    string_trunc 1 none ⟨string_buf.heap (List.replicate 20 0x61 ++ List.replicate 12 0), 32, 20,
      List.replicate 15 0x61 ++ [0]⟩ 17 =
      (17, ⟨string_buf.null, 4096, 17, List.replicate 15 0x61 ++ [0]⟩) ∧
    string_text (string_trunc 1 none
      ⟨string_buf.heap (List.replicate 20 0x61 ++ List.replicate 12 0), 32, 20,
        List.replicate 15 0x61 ++ [0]⟩ 17).2 = [] ∧
    (string_text ⟨string_buf.heap (List.replicate 20 0x61 ++ List.replicate 12 0), 32, 20,
      List.replicate 15 0x61 ++ [0]⟩).take 17 = List.replicate 17 0x61 := by
  decide

/-- C22: `string_append_c(s, ch)`, whenever allocation succeeds. For every
string that satisfies the representation invariant and whose length plus
one is of a size that does not wrap around, a call whose allocation
succeeds returns the old length plus one, and the contents become the old
contents followed by `ch` and a terminating zero. -/
theorem string_append_c_correct (c : Nat) (hc : 0 < c) (fresh : List Nat)
    (str : cryb_string) (ch : Nat) (hinv : StringInv c str) (hok : SizeOK c (str.len + 1)) :
    ∃ str', string_append_c c (some fresh) str ch = some (((str.len + 1 : Nat) : Int), str') ∧
      str'.len = str.len + 1 ∧ string_text str' = string_text str ++ [ch] ∧
      (string_chars str')[str'.len]? = some 0 := by
  obtain ⟨r, str', he, hcase⟩ := string_append_c_spec c hc (some fresh) str ch hinv hok
  rcases hcase with ⟨_, _, ha, _⟩ | ⟨hr, hinv', hlen, htext⟩
  · cases ha
  · subst hr
    exact ⟨str', he, hlen, htext, hinv'.2.2.2.2.1⟩

/-- C22 (witness): appending `b` to the one-character string `a`. -/
theorem string_append_c_correct_witness :
    ∃ str', string_append_c 1 (some [])
        ⟨string_buf.static, 16, 1, [0x61, 0, 0, 0, 0, 0, 0, 0, 0, 0, 0, 0, 0, 0, 0, 0]⟩ 0x62 =
        some (((1 + 1 : Nat) : Int), str') ∧
      str'.len = 1 + 1 ∧
      string_text str' = string_text
        ⟨string_buf.static, 16, 1, [0x61, 0, 0, 0, 0, 0, 0, 0, 0, 0, 0, 0, 0, 0, 0, 0]⟩ ++ [0x62] ∧
      (string_chars str')[str'.len]? = some 0 :=
  string_append_c_correct 1 (by decide) []
    ⟨string_buf.static, 16, 1, [0x61, 0, 0, 0, 0, 0, 0, 0, 0, 0, 0, 0, 0, 0, 0, 0]⟩ 0x62
    (by decide) (by decide)

/-- C23: `string_append_cs(s, cs, len)`, whenever allocation succeeds. For
every string that satisfies the representation invariant, every memory `cs`
that holds a zero and every `len` (the resulting length being of a size
that does not wrap around), a call whose allocations all succeed returns
the old length plus `min len (strlen cs)`, and the contents become the old
contents followed by the first `min len (strlen cs)` characters of `cs` and
a terminating zero; nothing is appended when `len = 0` or `cs` is empty. -/
theorem string_append_cs_correct (c : Nat) (hc : 0 < c) (alloc : Nat → Option (List Nat))
    (str : cryb_string) (cs : List Nat) (len : Nat) (hinv : StringInv c str) (hz : 0 ∈ cs)
    (hok : SizeOK c (str.len + min len (strlen cs))) (halloc : ∀ j, alloc j ≠ none) :
    ∃ str', string_append_cs c alloc 0 str cs len =
        some (((str.len + min len (strlen cs) : Nat) : Int), str') ∧
      str'.len = str.len + min len (strlen cs) ∧
      string_text str' = string_text str ++ cs.take (min len (strlen cs)) ∧
      (string_chars str')[str'.len]? = some 0 ∧
      (len = 0 ∨ strlen cs = 0 → string_text str' = string_text str) := by
  obtain ⟨rest, hrest⟩ := cs_split cs hz
  obtain ⟨r, str', he, hinv', hcase⟩ := string_append_cs_spec c hc alloc rest
    (cs.takeWhile (fun ch => ch ≠ 0)) 0 str len (cs_body_nonzero cs) hinv hok
  rw [← hrest] at he
  rcases hcase with ⟨_, j, hj⟩ | ⟨hr, hlen, htext⟩
  · exact absurd hj (halloc j)
  · subst hr
    have htake := take_takeWhile_eq cs rest _ len hrest
    refine ⟨str', he, hlen, ?_, hinv'.2.2.2.2.1, ?_⟩
    · unfold strlen
      rw [htake]
      exact htext
    · intro h0
      rw [htext, ← htake]
      have : min len (cs.takeWhile (fun ch => ch ≠ 0)).length = 0 := by
        unfold strlen at h0
        omega
      rw [this]
      simp

/-- C23 (witness): at most two characters of `abc` appended to the
one-character string `a`. -/
theorem string_append_cs_correct_witness :
    ∃ str', string_append_cs 1 (fun _ => some []) 0
        ⟨string_buf.static, 16, 1, [0x61, 0, 0, 0, 0, 0, 0, 0, 0, 0, 0, 0, 0, 0, 0, 0]⟩
        [0x61, 0x62, 0x63, 0] 2 =
        some (((1 + min 2 (strlen [0x61, 0x62, 0x63, 0]) : Nat) : Int), str') ∧
      str'.len = 1 + min 2 (strlen [0x61, 0x62, 0x63, 0]) ∧
      string_text str' = string_text
        ⟨string_buf.static, 16, 1, [0x61, 0, 0, 0, 0, 0, 0, 0, 0, 0, 0, 0, 0, 0, 0, 0]⟩ ++
        [0x61, 0x62, 0x63, 0].take (min 2 (strlen [0x61, 0x62, 0x63, 0])) ∧
      (string_chars str')[str'.len]? = some 0 ∧
      (2 = 0 ∨ strlen [0x61, 0x62, 0x63, 0] = 0 → string_text str' = string_text
        ⟨string_buf.static, 16, 1, [0x61, 0, 0, 0, 0, 0, 0, 0, 0, 0, 0, 0, 0, 0, 0, 0]⟩) :=
  string_append_cs_correct 1 (by decide) (fun _ => some [])
    ⟨string_buf.static, 16, 1, [0x61, 0, 0, 0, 0, 0, 0, 0, 0, 0, 0, 0, 0, 0, 0, 0]⟩
    [0x61, 0x62, 0x63, 0] 2 (by decide) (by decide) (by decide) (fun _ => by simp)

/-- C24: `string_append_string(s, other, len)`, whenever allocation
succeeds. For all strings `str` and `other` that satisfy the representation
invariant (the resulting length being of a size that does not wrap around),
a call whose allocation succeeds returns the old length plus
`min len other.len`, and the contents of `str` become the old contents
followed by the first `min len other.len` characters of `other` and a
terminating zero. When `other` is a different string the function only
reads it, so that it is as it was; when `other` is `str` itself
(`string_append_self`) the same holds of the characters `str` had before
the call. -/
theorem string_append_string_correct (c : Nat) (hc : 0 < c) (fresh : List Nat)
    (str other : cryb_string) (len : Nat) (hinv : StringInv c str)
    (hother : StringInv c other) :
    (SizeOK c (str.len + min len other.len) →
      ∃ str', string_append_string c (some fresh) str other len =
          some (((str.len + min len other.len : Nat) : Int), str') ∧
        str'.len = str.len + min len other.len ∧
        string_text str' = string_text str ++ (string_text other).take (min len other.len) ∧
        (string_chars str')[str'.len]? = some 0) ∧
    (SizeOK c (str.len + min len str.len) →
      ∃ str', string_append_self c (some fresh) str len =
          some (((str.len + min len str.len : Nat) : Int), str') ∧
        str'.len = str.len + min len str.len ∧
        string_text str' = string_text str ++ (string_text str).take (min len str.len) ∧
        (string_chars str')[str'.len]? = some 0) := by
  have htake : ∀ o : cryb_string,
      (string_text o).take len = (string_text o).take (min len o.len) := by
    intro o
    unfold string_text
    rw [List.take_take, List.take_take]
    congr 1
    omega
  constructor
  · intro hok
    obtain ⟨r, str', he, hcase⟩ := string_append_string_spec c hc (some fresh) str other len
      hinv hother hok
    rcases hcase with ⟨_, _, ha, _⟩ | ⟨hr, hinv', hlen, htext⟩
    · cases ha
    · subst hr
      exact ⟨str', he, hlen, by rw [htext, htake other], hinv'.2.2.2.2.1⟩
  · intro hok
    obtain ⟨r, str', he, hcase⟩ := string_append_self_spec c hc (some fresh) str len hinv hok
    rcases hcase with ⟨_, _, ha, _⟩ | ⟨hr, hinv', hlen, htext⟩
    · cases ha
    · subst hr
      exact ⟨str', he, hlen, by rw [htext, htake str], hinv'.2.2.2.2.1⟩

/-- C24 (witness): at most five characters of the string `bc` appended to
the one-character string `a`, and the string `a` appended to itself. -/
theorem string_append_string_correct_witness :
    (∃ str', string_append_string 1 (some [])
        ⟨string_buf.static, 16, 1, [0x61, 0, 0, 0, 0, 0, 0, 0, 0, 0, 0, 0, 0, 0, 0, 0]⟩
        ⟨string_buf.static, 16, 2, [0x62, 0x63, 0, 0, 0, 0, 0, 0, 0, 0, 0, 0, 0, 0, 0, 0]⟩ 5 =
        some (((1 + min 5 2 : Nat) : Int), str') ∧
      str'.len = 1 + min 5 2 ∧
      string_text str' = string_text
        ⟨string_buf.static, 16, 1, [0x61, 0, 0, 0, 0, 0, 0, 0, 0, 0, 0, 0, 0, 0, 0, 0]⟩ ++
        (string_text ⟨string_buf.static, 16, 2,
          [0x62, 0x63, 0, 0, 0, 0, 0, 0, 0, 0, 0, 0, 0, 0, 0, 0]⟩).take (min 5 2) ∧
      (string_chars str')[str'.len]? = some 0) ∧
    (∃ str', string_append_self 1 (some [])
        ⟨string_buf.static, 16, 1, [0x61, 0, 0, 0, 0, 0, 0, 0, 0, 0, 0, 0, 0, 0, 0, 0]⟩ 5 =
        some (((1 + min 5 1 : Nat) : Int), str') ∧
      str'.len = 1 + min 5 1 ∧
      string_text str' = string_text
        ⟨string_buf.static, 16, 1, [0x61, 0, 0, 0, 0, 0, 0, 0, 0, 0, 0, 0, 0, 0, 0, 0]⟩ ++
        (string_text ⟨string_buf.static, 16, 1,
          [0x61, 0, 0, 0, 0, 0, 0, 0, 0, 0, 0, 0, 0, 0, 0, 0]⟩).take (min 5 1) ∧
      (string_chars str')[str'.len]? = some 0) :=
  ⟨(string_append_string_correct 1 (by decide) []
      ⟨string_buf.static, 16, 1, [0x61, 0, 0, 0, 0, 0, 0, 0, 0, 0, 0, 0, 0, 0, 0, 0]⟩
      ⟨string_buf.static, 16, 2, [0x62, 0x63, 0, 0, 0, 0, 0, 0, 0, 0, 0, 0, 0, 0, 0, 0]⟩ 5
      (by decide) (by decide)).1 (by decide),
   (string_append_string_correct 1 (by decide) []
      ⟨string_buf.static, 16, 1, [0x61, 0, 0, 0, 0, 0, 0, 0, 0, 0, 0, 0, 0, 0, 0, 0]⟩
      ⟨string_buf.static, 16, 2, [0x62, 0x63, 0, 0, 0, 0, 0, 0, 0, 0, 0, 0, 0, 0, 0, 0]⟩ 5
      (by decide) (by decide)).2 (by decide)⟩

/-- C29 (counterexample): from the string `string_new` returns, the
successful call `string_expand(str, 2 ^ 64 - 2)` (it returns `0`: the size
computation wraps around to `0` and the allocator returns a block) leaves
`len = 0` and `size = 0`, so `(len + 1) * sizeof(char_t) <= size` is
false. -/
theorem string_new_expand_wraps :
    string_new 1 (some []) = some ⟨string_buf.static, 16, 0, List.replicate 16 0⟩ ∧
    string_expand 1 (some []) ⟨string_buf.static, 16, 0, List.replicate 16 0⟩
      18446744073709551614 =
      some (0, ⟨string_buf.heap [0], 0, 0, List.replicate 16 0⟩) ∧
    ¬ (((⟨string_buf.heap [0], 0, 0, List.replicate 16 0⟩ : cryb_string).len + 1) * 1 ≤
      (⟨string_buf.heap [0], 0, 0, List.replicate 16 0⟩ : cryb_string).size) := by
  decide

/-- C29 (amended): string representation invariant. For a character size
`c` from 1 to 65536 and every string reachable from `string_new` by any
sequence of successful `string_expand`, `string_shrink`, `string_trunc`,
`string_append_c`, `string_append_cs` and `string_append_string` calls whose
requested lengths are of a size that does not wrap around (`Reachable`),
`(len + 1) * c <= size`, the character at `len` is zero, and the buffer
holds the `size` bytes recorded. -/
theorem string_repr_invariant (c : Nat) (hc : 0 < c) (hcs : c ≤ 65536) (str : cryb_string)
    (h : Reachable c str) :
    (str.len + 1) * c ≤ str.size ∧ (string_chars str)[str.len]? = some 0 ∧
    str.size ≤ (string_chars str).length * c := by
  obtain ⟨hv, _, hcap, _, hterm, _⟩ := reachable_inv c hc hcs str h
  exact ⟨hv.2.2.1, hterm, hcap⟩

/-- C29 (witness): the string reached by `string_new` and one
`string_append_c`. -/
theorem string_repr_invariant_witness :
    ((⟨string_buf.static, 16, 1, 0x61 :: List.replicate 15 0⟩ : cryb_string).len + 1) * 1 ≤
      (⟨string_buf.static, 16, 1, 0x61 :: List.replicate 15 0⟩ : cryb_string).size ∧
    (string_chars ⟨string_buf.static, 16, 1, 0x61 :: List.replicate 15 0⟩)[
      (⟨string_buf.static, 16, 1, 0x61 :: List.replicate 15 0⟩ : cryb_string).len]? = some 0 ∧
    (⟨string_buf.static, 16, 1, 0x61 :: List.replicate 15 0⟩ : cryb_string).size ≤
      (string_chars ⟨string_buf.static, 16, 1, 0x61 :: List.replicate 15 0⟩).length * 1 :=
  string_repr_invariant 1 (by decide) (by decide)
    ⟨string_buf.static, 16, 1, 0x61 :: List.replicate 15 0⟩
    (Reachable.append_c (some []) ⟨string_buf.static, 16, 0, List.replicate 16 0⟩
      ⟨string_buf.static, 16, 1, 0x61 :: List.replicate 15 0⟩ 0x61 1
      (Reachable.new [] ⟨string_buf.static, 16, 0, List.replicate 16 0⟩ (by decide))
      (by decide) (by decide) (by decide))

/-- C30 (counterexample): a valid string `ab` in an allocated buffer of 32
bytes, and the request `newlen = 2 ^ 64 - 2`, for which `RUP` wraps around
to the new size `0`. The allocation is `realloc(buf, 0)`; when it returns
`NULL` the block has been freed, so `string_expand` returns `-1` with `buf`
pointing at no character: the string is not as it was. -/
theorem string_expand_realloc_zero :
    StringValid 1 ⟨string_buf.heap ([0x61, 0x62] ++ List.replicate 30 0), 32, 2,
      List.replicate 16 0⟩ ∧
    string_expand_newsize 1 32 18446744073709551614 = some 0 ∧
    string_expand 1 none
        ⟨string_buf.heap ([0x61, 0x62] ++ List.replicate 30 0), 32, 2, List.replicate 16 0⟩
        18446744073709551614 =
      some (-1, ⟨string_buf.heap [], 32, 2, List.replicate 16 0⟩) ∧
    string_expand 1 none
        ⟨string_buf.heap ([0x61, 0x62] ++ List.replicate 30 0), 32, 2, List.replicate 16 0⟩
        18446744073709551614 ≠
      some (-1, ⟨string_buf.heap ([0x61, 0x62] ++ List.replicate 30 0), 32, 2,
        List.replicate 16 0⟩) := by
  decide

/-- C30 (amended): failed growth is atomic, unless the failed allocation is
the `realloc` of an allocated buffer to the new size `0`. For every valid
string (character size from 1 to 65536) and every request that needs a
larger buffer, when the allocation fails and it is not such a `realloc` to
size `0`, `string_expand` returns `-1` and leaves the string, that is
`buf`, `size`, `len` and the contents, as it was; and then
`string_append_c` and `string_append_string` (also with `other` the string
itself, `string_append_self`), whose request is the length plus one and the
length plus `min len other.len`, return the negative value `-1` and leave
the string as it was. The new size is not `0` for any request whose size
computation does not wrap around. -/
theorem string_growth_atomic (c : Nat) (hc : 0 < c) (hcs : c ≤ 65536) (str : cryb_string)
    (hv : StringValid c str) :
    (∀ newlen, str.size < L2S c newlen →
      ((∃ old, str.buf = string_buf.heap old) →
        string_expand_newsize c str.size newlen ≠ some 0) →
      string_expand c none str newlen = some (-1, str)) ∧
    (∀ ch, str.size < L2S c ((str.len + 1) % 18446744073709551616) →
      ((∃ old, str.buf = string_buf.heap old) →
        string_expand_newsize c str.size ((str.len + 1) % 18446744073709551616) ≠ some 0) →
      string_append_c c none str ch = some (-1, str)) ∧
    (∀ other len,
      str.size < L2S c ((str.len + min len other.len) % 18446744073709551616) →
      ((∃ old, str.buf = string_buf.heap old) →
        string_expand_newsize c str.size
          ((str.len + min len other.len) % 18446744073709551616) ≠ some 0) →
      string_append_string c none str other len = some (-1, str)) ∧
    (∀ len, str.size < L2S c ((str.len + min len str.len) % 18446744073709551616) →
      ((∃ old, str.buf = string_buf.heap old) →
        string_expand_newsize c str.size
          ((str.len + min len str.len) % 18446744073709551616) ≠ some 0) →
      string_append_self c none str len = some (-1, str)) ∧
    (∀ newlen, str.size < L2S c newlen →
      L2S c newlen + LARGE_BUF_SIZE c - 1 < 18446744073709551616 →
      string_expand_newsize c str.size newlen ≠ some 0) := by
  have hpos : 0 < str.size := by
    have : 1 * c ≤ (str.len + 1) * c := Nat.mul_le_mul_right c (by omega)
    have := hv.2.2.1
    omega
  have hc2 : LARGE_BUF_SIZE c ≤ 9223372036854775808 := by
    unfold LARGE_BUF_SIZE
    omega
  refine ⟨fun newlen hlt h0 => string_expand_fails c str newlen hpos hc2 hlt h0, ?_, ?_, ?_, ?_⟩
  · intro ch hlt h0
    rw [string_append_c_eq, string_expand_fails c str _ hpos hc2 hlt h0]
    rfl
  · intro other len hlt h0
    have hlen1 : (if len > other.len then other.len else len) = min len other.len := by
      split_ifs <;> omega
    rw [string_append_string_eq, hlen1, string_expand_fails c str _ hpos hc2 hlt h0]
    rfl
  · intro len hlt h0
    have hlen1 : (if len > str.len then str.len else len) = min len str.len := by
      split_ifs <;> omega
    rw [string_append_self_eq, hlen1, string_expand_fails c str _ hpos hc2 hlt h0]
    rfl
  · intro newlen hlt hno h
    obtain ⟨n, hn, hge, _⟩ :=
      string_expand_newsize_ok c str.size newlen hc hpos hv.2.1 hlt hno
    rw [hn] at h
    have h1 : n = 0 := Option.some.inj h
    omega

/-- C30 (witness): a full 16-byte string in the static buffer when the
allocation fails, for the request `string_expand(str, 16)`, the character
`b` and two characters of the string `bc`; and the string `ab` in an
allocated buffer of 32 bytes, for the request `string_expand(str, 40)`,
whose new size is 64. -/
theorem string_growth_atomic_witness :
    string_expand 1 none ⟨string_buf.static, 16, 15, List.replicate 15 0x61 ++ [0]⟩ 16 =
      some (-1, ⟨string_buf.static, 16, 15, List.replicate 15 0x61 ++ [0]⟩) ∧
    string_append_c 1 none ⟨string_buf.static, 16, 15, List.replicate 15 0x61 ++ [0]⟩ 0x62 =
      some (-1, ⟨string_buf.static, 16, 15, List.replicate 15 0x61 ++ [0]⟩) ∧
    string_append_string 1 none ⟨string_buf.static, 16, 15, List.replicate 15 0x61 ++ [0]⟩
      ⟨string_buf.static, 16, 2, [0x62, 0x63, 0, 0, 0, 0, 0, 0, 0, 0, 0, 0, 0, 0, 0, 0]⟩ 2 =
      some (-1, ⟨string_buf.static, 16, 15, List.replicate 15 0x61 ++ [0]⟩) ∧
    string_expand_newsize 1 32 40 = some 64 ∧
    string_expand 1 none
        ⟨string_buf.heap ([0x61, 0x62] ++ List.replicate 30 0), 32, 2, List.replicate 16 0⟩ 40 =
      some (-1, ⟨string_buf.heap ([0x61, 0x62] ++ List.replicate 30 0), 32, 2,
        List.replicate 16 0⟩) :=
  ⟨(string_growth_atomic 1 (by decide) (by decide)
      ⟨string_buf.static, 16, 15, List.replicate 15 0x61 ++ [0]⟩ (by decide)).1 16 (by decide)
      (fun _ => by decide),
   (string_growth_atomic 1 (by decide) (by decide)
      ⟨string_buf.static, 16, 15, List.replicate 15 0x61 ++ [0]⟩ (by decide)).2.1 0x62
      (by decide) (fun _ => by decide),
   (string_growth_atomic 1 (by decide) (by decide)
      ⟨string_buf.static, 16, 15, List.replicate 15 0x61 ++ [0]⟩ (by decide)).2.2.1
      ⟨string_buf.static, 16, 2, [0x62, 0x63, 0, 0, 0, 0, 0, 0, 0, 0, 0, 0, 0, 0, 0, 0]⟩ 2
      (by decide) (fun _ => by decide),
   by decide,
   (string_growth_atomic 1 (by decide) (by decide)
      ⟨string_buf.heap ([0x61, 0x62] ++ List.replicate 30 0), 32, 2, List.replicate 16 0⟩
      (by decide)).1 40 (by decide) (fun _ => by decide)⟩

/-! ## Termination of the doubling loop of `string_expand` -/

/-- The doubling loop of `string_expand`, started at a size above zero for
a request below `LARGE_BUF_SIZE`, ends after `k ≤ 63` doublings, none of
which wraps around. -/
theorem doubling_loop_small (c size newlen : Nat) (hcs : c ≤ 65536) (hs : 0 < size)
    (hs2 : size < 18446744073709551616) (hsmall : (newlen + 1) * c < LARGE_BUF_SIZE c) :
    ∃ k, k ≤ 63 ∧
      whileLoop (fun n : Nat => decide (n < L2S c newlen))
        (fun n : Nat => (n * 2) % 18446744073709551616) 64 size = some (size * 2 ^ k) ∧
      string_expand_newsize c size newlen = some (size * 2 ^ k) ∧
      (∀ j, j < k → size * 2 ^ j < (newlen + 1) * c) ∧
      (newlen + 1) * c ≤ size * 2 ^ k ∧
      (∀ j, j ≤ k → size * 2 ^ j < 18446744073709551616) ∧
      (size < (newlen + 1) * c → size * 2 ^ k ≤ 2 * LARGE_BUF_SIZE c) ∧
      ((newlen + 1) * c ≤ size → k = 0) := by
  have hlarge : LARGE_BUF_SIZE c ≤ 268435456 := by
    unfold LARGE_BUF_SIZE
    omega
  have hL : L2S c newlen = (newlen + 1) * c := by
    unfold L2S
    exact Nat.mod_eq_of_lt (by omega)
  obtain ⟨k, hk, hge, hmin⟩ := doubling_ends (L2S c newlen) (by rw [hL]; omega) 64 size hs
    (L2S_le_fuel c size newlen hs)
  rw [hL] at hge hmin
  have hprev : ∀ j, j < k → size * 2 ^ (j + 1) < 2 * LARGE_BUF_SIZE c := by
    intro j hj
    have := hmin j hj
    rw [Nat.pow_succ, ← Nat.mul_assoc]
    omega
  have hk63 : k ≤ 63 := by
    by_contra hcon
    have h1 := hmin 63 (by omega)
    have h2 : 1 * 2 ^ 63 ≤ size * 2 ^ 63 := Nat.mul_le_mul_right _ hs
    have e : (1 : Nat) * 2 ^ 63 = 9223372036854775808 := by norm_num
    omega
  refine ⟨k, hk63, hk, ?_, hmin, hge, ?_, ?_, ?_⟩
  · unfold string_expand_newsize
    rw [if_pos (by rw [hL]; exact hsmall)]
    exact hk
  · intro j hj
    cases j with
    | zero => simpa using hs2
    | succ j =>
      have := hprev j (by omega)
      omega
  · intro hlt
    cases k with
    | zero =>
      simp only [Nat.pow_zero, Nat.mul_one] at hge
      omega
    | succ k =>
      have := hprev k (by omega)
      omega
  · intro hfit
    by_contra hk0
    have := hmin 0 (by omega)
    simp only [Nat.pow_zero, Nat.mul_one] at this
    omega

/-- A successful `string_expand` does not make the buffer smaller. -/
theorem string_expand_size_ge (c : Nat) (hc : 0 < c) (alloc : Option (List Nat))
    (str str' : cryb_string) (newlen : Nat) (hinv : StringInv c str) (hok : SizeOK c newlen)
    (he : string_expand c alloc str newlen = some (0, str')) : str.size ≤ str'.size :=
  ((string_expand_L2S_post c hc alloc str newlen hinv.1 (SizeOK_L2S c newlen hok).2).2.1
    str' he).2.1

theorem string_put_size (c : Nat) (hc : 0 < c) (str : cryb_string) (ch : Nat)
    (hinv : StringInv c str) : (string_put str ch).size = str.size := by
  have hl := SizeOK_lt c str.len hc hinv.2.2.2.2.2
  exact (string_put_fields str ch hinv.1.1 (by omega)).2.2.1

/-- The size after `string_shrink` is at least `STATIC_BUF_SIZE` when it
was so before. -/
theorem string_shrink_size (c : Nat) (hc : 0 < c) (fresh : List Nat) (str : cryb_string)
    (hinv : StringInv c str) (h16 : STATIC_BUF_SIZE c ≤ str.size) :
    STATIC_BUF_SIZE c ≤ (string_shrink c (some fresh) str).size := by
  obtain ⟨s1, s2, _⟩ := string_shrink_inv c hc fresh str hinv
  have hL := (SizeOK_L2S c str.len hinv.2.2.2.2.2).1
  cases hbuf : str.buf with
  | null => exact absurd hbuf hinv.1.1
  | static =>
    have e : string_shrink c (some fresh) str = str := by
      unfold string_shrink
      rw [hbuf]
    rw [e]
    exact h16
  | heap mem =>
    by_cases hsmall : L2S c str.len ≤ STATIC_BUF_SIZE c
    · have e : (string_shrink c (some fresh) str).size = STATIC_BUF_SIZE c := by
        unfold string_shrink
        rw [hbuf]
        simp only [if_pos hsmall]
      rw [e]
    · have h1 := s1.1.2.2.1
      rw [s2] at h1
      omega

/-- The string `string_trunc` hands to `string_shrink` satisfies the
representation invariant. -/
theorem string_trunc_store_inv (c : Nat) (str : cryb_string) (n : Nat)
    (hinv : StringInv c str) (hn : n < str.len) :
    StringInv c { string_store str n 0 with len := n } := by
  obtain ⟨⟨hnull, hsz, hfit, hchars⟩, hdvd, hcap, hstat, hterm, hlen⟩ := hinv
  obtain ⟨a1, a2, a3, a4⟩ := string_store_fields str n 0
  have hch1 := string_chars_store str n 0 hnull
  refine ⟨⟨a4 hnull, ?_, ?_, ?_⟩, ?_, ?_, ?_, ?_, SizeOK_mono c n str.len (by omega) hlen⟩
  · simp only []
    rw [a1]
    exact hsz
  · simp only []
    rw [a1]
    have : (n + 1) * c ≤ (str.len + 1) * c := Nat.mul_le_mul_right c (by omega)
    omega
  · simp only []
    rw [string_chars_with_len, hch1, List.length_set]
    omega
  · simp only []
    rw [a1]
    exact hdvd
  · simp only []
    rw [string_chars_with_len, hch1, List.length_set, a1]
    exact hcap
  · simp only []
    rw [a3]
    exact hstat
  · simp only []
    rw [string_chars_with_len, hch1, List.getElem?_set, if_pos rfl, if_pos (by omega)]

theorem string_trunc_size (c : Nat) (hc : 0 < c) (fresh : List Nat) (str : cryb_string)
    (n : Nat) (hinv : StringInv c str) (h16 : STATIC_BUF_SIZE c ≤ str.size) :
    STATIC_BUF_SIZE c ≤ (string_trunc c (some fresh) str n).2.size := by
  by_cases hn : n < str.len
  · have e : (string_trunc c (some fresh) str n).2 =
        string_shrink c (some fresh) { string_store str n 0 with len := n } := by
      unfold string_trunc
      rw [if_pos hn]
    rw [e]
    refine string_shrink_size c hc fresh _ (string_trunc_store_inv c str n hinv hn) ?_
    simp only []
    rw [(string_store_fields str n 0).1]
    exact h16
  · have e : (string_trunc c (some fresh) str n).2 = str := by
      unfold string_trunc
      rw [if_neg hn]
    rw [e]
    exact h16

theorem string_append_c_size (c : Nat) (hc : 0 < c) (alloc : Option (List Nat))
    (str str' : cryb_string) (ch : Nat) (r : Int) (hinv : StringInv c str)
    (hok : SizeOK c (str.len + 1)) (he : string_append_c c alloc str ch = some (r, str')) :
    str.size ≤ str'.size := by
  have hl := SizeOK_lt c (str.len + 1) hc hok
  have hm : (str.len + 1) % 18446744073709551616 = str.len + 1 := Nat.mod_eq_of_lt (by omega)
  obtain ⟨r1, str1, he1, hcase⟩ := string_expand_inv c hc alloc str (str.len + 1) hinv hok
  rw [string_append_c_eq, hm, he1] at he
  simp only [Option.map_some', Option.some.injEq] at he
  rcases hcase with ⟨hr, hs, _, _⟩ | ⟨hr, hinv1, _, _, _, _⟩
  · subst hr
    subst hs
    simp only [show ((-1 : Int) < 0) by decide, if_true, Prod.mk.injEq] at he
    rw [← he.2]
  · subst hr
    simp only [show ¬ ((0 : Int) < 0) by decide, if_false, Prod.mk.injEq] at he
    rw [← he.2, string_put_size c hc str1 ch hinv1]
    exact string_expand_size_ge c hc alloc str str1 (str.len + 1) hinv hok he1

theorem string_append_cs_size (c : Nat) (hc : 0 < c) (alloc : Nat → Option (List Nat))
    (rest : List Nat) : ∀ (body : List Nat) (k : Nat) (str : cryb_string) (len : Nat),
    (∀ ch ∈ body, ch ≠ 0) → StringInv c str → SizeOK c (str.len + min len body.length) →
    ∀ r str', string_append_cs c alloc k str (body ++ 0 :: rest) len = some (r, str') →
      str.size ≤ str'.size := by
  intro body
  induction body with
  | nil =>
    intro k str len _ _ _ r str' he
    rw [List.nil_append, string_append_cs_stop c alloc k str 0 rest len (Or.inl rfl)] at he
    simp only [Option.some.injEq, Prod.mk.injEq] at he
    rw [← he.2]
  | cons b body ih =>
    intro k str len hbody hinv hok r str' he
    have hb : b ≠ 0 := hbody b (by simp)
    have hbody2 : ∀ ch ∈ body, ch ≠ 0 := fun ch hch => hbody ch (by simp [hch])
    have hl := SizeOK_lt c str.len hc hinv.2.2.2.2.2
    by_cases hl0 : len = 0
    · subst hl0
      rw [List.cons_append,
        string_append_cs_stop c alloc k str b (body ++ 0 :: rest) 0 (Or.inr rfl)] at he
      simp only [Option.some.injEq, Prod.mk.injEq] at he
      rw [← he.2]
    · have hmin : min len (b :: body).length = 1 + min (len - 1) body.length := by
        simp only [List.length_cons]
        omega
      rw [hmin] at hok
      have hok1 : SizeOK c (str.len + 1) := SizeOK_mono c _ _ (by omega) hok
      have hm : (str.len + 1) % 18446744073709551616 = str.len + 1 :=
        Nat.mod_eq_of_lt (by omega)
      obtain ⟨r1, str1, he1, hcase⟩ := string_expand_inv c hc (alloc k) str (str.len + 1) hinv
        hok1
      have hstep := string_append_cs_step c alloc k str str1 b (body ++ 0 :: rest) len r1 hb hl0
        (by rw [hm]; exact he1)
      rw [List.cons_append, hstep] at he
      rcases hcase with ⟨hr, hs, _, _⟩ | ⟨hr, hinv1, hl1, hroom, _, _⟩
      · subst hr
        subst hs
        simp only [show ((-1 : Int) < 0) by decide, if_true, Option.some.injEq,
          Prod.mk.injEq] at he
        rw [← he.2]
      · subst hr
        rw [if_neg (by decide)] at he
        have hroom1 : (str1.len + 2) * c ≤ str1.size := by rw [hl1]; exact hroom
        obtain ⟨q1, q2, _⟩ := string_put_inv c hc str1 b hinv1 hroom1 (by rw [hl1]; exact hok1)
        have hok2 : SizeOK c ((string_put str1 b).len + min (len - 1) body.length) := by
          rw [q2, hl1]
          have e : str.len + 1 + min (len - 1) body.length =
              str.len + (1 + min (len - 1) body.length) := by omega
          rw [e]
          exact hok
        have h1 := ih (k + 1) (string_put str1 b) (len - 1) hbody2 q1 hok2 r str' he
        rw [string_put_size c hc str1 b hinv1] at h1
        have h2 := string_expand_size_ge c hc (alloc k) str str1 (str.len + 1) hinv hok1 he1
        omega

theorem string_append_tail_size (str : cryb_string) (src : List Nat) (c n : Nat)
    (h1 : str.len + (n * c) % 18446744073709551616 / c ≤ (string_chars str).length)
    (h2 : (n * c) % 18446744073709551616 / c ≤ src.length) :
    (string_append_tail c str src n).2.size = str.size := by
  unfold string_append_tail
  simp only []
  rw [(string_store_fields _ _ _).1]
  exact (string_memcpy_fields str str.len src _ h1 h2).1

/-- The part of `string_append_string` that follows the choice of the
number `n` of characters does not make the buffer smaller; `src` gives the
characters `other->buf` points at after `string_expand`. -/
theorem string_append_n_size (c : Nat) (hc : 0 < c) (alloc : Option (List Nat))
    (str : cryb_string) (n : Nat) (src : cryb_string → List Nat) (hinv : StringInv c str)
    (hok : SizeOK c (str.len + n))
    (hsrc : ∀ str1, StringInv c str1 → str1.len = str.len → n ≤ (src str1).length)
    (r : Int) (str' : cryb_string)
    (he : (string_expand c alloc str (str.len + n)).map (fun r =>
      if r.1 < 0 then r else string_append_tail c r.2 (src r.2) n) = some (r, str')) :
    str.size ≤ str'.size := by
  have hnc : (n * c) % 18446744073709551616 / c = n := by
    have h1 : n * c ≤ (str.len + n + 1) * c := Nat.mul_le_mul_right c (by omega)
    have h2 := hok
    unfold SizeOK at h2
    rw [Nat.mod_eq_of_lt (by omega)]
    exact Nat.mul_div_cancel _ hc
  obtain ⟨r1, str1, he1, hcase⟩ := string_expand_inv c hc alloc str (str.len + n) hinv hok
  rw [he1] at he
  simp only [Option.map_some', Option.some.injEq] at he
  rcases hcase with ⟨hr, hs, _, _⟩ | ⟨hr, hinv1, hl1, hroom, _, _⟩
  · subst hr
    subst hs
    simp only [show ((-1 : Int) < 0) by decide, if_true, Prod.mk.injEq] at he
    rw [← he.2]
  · subst hr
    simp only [show ¬ ((0 : Int) < 0) by decide, if_false] at he
    have hroom2 : str1.len + n + 1 ≤ (string_chars str1).length := by
      have h1 : (str.len + n + 1) * c ≤ (string_chars str1).length * c :=
        Nat.le_trans hroom hinv1.2.2.1
      have := Nat.le_of_mul_le_mul_right h1 hc
      omega
    have hsz := string_append_tail_size str1 (src str1) c n (by rw [hnc]; omega)
      (by rw [hnc]; exact hsrc str1 hinv1 hl1)
    rw [he] at hsz
    simp only [] at hsz
    rw [hsz]
    exact string_expand_size_ge c hc alloc str str1 (str.len + n) hinv hok he1

theorem string_append_string_size (c : Nat) (hc : 0 < c) (alloc : Option (List Nat))
    (str other str' : cryb_string) (len : Nat) (r : Int) (hinv : StringInv c str)
    (hother : StringInv c other) (hok : SizeOK c (str.len + min len other.len))
    (he : string_append_string c alloc str other len = some (r, str')) :
    str.size ≤ str'.size := by
  have hlen1 : (if len > other.len then other.len else len) = min len other.len := by
    split_ifs <;> omega
  have hm : (str.len + min len other.len) % 18446744073709551616 =
      str.len + min len other.len :=
    Nat.mod_eq_of_lt (by have := SizeOK_lt c _ hc hok; omega)
  rw [string_append_string_eq, hlen1, hm] at he
  refine string_append_n_size c hc alloc str (min len other.len)
    (fun _ => string_chars other) hinv hok (fun _ _ _ => ?_) r str' he
  show min len other.len ≤ (string_chars other).length
  have := hother.1.2.2.2
  omega

theorem string_append_self_size (c : Nat) (hc : 0 < c) (alloc : Option (List Nat))
    (str str' : cryb_string) (len : Nat) (r : Int) (hinv : StringInv c str)
    (hok : SizeOK c (str.len + min len str.len))
    (he : string_append_self c alloc str len = some (r, str')) :
    str.size ≤ str'.size := by
  have hlen1 : (if len > str.len then str.len else len) = min len str.len := by
    split_ifs <;> omega
  have hm : (str.len + min len str.len) % 18446744073709551616 =
      str.len + min len str.len :=
    Nat.mod_eq_of_lt (by have := SizeOK_lt c _ hc hok; omega)
  rw [string_append_self_eq, hlen1, hm] at he
  refine string_append_n_size c hc alloc str (min len str.len)
    (fun s => string_chars s) hinv hok (fun str1 hinv1 hl1 => ?_) r str' he
  show min len str.len ≤ (string_chars str1).length
  have := hinv1.1.2.2.2
  omega

/-- Every reachable string has a size of at least `STATIC_BUF_SIZE`. -/
theorem reachable_size (c : Nat) (hc : 0 < c) (hcs : c ≤ 65536) (str : cryb_string)
    (h : Reachable c str) : STATIC_BUF_SIZE c ≤ str.size := by
  induction h with
  | new fresh str h =>
    unfold string_new at h
    simp only [Option.map_some', Option.some.injEq] at h
    subst h
    exact Nat.le_mul_of_pos_right _ hc
  | expand alloc str str' newlen hr hok he ih =>
    have := string_expand_size_ge c hc alloc str str' newlen (reachable_inv c hc hcs str hr)
      hok he
    omega
  | shrink fresh str hr ih =>
    exact string_shrink_size c hc fresh str (reachable_inv c hc hcs str hr) ih
  | trunc fresh str len hr ih =>
    exact string_trunc_size c hc fresh str len (reachable_inv c hc hcs str hr) ih
  | append_c alloc str str' ch r hr hok he _ ih =>
    have := string_append_c_size c hc alloc str str' ch r (reachable_inv c hc hcs str hr) hok he
    omega
  | append_cs alloc str str' cs len r hr hz hok he _ ih =>
    obtain ⟨rest, hrest⟩ := cs_split cs hz
    rw [hrest] at he
    have := string_append_cs_size c hc alloc rest (cs.takeWhile (fun ch => ch ≠ 0)) 0 str len
      (cs_body_nonzero cs) (reachable_inv c hc hcs str hr) hok r str' he
    omega
  | append_string alloc str other str' len r hr hro hok he _ ih _ =>
    have := string_append_string_size c hc alloc str other str' len r
      (reachable_inv c hc hcs str hr) (reachable_inv c hc hcs other hro) hok he
    omega
  | append_self alloc str str' len r hr hok he _ ih =>
    have := string_append_self_size c hc alloc str str' len r (reachable_inv c hc hcs str hr)
      hok he
    omega

/-- C31 (counterexample): a string that calls reach and whose size is `0`.
From the string `string_new` returns, the successful call
`string_expand(str, 2 ^ 64 - 2)` wraps around and leaves `size = 0`, which is
neither above zero nor at least `16 * sizeof(char_t)`; started at this size
the loop `while (newsize < L2S(1)) newsize *= 2` is never left, whatever the
number of iterations, and the call `string_expand(str, 1)` does not
return. -/
theorem string_expand_loop_stuck :
    string_new 1 (some []) = some ⟨string_buf.static, 16, 0, List.replicate 16 0⟩ ∧
    string_expand 1 (some []) ⟨string_buf.static, 16, 0, List.replicate 16 0⟩
      18446744073709551614 =
      some (0, ⟨string_buf.heap [0], 0, 0, List.replicate 16 0⟩) ∧
    ¬ (16 * 1 ≤ (⟨string_buf.heap [0], 0, 0, List.replicate 16 0⟩ : cryb_string).size) ∧
    ¬ (0 < (⟨string_buf.heap [0], 0, 0, List.replicate 16 0⟩ : cryb_string).size) ∧
    (∀ fuel, whileLoop (fun n : Nat => decide (n < L2S 1 1))
      (fun n : Nat => (n * 2) % 18446744073709551616) fuel
      (⟨string_buf.heap [0], 0, 0, List.replicate 16 0⟩ : cryb_string).size = none) ∧
    string_expand 1 (some []) ⟨string_buf.heap [0], 0, 0, List.replicate 16 0⟩ 1 = none := by
  refine ⟨by decide, by decide, by decide, by decide, ?_, by decide⟩
  intro fuel
  induction fuel with
  | zero => decide
  | succ n ih =>
    have hc : (fun n : Nat => decide (n < L2S 1 1)) 0 = true := by decide
    show (if (fun n : Nat => decide (n < L2S 1 1)) 0 = true then
      whileLoop (fun n : Nat => decide (n < L2S 1 1))
        (fun n : Nat => (n * 2) % 18446744073709551616) n ((0 * 2) % 18446744073709551616)
      else some 0) = none
    rw [if_pos hc]
    exact ih

/-- C31 (amended): the doubling loop of `string_expand` terminates. For a
character size from 1 to 65536, every size above zero (a `size_t`) and every
`newlen` with `(newlen + 1) * c < LARGE_BUF_SIZE`, the loop
`while (newsize < L2S(newlen)) newsize *= 2` started at `newsize = size`
ends after `k ≤ 63` iterations with `newsize = size * 2 ^ k`, the least
such value that is at least `L2S(newlen)`; no doubling wraps around; and
whenever `string_expand` reaches the loop (`size < L2S(newlen)`) the result
is at most `2 * LARGE_BUF_SIZE`. Every string reachable by successful calls
whose requested lengths are of a size that does not wrap around
(`Reachable`) has `size >= 16 * c`, hence a size above zero. -/
theorem string_expand_loop_terminates (c size newlen : Nat) (hc : 0 < c) (hcs : c ≤ 65536)
    (hs : 0 < size) (hs2 : size < 18446744073709551616)
    (hsmall : (newlen + 1) * c < LARGE_BUF_SIZE c) :
    (∃ k, k ≤ 63 ∧
      whileLoop (fun n : Nat => decide (n < L2S c newlen))
        (fun n : Nat => (n * 2) % 18446744073709551616) 64 size = some (size * 2 ^ k) ∧
      string_expand_newsize c size newlen = some (size * 2 ^ k) ∧
      (∀ j, j < k → size * 2 ^ j < (newlen + 1) * c) ∧
      (newlen + 1) * c ≤ size * 2 ^ k ∧
      (∀ j, j ≤ k → size * 2 ^ j < 18446744073709551616) ∧
      (size < (newlen + 1) * c → size * 2 ^ k ≤ 2 * LARGE_BUF_SIZE c) ∧
      ((newlen + 1) * c ≤ size → k = 0)) ∧
    (∀ str, Reachable c str → 16 * c ≤ str.size ∧ 0 < str.size) := by
  refine ⟨doubling_loop_small c size newlen hcs hs hs2 hsmall, fun str hr => ?_⟩
  have h := reachable_size c hc hcs str hr
  unfold STATIC_BUF_SIZE at h
  exact ⟨h, by omega⟩

/-- C31 (witness): a request for 100 characters on the 16-byte buffer of a
new string: three doublings, to 128 bytes. -/
theorem string_expand_loop_terminates_witness :
    string_expand_newsize 1 16 100 = some 128 ∧
    (∃ k, k ≤ 63 ∧
      whileLoop (fun n : Nat => decide (n < L2S 1 100))
        (fun n : Nat => (n * 2) % 18446744073709551616) 64 16 = some (16 * 2 ^ k) ∧
      string_expand_newsize 1 16 100 = some (16 * 2 ^ k) ∧
      (∀ j, j < k → 16 * 2 ^ j < (100 + 1) * 1) ∧
      (100 + 1) * 1 ≤ 16 * 2 ^ k ∧
      (∀ j, j ≤ k → 16 * 2 ^ j < 18446744073709551616) ∧
      (16 < (100 + 1) * 1 → 16 * 2 ^ k ≤ 2 * LARGE_BUF_SIZE 1) ∧
      ((100 + 1) * 1 ≤ 16 → k = 0)) ∧
    16 * 1 ≤ (⟨string_buf.static, 16, 0, List.replicate 16 0⟩ : cryb_string).size :=
  ⟨by decide,
    (string_expand_loop_terminates 1 16 100 (by decide) (by decide) (by decide) (by decide)
      (by decide)).1,
    ((string_expand_loop_terminates 1 16 100 (by decide) (by decide) (by decide) (by decide)
      (by decide)).2 ⟨string_buf.static, 16, 0, List.replicate 16 0⟩
      (Reachable.new [] ⟨string_buf.static, 16, 0, List.replicate 16 0⟩ (by decide))).1⟩

/-! ## Bounds of the reads of `mpi_cmp_abs` -/

/-- On buffers of at least `n` words the loop of `mpi_cmp_abs` started at
`i = n - 1` reads indices below `n` only, at most `n` of them, and returns
`1`, `-1` or `0`. -/
theorem scanReads_bound (X Y : cryb_mpi) : ∀ n : Nat, n ≤ X.words.length →
    n ≤ Y.words.length →
    (∀ i ∈ scanReads X Y n, i < n) ∧ (scanReads X Y n).length ≤ n ∧
    ∃ r, scanWords X Y n = some r ∧ (r = 1 ∨ r = -1 ∨ r = 0) := by
  intro n
  induction n with
  | zero =>
    intro _ _
    exact ⟨by simp [scanReads], by simp [scanReads], 0, rfl, Or.inr (Or.inr rfl)⟩
  | succ n ih =>
    intro hX hY
    obtain ⟨ih1, ih2, r, ih3, ih4⟩ := ih (by omega) (by omega)
    obtain ⟨x, hx⟩ : ∃ x, X.words[n]? = some x :=
      ⟨X.words[n], List.getElem?_eq_getElem (by omega)⟩
    obtain ⟨y, hy⟩ : ∃ y, Y.words[n]? = some y :=
      ⟨Y.words[n], List.getElem?_eq_getElem (by omega)⟩
    simp only [scanReads, scanWords, hx, hy]
    by_cases h1 : x > y
    · simp only [if_pos h1]
      exact ⟨by simp, by simp, 1, rfl, Or.inl rfl⟩
    · simp only [if_neg h1]
      by_cases h2 : x < y
      · simp only [if_pos h2]
        exact ⟨by simp, by simp, -1, rfl, Or.inr (Or.inl rfl)⟩
      · simp only [if_neg h2]
        refine ⟨?_, ?_, r, ih3, ih4⟩
        · intro i hi
          rcases List.mem_cons.mp hi with h | h
          · omega
          · have := ih1 i h
            omega
        · simp only [List.length_cons]
          omega

theorem wordsVal_take_le (l : List Nat) (n : Nat) : wordsVal (l.take n) ≤ wordsVal l := by
  have := wordsVal_split l n
  omega

/-- C32: `mpi_cmp_abs` stays in bounds and terminates. For all `X` and `Y`
whose buffers hold at least `msb / 32 + 1` words, `mpi_cmp_abs` returns
(`1`, `-1` or `0`, never reading outside a buffer); the loop reads words
only when `X.msb = Y.msb`; every index `i` it reads satisfies
`0 <= i <= msb / 32` and lies inside both buffers; it reads at most
`msb / 32 + 1` indices, one in each iteration; and on two canonical zeros
the call returns `0`. -/
theorem mpi_cmp_abs_in_bounds (X Y : cryb_mpi)
    (hX : (X.msb.tdiv 32 + 1).toNat ≤ X.words.length)
    (hY : (Y.msb.tdiv 32 + 1).toNat ≤ Y.words.length) :
    (∃ r, mpi_cmp_abs X Y = some r ∧ (r = 1 ∨ r = -1 ∨ r = 0)) ∧
    (mpi_cmp_abs_reads X Y ≠ [] → X.msb = Y.msb) ∧
    (∀ i ∈ mpi_cmp_abs_reads X Y,
      (i : Int) ≤ X.msb.tdiv 32 ∧ i < X.words.length ∧ i < Y.words.length) ∧
    (mpi_cmp_abs_reads X Y).length ≤ (X.msb.tdiv 32 + 1).toNat ∧
    (∀ s, Canonical s X → Canonical s Y → mpi_abs X = 0 → mpi_abs Y = 0 →
      mpi_cmp_abs X Y = some 0) := by
  unfold mpi_cmp_abs mpi_cmp_abs_reads
  by_cases h1 : X.msb > Y.msb
  · simp only [if_pos h1]
    refine ⟨⟨1, rfl, Or.inl rfl⟩, fun h => absurd rfl h, by simp, by simp, ?_⟩
    intro s cX cY zX zY
    have := (cX.2.2.1 zX).1
    have := (cY.2.2.1 zY).1
    omega
  · simp only [if_neg h1]
    by_cases h2 : X.msb < Y.msb
    · simp only [if_pos h2]
      refine ⟨⟨-1, rfl, Or.inr (Or.inl rfl)⟩, fun h => absurd rfl h, by simp, by simp, ?_⟩
      intro s cX cY zX zY
      have := (cX.2.2.1 zX).1
      have := (cY.2.2.1 zY).1
      omega
    · simp only [if_neg h2]
      have he : X.msb = Y.msb := by omega
      rw [← he] at hY
      obtain ⟨b1, b2, b3⟩ := scanReads_bound X Y _ hX hY
      refine ⟨b3, fun _ => he, ?_, b2, ?_⟩
      · intro i hi
        have := b1 i hi
        omega
      · intro s cX cY zX zY
        rw [scanWords_eq X Y _ cX.1 cY.1 hX hY]
        have hx := wordsVal_take_le X.words (X.msb.tdiv 32 + 1).toNat
        have hy := wordsVal_take_le Y.words (X.msb.tdiv 32 + 1).toNat
        unfold mpi_abs at zX zY
        have ex : wordsVal (X.words.take (X.msb.tdiv 32 + 1).toNat) = 0 := by omega
        have ey : wordsVal (Y.words.take (X.msb.tdiv 32 + 1).toNat) = 0 := by omega
        rw [ex, ey]
        rfl

/-- C32 (witness): the two-word operands `2 ^ 32 + 7` and `2 ^ 32 + 9`:
the loop reads index 1, then index 0, and returns `-1`. -/
theorem mpi_cmp_abs_in_bounds_witness :
    mpi_cmp_abs_reads ⟨[7, 1], 32, false⟩ ⟨[9, 1, 0], 32, false⟩ = [1, 0] ∧
    mpi_cmp_abs ⟨[7, 1], 32, false⟩ ⟨[9, 1, 0], 32, false⟩ = some (-1) ∧
    (∀ i ∈ mpi_cmp_abs_reads ⟨[7, 1], 32, false⟩ ⟨[9, 1, 0], 32, false⟩,
      (i : Int) ≤ (⟨[7, 1], 32, false⟩ : cryb_mpi).msb.tdiv 32 ∧
      i < (⟨[7, 1], 32, false⟩ : cryb_mpi).words.length ∧
      i < (⟨[9, 1, 0], 32, false⟩ : cryb_mpi).words.length) :=
  ⟨by decide, by decide,
    (mpi_cmp_abs_in_bounds ⟨[7, 1], 32, false⟩ ⟨[9, 1, 0], 32, false⟩ (by decide)
      (by decide)).2.2.1⟩

/-! ## The MD2 context invariant -/

/-- One iteration of the loop of `md2_update` on a context with
`left < 16`: the `memcpy` writes `fill >= 1` bytes at the indices
`left .. left + fill - 1`, all below 16, and `left` stays below 16. -/
theorem md2_body_write (ctx : md2_ctx) (input : List Nat) (hb : ctx.buffer.length = 16)
    (hl : ctx.left < 16) (hne : input ≠ []) :
    ∃ fill, 1 ≤ fill ∧ fill ≤ input.length ∧ ctx.left + fill ≤ 16 ∧
      (md2_update_body (ctx, input)).1.buffer = memcpyAt ctx.buffer ctx.left input fill ∧
      (md2_update_body (ctx, input)).2 = input.drop fill ∧
      (md2_update_body (ctx, input)).1.left = (ctx.left + fill) % 16 ∧
      (md2_update_body (ctx, input)).1.buffer.length = 16 := by
  have hpos : 0 < input.length := List.length_pos.mpr hne
  have hinv := md2_body_inv ctx input hb hl hne
  refine ⟨if ctx.left + input.length > 16 then 16 - ctx.left else input.length, ?_, ?_, ?_, ?_,
    ?_, ?_, hinv.1⟩
  · split_ifs <;> omega
  · split_ifs <;> omega
  · split_ifs <;> omega
  · unfold md2_update_body
    simp only []
    split_ifs <;> rfl
  · unfold md2_update_body
    simp only []
    split_ifs <;> rfl
  · unfold md2_update_body
    simp only []
    split_ifs with h1 h2 h2
    · show 0 = _
      omega
    · omega
    · show 0 = _
      omega
    · show ctx.left + input.length = _
      omega

/-- The padding loop of `md2_final` leaves the bytes below `left` and
stores `x` at the indices `left .. n - 1`. -/
theorem md2_pad_getElem? (left x : Nat) (buffer : List Nat) : ∀ n : Nat, n ≤ buffer.length →
    ∀ i : Nat, ((List.range n).foldl
      (fun b i => if left ≤ i then b.set i x else b) buffer)[i]? =
      if left ≤ i ∧ i < n then some x else buffer[i]? := by
  intro n
  induction n with
  | zero =>
    intro _ i
    simp
  | succ n ih =>
    intro hn i
    rw [List.range_succ, List.foldl_append]
    simp only [List.foldl_cons, List.foldl_nil]
    have hlen : ((List.range n).foldl
        (fun b i => if left ≤ i then b.set i x else b) buffer).length = buffer.length := by
      apply foldl_preserves (fun b : List Nat => b.length = buffer.length)
      · intro a b ha
        split_ifs
        · rw [List.length_set]
          exact ha
        · exact ha
      · rfl
    by_cases hle : left ≤ n
    · rw [if_pos hle, List.getElem?_set]
      by_cases hin : n = i
      · subst hin
        rw [if_pos rfl, if_pos (by rw [hlen]; omega), if_pos ⟨hle, by omega⟩]
      · rw [if_neg hin, ih (by omega) i]
        by_cases h3 : left ≤ i ∧ i < n
        · rw [if_pos h3, if_pos ⟨h3.1, by omega⟩]
        · rw [if_neg h3, if_neg (by omega)]
    · rw [if_neg hle, ih (by omega) i]
      by_cases h3 : left ≤ i ∧ i < n
      · rw [if_pos h3, if_pos ⟨h3.1, by omega⟩]
      · rw [if_neg h3, if_neg (by omega)]

/-- The padding of `md2_final`: `16 - left` bytes of value `16 - left`
after the `left` pending bytes. -/
theorem md2_final_pad_eq (ctx : md2_ctx) (hb : ctx.buffer.length = 16) (hl : ctx.left < 16) :
    md2_final_pad ctx =
      ctx.buffer.take ctx.left ++ List.replicate (16 - ctx.left) (16 - ctx.left) := by
  have hx : (16 - ctx.left) % 256 = 16 - ctx.left := Nat.mod_eq_of_lt (by omega)
  apply List.ext_getElem?
  intro i
  unfold md2_final_pad
  rw [md2_pad_getElem? ctx.left ((16 - ctx.left) % 256) ctx.buffer 16 (by omega) i, hx,
    List.getElem?_append, List.length_take, Nat.min_eq_left (by omega)]
  by_cases h1 : i < ctx.left
  · rw [if_neg (by omega), if_pos h1, List.getElem?_take, if_pos h1]
  · rw [if_neg h1]
    by_cases h2 : i < 16
    · rw [if_pos ⟨by omega, h2⟩, List.getElem?_replicate, if_pos (by omega)]
    · rw [if_neg (by omega), List.getElem?_replicate, if_neg (by omega)]
      exact List.getElem?_eq_none (by omega)

/-- After any sequence of `md2_update` calls on a context with a 16-byte
buffer and `left < 16` the context is again such. -/
theorem md2_updates_inv (chunks : List (List Nat)) : ∀ ctx : md2_ctx,
    ctx.buffer.length = 16 → ctx.left < 16 →
    ∃ r, md2_updates ctx chunks = some r ∧ r.buffer.length = 16 ∧ r.left < 16 := by
  induction chunks with
  | nil =>
    intro ctx hb hl
    exact ⟨ctx, rfl, hb, hl⟩
  | cons l ls ih =>
    intro ctx hb hl
    obtain ⟨r1, h1, hb1, hl1, _⟩ := md2_update_eq ctx l hb hl
    obtain ⟨r, h2, hb2, hl2⟩ := ih r1 hb1 hl1
    refine ⟨r, ?_, hb2, hl2⟩
    unfold md2_updates at h2 ⊢
    rw [List.foldl_cons]
    simp only [Option.some_bind, h1]
    exact h2

/-- C33: MD2 context invariant. After `md2_init` and after every
`md2_update` call of any sequence of calls (each length an `int` such that
`left + ilen` does not overflow), the buffer has its 16 bytes and
`left < 16`. On every context of that kind each iteration of the loop of
`md2_update` writes `fill >= 1` bytes at the indices
`left .. left + fill - 1`, all below 16, and leaves `left < 16`; and
`md2_final` pads with exactly `16 - left` bytes (between 1 and 16), each of
value `16 - left`, at the indices `left .. 15`. -/
theorem md2_context_invariant (chunks : List (List Nat))
    (_hlen : ∀ l ∈ chunks, l.length + 16 ≤ 2147483648) :
    (md2_init.left = 0 ∧ md2_init.buffer.length = 16) ∧
    (∃ ctx, md2_updates md2_init chunks = some ctx ∧ ctx.left < 16 ∧
      ctx.buffer.length = 16) ∧
    (∀ ctx : md2_ctx, ctx.buffer.length = 16 → ctx.left < 16 →
      (∀ input, input ≠ [] →
        ∃ fill, 1 ≤ fill ∧ fill ≤ input.length ∧ ctx.left + fill ≤ 16 ∧
          (md2_update_body (ctx, input)).1.buffer =
            memcpyAt ctx.buffer ctx.left input fill ∧
          (md2_update_body (ctx, input)).2 = input.drop fill ∧
          (md2_update_body (ctx, input)).1.left = (ctx.left + fill) % 16 ∧
          (md2_update_body (ctx, input)).1.buffer.length = 16) ∧
      md2_final_pad ctx =
        ctx.buffer.take ctx.left ++ List.replicate (16 - ctx.left) (16 - ctx.left) ∧
      1 ≤ 16 - ctx.left ∧ 16 - ctx.left ≤ 16) := by
  refine ⟨⟨rfl, by simp [md2_init]⟩, ?_, ?_⟩
  · obtain ⟨r, h1, h2, h3⟩ := md2_updates_inv chunks md2_init (by simp [md2_init]) (by decide)
    exact ⟨r, h1, h3, h2⟩
  · intro ctx hb hl
    exact ⟨fun input hne => md2_body_write ctx input hb hl hne, md2_final_pad_eq ctx hb hl,
      by omega, by omega⟩

/-- C33 (witness): after the calls with 3 and 2 bytes `left` is 5, and
`md2_final` pads with eleven bytes of value 11. -/
theorem md2_context_invariant_witness :
    (md2_updates md2_init [[1, 2, 3], [4, 5]]).map (fun c => c.left) = some 5 ∧
    (md2_updates md2_init [[1, 2, 3], [4, 5]]).map md2_final_pad =
      some ([1, 2, 3, 4, 5] ++ List.replicate 11 11) ∧
    ∃ ctx, md2_updates md2_init [[1, 2, 3], [4, 5]] = some ctx ∧ ctx.left < 16 ∧
      ctx.buffer.length = 16 :=
  ⟨by decide, by decide,
    (md2_context_invariant [[1, 2, 3], [4, 5]] (by decide)).2.1⟩

/-! ## The SHA-1 context invariant -/

/-- What holds of the state before a loop and is kept by every iteration
holds of the state the loop ends in. -/
theorem whileLoop_invariant {σ : Type} (cond : σ → Bool) (body : σ → σ) (P : σ → Prop)
    (hstep : ∀ s, P s → cond s = true → P (body s)) :
    ∀ (n : Nat) (s r : σ), whileLoop cond body n s = some r → P s → P r := by
  intro n
  induction n with
  | zero =>
    intro s r h hP
    unfold whileLoop at h
    by_cases hc : cond s = true
    · simp [hc] at h
    · simp only [hc, Bool.false_eq_true, if_false, Option.some.injEq] at h
      rw [← h]
      exact hP
  | succ n ih =>
    intro s r h hP
    unfold whileLoop at h
    by_cases hc : cond s = true
    · simp only [hc, if_true] at h
      exact ih (body s) r h (hstep s hP hc)
    · simp only [hc, Bool.false_eq_true, if_false, Option.some.injEq] at h
      rw [← h]
      exact hP

theorem sha1Pad_inv (c : sha1_ctx) (h : Sha1Pad c) : Sha1Inv c := by
  obtain ⟨hb, hl, hz, _⟩ := h
  refine ⟨hb, hl, fun h0 => ?_⟩
  apply List.ext_getElem?
  intro i
  by_cases hi : i < 64
  · rw [hz i hi (by omega), List.getElem?_replicate, if_pos hi]
  · rw [List.getElem?_eq_none (by omega), List.getElem?_replicate, if_neg hi]

/-- One iteration of the loop of `sha1_update` keeps the invariant of the
padding, and adds to `bitlen` eight times the number of bytes it takes. -/
theorem sha1_body_pad (c : sha1_ctx) (l : List Nat) (hP : Sha1Pad c) (hne : l ≠ []) :
    Sha1Pad (sha1_update_body (c, l)).1 ∧
    ((sha1_update_body (c, l)).1.bitlen + 8 * (sha1_update_body (c, l)).2.length) %
        18446744073709551616 =
      (c.bitlen + 8 * l.length) % 18446744073709551616 := by
  obtain ⟨hb, hl, hz, hbit⟩ := hP
  have hpos : 0 < l.length := List.length_pos.mpr hne
  by_cases h : c.blocklen > 0 ∨ l.length < 64
  · rw [sha1_body_buffered c l h _ rfl]
    by_cases hlong : 64 - c.blocklen > l.length
    · simp only [if_pos hlong]
      rw [if_neg (by omega)]
      refine ⟨⟨?_, ?_, ?_, ?_⟩, ?_⟩
      · simp only []
        rw [length_memcpyAt _ _ _ _ (by omega) (by omega)]
        exact hb
      · simp only []
        omega
      · intro i hi hle
        simp only [] at hle ⊢
        rw [getElem?_memcpyAt _ _ _ _ _ (by omega) (by omega), if_neg (by omega),
          if_neg (by omega)]
        exact hz i hi (by omega)
      · simp only []
        exact Nat.mod_lt _ (by decide)
      · simp only [List.length_drop]
        omega
    · simp only [if_neg hlong]
      rw [if_pos (by omega)]
      refine ⟨⟨by simp, by simp, ?_, ?_⟩, ?_⟩
      · intro i hi _
        simp only []
        rw [List.getElem?_replicate, if_pos hi]
      · simp only []
        exact Nat.mod_lt _ (by decide)
      · simp only [List.length_drop]
        omega
  · have h0 : c.blocklen = 0 := by omega
    rw [sha1_body_fast c l h0 (by omega)]
    refine ⟨⟨hb, hl, hz, ?_⟩, ?_⟩
    · simp only []
      exact Nat.mod_lt _ (by decide)
    · simp only [List.length_drop]
      omega

/-- After `sha1_update` the invariant of the padding holds again and
`bitlen` has grown by eight times the length of the input, modulo
`2 ^ 64`. -/
theorem sha1_update_pad (ctx : sha1_ctx) (input : List Nat) (hP : Sha1Pad ctx) :
    ∃ r, sha1_update ctx input = some r ∧ Sha1Pad r ∧
      r.bitlen = (ctx.bitlen + 8 * input.length) % 18446744073709551616 := by
  obtain ⟨r, hr, _, ⟨n, hn⟩⟩ := sha1_update_eq ctx input (sha1Pad_inv ctx hP)
  have h := whileLoop_invariant sha1_update_cond sha1_update_body
    (fun s : sha1_ctx × List Nat => Sha1Pad s.1 ∧
      (s.1.bitlen + 8 * s.2.length) % 18446744073709551616 =
        (ctx.bitlen + 8 * input.length) % 18446744073709551616)
    (fun s hs hc => by
      have hne : s.2 ≠ [] := (sha1_update_cond_iff s.1 s.2).mp hc
      obtain ⟨h1, h2⟩ := sha1_body_pad s.1 s.2 hs.1 hne
      exact ⟨h1, by rw [h2]; exact hs.2⟩)
    n (ctx, input) (r, []) hn ⟨hP, rfl⟩
  refine ⟨r, hr, h.1, ?_⟩
  have h2 := h.2
  simp only [List.length_nil, Nat.mul_zero, Nat.add_zero] at h2
  rw [← h2]
  exact (Nat.mod_eq_of_lt h.1.2.2.2).symm

/-- After any sequence of `sha1_update` calls the invariant of the padding
holds and `bitlen` has grown by eight times the number of bytes absorbed,
modulo `2 ^ 64`. -/
theorem sha1_updates_pad (chunks : List (List Nat)) : ∀ ctx : sha1_ctx, Sha1Pad ctx →
    ∃ r, sha1_updates ctx chunks = some r ∧ Sha1Pad r ∧
      r.bitlen = (ctx.bitlen + 8 * chunks.flatten.length) % 18446744073709551616 := by
  induction chunks with
  | nil =>
    intro ctx hP
    refine ⟨ctx, rfl, hP, ?_⟩
    simp only [List.flatten_nil, List.length_nil, Nat.mul_zero, Nat.add_zero]
    exact (Nat.mod_eq_of_lt hP.2.2.2).symm
  | cons l ls ih =>
    intro ctx hP
    obtain ⟨r1, h1, hP1, hb1⟩ := sha1_update_pad ctx l hP
    obtain ⟨r, h2, hP2, hb2⟩ := ih r1 hP1
    refine ⟨r, ?_, hP2, ?_⟩
    · unfold sha1_updates at h2 ⊢
      rw [List.foldl_cons]
      simp only [Option.some_bind, h1]
      exact h2
    · rw [hb2, hb1, List.flatten_cons, List.length_append]
      omega

/-- Storing the two halves of the length at the end of a 64-byte block. -/
theorem memcpyAt_length_field (B hi lo : List Nat) (hB : B.length = 64) (hhi : hi.length = 4)
    (hlo : lo.length = 4) :
    memcpyAt (memcpyAt B 56 hi 4) 60 lo 4 = B.take 56 ++ hi ++ lo := by
  have hin : (memcpyAt B 56 hi 4).length = 64 := by
    rw [length_memcpyAt _ _ _ _ (by omega) (by omega)]
    exact hB
  have hl1 : (B.take 56).length = 56 := by rw [List.length_take]; omega
  have hl2 : (B.take 56 ++ hi).length = 60 := by rw [List.length_append, hl1, hhi]
  apply List.ext_getElem?
  intro i
  rw [getElem?_memcpyAt _ _ _ _ _ (by omega) (by omega)]
  by_cases h1 : i < 56
  · rw [if_pos (by omega), getElem?_memcpyAt _ _ _ _ _ (by omega) (by omega), if_pos h1,
      List.getElem?_append_left (by omega), List.getElem?_append_left (by omega),
      List.getElem?_take, if_pos h1]
  · by_cases h2 : i < 60
    · rw [if_pos h2, getElem?_memcpyAt _ _ _ _ _ (by omega) (by omega), if_neg h1,
        if_pos (by omega), List.getElem?_append_left (by omega),
        List.getElem?_append_right (by omega), hl1]
    · rw [if_neg h2]
      by_cases h3 : i < 64
      · rw [if_pos (by omega), List.getElem?_append_right (by omega), hl2]
      · rw [if_neg (by omega), List.getElem?_eq_none (by omega),
          List.getElem?_eq_none (by rw [List.length_append, hl2, hlo]; omega)]

/-- The block after the marker `0x80` is stored: the pending bytes, the
marker, and zeros up to index `n - 1`. -/
theorem take_set_marker (block : List Nat) (bl n : Nat) (hb : block.length = 64)
    (hbl : bl < n) (hn : n ≤ 64) (hz : ∀ i, i < 64 → bl ≤ i → block[i]? = some 0) :
    (block.set bl 0x80).take n =
      block.take bl ++ ([0x80] ++ List.replicate (n - 1 - bl) 0) := by
  have h := take_eq_append_of_getElem? (block.set bl 0x80) block
    ([0x80] ++ List.replicate (n - 1 - bl) 0) bl (by omega)
    (fun i hi => by rw [List.getElem?_set, if_neg (by omega)])
    (fun j hj => by
      simp only [List.length_append, List.length_singleton, List.length_replicate] at hj
      rw [List.getElem?_set]
      by_cases h0 : j = 0
      · subst h0
        rw [if_pos (by omega), if_pos (by omega)]
        simp
      · rw [if_neg (by omega), hz _ (by omega) (by omega),
          List.getElem?_append_right (by simp; omega), List.getElem?_replicate,
          if_pos (by simp; omega)])
  simp only [List.length_append, List.length_singleton, List.length_replicate] at h
  have e : bl + (1 + (n - 1 - bl)) = n := by omega
  rw [e] at h
  exact h

theorem length_be32Bytes (x : Nat) : (be32Bytes x).length = 4 := rfl

/-- What `sha1_final` hashes: on a context that satisfies the invariant of
the padding, the marker `0x80` is stored inside the block, the bytes after
it are zero, and the digest is computed from the pending bytes followed by
the marker, zeros, and the 64-bit length in the last eight bytes of a
block. -/
theorem sha1_final_pad (ctx : sha1_ctx) (hP : Sha1Pad ctx) :
    ctx.blocklen < ctx.block.length ∧
    (ctx.block.set ctx.blocklen 0x80)[ctx.blocklen]? = some 0x80 ∧
    (∀ i, ctx.blocklen < i → i < 64 → (ctx.block.set ctx.blocklen 0x80)[i]? = some 0) ∧
    sha1_final ctx =
      (((if ctx.blocklen < 56 then
          sha1_compute_h ctx.h ctx.k
            (ctx.block.take ctx.blocklen ++ ([0x80] ++ List.replicate (55 - ctx.blocklen) 0) ++
              be32Bytes (ctx.bitlen >>> 32) ++ be32Bytes (ctx.bitlen &&& 0xffffffff))
        else
          sha1_compute_h
            (sha1_compute_h ctx.h ctx.k
              (ctx.block.take ctx.blocklen ++
                ([0x80] ++ List.replicate (63 - ctx.blocklen) 0)))
            ctx.k
            (List.replicate 56 0 ++ be32Bytes (ctx.bitlen >>> 32) ++
              be32Bytes (ctx.bitlen &&& 0xffffffff))).map be32Bytes).flatten) := by
  obtain ⟨hb, hl, hz, _⟩ := hP
  refine ⟨by omega, ?_, ?_, ?_⟩
  · rw [List.getElem?_set, if_pos rfl, if_pos (by omega)]
  · intro i h1 h2
    rw [List.getElem?_set, if_neg (by omega)]
    exact hz i h2 (by omega)
  · have hset : (ctx.block.set ctx.blocklen 0x80).length = 64 := by
      rw [List.length_set]
      exact hb
    unfold sha1_final
    by_cases h56 : ctx.blocklen < 56
    · simp only [if_neg (show ¬ (ctx.blocklen + 1 > 56) by omega), if_pos h56]
      rw [memcpyAt_length_field _ _ _ hset (length_be32Bytes _) (length_be32Bytes _),
        take_set_marker ctx.block ctx.blocklen 56 hb h56 (by omega) hz]
      rfl
    · simp only [if_pos (show ctx.blocklen + 1 > 56 by omega), if_neg h56]
      rw [memcpyAt_length_field _ _ _ (by simp) (length_be32Bytes _) (length_be32Bytes _),
        List.take_replicate]
      have e := take_set_marker ctx.block ctx.blocklen 64 hb (by omega) (by omega) hz
      rw [List.take_of_length_le (by omega)] at e
      simp only [sha1_compute, e]
      rfl

/-- C34: SHA-1 context invariant. After `sha1_init` and after every
`sha1_update` call of any sequence of calls, `blocklen < 64`, the block has
its 64 bytes, `block[i] = 0` for every `i >= blocklen`, and `bitlen` is
eight times the number of bytes absorbed, modulo `2 ^ 64`. Hence in
`sha1_final` the marker `0x80` is stored inside the block, the bytes after
it are zero, and what is hashed is the pending bytes, the marker, zeros up
to the last eight bytes of a block (of the same block when
`blocklen < 56`, of a second one otherwise), and the 64-bit length. -/
theorem sha1_context_invariant (chunks : List (List Nat)) :
    Sha1Pad sha1_init ∧
    ∃ ctx, sha1_updates sha1_init chunks = some ctx ∧
      ctx.blocklen < 64 ∧ ctx.block.length = 64 ∧
      (∀ i, i < 64 → ctx.blocklen ≤ i → ctx.block[i]? = some 0) ∧
      ctx.bitlen = (8 * chunks.flatten.length) % 18446744073709551616 ∧
      (ctx.block.set ctx.blocklen 0x80)[ctx.blocklen]? = some 0x80 ∧
      (∀ i, ctx.blocklen < i → i < 64 →
        (ctx.block.set ctx.blocklen 0x80)[i]? = some 0) ∧
      sha1_final ctx =
        (((if ctx.blocklen < 56 then
            sha1_compute_h ctx.h ctx.k
              (ctx.block.take ctx.blocklen ++
                ([0x80] ++ List.replicate (55 - ctx.blocklen) 0) ++
                be32Bytes (ctx.bitlen >>> 32) ++ be32Bytes (ctx.bitlen &&& 0xffffffff))
          else
            sha1_compute_h
              (sha1_compute_h ctx.h ctx.k
                (ctx.block.take ctx.blocklen ++
                  ([0x80] ++ List.replicate (63 - ctx.blocklen) 0)))
              ctx.k
              (List.replicate 56 0 ++ be32Bytes (ctx.bitlen >>> 32) ++
                be32Bytes (ctx.bitlen &&& 0xffffffff))).map be32Bytes).flatten) := by
  have h0 : Sha1Pad sha1_init := by decide
  obtain ⟨r, h1, hP, hbit⟩ := sha1_updates_pad chunks sha1_init h0
  obtain ⟨_, f2, f3, f4⟩ := sha1_final_pad r hP
  refine ⟨h0, r, h1, hP.2.1, hP.1, hP.2.2.1, ?_, f2, f3, f4⟩
  rw [hbit]
  simp [sha1_init]

/-- The calls `sha1_update` with `ab` and with `c` leave three pending
bytes and `bitlen = 24`. -/
theorem sha1_updates_abc :
    (sha1_updates sha1_init [[0x61, 0x62], [0x63]]).map
        (fun c => (c.blocklen, c.bitlen, c.block.take 4)) =
      some (3, 24, [0x61, 0x62, 0x63, 0]) := by
  decide

/-! ## Folding a message block after block -/

theorem absorb_blocks_short {σ : Type} (n : Nat) (f : σ → List Nat → σ) (s : σ) (l : List Nat)
    (h : l.length < n) : absorb_blocks n f s l = (s, l) := by
  rw [absorb_blocks, if_neg (by omega)]

theorem absorb_blocks_long {σ : Type} (n : Nat) (f : σ → List Nat → σ) (s : σ) (l : List Nat)
    (hn : 0 < n) (h : n ≤ l.length) :
    absorb_blocks n f s l = absorb_blocks n f (f s (l.take n)) (l.drop n) := by
  rw [absorb_blocks, if_pos ⟨hn, h⟩]

theorem absorb_blocks_length {σ : Type} (n : Nat) (f : σ → List Nat → σ) (hn : 0 < n)
    (k : Nat) : ∀ (s : σ) (l : List Nat), l.length ≤ k →
      (absorb_blocks n f s l).2.length = l.length % n := by
  induction k with
  | zero =>
    intro s l h
    rw [absorb_blocks_short n f s l (by omega)]
    simp only []
    rw [Nat.mod_eq_of_lt (by omega)]
  | succ k ih =>
    intro s l h
    by_cases hl : n ≤ l.length
    · rw [absorb_blocks_long n f s l hn hl, ih _ _ (by simp only [List.length_drop]; omega)]
      simp only [List.length_drop]
      rw [Nat.mod_eq_sub_mod hl]
    · rw [absorb_blocks_short n f s l (by omega)]
      simp only []
      rw [Nat.mod_eq_of_lt (by omega)]

theorem absorb_blocks_append {σ : Type} (n : Nat) (f : σ → List Nat → σ) (hn : 0 < n)
    (k : Nat) : ∀ (s : σ) (l1 l2 : List Nat), l1.length ≤ k →
      absorb_blocks n f s (l1 ++ l2) =
        absorb_blocks n f (absorb_blocks n f s l1).1 ((absorb_blocks n f s l1).2 ++ l2) := by
  induction k with
  | zero =>
    intro s l1 l2 h
    rw [absorb_blocks_short n f s l1 (by omega)]
  | succ k ih =>
    intro s l1 l2 h
    by_cases hl : n ≤ l1.length
    · rw [absorb_blocks_long n f s l1 hn hl,
        absorb_blocks_long n f s (l1 ++ l2) hn (by rw [List.length_append]; omega),
        List.take_append_of_le_length hl, List.drop_append_of_le_length hl]
      exact ih _ _ _ (by simp only [List.length_drop]; omega)
    · rw [absorb_blocks_short n f s l1 (by omega)]

/-- A message of exactly one block. -/
theorem absorb_blocks_one {σ : Type} (n : Nat) (f : σ → List Nat → σ) (hn : 0 < n) (s : σ)
    (l : List Nat) (h : l.length = n) : absorb_blocks n f s l = (f s l, []) := by
  rw [absorb_blocks_long n f s l hn (by omega), List.take_of_length_le (by omega),
    List.drop_of_length_le (by omega), absorb_blocks_short n f _ [] (by simpa using hn)]

/-- Two block functions folded side by side. -/
theorem absorb_blocks_pair {σ τ : Type} (n : Nat) (f : σ → List Nat → σ)
    (g : τ → List Nat → τ) (hn : 0 < n) (k : Nat) :
    ∀ (a : σ) (x : τ) (l : List Nat), l.length ≤ k →
      absorb_blocks n (fun (s : σ × τ) b => (f s.1 b, g s.2 b)) (a, x) l =
        (((absorb_blocks n f a l).1, (absorb_blocks n g x l).1), (absorb_blocks n f a l).2) ∧
      (absorb_blocks n g x l).2 = (absorb_blocks n f a l).2 := by
  induction k with
  | zero =>
    intro a x l h
    rw [absorb_blocks_short n _ _ l (by omega), absorb_blocks_short n f a l (by omega),
      absorb_blocks_short n g x l (by omega)]
    exact ⟨rfl, rfl⟩
  | succ k ih =>
    intro a x l h
    by_cases hl : n ≤ l.length
    · rw [absorb_blocks_long n _ _ l hn hl, absorb_blocks_long n f a l hn hl,
        absorb_blocks_long n g x l hn hl]
      exact ih _ _ _ (by simp only [List.length_drop]; omega)
    · rw [absorb_blocks_short n _ _ l (by omega), absorb_blocks_short n f a l (by omega),
        absorb_blocks_short n g x l (by omega)]
      exact ⟨rfl, rfl⟩

/-! ## MD2 against RFC 1319 -/

theorem foldl_fst_length {α : Type} (l : List α) (f : List Nat × Nat → α → List Nat × Nat)
    (h : ∀ r a, (f r a).1.length = r.1.length) :
    ∀ r, (l.foldl f r).1.length = r.1.length := by
  induction l with
  | nil => intro r; rfl
  | cons a l ih =>
    intro r
    rw [List.foldl_cons, ih, h]

theorem md2_process_cksum_length (b c : List Nat) :
    (md2_process_cksum b c).length = c.length := by
  unfold md2_process_cksum
  rw [foldl_fst_length]
  intro r a
  simp

/-- The checksum step and the buffer step of one MD2 block, on the pair of
the checksum and the state. -/
theorem md2_body_full (ctx : md2_ctx) (l : List Nat) (hl : ctx.left < 16)
    (h : 16 ≤ ctx.left + l.length) :
    md2_update_body (ctx, l) =
      (md2_process { ctx with
          buffer := memcpyAt ctx.buffer ctx.left l (16 - ctx.left)
          left := 0 },
        l.drop (16 - ctx.left)) := by
  have hf : (if ctx.left + l.length > 16 then 16 - ctx.left else l.length) = 16 - ctx.left := by
    split <;> omega
  simp only [md2_update_body, hf]
  rw [if_pos (show ctx.left + (16 - ctx.left) = 16 by omega)]

/-- The loop of `md2_update` keeps what the context and the rest of the
input stand for: the checksum and the state after the whole blocks, and the
pending bytes. -/
theorem md2_body_view (c : md2_ctx) (l : List Nat) (hb : c.buffer.length = 16)
    (hl : c.left < 16) :
    absorb_blocks 16
        (fun (s : List Nat × List Nat) b =>
          (md2_process_cksum b s.1, md2_process_mix (md2_process_load b s.2)))
        ((md2_update_body (c, l)).1.cksum, (md2_update_body (c, l)).1.state)
        ((md2_update_body (c, l)).1.buffer.take (md2_update_body (c, l)).1.left ++
          (md2_update_body (c, l)).2) =
      absorb_blocks 16
        (fun (s : List Nat × List Nat) b =>
          (md2_process_cksum b s.1, md2_process_mix (md2_process_load b s.2)))
        (c.cksum, c.state) (c.buffer.take c.left ++ l) ∧
    (md2_update_body (c, l)).1.cksum.length = c.cksum.length := by
  by_cases h : 16 ≤ c.left + l.length
  · rw [md2_body_full c l hl h]
    have hlen : (c.buffer.take c.left ++ l).length = c.left + l.length := by
      rw [List.length_append, List.length_take]
      omega
    have ht : (c.buffer.take c.left ++ l).take 16 =
        memcpyAt c.buffer c.left l (16 - c.left) := by
      unfold memcpyAt
      rw [List.take_append_eq_append_take, List.length_take,
        List.take_of_length_le (by rw [List.length_take]; omega),
        List.drop_of_length_le (by omega)]
      have : min c.left c.buffer.length = c.left := by omega
      rw [this, List.append_nil]
    have hd : (c.buffer.take c.left ++ l).drop 16 = l.drop (16 - c.left) := by
      rw [List.drop_append_eq_append_drop, List.length_take,
        List.drop_of_length_le (by rw [List.length_take]; omega)]
      have : min c.left c.buffer.length = c.left := by omega
      rw [this, List.nil_append]
    refine ⟨?_, ?_⟩
    · rw [absorb_blocks_long 16 _ _ (c.buffer.take c.left ++ l) (by decide) (by omega), ht, hd]
      simp [md2_process]
    · simp [md2_process, md2_process_cksum_length]
  · rw [md2_body_short c l (by omega)]
    refine ⟨?_, rfl⟩
    simp only [List.append_nil]
    have : (memcpyAt c.buffer c.left l l.length).take (c.left + l.length) =
        c.buffer.take c.left ++ l := by
      unfold memcpyAt
      rw [List.take_of_length_le (Nat.le_refl l.length), List.take_append_of_le_length
        (by rw [List.length_append, List.length_take]; omega),
        List.take_of_length_le (by rw [List.length_append, List.length_take]; omega)]
    rw [this]

/-- What `md2_update` computes: the checksum and the state are the ones the
whole 16-byte blocks of the pending bytes followed by the input lead to, and
the bytes left over are pending. -/
theorem md2_update_view (ctx : md2_ctx) (m : List Nat) (hb : ctx.buffer.length = 16)
    (hl : ctx.left < 16) :
    ∃ r, md2_update ctx m = some r ∧ r.buffer.length = 16 ∧ r.left < 16 ∧
      r.cksum.length = ctx.cksum.length ∧
      absorb_blocks 16
        (fun (s : List Nat × List Nat) b =>
          (md2_process_cksum b s.1, md2_process_mix (md2_process_load b s.2)))
        (ctx.cksum, ctx.state) (ctx.buffer.take ctx.left ++ m) =
      ((r.cksum, r.state), r.buffer.take r.left) := by
  obtain ⟨r, hr, hrb, hrl, n, hn⟩ := md2_update_eq ctx m hb hl
  have hP := whileLoop_invariant md2_update_cond md2_update_body
    (fun p => p.1.buffer.length = 16 ∧ p.1.left < 16 ∧ p.1.cksum.length = ctx.cksum.length ∧
      absorb_blocks 16
        (fun (s : List Nat × List Nat) b =>
          (md2_process_cksum b s.1, md2_process_mix (md2_process_load b s.2)))
        (p.1.cksum, p.1.state) (p.1.buffer.take p.1.left ++ p.2) =
      absorb_blocks 16
        (fun (s : List Nat × List Nat) b =>
          (md2_process_cksum b s.1, md2_process_mix (md2_process_load b s.2)))
        (ctx.cksum, ctx.state) (ctx.buffer.take ctx.left ++ m))
    (fun s hs hc => by
      obtain ⟨c, l⟩ := s
      obtain ⟨h1, h2, h3, h4⟩ := hs
      have hne : l ≠ [] := (md2_update_cond_iff c l).mp hc
      obtain ⟨i1, i2, _⟩ := md2_body_inv c l h1 h2 hne
      obtain ⟨v1, v2⟩ := md2_body_view c l h1 h2
      exact ⟨i1, i2, v2.trans h3, v1.trans h4⟩)
    n (ctx, m) (r, []) hn ⟨hb, hl, rfl, rfl⟩
  obtain ⟨_, _, p3, p4⟩ := hP
  refine ⟨r, hr, hrb, hrl, p3, ?_⟩
  rw [← p4]
  simp only [List.append_nil]
  rw [absorb_blocks_short]
  rw [List.length_take]
  omega

theorem memcpyAt_whole (dst src : List Nat) (n : Nat) (hd : dst.length = n)
    (hs : src.length = n) : memcpyAt dst 0 src n = src := by
  unfold memcpyAt
  rw [List.take_zero, List.nil_append, List.take_of_length_le (by omega),
    List.drop_of_length_le (by omega), List.append_nil]

/-- The digest `md2_final` writes, in terms of the pending bytes, the
checksum and the state. -/
theorem md2_final_eq (r : md2_ctx) (hb : r.buffer.length = 16) (hl : r.left < 16)
    (hc : r.cksum.length = 16) :
    md2_final r =
      (md2_process_mix (md2_process_load
        (md2_process_cksum
          (r.buffer.take r.left ++ List.replicate (16 - r.left) (16 - r.left)) r.cksum)
        (md2_process_mix (md2_process_load
          (r.buffer.take r.left ++ List.replicate (16 - r.left) (16 - r.left))
          r.state)))).take 16 := by
  have hp : (r.buffer.take r.left ++ List.replicate (16 - r.left) (16 - r.left)).length = 16 := by
    rw [List.length_append, List.length_take, List.length_replicate]
    omega
  simp only [md2_final, md2_process]
  rw [md2_final_pad_eq r hb hl,
    memcpyAt_whole _ _ 16 hp (by rw [md2_process_cksum_length]; exact hc)]

/-- The code computes the MD2 digest of RFC 1319, for every input. -/
theorem md2_complete_eq (m : List Nat) : md2_complete m = some (md2_rfc1319 m) := by
  obtain ⟨r, hr, hrb, hrl, hck, hv⟩ := md2_update_view md2_init m rfl (by decide)
  have h0 : md2_init.buffer.take md2_init.left ++ m = m := rfl
  rw [h0] at hv
  have hck16 : r.cksum.length = 16 := hck
  have hlen := absorb_blocks_length 16
    (fun (s : List Nat × List Nat) b =>
      (md2_process_cksum b s.1, md2_process_mix (md2_process_load b s.2)))
    (by decide) m.length (md2_init.cksum, md2_init.state) m (Nat.le_refl _)
  rw [hv] at hlen
  simp only [List.length_take] at hlen
  have hleft : r.left = m.length % 16 := by omega
  have hp : (r.buffer.take r.left ++ List.replicate (16 - r.left) (16 - r.left)).length = 16 := by
    rw [List.length_append, List.length_take, List.length_replicate]
    omega
  have hA := absorb_blocks_append 16
    (fun (s : List Nat × List Nat) b =>
      (md2_process_cksum b s.1, md2_process_mix (md2_process_load b s.2)))
    (by decide) m.length (md2_init.cksum, md2_init.state) m
    (List.replicate (16 - r.left) (16 - r.left)) (Nat.le_refl _)
  rw [hv] at hA
  simp only [] at hA
  rw [absorb_blocks_one 16 _ (by decide) _ _ hp] at hA
  obtain ⟨hP1, hP2⟩ := absorb_blocks_pair 16 (fun c block => md2_process_cksum block c)
    (fun x block => md2_process_mix (md2_process_load block x)) (by decide)
    (m ++ List.replicate (16 - r.left) (16 - r.left)).length
    md2_init.cksum md2_init.state (m ++ List.replicate (16 - r.left) (16 - r.left))
    (Nat.le_refl _)
  rw [hA] at hP1
  have e1 := congrArg (fun p => p.1.1) hP1
  have e2 := congrArg (fun p => p.1.2) hP1
  have e3 := congrArg (fun p => p.2) hP1
  simp only [] at e1 e2 e3
  rw [← e3] at hP2
  have hB := absorb_blocks_append 16
    (fun x block => md2_process_mix (md2_process_load block x))
    (by decide) (m ++ List.replicate (16 - r.left) (16 - r.left)).length md2_init.state
    (m ++ List.replicate (16 - r.left) (16 - r.left))
    (md2_process_cksum
      (r.buffer.take r.left ++ List.replicate (16 - r.left) (16 - r.left)) r.cksum)
    (Nat.le_refl _)
  have hone := absorb_blocks_one 16
    (fun x block => md2_process_mix (md2_process_load block x)) (by decide)
    (md2_process_mix (md2_process_load
      (r.buffer.take r.left ++ List.replicate (16 - r.left) (16 - r.left)) r.state))
    (md2_process_cksum
      (r.buffer.take r.left ++ List.replicate (16 - r.left) (16 - r.left)) r.cksum)
    (by rw [md2_process_cksum_length]; exact hck16)
  rw [hP2, ← e2, List.nil_append, hone] at hB
  unfold md2_complete
  rw [hr]
  simp only [Option.map_some']
  rw [md2_final_eq r hrb hrl hck16]
  unfold md2_rfc1319
  simp only []
  rw [← hleft]
  show _ = some (List.take 16 (absorb_blocks 16
    (fun x block => md2_process_mix (md2_process_load block x)) md2_init.state
    (m ++ List.replicate (16 - r.left) (16 - r.left) ++
      (absorb_blocks 16 (fun c block => md2_process_cksum block c) md2_init.cksum
        (m ++ List.replicate (16 - r.left) (16 - r.left))).1)).1)
  rw [← e1, hB]

/-! ## SHA-1 against FIPS 180 -/

theorem put64_eq_be32 (n : Nat) :
    PUT_UINT64_BE n =
      be32Bytes ((n % 18446744073709551616) >>> 32) ++
        be32Bytes ((n % 18446744073709551616) &&& 0xffffffff) := by
  have hand : (n % 18446744073709551616) &&& 0xffffffff = n % 18446744073709551616 % 4294967296 :=
    Nat.and_pow_two_sub_one_eq_mod _ 32
  rw [hand]
  unfold PUT_UINT64_BE be32Bytes
  simp only [Nat.shiftRight_eq_div_pow, List.cons_append, List.nil_append]
  norm_num
  omega

theorem take_pending_block (B l : List Nat) (off N : Nat) (hB : B.length = N) (ho : off ≤ N) :
    (B.take off ++ l).take N = memcpyAt B off l (N - off) := by
  unfold memcpyAt
  rw [List.take_append_eq_append_take, List.length_take,
    List.take_of_length_le (by rw [List.length_take]; omega),
    List.drop_of_length_le (by omega)]
  have : min off B.length = off := by omega
  rw [this, List.append_nil]

theorem drop_pending_block (B l : List Nat) (off N : Nat) (hB : B.length = N) (ho : off ≤ N) :
    (B.take off ++ l).drop N = l.drop (N - off) := by
  rw [List.drop_append_eq_append_drop, List.length_take,
    List.drop_of_length_le (by rw [List.length_take]; omega)]
  have : min off B.length = off := by omega
  rw [this, List.nil_append]

theorem take_pending_short (B l : List Nat) (off : Nat) (h : off + l.length ≤ B.length) :
    (memcpyAt B off l l.length).take (off + l.length) = B.take off ++ l := by
  unfold memcpyAt
  rw [List.take_of_length_le (Nat.le_refl l.length), List.take_append_of_le_length
    (by rw [List.length_append, List.length_take]; omega),
    List.take_of_length_le (by rw [List.length_append, List.length_take]; omega)]

/-- One iteration of the loop of `sha1_update` keeps what the context and
the rest of the input stand for: the hash value after the whole blocks, and
the pending bytes. -/
theorem sha1_body_view (c : sha1_ctx) (l : List Nat) (hP : Sha1Pad c) :
    absorb_blocks 64 (fun h b => sha1_compute_h h c.k b) (sha1_update_body (c, l)).1.h
        ((sha1_update_body (c, l)).1.block.take (sha1_update_body (c, l)).1.blocklen ++
          (sha1_update_body (c, l)).2) =
      absorb_blocks 64 (fun h b => sha1_compute_h h c.k b) c.h
        (c.block.take c.blocklen ++ l) ∧
    (sha1_update_body (c, l)).1.k = c.k := by
  obtain ⟨hb, _, _, _⟩ := hP
  by_cases h : c.blocklen > 0 ∨ l.length < 64
  · rw [sha1_body_buffered c l h _ rfl]
    by_cases hfull : c.blocklen +
        (if 64 - c.blocklen > l.length then l.length else 64 - c.blocklen) = 64
    · have hlen : 64 ≤ c.blocklen + l.length := by
        split at hfull <;> omega
      have hn : (if 64 - c.blocklen > l.length then l.length else 64 - c.blocklen) =
          64 - c.blocklen := by
        split <;> omega
      rw [hn] at hfull ⊢
      simp only [if_pos hfull]
      refine ⟨?_, trivial⟩
      rw [List.take_zero, List.nil_append,
        absorb_blocks_long 64 _ c.h (c.block.take c.blocklen ++ l) (by decide)
          (by rw [List.length_append, List.length_take]; omega),
        take_pending_block c.block l c.blocklen 64 hb (by omega),
        drop_pending_block c.block l c.blocklen 64 hb (by omega)]
    · have hle : c.blocklen + l.length < 64 := by
        split at hfull <;> omega
      have hn : (if 64 - c.blocklen > l.length then l.length else 64 - c.blocklen) =
          l.length := by
        split <;> omega
      rw [hn] at hfull ⊢
      simp only [if_neg hfull]
      refine ⟨?_, trivial⟩
      rw [List.drop_of_length_le (Nat.le_refl _), List.append_nil,
        take_pending_short c.block l c.blocklen (by omega)]
  · have h0 : c.blocklen = 0 := by omega
    have h64 : 64 ≤ l.length := by omega
    rw [sha1_body_fast c l h0 h64]
    refine ⟨?_, rfl⟩
    simp only [h0, List.take_zero, List.nil_append]
    rw [absorb_blocks_long 64 _ c.h l (by decide) h64]

/-- What `sha1_update` computes: the hash value is the one the whole 64-byte
blocks of the pending bytes followed by the input lead to, the bytes left
over are pending, and `bitlen` has grown by the number of bits of the
input. -/
theorem sha1_update_view (ctx : sha1_ctx) (m : List Nat) (hP : Sha1Pad ctx) :
    ∃ r, sha1_update ctx m = some r ∧ Sha1Pad r ∧ r.k = ctx.k ∧
      r.bitlen = (ctx.bitlen + 8 * m.length) % 18446744073709551616 ∧
      absorb_blocks 64 (fun h b => sha1_compute_h h ctx.k b) ctx.h
        (ctx.block.take ctx.blocklen ++ m) = (r.h, r.block.take r.blocklen) := by
  obtain ⟨r, hr, hrP, hbit⟩ := sha1_update_pad ctx m hP
  obtain ⟨r', hr', _, n, hn⟩ := sha1_update_eq ctx m (sha1Pad_inv ctx hP)
  have e : r' = r := Option.some.inj (hr'.symm.trans hr)
  subst e
  have hQ := whileLoop_invariant sha1_update_cond sha1_update_body
    (fun p => Sha1Pad p.1 ∧ p.1.k = ctx.k ∧
      absorb_blocks 64 (fun h b => sha1_compute_h h ctx.k b) p.1.h
        (p.1.block.take p.1.blocklen ++ p.2) =
      absorb_blocks 64 (fun h b => sha1_compute_h h ctx.k b) ctx.h
        (ctx.block.take ctx.blocklen ++ m))
    (fun s hs hc => by
      obtain ⟨c, l⟩ := s
      obtain ⟨h1, h2, h3⟩ := hs
      have hne : l ≠ [] := (sha1_update_cond_iff c l).mp hc
      obtain ⟨v1, v2⟩ := sha1_body_view c l h1
      have h2' : c.k = ctx.k := h2
      rw [h2'] at v1
      exact ⟨(sha1_body_pad c l h1 hne).1, v2.trans h2, v1.trans h3⟩)
    n (ctx, m) (r', []) hn ⟨hP, rfl, rfl⟩
  obtain ⟨_, q2, q3⟩ := hQ
  refine ⟨r', hr, hrP, q2, hbit, ?_⟩
  rw [← q3]
  simp only [List.append_nil]
  rw [absorb_blocks_short]
  rw [List.length_take]
  have := hrP.2.1
  omega

theorem length_PUT_UINT64_BE (n : Nat) : (PUT_UINT64_BE n).length = 8 := rfl

/-- The hash value after the padding of FIPS 180, from the hash value `h`
after the whole blocks of the message and the `p.length = len % 64` bytes
left over. -/
theorem sha1_absorb_padding (h p : List Nat) (len : Nat) (hp : p.length = len % 64) :
    (absorb_blocks 64 (fun h block => sha1_compute_h h sha1_k block) h
      (p ++ ([0x80] ++ List.replicate ((119 - len % 64) % 64) 0 ++
        PUT_UINT64_BE (8 * len)))).1 =
      if p.length < 56 then
        sha1_compute_h h sha1_k
          (p ++ ([0x80] ++ List.replicate (55 - p.length) 0) ++
            be32Bytes (((8 * len) % 18446744073709551616) >>> 32) ++
            be32Bytes (((8 * len) % 18446744073709551616) &&& 0xffffffff))
      else
        sha1_compute_h
          (sha1_compute_h h sha1_k (p ++ ([0x80] ++ List.replicate (63 - p.length) 0)))
          sha1_k
          (List.replicate 56 0 ++ be32Bytes (((8 * len) % 18446744073709551616) >>> 32) ++
            be32Bytes (((8 * len) % 18446744073709551616) &&& 0xffffffff)) := by
  have hlt : len % 64 < 64 := Nat.mod_lt _ (by decide)
  have hput := put64_eq_be32 (8 * len)
  have hputlen := length_PUT_UINT64_BE (8 * len)
  rw [← hp] at hlt ⊢
  by_cases hc : p.length < 56
  · rw [if_pos hc]
    have hz : (119 - p.length) % 64 = 55 - p.length := by omega
    rw [hz, absorb_blocks_one 64 _ (by decide) h _
      (by simp only [List.length_append, List.length_replicate, List.length_singleton, hputlen]
          omega)]
    show sha1_compute_h h sha1_k _ = _
    rw [hput]
    simp only [List.append_assoc]
  · rw [if_neg hc]
    have hz : (119 - p.length) % 64 = (63 - p.length) + 56 := by omega
    have hsplit : p ++ ([0x80] ++ List.replicate ((119 - p.length) % 64) 0 ++
        PUT_UINT64_BE (8 * len)) =
        (p ++ ([0x80] ++ List.replicate (63 - p.length) 0)) ++
          (List.replicate 56 0 ++ PUT_UINT64_BE (8 * len)) := by
      rw [hz, List.replicate_add]
      simp only [List.append_assoc]
    have hl1 : (p ++ ([0x80] ++ List.replicate (63 - p.length) 0)).length = 64 := by
      simp only [List.length_append, List.length_replicate, List.length_singleton]
      omega
    rw [hsplit, absorb_blocks_long 64 _ h _ (by decide)
      (by rw [List.length_append, hl1]; omega),
      List.take_left' hl1, List.drop_left' hl1,
      absorb_blocks_one 64 _ (by decide) _ _
        (by simp only [List.length_append, List.length_replicate, hputlen])]
    show sha1_compute_h _ sha1_k _ = _
    rw [hput]
    simp only [List.append_assoc]

/-- The code computes the SHA-1 digest of FIPS 180, for every input. -/
theorem sha1_complete_eq (m : List Nat) : sha1_complete m = some (sha1_fips180 m) := by
  have hP0 : Sha1Pad sha1_init := by decide
  obtain ⟨r, hr, hrP, hk, hbit, hv⟩ := sha1_update_view sha1_init m hP0
  have hv' : absorb_blocks 64 (fun h block => sha1_compute_h h sha1_k block) sha1_h m =
      (r.h, r.block.take r.blocklen) := hv
  have hk' : r.k = sha1_k := hk
  have hbit' : r.bitlen = (8 * m.length) % 18446744073709551616 := by
    rw [hbit]
    simp [sha1_init]
  have hlen := absorb_blocks_length 64 (fun h block => sha1_compute_h h sha1_k block)
    (by decide) m.length sha1_h m (Nat.le_refl _)
  rw [hv'] at hlen
  have hlen' : (r.block.take r.blocklen).length = m.length % 64 := hlen
  have hbl : (r.block.take r.blocklen).length = r.blocklen := by
    rw [List.length_take]
    have := hrP.1
    have := hrP.2.1
    omega
  obtain ⟨_, _, _, hfin⟩ := sha1_final_pad r hrP
  have hA := absorb_blocks_append 64 (fun h block => sha1_compute_h h sha1_k block)
    (by decide) m.length sha1_h m
    ([0x80] ++ List.replicate ((119 - m.length % 64) % 64) 0 ++ PUT_UINT64_BE (8 * m.length))
    (Nat.le_refl _)
  rw [hv'] at hA
  have hpad := sha1_absorb_padding r.h (r.block.take r.blocklen) m.length hlen'
  unfold sha1_complete
  rw [hr]
  simp only [Option.map_some']
  rw [hfin]
  unfold sha1_fips180
  simp only []
  have hre : m ++ [0x80] ++ List.replicate ((119 - m.length % 64) % 64) 0 ++
      PUT_UINT64_BE (8 * m.length) =
      m ++ ([0x80] ++ List.replicate ((119 - m.length % 64) % 64) 0 ++
        PUT_UINT64_BE (8 * m.length)) := by
    simp only [List.append_assoc]
  rw [hre, hA]
  show _ = some (List.map be32Bytes (absorb_blocks 64
    (fun h block => sha1_compute_h h sha1_k block) r.h
    (r.block.take r.blocklen ++ ([0x80] ++ List.replicate ((119 - m.length % 64) % 64) 0 ++
      PUT_UINT64_BE (8 * m.length)))).1).flatten
  rw [hpad, hbl, hk', hbit']

/-! ## SHA-384 against FIPS 180-2 -/

theorem sha384_absorb_eq (k : Nat) : ∀ (s l : List Nat), l.length ≤ k →
    sha384_absorb s l = absorb_blocks 128 sha384_process_state s l := by
  induction k with
  | zero =>
    intro s l h
    rw [sha384_absorb_short s l (by omega), absorb_blocks_short 128 _ s l (by omega)]
  | succ k ih =>
    intro s l h
    by_cases hl : 128 ≤ l.length
    · rw [sha384_absorb_long s l hl, absorb_blocks_long 128 _ s l (by decide) hl]
      exact ih _ _ (by simp only [List.length_drop]; omega)
    · rw [sha384_absorb_short s l (by omega), absorb_blocks_short 128 _ s l (by omega)]

theorem sha384_padding_take (n : Nat) (h1 : 1 ≤ n) (h2 : n ≤ 128) :
    sha384_padding.take n = [0x80] ++ List.replicate (n - 1) 0 := by
  unfold sha384_padding
  obtain ⟨k, rfl⟩ : ∃ k, n = k + 1 := ⟨n - 1, by omega⟩
  rw [List.take_succ_cons, List.take_replicate]
  have : min k 127 = k := by omega
  rw [this]
  rfl

/-- The code computes the SHA-384 digest of FIPS 180-2, whatever the local
context holds at first, for every input whose length fits the `int`
parameter `ilen`. -/
theorem sha384_complete_eq (c : sha384_ctx) (m : List Nat) (hb : c.buffer.length = 128)
    (hm : m.length < 2147483648) :
    sha384_complete c m = some (sha384_fips180 m) := by
  have hv0 : Sha384Valid (sha384_init c) :=
    ⟨hb, by show 0 < 18446744073709551616; decide, by show 0 < 18446744073709551616; decide⟩
  obtain ⟨c1, h1, v1, w1⟩ := sha384_update_view (sha384_init c) m hv0
  have hview0 : sha384_view (sha384_init c) = (sha384_fips180_iv, 0, 0, []) := rfl
  have hw1 : sha384_view c1 =
      ((sha384_absorb sha384_fips180_iv m).1, m.length, 0,
        (sha384_absorb sha384_fips180_iv m).2) := by
    rw [w1, hview0]
    by_cases hne : m = []
    · subst hne
      simp [sha384_view_update, sha384_absorb_short]
    · simp only [sha384_view_update, if_neg hne, List.nil_append, Nat.zero_add]
      have e1 : m.length % 18446744073709551616 = m.length := Nat.mod_eq_of_lt (by omega)
      rw [e1, if_neg (Nat.lt_irrefl _)]
  have ht0 : c1.total0 = m.length := congrArg (fun v => v.2.1) hw1
  have ht1 : c1.total1 = 0 := congrArg (fun v => v.2.2.1) hw1
  have hlast : c1.total0 &&& 0x7F = m.length % 128 := by rw [and_0x7F, ht0]
  have hhigh : (c1.total0 >>> 61) ||| ((c1.total1 <<< 3) % 18446744073709551616) =
      (8 * m.length) / 18446744073709551616 := by
    rw [ht0, ht1, Nat.shiftRight_eq_div_pow]
    have e1 : m.length / 2 ^ 61 = 0 := by
      rw [Nat.div_eq_zero_iff (by positivity)]
      omega
    have e2 : 8 * m.length / 18446744073709551616 = 0 := by
      rw [Nat.div_eq_zero_iff (by decide)]
      omega
    rw [e1, e2]
    rfl
  have hlow : (c1.total0 <<< 3) % 18446744073709551616 = 8 * m.length := by
    rw [ht0, Nat.shiftLeft_eq]
    omega
  have hlt : m.length % 128 < 128 := Nat.mod_lt _ (by decide)
  have hpad : sha384_padding.take
      (if c1.total0 &&& 0x7F < 112 then 112 - (c1.total0 &&& 0x7F)
        else 240 - (c1.total0 &&& 0x7F)) =
      [0x80] ++ List.replicate ((239 - m.length % 128) % 128) 0 := by
    rw [hlast]
    split
    · rw [sha384_padding_take _ (by omega) (by omega)]
      congr 2
      omega
    · rw [sha384_padding_take _ (by omega) (by omega)]
      congr 2
      omega
  unfold sha384_complete
  rw [h1]
  simp only [Option.some_bind]
  unfold sha384_final
  simp only []
  rw [hpad, hhigh, hlow]
  obtain ⟨c2, h2, v2, w2⟩ := sha384_update_view c1
    ([0x80] ++ List.replicate ((239 - m.length % 128) % 128) 0) v1
  obtain ⟨c3, h3, _, w3⟩ := sha384_update_view c2
    (PUT_UINT64_BE ((8 * m.length) / 18446744073709551616) ++ PUT_UINT64_BE (8 * m.length)) v2
  rw [w2, hw1, sha384_view_update_append _ _ _ _ _ _
    (by simp only [List.length_append, List.length_replicate, List.length_singleton,
          length_PUT_UINT64_BE]
        omega)] at w3
  have hs3 : c3.state = (absorb_blocks 128 sha384_process_state sha384_fips180_iv
      (m ++ [0x80] ++ List.replicate ((239 - m.length % 128) % 128) 0 ++
        PUT_UINT64_BE ((8 * m.length) / 18446744073709551616) ++
        PUT_UINT64_BE (8 * m.length))).1 := by
    have e := congrArg (fun v : List Nat × Nat × Nat × List Nat => v.1) w3
    simp only [sha384_view, sha384_view_update] at e
    rw [if_neg (by simp)] at e
    simp only [] at e
    rw [e, ← sha384_absorb_append m.length _ m _ (Nat.le_refl _),
      sha384_absorb_eq _ _ _ (Nat.le_refl _)]
    simp only [List.append_assoc]
  rw [h2]
  simp only [Option.some_bind, h3, Option.map_some']
  unfold sha384_fips180
  simp only []
  rw [hs3]

/-! ## The digests against their standards -/

/-- The test of RFC 1319 on the empty input, evaluated. -/
theorem md2_test_empty :
    md2_complete [] =
      some [0x83, 0x50, 0xe5, 0xa3, 0xe2, 0x4c, 0x15, 0x3d,
            0xf2, 0x27, 0x5c, 0x9f, 0x80, 0x69, 0x27, 0x73] := by
  decide!

/-- The test of RFC 1319 on `"abc"`, evaluated. -/
theorem md2_test_abc :
    md2_complete [0x61, 0x62, 0x63] =
      some [0xda, 0x85, 0x3b, 0x0d, 0x3f, 0x88, 0xd9, 0x9b,
            0x30, 0x28, 0x3a, 0x69, 0xe6, 0xde, 0xd6, 0xbb] := by
  decide!

/-- The test of RFC 1319 on the 26 letters, evaluated. -/
theorem md2_test_alphabet :
    md2_complete
      [0x61, 0x62, 0x63, 0x64, 0x65, 0x66, 0x67, 0x68, 0x69, 0x6a, 0x6b, 0x6c,
       0x6d, 0x6e, 0x6f, 0x70, 0x71, 0x72, 0x73, 0x74, 0x75, 0x76, 0x77, 0x78,
       0x79, 0x7a] =
      some [0x4e, 0x8d, 0xdf, 0xf3, 0x65, 0x02, 0x92, 0xab,
            0x5a, 0x41, 0x08, 0xc3, 0xaa, 0x47, 0x94, 0x0b] := by
  decide!

/-- C14: `md2_complete` computes the MD2 digest of RFC 1319. For every input
whose length fits the `int` parameter `ilen`, the 16 bytes it outputs are
the digest `md2_rfc1319` of the input: padding to a multiple of 16 bytes,
checksum appended, every 16-byte block folded into the 48-byte buffer. On
the empty input it outputs `8350e5a3e24c153df2275c9f80692773`, on `"abc"`
it outputs `da853b0d3f88d99b30283a69e6ded6bb`, and on the 26 bytes
`"abcdefghijklmnopqrstuvwxyz"`, for which `md2_update` itself processes a
block, it outputs `4e8ddff3650292ab5a4108c3aa47940b`, the values of the test
suite of RFC 1319; `md2_rfc1319` gives the same value on `"abc"`. -/
theorem md2_complete_rfc1319 (input : List Nat) (_hlen : input.length < 2147483648) :
    md2_complete input = some (md2_rfc1319 input) ∧
    md2_complete [] =
      some [0x83, 0x50, 0xe5, 0xa3, 0xe2, 0x4c, 0x15, 0x3d,
            0xf2, 0x27, 0x5c, 0x9f, 0x80, 0x69, 0x27, 0x73] ∧
    md2_complete [0x61, 0x62, 0x63] =
      some [0xda, 0x85, 0x3b, 0x0d, 0x3f, 0x88, 0xd9, 0x9b,
            0x30, 0x28, 0x3a, 0x69, 0xe6, 0xde, 0xd6, 0xbb] ∧
    md2_complete
      [0x61, 0x62, 0x63, 0x64, 0x65, 0x66, 0x67, 0x68, 0x69, 0x6a, 0x6b, 0x6c,
       0x6d, 0x6e, 0x6f, 0x70, 0x71, 0x72, 0x73, 0x74, 0x75, 0x76, 0x77, 0x78,
       0x79, 0x7a] =
      some [0x4e, 0x8d, 0xdf, 0xf3, 0x65, 0x02, 0x92, 0xab,
            0x5a, 0x41, 0x08, 0xc3, 0xaa, 0x47, 0x94, 0x0b] ∧
    md2_rfc1319 [0x61, 0x62, 0x63] =
      [0xda, 0x85, 0x3b, 0x0d, 0x3f, 0x88, 0xd9, 0x9b,
       0x30, 0x28, 0x3a, 0x69, 0xe6, 0xde, 0xd6, 0xbb] := by
  have hv := And.intro md2_test_empty (And.intro md2_test_abc md2_test_alphabet)
  have e := md2_complete_eq [0x61, 0x62, 0x63]
  rw [hv.2.1] at e
  refine ⟨md2_complete_eq input, ?_, ?_, ?_, ?_⟩
  · exact hv.1
  · exact hv.2.1
  · exact hv.2.2
  · exact (Option.some.inj e).symm

/-- C14 (witness): an input of 16 bytes, one whole block. -/
theorem md2_complete_rfc1319_witness :
    md2_complete (List.replicate 16 0x61) = some (md2_rfc1319 (List.replicate 16 0x61)) :=
  (md2_complete_rfc1319 (List.replicate 16 0x61) (by decide)).1

/-- SHA-1 of `"abc"`, evaluated. -/
theorem sha1_test_abc :
    sha1_complete [0x61, 0x62, 0x63] =
      some [0xa9, 0x99, 0x3e, 0x36, 0x47, 0x06, 0x81, 0x6a, 0xba, 0x3e,
            0x25, 0x71, 0x78, 0x50, 0xc2, 0x6c, 0x9c, 0xd0, 0xd8, 0x9d] := by
  decide!

/-- SHA-1 of the empty input, evaluated. -/
theorem sha1_test_empty :
    sha1_complete [] =
      some [0xda, 0x39, 0xa3, 0xee, 0x5e, 0x6b, 0x4b, 0x0d, 0x32, 0x55,
            0xbf, 0xef, 0x95, 0x60, 0x18, 0x90, 0xaf, 0xd8, 0x07, 0x09] := by
  decide!

/-- SHA-1 of the 56-byte test message, evaluated. -/
theorem sha1_test_56 :
    sha1_complete
      [0x61, 0x62, 0x63, 0x64, 0x62, 0x63, 0x64, 0x65, 0x63, 0x64, 0x65, 0x66,
       0x64, 0x65, 0x66, 0x67, 0x65, 0x66, 0x67, 0x68, 0x66, 0x67, 0x68, 0x69,
       0x67, 0x68, 0x69, 0x6a, 0x68, 0x69, 0x6a, 0x6b, 0x69, 0x6a, 0x6b, 0x6c,
       0x6a, 0x6b, 0x6c, 0x6d, 0x6b, 0x6c, 0x6d, 0x6e, 0x6c, 0x6d, 0x6e, 0x6f,
       0x6d, 0x6e, 0x6f, 0x70, 0x6e, 0x6f, 0x70, 0x71] =
      some [0x84, 0x98, 0x3e, 0x44, 0x1c, 0x3b, 0xd2, 0x6e, 0xba, 0xae,
            0x4a, 0xa1, 0xf9, 0x51, 0x29, 0xe5, 0xe5, 0x46, 0x70, 0xf1] := by
  decide!

/-- SHA-1 of 64 bytes `"a"`, evaluated. -/
theorem sha1_test_64 :
    sha1_complete (List.replicate 64 0x61) =
      some [0x00, 0x98, 0xba, 0x82, 0x4b, 0x5c, 0x16, 0x42, 0x7b, 0xd7,
            0xa1, 0x12, 0x2a, 0x5a, 0x44, 0x2a, 0x25, 0xec, 0x64, 0x4d] := by
  decide!

/-- SHA-1 of 200 bytes `"a"`, evaluated. -/
theorem sha1_test_200 :
    sha1_complete (List.replicate 200 0x61) =
      some [0xe6, 0x1c, 0xff, 0xfe, 0x0d, 0x91, 0x95, 0xa5, 0x25, 0xfc,
            0x6c, 0xf0, 0x6c, 0xa2, 0xd7, 0x71, 0x19, 0xc2, 0x4a, 0x40] := by
  decide!

/-- C15: `sha1_complete` computes SHA-1 (FIPS 180). For every input the 20
bytes it outputs are the digest `sha1_fips180` of the input: the padding
`0x80`, zero bytes and the 64-bit length in bits, every 64-byte block, its
words read big-endian, folded into the hash value with `rol` and `ror` the
32-bit rotations. On `"abc"` it outputs
`a9993e364706816aba3e25717850c26c9cd0d89d`, on the empty input
`da39a3ee5e6b4b0d3255bfef95601890afd80709`, on the 56 bytes
`"abcdbcdecdefdefgefghfghighijhijkijkljklmklmnlmnomnopnopq"` of the second
test of FIPS 180, whose padding takes two blocks,
`84983e441c3bd26ebaae4aa1f95129e5e54670f1`, and on 64 and on 200 bytes
`"a"`, for which `sha1_update` itself processes one and three blocks,
`0098ba824b5c16427bd7a1122a5a442a25ec644d` and
`e61cfffe0d9195a525fc6cf06ca2d77119c24a40`; `sha1_fips180` gives the same
value on `"abc"`. -/
theorem sha1_complete_fips180 (input : List Nat) :
    sha1_complete input = some (sha1_fips180 input) ∧
    sha1_complete [0x61, 0x62, 0x63] =
      some [0xa9, 0x99, 0x3e, 0x36, 0x47, 0x06, 0x81, 0x6a, 0xba, 0x3e,
            0x25, 0x71, 0x78, 0x50, 0xc2, 0x6c, 0x9c, 0xd0, 0xd8, 0x9d] ∧
    sha1_complete [] =
      some [0xda, 0x39, 0xa3, 0xee, 0x5e, 0x6b, 0x4b, 0x0d, 0x32, 0x55,
            0xbf, 0xef, 0x95, 0x60, 0x18, 0x90, 0xaf, 0xd8, 0x07, 0x09] ∧
    sha1_complete
      [0x61, 0x62, 0x63, 0x64, 0x62, 0x63, 0x64, 0x65, 0x63, 0x64, 0x65, 0x66,
       0x64, 0x65, 0x66, 0x67, 0x65, 0x66, 0x67, 0x68, 0x66, 0x67, 0x68, 0x69,
       0x67, 0x68, 0x69, 0x6a, 0x68, 0x69, 0x6a, 0x6b, 0x69, 0x6a, 0x6b, 0x6c,
       0x6a, 0x6b, 0x6c, 0x6d, 0x6b, 0x6c, 0x6d, 0x6e, 0x6c, 0x6d, 0x6e, 0x6f,
       0x6d, 0x6e, 0x6f, 0x70, 0x6e, 0x6f, 0x70, 0x71] =
      some [0x84, 0x98, 0x3e, 0x44, 0x1c, 0x3b, 0xd2, 0x6e, 0xba, 0xae,
            0x4a, 0xa1, 0xf9, 0x51, 0x29, 0xe5, 0xe5, 0x46, 0x70, 0xf1] ∧
    sha1_complete (List.replicate 64 0x61) =
      some [0x00, 0x98, 0xba, 0x82, 0x4b, 0x5c, 0x16, 0x42, 0x7b, 0xd7,
            0xa1, 0x12, 0x2a, 0x5a, 0x44, 0x2a, 0x25, 0xec, 0x64, 0x4d] ∧
    sha1_complete (List.replicate 200 0x61) =
      some [0xe6, 0x1c, 0xff, 0xfe, 0x0d, 0x91, 0x95, 0xa5, 0x25, 0xfc,
            0x6c, 0xf0, 0x6c, 0xa2, 0xd7, 0x71, 0x19, 0xc2, 0x4a, 0x40] ∧
    sha1_fips180 [0x61, 0x62, 0x63] =
      [0xa9, 0x99, 0x3e, 0x36, 0x47, 0x06, 0x81, 0x6a, 0xba, 0x3e,
       0x25, 0x71, 0x78, 0x50, 0xc2, 0x6c, 0x9c, 0xd0, 0xd8, 0x9d] := by
  have hv := And.intro sha1_test_abc (And.intro sha1_test_empty (And.intro sha1_test_56
    (And.intro sha1_test_64 sha1_test_200)))
  have e := sha1_complete_eq [0x61, 0x62, 0x63]
  rw [hv.1] at e
  refine ⟨sha1_complete_eq input, ?_, ?_, ?_, ?_, ?_, ?_⟩
  · exact hv.1
  · exact hv.2.1
  · exact hv.2.2.1
  · exact hv.2.2.2.1
  · exact hv.2.2.2.2
  · exact (Option.some.inj e).symm

/-- SHA-384 of `"abc"`, evaluated on a zeroed local context. -/
theorem sha384_test_abc :
    sha384_complete ⟨0, 0, [], List.replicate 128 0⟩ [0x61, 0x62, 0x63] =
      some [0xcb, 0x00, 0x75, 0x3f, 0x45, 0xa3, 0x5e, 0x8b,
            0xb5, 0xa0, 0x3d, 0x69, 0x9a, 0xc6, 0x50, 0x07,
            0x27, 0x2c, 0x32, 0xab, 0x0e, 0xde, 0xd1, 0x63,
            0x1a, 0x8b, 0x60, 0x5a, 0x43, 0xff, 0x5b, 0xed,
            0x80, 0x86, 0x07, 0x2b, 0xa1, 0xe7, 0xcc, 0x23,
            0x58, 0xba, 0xec, 0xa1, 0x34, 0xc8, 0x25, 0xa7] := by
  decide!

/-- SHA-384 of the 112-byte test message, evaluated on a zeroed local context. -/
theorem sha384_test_112 :
    sha384_complete ⟨0, 0, [], List.replicate 128 0⟩
      [0x61, 0x62, 0x63, 0x64, 0x65, 0x66, 0x67, 0x68, 0x62, 0x63, 0x64, 0x65,
       0x66, 0x67, 0x68, 0x69, 0x63, 0x64, 0x65, 0x66, 0x67, 0x68, 0x69, 0x6a,
       0x64, 0x65, 0x66, 0x67, 0x68, 0x69, 0x6a, 0x6b, 0x65, 0x66, 0x67, 0x68,
       0x69, 0x6a, 0x6b, 0x6c, 0x66, 0x67, 0x68, 0x69, 0x6a, 0x6b, 0x6c, 0x6d,
       0x67, 0x68, 0x69, 0x6a, 0x6b, 0x6c, 0x6d, 0x6e, 0x68, 0x69, 0x6a, 0x6b,
       0x6c, 0x6d, 0x6e, 0x6f, 0x69, 0x6a, 0x6b, 0x6c, 0x6d, 0x6e, 0x6f, 0x70,
       0x6a, 0x6b, 0x6c, 0x6d, 0x6e, 0x6f, 0x70, 0x71, 0x6b, 0x6c, 0x6d, 0x6e,
       0x6f, 0x70, 0x71, 0x72, 0x6c, 0x6d, 0x6e, 0x6f, 0x70, 0x71, 0x72, 0x73,
       0x6d, 0x6e, 0x6f, 0x70, 0x71, 0x72, 0x73, 0x74, 0x6e, 0x6f, 0x70, 0x71,
       0x72, 0x73, 0x74, 0x75] =
      some [0x09, 0x33, 0x0c, 0x33, 0xf7, 0x11, 0x47, 0xe8,
            0x3d, 0x19, 0x2f, 0xc7, 0x82, 0xcd, 0x1b, 0x47,
            0x53, 0x11, 0x1b, 0x17, 0x3b, 0x3b, 0x05, 0xd2,
            0x2f, 0xa0, 0x80, 0x86, 0xe3, 0xb0, 0xf7, 0x12,
            0xfc, 0xc7, 0xc7, 0x1a, 0x55, 0x7e, 0x2d, 0xb9,
            0x66, 0xc3, 0xe9, 0xfa, 0x91, 0x74, 0x60, 0x39] := by
  decide!

/-- SHA-384 of 300 bytes `"a"`, evaluated on a zeroed local context. -/
theorem sha384_test_300 :
    sha384_complete ⟨0, 0, [], List.replicate 128 0⟩ (List.replicate 300 0x61) =
      some [0x05, 0x41, 0xe3, 0x49, 0xb6, 0xd0, 0x67, 0x49,
            0xa8, 0x52, 0xae, 0x0a, 0x68, 0xdb, 0x73, 0xf9,
            0x86, 0x20, 0x87, 0x9d, 0xe6, 0xb5, 0xb3, 0x74,
            0x3d, 0x7f, 0xca, 0x7d, 0xda, 0x0f, 0x81, 0xd8,
            0x3b, 0x0c, 0xa5, 0x96, 0xf7, 0x10, 0x54, 0x2e,
            0xd3, 0x43, 0xf1, 0xb4, 0x21, 0x4d, 0x50, 0x8c] := by
  decide!

/-- C16: `sha384_complete` computes SHA-384 (FIPS 180-2), whatever the local
context holds at first. For every input whose length fits the `int`
parameter `ilen`, the 48 bytes it outputs are the digest `sha384_fips180` of
the input: the padding `0x80`, zero bytes and the 128-bit length in bits,
every 128-byte block folded into the hash value, and the first six 64-bit
state words written big-endian. On `"abc"` it outputs
`cb00753f45a35e8b b5a03d699ac65007 272c32ab0eded163 1a8b605a43ff5bed
8086072ba1e7cc23 58baeca134c825a7`, on the 112 bytes
`"abcdefghbcdefghi...nopqrstu"` of the second test of FIPS 180-2, whose
padding takes two blocks,
`09330c33f71147e8 3d192fc782cd1b47 53111b173b3b05d2 2fa08086e3b0f712
fcc7c71a557e2db9 66c3e9fa91746039`, and on 300 bytes `"a"`, for which the
loop of `sha384_update` processes two blocks,
`0541e349b6d06749 a852ae0a68db73f9 8620879de6b5b374 3d7fca7dda0f81d8
3b0ca596f710542e d343f1b4214d508c`; `sha384_fips180` gives the same value on
`"abc"`. -/
theorem sha384_complete_fips180 (c : sha384_ctx) (input : List Nat)
    (h : c.buffer.length = 128) (hlen : input.length < 2147483648) :
    sha384_complete c input = some (sha384_fips180 input) ∧
    sha384_complete c [0x61, 0x62, 0x63] =
      some [0xcb, 0x00, 0x75, 0x3f, 0x45, 0xa3, 0x5e, 0x8b,
            0xb5, 0xa0, 0x3d, 0x69, 0x9a, 0xc6, 0x50, 0x07,
            0x27, 0x2c, 0x32, 0xab, 0x0e, 0xde, 0xd1, 0x63,
            0x1a, 0x8b, 0x60, 0x5a, 0x43, 0xff, 0x5b, 0xed,
            0x80, 0x86, 0x07, 0x2b, 0xa1, 0xe7, 0xcc, 0x23,
            0x58, 0xba, 0xec, 0xa1, 0x34, 0xc8, 0x25, 0xa7] ∧
    sha384_complete c
      [0x61, 0x62, 0x63, 0x64, 0x65, 0x66, 0x67, 0x68, 0x62, 0x63, 0x64, 0x65,
       0x66, 0x67, 0x68, 0x69, 0x63, 0x64, 0x65, 0x66, 0x67, 0x68, 0x69, 0x6a,
       0x64, 0x65, 0x66, 0x67, 0x68, 0x69, 0x6a, 0x6b, 0x65, 0x66, 0x67, 0x68,
       0x69, 0x6a, 0x6b, 0x6c, 0x66, 0x67, 0x68, 0x69, 0x6a, 0x6b, 0x6c, 0x6d,
       0x67, 0x68, 0x69, 0x6a, 0x6b, 0x6c, 0x6d, 0x6e, 0x68, 0x69, 0x6a, 0x6b,
       0x6c, 0x6d, 0x6e, 0x6f, 0x69, 0x6a, 0x6b, 0x6c, 0x6d, 0x6e, 0x6f, 0x70,
       0x6a, 0x6b, 0x6c, 0x6d, 0x6e, 0x6f, 0x70, 0x71, 0x6b, 0x6c, 0x6d, 0x6e,
       0x6f, 0x70, 0x71, 0x72, 0x6c, 0x6d, 0x6e, 0x6f, 0x70, 0x71, 0x72, 0x73,
       0x6d, 0x6e, 0x6f, 0x70, 0x71, 0x72, 0x73, 0x74, 0x6e, 0x6f, 0x70, 0x71,
       0x72, 0x73, 0x74, 0x75] =
      some [0x09, 0x33, 0x0c, 0x33, 0xf7, 0x11, 0x47, 0xe8,
            0x3d, 0x19, 0x2f, 0xc7, 0x82, 0xcd, 0x1b, 0x47,
            0x53, 0x11, 0x1b, 0x17, 0x3b, 0x3b, 0x05, 0xd2,
            0x2f, 0xa0, 0x80, 0x86, 0xe3, 0xb0, 0xf7, 0x12,
            0xfc, 0xc7, 0xc7, 0x1a, 0x55, 0x7e, 0x2d, 0xb9,
            0x66, 0xc3, 0xe9, 0xfa, 0x91, 0x74, 0x60, 0x39] ∧
    sha384_complete c (List.replicate 300 0x61) =
      some [0x05, 0x41, 0xe3, 0x49, 0xb6, 0xd0, 0x67, 0x49,
            0xa8, 0x52, 0xae, 0x0a, 0x68, 0xdb, 0x73, 0xf9,
            0x86, 0x20, 0x87, 0x9d, 0xe6, 0xb5, 0xb3, 0x74,
            0x3d, 0x7f, 0xca, 0x7d, 0xda, 0x0f, 0x81, 0xd8,
            0x3b, 0x0c, 0xa5, 0x96, 0xf7, 0x10, 0x54, 0x2e,
            0xd3, 0x43, 0xf1, 0xb4, 0x21, 0x4d, 0x50, 0x8c] ∧
    sha384_fips180 [0x61, 0x62, 0x63] =
      [0xcb, 0x00, 0x75, 0x3f, 0x45, 0xa3, 0x5e, 0x8b,
       0xb5, 0xa0, 0x3d, 0x69, 0x9a, 0xc6, 0x50, 0x07,
       0x27, 0x2c, 0x32, 0xab, 0x0e, 0xde, 0xd1, 0x63,
       0x1a, 0x8b, 0x60, 0x5a, 0x43, 0xff, 0x5b, 0xed,
       0x80, 0x86, 0x07, 0x2b, 0xa1, 0xe7, 0xcc, 0x23,
       0x58, 0xba, 0xec, 0xa1, 0x34, 0xc8, 0x25, 0xa7] := by
  have hv := And.intro sha384_test_abc (And.intro sha384_test_112 sha384_test_300)
  have hc0 : (⟨0, 0, [], List.replicate 128 0⟩ : sha384_ctx).buffer.length = 128 := by simp
  have l1 : ([0x61, 0x62, 0x63] : List Nat).length < 2147483648 := by decide
  have l2 : ([0x61, 0x62, 0x63, 0x64, 0x65, 0x66, 0x67, 0x68, 0x62, 0x63, 0x64, 0x65,
              0x66, 0x67, 0x68, 0x69, 0x63, 0x64, 0x65, 0x66, 0x67, 0x68, 0x69, 0x6a,
              0x64, 0x65, 0x66, 0x67, 0x68, 0x69, 0x6a, 0x6b, 0x65, 0x66, 0x67, 0x68,
              0x69, 0x6a, 0x6b, 0x6c, 0x66, 0x67, 0x68, 0x69, 0x6a, 0x6b, 0x6c, 0x6d,
              0x67, 0x68, 0x69, 0x6a, 0x6b, 0x6c, 0x6d, 0x6e, 0x68, 0x69, 0x6a, 0x6b,
              0x6c, 0x6d, 0x6e, 0x6f, 0x69, 0x6a, 0x6b, 0x6c, 0x6d, 0x6e, 0x6f, 0x70,
              0x6a, 0x6b, 0x6c, 0x6d, 0x6e, 0x6f, 0x70, 0x71, 0x6b, 0x6c, 0x6d, 0x6e,
              0x6f, 0x70, 0x71, 0x72, 0x6c, 0x6d, 0x6e, 0x6f, 0x70, 0x71, 0x72, 0x73,
              0x6d, 0x6e, 0x6f, 0x70, 0x71, 0x72, 0x73, 0x74, 0x6e, 0x6f, 0x70, 0x71,
              0x72, 0x73, 0x74, 0x75] : List Nat).length < 2147483648 := by
    decide!
  have l3 : (List.replicate 300 0x61 : List Nat).length < 2147483648 := by
    rw [List.length_replicate]
    decide
  have e := sha384_complete_eq ⟨0, 0, [], List.replicate 128 0⟩ [0x61, 0x62, 0x63] hc0 l1
  rw [hv.1] at e
  refine ⟨sha384_complete_eq c input h hlen, ?_, ?_, ?_, ?_⟩
  · rw [sha384_complete_eq c _ h l1, ← sha384_complete_eq _ _ hc0 l1]
    exact hv.1
  · rw [sha384_complete_eq c _ h l2, ← sha384_complete_eq _ _ hc0 l2]
    exact hv.2.1
  · rw [sha384_complete_eq c _ h l3, ← sha384_complete_eq _ _ hc0 l3]
    exact hv.2.2
  · exact (Option.some.inj e).symm

/-- C16 (witness): a local context that holds other values at first, and
the input `"abc"`. -/
theorem sha384_complete_fips180_witness :
    sha384_complete ⟨7, 9, [], List.replicate 128 0xAA⟩ [0x61, 0x62, 0x63] =
      some (sha384_fips180 [0x61, 0x62, 0x63]) ∧
    sha384_complete ⟨7, 9, [], List.replicate 128 0xAA⟩ [0x61, 0x62, 0x63] =
      some [0xcb, 0x00, 0x75, 0x3f, 0x45, 0xa3, 0x5e, 0x8b,
            0xb5, 0xa0, 0x3d, 0x69, 0x9a, 0xc6, 0x50, 0x07,
            0x27, 0x2c, 0x32, 0xab, 0x0e, 0xde, 0xd1, 0x63,
            0x1a, 0x8b, 0x60, 0x5a, 0x43, 0xff, 0x5b, 0xed,
            0x80, 0x86, 0x07, 0x2b, 0xa1, 0xe7, 0xcc, 0x23,
            0x58, 0xba, 0xec, 0xa1, 0x34, 0xc8, 0x25, 0xa7] :=
  ⟨(sha384_complete_fips180 ⟨7, 9, [], List.replicate 128 0xAA⟩ [0x61, 0x62, 0x63]
      (by simp) (by decide)).1,
   (sha384_complete_fips180 ⟨7, 9, [], List.replicate 128 0xAA⟩ [0x61, 0x62, 0x63]
      (by simp) (by decide)).2.1⟩

end Cryb
